import Mathlib

/-!
# PennCloud key-value store: storage engine, lock table, replicated server, Paxos

A shallow embedding of `kvs/server/src/Scheduler.hpp`, `Store.hpp`,
`KVSServer.hpp`, `Paxos.hpp` and `Logger.hpp`, and of the request builders of
`kvs/client/src/KVSClient.cc`, followed by theorems about them.

Modelling conventions.
* `std::string` is a list of characters (`Str`).
* `sizeof(std::string)` is 32 and a string holds up to 15 characters in its
  local buffer, as in libstdc++ on a 64-bit target and as the comments of
  `test-scheduler.cc` state. The result of `capacity()` on a string handed to the
  cache is an argument of the call (at least 15 and at least the length, not
  otherwise determined by the C++ standard); the copy the cache stores has
  capacity `max 15 length`.
* `size_t` counters are natural numbers; the theorems that use them carry the
  representation invariant under which no subtraction goes below zero.
* The file system is a table from path strings to file contents together with
  the list of directories that exist, on the conventions of POSIX without
  symbolic links, permissions or resource limits. Paths are compared as
  strings: the components `.`, `..` and the empty component are not resolved,
  and the theorems about the disk layer are stated for keys that hold none.
  Opening a file for writing fails when the directory that is to hold it is
  missing or the path is a directory; `create_directories` fails when the path
  or one of its ancestors is a regular file; `remove` fails on a directory that
  is not empty and on a path that runs through a regular file.
* The order in which `unordered_map` and `directory_iterator` enumerate is not
  specified; the model fixes one, and the theorems about enumerations count
  entries or test membership.
* An exception is a value: a function that can raise returns the exception (or
  the result) together with the state it leaves behind.
* The steady clock is a natural number of milliseconds, read once per call.
* `int` is modelled by the integers; where the code can leave the range of
  `int` (`getMinSeqNum`, the ballot of `propose`) the result is wrapped to 32
  bits, as two's complement hardware does.
* A log file is kept as the `Op` message that `ParseFromIstream` reads back from
  what `SerializeToOstream` wrote; file names are strings, with `std::to_string`
  and `std::stoi` embedded.
* In the request loop of the server the Paxos instance is a map from slots to
  decided operations: `waitForAgreement(seq)` returns the operation of slot `seq`.
* In the cluster model a step is one critical section or one remote call: the
  handler on the peer, the update of the shared phase state with the reply and
  the update of `peerDone_` that follows it happen together. Every thread of
  `propose` sends the `Accept` arguments of its own iteration (the source hands
  them to the threads by reference).
* In the client the wall clock, the random numbers and the base64 encoder are
  arguments of the request builders; a request is the message that is sent.
-/

namespace PennCloud

/-! ## Strings, keys and sizes -/

/-- A `std::string`, as its list of characters. -/
abbrev Str := List Char

/-- The key type of the cache, `std::pair<Row, Col>`. -/
abbrev Key := Str × Str

/-- The element type of `cacheList_`, `std::pair<Key, Value>`. -/
abbrev KeyValuePair := Key × Str

/-- The constant `sizeof(Value)` for `Value = std::string`
(32 bytes, as `test-scheduler.cc` records). -/
def sizeofValue : Nat := 32

/-- The capacity of a `std::string` that keeps its characters inside the object
("std::string is by default allocated 15 bytes of memory", `test-scheduler.cc`). -/
def localCapacity : Nat := 15

/-- The result of `capacity()` on a copy-constructed `std::string`: the local
buffer, or an allocation of exactly the length. The values held in
`cacheList_` are such copies (`KeyValuePair(key, value)`), and so is the
`lru` of the eviction loop. -/
def copyCapacity (value : Str) : Nat := max localCapacity value.length

/-- What the scheduler takes off `currSize_` when it removes a stored value:
`sizeof(Value) + it->second.capacity()`. -/
def chargedSize (value : Str) : Nat := sizeofValue + copyCapacity value

/-- The exception a call can raise: `std::runtime_error`,
`std::filesystem::filesystem_error` (a `std::runtime_error` for a `catch`), or the
`std::invalid_argument` of `std::stoi`. -/
inductive Err where
  | runtime_error : Err
  | filesystem_error : Err
  | invalid_argument : Err
  deriving DecidableEq, Repr

deriving instance DecidableEq for Except

/-! ## Scheduler.hpp: the LRU cache -/

/-- The value stored under `key` in the list, if any (the node `cacheMap_` points to). -/
def lookupKey (key : Key) : List KeyValuePair → Option Str
  | [] => none
  | e :: rest => if e.1 = key then some e.2 else lookupKey key rest

/-- Remove the node stored under `key` (`cacheList_.erase(it)`). -/
def eraseKey (key : Key) : List KeyValuePair → List KeyValuePair
  | [] => []
  | e :: rest => if e.1 = key then rest else e :: eraseKey key rest

/-- The sum of the charged sizes of the cached entries. -/
def totalSize : List KeyValuePair → Nat
  | [] => 0
  | e :: rest => chargedSize e.2 + totalSize rest

/-- The sum over the cached entries of header size plus value length. -/
def payloadSize : List KeyValuePair → Nat
  | [] => 0
  | e :: rest => (sizeofValue + e.2.length) + payloadSize rest

/-- State of a `Scheduler<std::string, std::string, std::string>`.
`cacheList_` runs from least to most recently used. `cacheMap_` is the index
of `cacheList_` by row and column: it is read off the list. -/
structure Scheduler where
  cacheList_ : List KeyValuePair
  capacity_ : Nat
  currSize_ : Nat
  deriving DecidableEq, Repr

/-- A freshly constructed scheduler. -/
def Scheduler.new (capacity : Nat) : Scheduler :=
  { cacheList_ := [], capacity_ := capacity, currSize_ := 0 }

/-- The callback `onEvict_`, acting on a state of its own: the exception it
raises, if any, and the state it leaves. A null callback is the one that
returns without touching the state. -/
abbrev EvictCallback (σ : Type) := KeyValuePair → σ → Option Err × σ

/-- The callback of `test-scheduler.cc`, which does nothing. -/
def noCallback : EvictCallback Unit := fun _ u => (none, u)

/-- A callback that records its calls in order. -/
def recordCallback : EvictCallback (List KeyValuePair) := fun e log => (none, log ++ [e])

/-- The eviction loop of `Scheduler::Put`:
`while (currSize_ + valueSize > capacity_ && !cacheList_.empty())`. Each round
calls `onEvict_` on the front entry, then subtracts its charged size and pops
it. Returns the exception of the callback that ended the loop, if any, the
remaining list, the new `currSize_` and the state the callbacks leave. -/
def evictLoop {σ : Type} (onEvict : EvictCallback σ) (capacity valueSize : Nat) :
    List KeyValuePair → Nat → σ → Option Err × List KeyValuePair × Nat × σ
  | [], cur, env => (none, [], cur, env)
  | lru :: rest, cur, env =>
    if cur + valueSize > capacity then
      match onEvict lru env with
      | (some e, env1) => (some e, lru :: rest, cur, env1)
      | (none, env1) =>
        evictLoop onEvict capacity valueSize rest (cur - chargedSize lru.2) env1
    else (none, lru :: rest, cur, env)

/-- The first block of `Scheduler::Put`: when the key is cached, its node is
erased and its charged size subtracted. -/
def Scheduler.eraseExisting (s : Scheduler) (row col : Str) : Scheduler :=
  match lookupKey (row, col) s.cacheList_ with
  | some old =>
    { s with currSize_ := s.currSize_ - chargedSize old,
             cacheList_ := eraseKey (row, col) s.cacheList_ }
  | none => s

/-- Source: `Scheduler::Put`. `capacity` is the result of `value.capacity()` on the
argument. Raises `runtime_error` when `sizeof(Value) + value.capacity()` exceeds
`capacity_`, before anything is changed; an exception of the callback leaves the
loop with the entry it was called on still cached. Returns the exception raised,
if any, the new state and the state the callbacks leave. -/
def Scheduler.Put {σ : Type} (s : Scheduler) (onEvict : EvictCallback σ)
    (row col value : Str) (capacity : Nat) (env : σ) : Option Err × Scheduler × σ :=
  let valueSize := sizeofValue + capacity
  if valueSize > s.capacity_ then (some Err.runtime_error, s, env)
  else
    let s1 := s.eraseExisting row col
    let r := evictLoop onEvict s.capacity_ valueSize s1.cacheList_ s1.currSize_ env
    match r.1 with
    | some e => (some e, { s with cacheList_ := r.2.1, currSize_ := r.2.2.1 }, r.2.2.2)
    | none =>
      (none, { s with cacheList_ := r.2.1 ++ [((row, col), value)],
                      currSize_ := r.2.2.1 + valueSize }, r.2.2.2)

/-- Source: `Scheduler::Get`: on a hit the node is spliced to the end of the list. -/
def Scheduler.Get (s : Scheduler) (row col : Str) : Option Str × Scheduler :=
  match lookupKey (row, col) s.cacheList_ with
  | some v =>
    (some v, { s with cacheList_ := eraseKey (row, col) s.cacheList_ ++ [((row, col), v)] })
  | none => (none, s)

/-- Source: `Scheduler::Delete`. -/
def Scheduler.Delete (s : Scheduler) (row col : Str) : Bool × Scheduler :=
  match lookupKey (row, col) s.cacheList_ with
  | some v =>
    (true, { s with currSize_ := s.currSize_ - chargedSize v,
                    cacheList_ := eraseKey (row, col) s.cacheList_ })
  | none => (false, s)

/-- The rows that have a cached cell, each once (the keys of `cacheMap_`). The
order in which an `unordered_map` is iterated is not specified; the rows are
listed here in the order of `cacheList_`. -/
def cachedRows (l : List KeyValuePair) : List Str :=
  (l.map (fun e => e.1.1)).dedup

/-- Lexicographic order on strings, the order of `std::map<std::string, _>`. -/
def strLe : Str → Str → Bool
  | [], _ => true
  | _ :: _, [] => false
  | a :: as, b :: bs =>
    if a.toNat < b.toNat then true
    else if b.toNat < a.toNat then false
    else strLe as bs

/-- The cached columns of a row, in the order of the inner `std::map`. -/
def cachedCols (row : Str) (l : List KeyValuePair) : List Str :=
  ((l.filter (fun e => e.1.1 = row)).map (fun e => e.1.2)).insertionSort
    (fun a b => strLe a b = true)

/-- Source: `Scheduler::GetAllRows`: appends the cached rows to `rows`. -/
def Scheduler.GetAllRows (s : Scheduler) (rows : List Str) : List Str :=
  rows ++ cachedRows s.cacheList_

/-- Source: `Scheduler::GetColsInRow`: false when the row has no cached cell. -/
def Scheduler.GetColsInRow (s : Scheduler) (row : Str) (cols : List Str) : Bool × List Str :=
  if (cachedRows s.cacheList_).contains row then (true, cols ++ cachedCols row s.cacheList_)
  else (false, cols)

/-! ## The file system under `sstableDirectory_` -/

/-- The files (path, contents) and the directories that exist. -/
structure Disk where
  files : List (Str × Str)
  dirs : List Str
  deriving DecidableEq, Repr

/-- An empty file system. -/
def Disk.empty : Disk := { files := [], dirs := [] }

/-- Contents of the file at `path`, if it exists. -/
def readFile (path : Str) : List (Str × Str) → Option Str
  | [] => none
  | f :: rest => if f.1 = path then some f.2 else readFile path rest

/-- Create or truncate the file at `path` and write `contents`. -/
def writeFile (path contents : Str) : List (Str × Str) → List (Str × Str)
  | [] => [(path, contents)]
  | f :: rest => if f.1 = path then (path, contents) :: rest else f :: writeFile path contents rest

/-- Unlink the file at `path`. -/
def removeFile (path : Str) : List (Str × Str) → List (Str × Str)
  | [] => []
  | f :: rest => if f.1 = path then rest else f :: removeFile path rest

/-- The name `n` when `path` is `dir/n` and `n` is a single non-empty component. -/
def childName (dir path : Str) : Option Str :=
  if (dir ++ ['/']).isPrefixOf path then
    let n := path.drop (dir.length + 1)
    if n ≠ [] ∧ '/' ∉ n then some n else none
  else none

/-- The entries of directory `dir`, as `directory_iterator` yields their file
names. The order of a `directory_iterator` is not specified; directories are
listed here before files, each in the order of creation. -/
def Disk.children (d : Disk) (dir : Str) : List Str :=
  d.dirs.filterMap (childName dir) ++ (d.files.map (fun f => f.1)).filterMap (childName dir)

/-- Whether `path` is a directory. -/
def Disk.isDir (d : Disk) (path : Str) : Bool := d.dirs.contains path

/-- Whether `path` is a regular file. -/
def Disk.isFile (d : Disk) (path : Str) : Bool := (readFile path d.files).isSome

/-- The call `std::filesystem::exists`. -/
def Disk.pathExists (d : Disk) (path : Str) : Bool := d.isDir path || d.isFile path

/-- The call `std::filesystem::is_empty` on an existing path: a directory
without entries, or a file without contents. -/
def Disk.is_empty (d : Disk) (path : Str) : Bool :=
  if d.isDir path then decide (d.children path = [])
  else decide (readFile path d.files = some [])

/-- The proper ancestors of a path: its prefixes that end before a `/`. -/
def ancestors : Str → List Str
  | [] => []
  | c :: rest =>
    let sub := (ancestors rest).map (fun p => c :: p)
    if rest.head? = some '/' then [c] :: sub else sub

/-- The call `std::filesystem::create_directories`: raises `filesystem_error`,
creating nothing, when the path or one of its ancestors is a regular file;
otherwise creates the directories that are missing. -/
def Disk.create_directories (d : Disk) (dir : Str) : Option Err × Disk :=
  if (ancestors dir ++ [dir]).any d.isFile then (some Err.filesystem_error, d)
  else
    let added := List.foldl (fun ds p => if ds.contains p then ds else ds ++ [p]) d.dirs
      (ancestors dir ++ [dir])
    (none, { d with dirs := added })

/-- Whether `std::ofstream ofs(path)` opens: the directory that is to hold the
file exists (a path without `/` names a file of the working directory), and
`path` is not itself a directory. -/
def Disk.canOpenForWrite (d : Disk) (path : Str) : Bool :=
  (match (ancestors path).getLast? with
    | none => true
    | some parent => d.isDir parent) && !d.isDir path

/-- The call `std::filesystem::remove`: unlinks a file or removes an empty
directory; raises `filesystem_error` on a directory that is not empty, and on a
path that runs through a regular file; a path that names nothing is left alone. -/
def Disk.remove (d : Disk) (path : Str) : Option Err × Disk :=
  if d.isFile path then (none, { d with files := removeFile path d.files })
  else if d.isDir path then
    if d.children path = [] then (none, { d with dirs := d.dirs.erase path })
    else (some Err.filesystem_error, d)
  else if (ancestors path).any d.isFile then (some Err.filesystem_error, d)
  else (none, d)

/-! ## Store.hpp -/

/-- The macro `BY_PASS_LOCK_ID`. -/
def BY_PASS_LOCK_ID : Str := "LOCK_BYPASS".toList

/-- The macro `LOCK_MAX_DURATION`, in seconds. -/
def LOCK_MAX_DURATION : Int := 10

/-- Source: `Store::LockInfo`: the lock id and the clock reading (ms) at acquisition. -/
structure LockInfo where
  lockId : Str
  start : Nat
  deriving DecidableEq, Repr

/-- Source: `LockInfo::expired`: `duration_cast<seconds>(now - start).count() > LOCK_MAX_DURATION`.
The cast truncates the elapsed time to whole seconds. -/
def LockInfo.expired (l : LockInfo) (now : Nat) : Bool :=
  decide (Int.tdiv ((now : Int) - (l.start : Int)) 1000 > LOCK_MAX_DURATION)

/-- State of a `Store`, together with the file system it writes to. -/
structure Store where
  scheduler_ : Scheduler
  sstableDirectory_ : Str
  locks_ : Str → Option LockInfo
  disk : Disk

/-- A freshly constructed store on an empty file system. -/
def Store.new (dir : Str) (cacheSize : Nat) : Store :=
  { scheduler_ := Scheduler.new cacheSize, sstableDirectory_ := dir,
    locks_ := fun _ => none, disk := Disk.empty }

/-- The directory of a row, `sstableDirectory_ + "/" + row`. -/
def rowDir (root row : Str) : Str := root ++ ['/'] ++ row

/-- The file of a cell, `sstableDirectory_ + "/" + row + "/" + col + ".dat"`. -/
def cellPath (root row col : Str) : Str := root ++ ['/'] ++ row ++ ['/'] ++ col ++ ".dat".toList

/-- What `std::getline` reads: the characters before the first newline. -/
def firstLine : Str → Str
  | [] => []
  | c :: rest => if c = '\n' then [] else c :: firstLine rest

/-- What is left in the stream after `std::getline`. -/
def afterFirstLine : Str → Str
  | [] => []
  | c :: rest => if c = '\n' then rest else afterFirstLine rest

/-- Source: `Store::readFromDisk`. A file that is missing or cannot be opened leaves
`line` empty, which never equals `row + "-" + col`. -/
def readFromDisk (root : Str) (d : Disk) (row col : Str) : Option Str :=
  match readFile (cellPath root row col) d.files with
  | none => none
  | some contents =>
    if firstLine contents ≠ row ++ ['-'] ++ col then none
    else some (afterFirstLine contents)

/-- Source: `Store::flushToDisk`: the exception raised, if any, and the file system
after the call. The row directory is created when nothing exists at its path;
`runtime_error` is raised when the file cannot be opened. -/
def flushToDisk (root : Str) (d : Disk) (row col value : Str) : Option Err × Disk :=
  let dir := rowDir root row
  let file := cellPath root row col
  match (if d.pathExists dir then (none, d) else d.create_directories dir) with
  | (some e, d1) => (some e, d1)
  | (none, d1) =>
    if d1.canOpenForWrite file then
      (none, { d1 with
        files := writeFile file (row ++ ['-'] ++ col ++ ['\n'] ++ value) d1.files })
    else (some Err.runtime_error, d1)

/-- The eviction callback the constructor of `Store` hands to its scheduler. -/
def Store.onEvict (root : Str) : EvictCallback Disk :=
  fun e d => flushToDisk root d e.1.1 e.1.2 e.2

/-- The file system after the eviction callback has run on each entry in turn. -/
def flushAll (root : Str) (d : Disk) : List KeyValuePair → Disk
  | [] => d
  | e :: rest => flushAll root (Store.onEvict root e d).2 rest

/-- Source: `Store::isResourceLocked`. -/
def Store.isResourceLocked (s : Store) (row lockId : Str) (now : Nat) : Bool :=
  if lockId = BY_PASS_LOCK_ID then false
  else
    match s.locks_ row with
    | some l => if !l.expired now && decide (l.lockId ≠ lockId) then true else false
    | none => false

/-- Source: `Store::Put`. `capacity` is the result of `value.capacity()`. The `catch`
clause takes every exception `scheduler_.Put` can raise (that of the size test and
those of the eviction callback) and writes the cell to disk; an exception of that
`flushToDisk` leaves the function. -/
def Store.Put (s : Store) (row col value : Str) (capacity : Nat) (lockId : Str) (now : Nat) :
    Except Err Bool × Store :=
  if s.isResourceLocked row lockId now then (.ok false, s)
  else
    match s.scheduler_.Put (Store.onEvict s.sstableDirectory_) row col value capacity s.disk with
    | (none, sch, d) => (.ok true, { s with scheduler_ := sch, disk := d })
    | (some _, sch, d) =>
      match flushToDisk s.sstableDirectory_ d row col value with
      | (none, d1) => (.ok true, { s with scheduler_ := sch, disk := d1 })
      | (some e, d1) => (.error e, { s with scheduler_ := sch, disk := d1 })

/-- Source: `Store::Get`. `readCapacity` is the result of `value.capacity()` once the
value read from disk has been assigned to `value`. The result is the exception
raised, or the value found (if any); the state is returned in both cases. -/
def Store.Get (s : Store) (row col : Str) (readCapacity : Nat) (lockId : Str) (now : Nat) :
    Except Err (Option Str) × Store :=
  if s.isResourceLocked row lockId now then (.ok none, s)
  else
    match s.scheduler_.Get row col with
    | (some v, sch) => (.ok (some v), { s with scheduler_ := sch })
    | (none, _) =>
      match readFromDisk s.sstableDirectory_ s.disk row col with
      | some v =>
        match s.scheduler_.Put (Store.onEvict s.sstableDirectory_) row col v readCapacity
            s.disk with
        | (none, sch, d) => (.ok (some v), { s with scheduler_ := sch, disk := d })
        | (some e, sch, d) => (.error e, { s with scheduler_ := sch, disk := d })
      | none => (.ok none, s)

/-- Source: `Store::Delete`. -/
def Store.Delete (s : Store) (row col lockId : Str) (now : Nat) : Except Err Bool × Store :=
  if s.isResourceLocked row lockId now then (.ok false, s)
  else
    match s.scheduler_.Delete row col with
    | (true, sch) => (.ok true, { s with scheduler_ := sch })
    | (false, _) =>
      match s.disk.remove (cellPath s.sstableDirectory_ row col) with
      | (some e, d1) => (.error e, { s with disk := d1 })
      | (none, d1) =>
        let dir := rowDir s.sstableDirectory_ row
        if d1.pathExists dir && d1.is_empty dir then
          match d1.remove dir with
          | (some e, d2) => (.error e, { s with disk := d2 })
          | (none, d2) => (.ok true, { s with disk := d2 })
        else (.ok true, { s with disk := d1 })

/-- Source: `Store::CPut`. `newCapacity` is the result of `newValue.capacity()`,
`readCapacity` that of the local `value` once `Get` has read into it from disk. -/
def Store.CPut (s : Store) (row col currValue newValue : Str) (newCapacity readCapacity : Nat)
    (lockId : Str) (now : Nat) : Except Err Bool × Store :=
  if s.isResourceLocked row lockId now then (.ok false, s)
  else
    match s.Get row col readCapacity lockId now with
    | (.error e, s1) => (.error e, s1)
    | (.ok (some value), s1) =>
      if value = currValue then
        match s1.Put row col newValue newCapacity lockId now with
        | (.error e, s2) => (.error e, s2)
        | (.ok _, s2) => (.ok true, s2)
      else (.ok false, s1)
    | (.ok none, s1) => (.ok false, s1)

/-- Source: `Store::SetNX`. -/
def Store.SetNX (s : Store) (row lockId : Str) (now : Nat) : Bool × Store :=
  if s.isResourceLocked row lockId now then (false, s)
  else
    (true, { s with locks_ := fun r => if r = row then some ⟨lockId, now⟩ else s.locks_ r })

/-- Source: `Store::Del`. -/
def Store.Del (s : Store) (row : Str) : Bool × Store :=
  (true, { s with locks_ := fun r => if r = row then none else s.locks_ r })

/-- Source: `Store::readAllRows`. A `directory_iterator` over a regular file raises
`filesystem_error`. -/
def readAllRows (root : Str) (d : Disk) (rows : List Str) : Option Err × List Str :=
  if !d.pathExists root then (none, rows)
  else if d.isDir root then (none, rows ++ d.children root)
  else (some Err.filesystem_error, rows)

/-- Source: `Store::GetAllRows`: the flag returned or the exception raised, and the
contents of `rows` after the call. -/
def Store.GetAllRows (s : Store) (rows : List Str) : Except Err Bool × List Str :=
  match readAllRows s.sstableDirectory_ s.disk (s.scheduler_.GetAllRows rows) with
  | (none, rows1) => (.ok true, rows1)
  | (some e, rows1) => (.error e, rows1)

/-- Source: `Store::GetColsInRow`. The first component is the returned flag or the
exception of the `directory_iterator`, the second the contents of `cols` after
the call. -/
def Store.GetColsInRow (s : Store) (row : Str) (cols : List Str) (lockId : Str) (now : Nat) :
    Except Err Bool × List Str :=
  if s.isResourceLocked row lockId now then (.ok false, cols)
  else
    let dir := rowDir s.sstableDirectory_ row
    let dirExists := s.disk.pathExists dir
    let r := s.scheduler_.GetColsInRow row cols
    if !r.1 && !dirExists then (.ok false, r.2)
    else if !dirExists then (.ok true, r.2)
    else if s.disk.isDir dir then (.ok true, r.2 ++ s.disk.children dir)
    else (.error Err.filesystem_error, r.2)

/-- The limit `NAME_MAX` of the file system on the length of a file name. -/
def NAME_MAX : Nat := 255

/-- A string that names one directory entry: not empty, not `.` or `..`, without
`/` and NUL, and within `NAME_MAX`. -/
def ProperName (n : Str) : Prop :=
  n ≠ [] ∧ n ≠ ['.'] ∧ n ≠ ['.', '.'] ∧ '/' ∉ n ∧ Char.ofNat 0 ∉ n ∧ n.length ≤ NAME_MAX

instance : DecidablePred ProperName := fun n => by unfold ProperName; infer_instance

/-- A key whose row and whose file name `col.dat` each name one directory entry,
and whose row and column hold no newline. -/
def GoodKey (k : Key) : Prop :=
  ProperName k.1 ∧ ProperName (k.2 ++ ".dat".toList) ∧ '\n' ∉ k.1 ∧ '\n' ∉ k.2

instance : DecidablePred GoodKey := fun k => by unfold GoodKey; infer_instance

/-- Representation invariant of the scheduler: the keys are distinct, and the
charged sizes of the stored values add up to at most `currSize_` and at most
`capacity_`. -/
def Scheduler.WF (s : Scheduler) : Prop :=
  (s.cacheList_.map Prod.fst).Nodup ∧ totalSize s.cacheList_ ≤ s.currSize_ ∧
    totalSize s.cacheList_ ≤ s.capacity_

instance : DecidablePred Scheduler.WF := fun s => by unfold Scheduler.WF; infer_instance

/-- A file system that holds nothing but what the store writes for good keys
under `root`: every file is the file of a good key, and every directory is
`root`, one of its ancestors, or the directory of a row without `/`. -/
def Disk.Inv (root : Str) (d : Disk) : Prop :=
  (∀ f ∈ d.files, ∃ k : Key, GoodKey k ∧ f.1 = cellPath root k.1 k.2) ∧
  (∀ p ∈ d.dirs, p ∈ ancestors root ∨ p = root ∨ ∃ row : Str, '/' ∉ row ∧ p = rowDir root row)

/-- What the store holds for a cell: the cached value, else the value on disk. -/
def Store.cell (s : Store) (k : Key) : Option Str :=
  match lookupKey k s.scheduler_.cacheList_ with
  | some v => some v
  | none => readFromDisk s.sstableDirectory_ s.disk k.1 k.2

/-- Invariant of the store used for the cache/disk coherence proofs: the cached
keys are distinct and good, and the file system holds only what the store wrote
for good keys. -/
def Store.Inv (s : Store) : Prop :=
  (s.scheduler_.cacheList_.map Prod.fst).Nodup ∧
  (∀ k ∈ s.scheduler_.cacheList_.map Prod.fst, GoodKey k) ∧
  s.disk.Inv s.sstableDirectory_

/-- The cell operations of the store that the cache serves, each with the
capacities of the strings it hands to the cache: that of the value written, and
that of the string in which a value read from disk arrives. -/
inductive CellOp where
  | Put (row col value : Str) (capacity : Nat) (lockId : Str) : CellOp
  | CPut (row col currValue newValue : Str) (newCapacity readCapacity : Nat) (lockId : Str) :
      CellOp
  | Get (row col : Str) (readCapacity : Nat) (lockId : Str) : CellOp
  deriving DecidableEq, Repr

/-- What a cell operation returns: the flag of `Put`/`CPut`, the value `Get`
found (if any), or the exception raised. -/
inductive CellResult where
  | flag (b : Bool) : CellResult
  | value (v : Option Str) : CellResult
  | raised (e : Err) : CellResult
  deriving DecidableEq, Repr

/-- One cell operation on the store, at clock reading `now`. -/
def Store.applyCellOp (s : Store) (now : Nat) : CellOp → CellResult × Store
  | .Put row col value capacity lockId =>
    match s.Put row col value capacity lockId now with
    | (.ok b, s1) => (.flag b, s1)
    | (.error e, s1) => (.raised e, s1)
  | .CPut row col currValue newValue newCapacity readCapacity lockId =>
    match s.CPut row col currValue newValue newCapacity readCapacity lockId now with
    | (.ok b, s1) => (.flag b, s1)
    | (.error e, s1) => (.raised e, s1)
  | .Get row col readCapacity lockId =>
    match s.Get row col readCapacity lockId now with
    | (.ok v, s1) => (.value v, s1)
    | (.error e, s1) => (.raised e, s1)

/-- The results of a sequence of cell operations, each with its clock reading. -/
def Store.runCellOps (s : Store) : List (CellOp × Nat) → List CellResult
  | [] => []
  | op :: rest => (s.applyCellOp op.2 op.1).1 :: Store.runCellOps (s.applyCellOp op.2 op.1).2 rest

/-- A plain map from (row, col) to value: the reference the cache is compared with. -/
abbrev PlainMap := Key → Option Str

/-- The same cell operation on a plain map. -/
def PlainMap.applyCellOp (m : PlainMap) : CellOp → CellResult × PlainMap
  | .Put row col value _ _ => (.flag true, fun k => if k = (row, col) then some value else m k)
  | .CPut row col currValue newValue _ _ _ =>
    if m (row, col) = some currValue then
      (.flag true, fun k => if k = (row, col) then some newValue else m k)
    else (.flag false, m)
  | .Get row col _ _ => (.value (m (row, col)), m)

/-- The results of a sequence of cell operations on a plain map. -/
def PlainMap.runCellOps (m : PlainMap) : List CellOp → List CellResult
  | [] => []
  | op :: rest => (m.applyCellOp op).1 :: PlainMap.runCellOps (m.applyCellOp op).2 rest

/-- The operations the refinement is stated for: good keys, and strings handed
to the cache whose `sizeof(Value) + capacity()` fits the capacity of the cache. -/
def CellOp.admissible (cap : Nat) : CellOp → Prop
  | .Put row col _ capacity _ => GoodKey (row, col) ∧ sizeofValue + capacity ≤ cap
  | .CPut row col _ _ newCapacity readCapacity _ =>
    GoodKey (row, col) ∧ sizeofValue + newCapacity ≤ cap ∧ sizeofValue + readCapacity ≤ cap
  | .Get row col readCapacity _ => GoodKey (row, col) ∧ sizeofValue + readCapacity ≤ cap

instance (cap : Nat) : DecidablePred (CellOp.admissible cap) := fun op => by
  cases op <;> unfold CellOp.admissible <;> infer_instance

/-- The states a scheduler of capacity `cap` reaches from the empty one by
`Put` (returning or raising, with any callback), `Get` and `Delete` calls. The
argument of a `Put` is a string, whose capacity is at least that of a copy of
it. -/
inductive Scheduler.Reachable (cap : Nat) : Scheduler → Prop where
  | init : Scheduler.Reachable cap (Scheduler.new cap)
  | put {σ : Type} (s : Scheduler) (onEvict : EvictCallback σ) (row col value : Str)
      (capacity : Nat) (env : σ) :
      Scheduler.Reachable cap s → copyCapacity value ≤ capacity →
      Scheduler.Reachable cap (s.Put onEvict row col value capacity env).2.1
  | get (s : Scheduler) (row col : Str) :
      Scheduler.Reachable cap s → Scheduler.Reachable cap (s.Get row col).2
  | delete (s : Scheduler) (row col : Str) :
      Scheduler.Reachable cap s → Scheduler.Reachable cap (s.Delete row col).2

/-! ## KVSServer.hpp: applying operations -/

/-- Modelled from the spec: the `kind` of an `Op` (the protobuf enum `OpType`
is declared in `proto/server.proto`, which is not among the sources). `other`
stands for any value the `switch` of `applyChange` sends to `default`. -/
inductive OpType where
  | GET | PUT | CPUT | DELETE | SETNX | DEL | GETALLROWS | GETCOLSINROW | other
  deriving DecidableEq, Repr

/-- The protobuf message `Op`, with the fields `KVSServer.hpp` sets and reads. -/
structure Op where
  type : OpType
  row : Str
  col : Str
  newvalue : Str
  currvalue : Str
  requestid : Str
  lockid : Str
  deriving DecidableEq, Repr

/-- Source: `KVSServer::OpOutput`. -/
structure OpOutput where
  success : Bool
  value : Str
  values : List Str
  deriving DecidableEq, Repr

/-- The part of a `KVSServer` that `applyChange` reads and writes. -/
structure KVSServer where
  me_ : Nat
  globalSeq_ : Int
  store_ : Store
  visitedRequests_ : Str → Option OpOutput

/-- What the run time contributes to one call of `applyChange`: the reading of
the steady clock, the result of `op.newvalue().capacity()`, and the result of
`value.capacity()` once a value read from disk has been assigned to the local
`value`. -/
structure CallEnv where
  now : Nat
  newvalueCapacity : Nat
  readCapacity : Nat
  deriving DecidableEq, Repr

/-- The tail of `KVSServer::applyChange` for the operations that modify the
store: `output.value = ""; visitedRequests_[op.requestid()] = output; return output;`. -/
def KVSServer.record (sv : KVSServer) (op : Op) (success : Bool) (values : List Str)
    (st : Store) : Except Err OpOutput × KVSServer :=
  let output : OpOutput := ⟨success, [], values⟩
  (.ok output, { sv with store_ := st, visitedRequests_ := fun r =>
    if r = op.requestid then some output else sv.visitedRequests_ r })

/-- Source: `KVSServer::applyChange`. An exception of the store leaves the function
before `visitedRequests_` is written. -/
def KVSServer.applyChange (sv : KVSServer) (op : Op) (env : CallEnv) :
    Except Err OpOutput × KVSServer :=
  match op.type with
  | .GET =>
    match sv.store_.Get op.row op.col env.readCapacity op.lockid env.now with
    | (.ok (some value), st) => (.ok ⟨true, value, []⟩, { sv with store_ := st })
    | (.ok none, st) => (.ok ⟨false, [], []⟩, { sv with store_ := st })
    | (.error e, st) => (.error e, { sv with store_ := st })
  | .PUT =>
    match sv.store_.Put op.row op.col op.newvalue env.newvalueCapacity op.lockid env.now with
    | (.ok b, st) => sv.record op b [] st
    | (.error e, st) => (.error e, { sv with store_ := st })
  | .CPUT =>
    match sv.store_.CPut op.row op.col op.currvalue op.newvalue env.newvalueCapacity
        env.readCapacity op.lockid env.now with
    | (.ok b, st) => sv.record op b [] st
    | (.error e, st) => (.error e, { sv with store_ := st })
  | .DELETE =>
    match sv.store_.Delete op.row op.col op.lockid env.now with
    | (.ok b, st) => sv.record op b [] st
    | (.error e, st) => (.error e, { sv with store_ := st })
  | .SETNX =>
    let r := sv.store_.SetNX op.row op.lockid env.now
    sv.record op r.1 [] r.2
  | .DEL =>
    let r := sv.store_.Del op.row
    sv.record op r.1 [] r.2
  | .GETALLROWS =>
    match sv.store_.GetAllRows [] with
    | (.ok b, rows) => sv.record op b rows sv.store_
    | (.error e, _) => (.error e, sv)
  | .GETCOLSINROW =>
    match sv.store_.GetColsInRow op.row [] op.lockid env.now with
    | (.ok b, cols) => sv.record op b cols sv.store_
    | (.error e, _) => (.error e, sv)
  | .other => sv.record op false [] sv.store_

/-- A server over a fresh store, used in the examples. -/
def KVSServer.new (me : Nat) (st : Store) : KVSServer :=
  { me_ := me, globalSeq_ := -1, store_ := st, visitedRequests_ := fun _ => none }

/-! ## Paxos.hpp: acceptor, learner and proposer -/

/-- Modelled from the spec: a default-constructed `Op` message (all strings
empty, `kind` the first of the spec's list); the protobuf declaration is not
among the sources. -/
def Op.fresh : Op := ⟨OpType.GET, [], [], [], [], [], []⟩

/-- The macro `PEER_ID_BITS`. -/
def PEER_ID_BITS : Nat := 8

/-- The constant `INT_MAX`. -/
def INT_MAX : Int := 2147483647

/-- The struct `PaxosImpl::Instance`. -/
structure Instance where
  HighestAcN : Int
  HighestAcV : Op
  HighestSeen : Int
  Decided : Bool
  DecidedV : Op
  deriving DecidableEq, Repr

/-- The constructor `Instance()`. -/
def Instance.new : Instance :=
  { HighestAcN := 0, HighestAcV := Op.fresh, HighestSeen := 0, Decided := false,
    DecidedV := Op.fresh }

/-- The local `acc` of the Prepare and Accept handlers when `acceptorIns_` has
no record for the slot: `HighestSeen = HighestAcN = -1`. -/
def Instance.unseen : Instance :=
  { Instance.new with HighestSeen := -1, HighestAcN := -1 }

/-- The message `PrepareArgs`. -/
structure PrepareArgs where
  seq : Int
  n : Int
  sender : Int
  done : Int
  deriving DecidableEq, Repr

/-- The message `PrepareReply`. -/
structure PrepareReply where
  ok : Bool
  na : Int
  va : Op
  done : Int
  deriving DecidableEq, Repr

/-- A default-constructed `PrepareReply`. -/
def PrepareReply.new : PrepareReply := { ok := false, na := 0, va := Op.fresh, done := 0 }

/-- The message `AcceptArgs`. -/
structure AcceptArgs where
  seq : Int
  n : Int
  v : Op
  deriving DecidableEq, Repr

/-- The message `AcceptReply`. -/
structure AcceptReply where
  ok : Bool
  n : Int
  deriving DecidableEq, Repr

/-- A default-constructed `AcceptReply`. -/
def AcceptReply.new : AcceptReply := { ok := false, n := 0 }

/-- The message `DecideArgs`. -/
structure DecideArgs where
  seq : Int
  v : Op
  deriving DecidableEq, Repr

/-- The message `DecideReply`. -/
structure DecideReply where
  ok : Bool
  deriving DecidableEq, Repr

/-- Lookup in `peerDone_` (an `unordered_map<int, int>`, kept as an association list). -/
def peerDoneFind (k : Int) : List (Int × Int) → Option Int
  | [] => none
  | e :: rest => if e.1 = k then some e.2 else peerDoneFind k rest

/-- The assignment `peerDone_[k] = v`. -/
def peerDoneAssign (k v : Int) : List (Int × Int) → List (Int × Int)
  | [] => [(k, v)]
  | e :: rest => if e.1 = k then (k, v) :: rest else e :: peerDoneAssign k v rest

/-- The expression `peerDone_[k]`: the value read, and the map, which gains
the entry `(k, 0)` when the key was absent. -/
def peerDoneIndex (k : Int) (m : List (Int × Int)) : Int × List (Int × Int) :=
  match peerDoneFind k m with
  | some v => (v, m)
  | none => (0, peerDoneAssign k 0 m)

/-- State of a `PaxosImpl`. `peerCount` is `peers_.size()`. -/
structure PaxosImpl where
  me_ : Nat
  peerCount : Nat
  instances_ : Int → Option Instance
  acceptorIns_ : Int → Option Instance
  highestSeqSeen_ : Int
  peerDone_ : List (Int × Int)
  doneFreed_ : Int

/-- The constructor `PaxosImpl(peersIP, me)`. -/
def PaxosImpl.new (peerCount me : Nat) : PaxosImpl :=
  { me_ := me, peerCount := peerCount, instances_ := fun _ => none,
    acceptorIns_ := fun _ => none, highestSeqSeen_ := -1,
    peerDone_ := (List.range peerCount).map (fun i => ((i : Int), -1)), doneFreed_ := 0 }

/-- The constant `INT_MIN`. -/
def INT_MIN : Int := -2147483648

/-- The `int` a result takes when it leaves the range `INT_MIN .. INT_MAX`: the
value modulo `2^32`, as two's complement hardware computes it. C++ leaves the
overflow of `+` undefined and, since C++20, defines `<<` this way. -/
def wrapInt (x : Int) : Int := (x + 2147483648) % 4294967296 - 2147483648

/-- Source: `PaxosImpl::getMinSeqNum`. The closing `res + 1` is computed in `int`:
when every entry of `peerDone_` is `INT_MAX` (or the map is empty) it wraps to
`INT_MIN`. -/
def getMinSeqNum (peerDone : List (Int × Int)) : Int :=
  wrapInt (peerDone.foldl (fun res pair => min res pair.2) INT_MAX + 1)

/-- Source: `PaxosImpl::collectGarbage`. -/
def PaxosImpl.collectGarbage (r : PaxosImpl) : PaxosImpl :=
  let currMin := getMinSeqNum r.peerDone_
  if currMin > r.doneFreed_ then
    { r with instances_ := fun k => if k < currMin then none else r.instances_ k,
             acceptorIns_ := fun k => if k < currMin then none else r.acceptorIns_ k,
             doneFreed_ := currMin }
  else r

/-- The local `acc` of the Prepare and Accept handlers. -/
def PaxosImpl.acceptorRecord (r : PaxosImpl) (seq : Int) : Instance :=
  match r.acceptorIns_ seq with
  | none => Instance.unseen
  | some a => a

/-- The assignment `acceptorIns_[seq] = acc`. -/
def PaxosImpl.setAcceptor (r : PaxosImpl) (seq : Int) (acc : Instance) : PaxosImpl :=
  { r with acceptorIns_ := fun k => if k = seq then some acc else r.acceptorIns_ k }

/-- The statement `if (done > peerDone_[k]) peerDone_[k] = done;`, which ends
the Prepare handler (with the sender's `done`) and each Prepare thread of the
proposer (with the reply's `done`). -/
def PaxosImpl.notePeerDone (r : PaxosImpl) (k : Int) (done : Int) : PaxosImpl :=
  let cur := peerDoneIndex k r.peerDone_
  { r with peerDone_ := if done > cur.1 then peerDoneAssign k done cur.2 else cur.2 }

/-- The end of the Prepare handler, common to both branches:
`reply->set_done(peerDone_[me_])`, the update of `peerDone_[args->sender()]`
and `collectGarbage()`. -/
def PaxosImpl.prepareTail (r : PaxosImpl) (reply : PrepareReply) (args : PrepareArgs) :
    PrepareReply × PaxosImpl :=
  let mine := peerDoneIndex (r.me_ : Int) r.peerDone_
  let r1 : PaxosImpl := { r with peerDone_ := mine.2 }
  ({ reply with done := mine.1 }, (r1.notePeerDone args.sender args.done).collectGarbage)

/-- The RPC handler `PaxosImpl::Prepare`. -/
def PaxosImpl.Prepare (r : PaxosImpl) (args : PrepareArgs) : PrepareReply × PaxosImpl :=
  let acc := r.acceptorRecord args.seq
  if args.n > acc.HighestSeen then
    (r.setAcceptor args.seq { acc with HighestSeen := args.n }).prepareTail
      { ok := true, na := acc.HighestAcN, va := acc.HighestAcV, done := 0 } args
  else r.prepareTail PrepareReply.new args

/-- The RPC handler `PaxosImpl::Accept`. -/
def PaxosImpl.Accept (r : PaxosImpl) (args : AcceptArgs) : AcceptReply × PaxosImpl :=
  let acc := r.acceptorRecord args.seq
  if args.n ≥ acc.HighestSeen then
    ({ ok := true, n := args.n },
      r.setAcceptor args.seq
        { acc with HighestSeen := args.n, HighestAcN := args.n, HighestAcV := args.v })
  else (AcceptReply.new, r)

/-- The RPC handler `PaxosImpl::Decide`. -/
def PaxosImpl.Decide (r : PaxosImpl) (args : DecideArgs) : DecideReply × PaxosImpl :=
  let record : Instance :=
    match r.instances_ args.seq with
    | none => { Instance.new with Decided := true, DecidedV := args.v }
    | some it => { it with Decided := true, DecidedV := args.v }
  ({ ok := true },
    { r with instances_ := fun k => if k = args.seq then some record else r.instances_ k })

/-- Source: `PaxosImpl::Done`. -/
def PaxosImpl.Done (r : PaxosImpl) (seq : Int) : PaxosImpl :=
  r.notePeerDone (r.me_ : Int) seq

/-- Source: `PaxosImpl::MinKnownSeq`: the value returned and the state after the
`collectGarbage()` it runs. -/
def PaxosImpl.MinKnownSeq (r : PaxosImpl) : Int × PaxosImpl :=
  (getMinSeqNum r.peerDone_, r.collectGarbage)

/-- Source: `PaxosImpl::Start`: whether a `propose` thread is started, and the state
after the call. -/
def PaxosImpl.Start (r : PaxosImpl) (seq : Int) (_v : Op) : Bool × PaxosImpl :=
  let m := r.MinKnownSeq
  if seq < m.1 then (false, m.2)
  else
    let r1 := if seq > m.2.highestSeqSeen_ then { m.2 with highestSeqSeen_ := seq } else m.2
    match r1.instances_ seq with
    | some it => if it.Decided then (false, r1) else (true, r1)
    | none => (true, r1)

/-- Source: `PaxosImpl::Status`: the decided value, if any. The expression
`instances_[seq]` inserts a default instance when the slot is absent. -/
def PaxosImpl.Status (r : PaxosImpl) (seq : Int) : Option Op × PaxosImpl :=
  let inst := (r.instances_ seq).getD Instance.new
  let r1 := { r with instances_ := fun k => if k = seq then some inst else r.instances_ k }
  (if inst.Decided then some inst.DecidedV else none, r1)

/-- Source: `PaxosImpl::MaxKnownSeq`. -/
def PaxosImpl.MaxKnownSeq (r : PaxosImpl) : Int := r.highestSeqSeen_

/-- Whether `collectGarbage` has freed slot `seq` on this replica. The field
`doneFreed_` is 0 at construction and afterwards the bound of the last
collection that ran, which erased every slot below it. -/
def PaxosImpl.freed (r : PaxosImpl) (seq : Int) : Bool :=
  decide (0 < r.doneFreed_ ∧ seq < r.doneFreed_)

/-- Source: `PaxosImpl::generateUniqueN`, computed with unbounded integers: the
value the C++ function returns while the result fits an `int`. The caller
`proposeHead` takes the result as an `int`, see `wrapInt`. -/
def generateUniqueN (me : Nat) (highestSeq : Int) : Int :=
  Int.lor (((highestSeq >>> PEER_ID_BITS) + 1) <<< (PEER_ID_BITS : Int)) (me : Int)

/-- The struct `PaxosImpl::SharedPrepareState`. -/
structure SharedPrepareState where
  highestNAccepted : Int
  prepareOKCount : Int
  allResopnse : Int
  nextPhaseV : Op
  done : Bool
  deriving DecidableEq, Repr

/-- The constructor `SharedPrepareState(v)`. -/
def SharedPrepareState.new (v : Op) : SharedPrepareState :=
  { highestNAccepted := -1, prepareOKCount := 0, allResopnse := 0, nextPhaseV := v,
    done := false }

/-- Source: `SharedPrepareState::donePrepare`. -/
def SharedPrepareState.donePrepare (st : SharedPrepareState) : SharedPrepareState :=
  { st with done := true }

/-- Source: `SharedPrepareState::update`. -/
def SharedPrepareState.update (st : SharedPrepareState) (reply : PrepareReply)
    (status : Bool) : SharedPrepareState :=
  if st.done then st
  else
    let st1 := { st with allResopnse := st.allResopnse + 1 }
    if status && reply.ok then
      let st2 := { st1 with prepareOKCount := st1.prepareOKCount + 1 }
      if reply.na > st2.highestNAccepted then
        { st2 with highestNAccepted := reply.na, nextPhaseV := reply.va }
      else st2
    else st1

/-- The struct `PaxosImpl::SharedAcceptState`. -/
structure SharedAcceptState where
  highestNObserved : Int
  acceptOKCount : Int
  allAcceptResponse : Int
  done : Bool
  deriving DecidableEq, Repr

/-- A default-constructed `SharedAcceptState`. -/
def SharedAcceptState.new : SharedAcceptState :=
  { highestNObserved := -1, acceptOKCount := 0, allAcceptResponse := 0, done := false }

/-- Source: `SharedAcceptState::doneAccept`. -/
def SharedAcceptState.doneAccept (st : SharedAcceptState) : SharedAcceptState :=
  { st with done := true }

/-- Source: `SharedAcceptState::update`. -/
def SharedAcceptState.update (st : SharedAcceptState) (reply : AcceptReply)
    (status : Bool) : SharedAcceptState :=
  if st.done then st
  else
    let st1 := { st with allAcceptResponse := st.allAcceptResponse + 1 }
    if status && reply.ok then
      let st2 := { st1 with acceptOKCount := st1.acceptOKCount + 1 }
      if reply.n > st2.highestNObserved then { st2 with highestNObserved := reply.n }
      else st2
    else st1

/-! ## A cluster of replicas running `propose` -/

/-- Where one iteration of the loop of `PaxosImpl::propose` stands. -/
inductive Phase where
  | prepare
  | prepareFailed
  | accept
  | acceptFailed
  | decide
  deriving DecidableEq, Repr

/-- One iteration of the `while (true)` loop of `propose(seq, v)` on replica
`proposer`: the locals `n`, `myDone`, `actualV`, the two shared phase states and
the peers whose Prepare and Accept calls have been made. The last two fields are
history variables, which no transition reads: `promisers` lists the peers whose
promise was counted in `prepareOKCount`, with the `(n_a, v_a)` they replied, and
`voters` the peers whose Accept handler accepted this proposal. -/
structure Proposal where
  id : Nat
  proposer : Nat
  seq : Int
  v : Op
  n : Int
  myDone : Int
  phase : Phase
  prepState : SharedPrepareState
  prepCalled : List Nat
  actualV : Op
  accState : SharedAcceptState
  accCalled : List Nat
  promisers : List (Nat × Int × Op)
  voters : List Nat
  deriving DecidableEq, Repr

/-- The iteration as it stands right after `n` has been generated. -/
def Proposal.new (id proposer : Nat) (seq : Int) (v : Op) (n myDone : Int) : Proposal :=
  { id := id, proposer := proposer, seq := seq, v := v, n := n, myDone := myDone,
    phase := Phase.prepare, prepState := SharedPrepareState.new v, prepCalled := [],
    actualV := v, accState := SharedAcceptState.new, accCalled := [],
    promisers := [], voters := [] }

/-- Whether the iteration has sent, or is sending, `Accept(seq, n, actualV)`. -/
def Proposal.sentAccept (P : Proposal) : Bool :=
  P.phase = Phase.accept || P.phase = Phase.acceptFailed || P.phase = Phase.decide

/-- A cluster: the replicas by index, and the iterations of `propose` begun so far. -/
structure Cluster where
  replicas : Nat → PaxosImpl
  proposals : List Proposal

/-- The cluster of `N` freshly constructed replicas. -/
def Cluster.init (N : Nat) : Cluster :=
  { replicas := fun i => PaxosImpl.new N i, proposals := [] }

/-- Replace the state of replica `i`. -/
def setReplica (reps : Nat → PaxosImpl) (i : Nat) (r : PaxosImpl) : Nat → PaxosImpl :=
  fun j => if j = i then r else reps j

/-- Replace the iteration with identifier `a`. -/
def setProposal (ps : List Proposal) (a : Nat) (P : Proposal) : List Proposal :=
  ps.map (fun Q => if Q.id = a then P else Q)

/-- The iteration with identifier `a`. -/
def findProposal (ps : List Proposal) (a : Nat) : Option Proposal :=
  ps.find? (fun Q => Q.id = a)

/-- The head of an iteration of `propose(seq, v)` on replica `p`:
`collectGarbage()`, the test `instances_[seq].Decided` (which inserts a default
instance when the slot is absent), and the reads of `HighestSeen` and
`peerDone_[me_]`. Returns the replica and, unless the slot is decided, the new
`n` (the result of `generateUniqueN` as an `int`) and `myDone`. -/
def PaxosImpl.proposeHead (r : PaxosImpl) (seq : Int) : Option (Int × Int) × PaxosImpl :=
  let r0 := r.collectGarbage
  let inst := (r0.instances_ seq).getD Instance.new
  let r1 := { r0 with instances_ := fun k => if k = seq then some inst else r0.instances_ k }
  if inst.Decided then (none, r1)
  else
    let highestSeen := match r1.acceptorIns_ seq with
      | none => -1
      | some a => a.HighestSeen
    let mine := peerDoneIndex (r1.me_ : Int) r1.peerDone_
    (some (wrapInt (generateUniqueN r1.me_ highestSeen), mine.1), { r1 with peerDone_ := mine.2 })

/-- The steps of the cluster. The first six are the steps of the threads that
run `propose`: `executed` says whether the peer ran the handler, `status`
whether the caller got the reply (`status.ok()`); an undelivered reply is a
default-constructed message. The caller's own replica is called directly,
first, and always answers. The last four are the calls of the application on
replica `i`: `Done(seq)`, `MinKnownSeq()`, `Start(seq, v)` up to the start of
its thread (whose iterations are `propose` steps) and `Status(seq)`. -/
inductive Event where
  | propose (p : Nat) (seq : Int) (v : Op)
  | prepareCall (a i : Nat) (executed status : Bool)
  | donePrepare (a : Nat)
  | acceptCall (a i : Nat) (executed status : Bool)
  | doneAccept (a : Nat)
  | decideCall (a i : Nat)
  | done (i : Nat) (seq : Int)
  | minKnownSeq (i : Nat)
  | start (i : Nat) (seq : Int) (v : Op)
  | status (i : Nat) (seq : Int)
  deriving DecidableEq, Repr

/-- An iteration of `propose(seq, v)` begins on replica `p`. -/
def Cluster.propose (N : Nat) (s : Cluster) (p : Nat) (seq : Int) (v : Op) : Option Cluster :=
  if p < N then
    let h := (s.replicas p).proposeHead seq
    match h.1 with
    | none => some { s with replicas := setReplica s.replicas p h.2 }
    | some nd =>
      some { replicas := setReplica s.replicas p h.2,
             proposals := s.proposals ++ [Proposal.new s.proposals.length p seq v nd.1 nd.2] }
  else none

/-- Iteration `a` calls `Prepare` on peer `i` and feeds the reply to
`SharedPrepareState::update`. -/
def Cluster.prepareCall (N : Nat) (s : Cluster) (a i : Nat) (executed status : Bool) :
    Option Cluster :=
  match findProposal s.proposals a with
  | none => none
  | some P =>
    if i < N ∧ i ∉ P.prepCalled ∧ (status = true → executed = true) ∧
        (i = P.proposer → executed = true ∧ status = true ∧ P.prepCalled = []) ∧
        (i ≠ P.proposer → P.proposer ∈ P.prepCalled) then
      let res := if executed then
          (s.replicas i).Prepare
            { seq := P.seq, n := P.n, sender := (P.proposer : Int), done := P.myDone }
        else (PrepareReply.new, s.replicas i)
      let reply := if status then res.1 else PrepareReply.new
      let counted := status && reply.ok && !P.prepState.done
      let P1 := { P with
        prepState := P.prepState.update reply status,
        prepCalled := i :: P.prepCalled,
        promisers := if counted then (i, reply.na, reply.va) :: P.promisers else P.promisers }
      let reps := setReplica s.replicas i res.2
      let reps1 := if i = P.proposer then reps
        else setReplica reps P.proposer ((reps P.proposer).notePeerDone (i : Int) reply.done)
      some { replicas := reps1, proposals := setProposal s.proposals a P1 }
    else none

/-- Iteration `a` leaves its wait loop, calls `donePrepare()` and either
continues with the accept phase or gives the iteration up. -/
def Cluster.donePrepare (N : Nat) (s : Cluster) (a : Nat) : Option Cluster :=
  match findProposal s.proposals a with
  | none => none
  | some P =>
    let majorityPeerCount : Int := ((N / 2 + 1 : Nat) : Int)
    if P.phase = Phase.prepare ∧
        ¬ (P.prepState.prepareOKCount < majorityPeerCount ∧ P.prepState.allResopnse < (N : Int))
    then
      let st := P.prepState.donePrepare
      let P1 := if st.prepareOKCount < majorityPeerCount then
          { P with prepState := st, phase := Phase.prepareFailed }
        else { P with prepState := st, phase := Phase.accept, actualV := st.nextPhaseV }
      some { s with proposals := setProposal s.proposals a P1 }
    else none

/-- Iteration `a` calls `Accept` on peer `i` and feeds the reply to
`SharedAcceptState::update`. The thread of the source captures `accArgs` by
reference; here every call carries the `(seq, n, actualV)` of its own iteration,
as if the arguments were copied like those of Prepare and Decide. -/
def Cluster.acceptCall (N : Nat) (s : Cluster) (a i : Nat) (executed status : Bool) :
    Option Cluster :=
  match findProposal s.proposals a with
  | none => none
  | some P =>
    if P.sentAccept = true ∧ i < N ∧ i ∉ P.accCalled ∧ (status = true → executed = true) ∧
        (i = P.proposer → executed = true ∧ status = true ∧ P.accCalled = []) ∧
        (i ≠ P.proposer → P.proposer ∈ P.accCalled) then
      let res := if executed then
          (s.replicas i).Accept { seq := P.seq, n := P.n, v := P.actualV }
        else (AcceptReply.new, s.replicas i)
      let reply := if status then res.1 else AcceptReply.new
      let P1 := { P with
        accState := P.accState.update reply status,
        accCalled := i :: P.accCalled,
        voters := if executed && res.1.ok then i :: P.voters else P.voters }
      some { replicas := setReplica s.replicas i res.2,
             proposals := setProposal s.proposals a P1 }
    else none

/-- Iteration `a` leaves its second wait loop, calls `doneAccept()` and either
continues with the decide phase or gives the iteration up. -/
def Cluster.doneAccept (N : Nat) (s : Cluster) (a : Nat) : Option Cluster :=
  match findProposal s.proposals a with
  | none => none
  | some P =>
    let majorityPeerCount : Int := ((N / 2 + 1 : Nat) : Int)
    if P.phase = Phase.accept ∧
        ¬ (P.accState.acceptOKCount < majorityPeerCount ∧
            P.accState.allAcceptResponse < (N : Int))
    then
      let st := P.accState.doneAccept
      let P1 := if st.acceptOKCount < majorityPeerCount then
          { P with accState := st, phase := Phase.acceptFailed }
        else { P with accState := st, phase := Phase.decide }
      some { s with proposals := setProposal s.proposals a P1 }
    else none

/-- Peer `i` handles the `Decide(seq, actualV)` of iteration `a`; on the
proposer itself the call is followed by the closing `collectGarbage()`. -/
def Cluster.decideCall (N : Nat) (s : Cluster) (a i : Nat) : Option Cluster :=
  match findProposal s.proposals a with
  | none => none
  | some P =>
    if P.phase = Phase.decide ∧ i < N then
      let r := ((s.replicas i).Decide { seq := P.seq, v := P.actualV }).2
      let r1 := if i = P.proposer then r.collectGarbage else r
      some { s with replicas := setReplica s.replicas i r1 }
    else none

/-- A call of the application on replica `i`, which takes the replica from `r`
to `f r`. -/
def Cluster.applicationCall (N : Nat) (s : Cluster) (i : Nat) (f : PaxosImpl → PaxosImpl) :
    Option Cluster :=
  if i < N then some { s with replicas := setReplica s.replicas i (f (s.replicas i)) }
  else none

/-- One step of the cluster; `none` when the event is not enabled. -/
def Cluster.step (N : Nat) (s : Cluster) : Event → Option Cluster
  | .propose p seq v => s.propose N p seq v
  | .prepareCall a i executed status => s.prepareCall N a i executed status
  | .donePrepare a => s.donePrepare N a
  | .acceptCall a i executed status => s.acceptCall N a i executed status
  | .doneAccept a => s.doneAccept N a
  | .decideCall a i => s.decideCall N a i
  | .done i seq => s.applicationCall N i (fun r => r.Done seq)
  | .minKnownSeq i => s.applicationCall N i (fun r => r.MinKnownSeq.2)
  | .start i seq v => s.applicationCall N i (fun r => (r.Start seq v).2)
  | .status i seq => s.applicationCall N i (fun r => (r.Status seq).2)

/-- The states the cluster of `N` replicas reaches from its initial state. -/
inductive Cluster.Reachable (N : Nat) : Cluster → Prop where
  | init : Cluster.Reachable N (Cluster.init N)
  | step (s s1 : Cluster) (e : Event) :
      Cluster.Reachable N s → s.step N e = some s1 → Cluster.Reachable N s1

/-- Run a list of events; `none` when one of them is not enabled. -/
def Cluster.run (N : Nat) (s : Cluster) : List Event → Option Cluster
  | [] => some s
  | e :: rest =>
    match s.step N e with
    | none => none
    | some s1 => Cluster.run N s1 rest

/-- Whether slot `seq` is live: no replica of the cluster has freed it. -/
def Cluster.live (N : Nat) (s : Cluster) (seq : Int) : Bool :=
  (List.range N).all (fun i => !(s.replicas i).freed seq)

/-- The value replica `i` holds as decided for slot `seq`, if any. -/
def Cluster.decided (s : Cluster) (i : Nat) (seq : Int) : Option Op :=
  match (s.replicas i).instances_ seq with
  | some inst => if inst.Decided then some inst.DecidedV else none
  | none => none

/-! ## Paxos: the invariant of a cluster and an example run -/

/-- How replica `i` stands as acceptor of slot `seq`. -/
def Cluster.acc (s : Cluster) (i : Nat) (seq : Int) : Instance :=
  (s.replicas i).acceptorRecord seq

/-- Acceptor `i` has accepted the proposal `(n, v)` for slot `seq`. -/
def Cluster.VotedFor (s : Cluster) (i : Nat) (seq n : Int) (v : Op) : Prop :=
  ∃ P ∈ s.proposals, P.sentAccept = true ∧ P.seq = seq ∧ P.n = n ∧ P.actualV = v ∧ i ∈ P.voters

/-- A majority of the `N` replicas, without repetition. -/
def IsQuorum (N : Nat) (W : List Nat) : Prop :=
  W.Nodup ∧ (∀ i ∈ W, i < N) ∧ N / 2 + 1 ≤ W.length

/-- The invariant of the slots that no replica has freed, stated for a cluster
all of whose slots are such. -/
structure Cluster.SlotInv (N : Nat) (s : Cluster) : Prop where
  ids : s.proposals.map Proposal.id = List.range s.proposals.length
  proposer : ∀ P ∈ s.proposals, P.proposer < N
  accBounds : ∀ i seq, i < N →
    -1 ≤ (s.acc i seq).HighestAcN ∧ (s.acc i seq).HighestAcN ≤ (s.acc i seq).HighestSeen
  accVoted : ∀ i seq, i < N → (s.acc i seq).HighestAcN ≠ -1 →
    s.VotedFor i seq (s.acc i seq).HighestAcN (s.acc i seq).HighestAcV
  voters : ∀ P ∈ s.proposals, P.voters.Nodup ∧
    P.accState.acceptOKCount ≤ (P.voters.length : Int) ∧
    (P.sentAccept = false → P.voters = []) ∧
    ∀ i ∈ P.voters, i < N ∧ i ∈ P.accCalled ∧ P.n ≤ (s.acc i P.seq).HighestAcN
  promisers : ∀ P ∈ s.proposals, (P.promisers.map Prod.fst).Nodup ∧
    P.prepState.prepareOKCount = (P.promisers.length : Int) ∧
    ∀ x ∈ P.promisers, x.1 < N ∧ x.1 ∈ P.prepCalled ∧
      P.n ≤ (s.acc x.1 P.seq).HighestSeen ∧ -1 ≤ x.2.1 ∧ x.2.1 < P.n ∧
      (x.2.1 ≠ -1 → s.VotedFor x.1 P.seq x.2.1 x.2.2) ∧
      (∀ Q ∈ s.proposals, Q.seq = P.seq → x.1 ∈ Q.voters → Q.n < P.n → Q.n ≤ x.2.1)
  promiseOnce : ∀ P ∈ s.proposals, ∀ Q ∈ s.proposals, P.seq = Q.seq → P.n = Q.n →
    ∀ x ∈ P.promisers, ∀ y ∈ Q.promisers, x.1 = y.1 → P.id = Q.id
  selected : ∀ P ∈ s.proposals, -1 ≤ P.prepState.highestNAccepted ∧
    (∀ x ∈ P.promisers, x.2.1 ≤ P.prepState.highestNAccepted) ∧
    (P.prepState.highestNAccepted ≠ -1 →
      ∃ x ∈ P.promisers, x.2.1 = P.prepState.highestNAccepted ∧ x.2.2 = P.prepState.nextPhaseV)
  sent : ∀ P ∈ s.proposals, P.sentAccept = true →
    P.actualV = P.prepState.nextPhaseV ∧ P.prepState.done = true ∧
    N / 2 + 1 ≤ P.promisers.length
  safe : ∀ P ∈ s.proposals, ∀ Q ∈ s.proposals, P.sentAccept = true → Q.sentAccept = true →
    Q.seq = P.seq → Q.n < P.n → Q.actualV ≠ P.actualV →
    ∃ W, IsQuorum N W ∧ ∀ i ∈ W, i ∉ Q.voters ∧ Q.n < (s.acc i P.seq).HighestSeen
  decidePhase : ∀ P ∈ s.proposals, P.phase = Phase.decide → N / 2 + 1 ≤ P.voters.length
  decidedFrom : ∀ i seq v, i < N → s.decided i seq = some v →
    ∃ P ∈ s.proposals, P.phase = Phase.decide ∧ P.seq = seq ∧ P.actualV = v

/-- The decided value replica `r` holds for slot `seq`, if any. -/
def PaxosImpl.decidedValue (r : PaxosImpl) (seq : Int) : Option Op :=
  match r.instances_ seq with
  | some inst => if inst.Decided then some inst.DecidedV else none
  | none => none

/-- Replica `r1` stands for slot `q` as replica `r` does: the same acceptor
record and the same decided value. -/
def SlotKept (r r1 : PaxosImpl) (q : Int) : Prop :=
  r1.acceptorRecord q = r.acceptorRecord q ∧ r1.decidedValue q = r.decidedValue q

/-- The replica as slot `q` sees it: the records of the other slots left out. -/
def PaxosImpl.slotView (r : PaxosImpl) (q : Int) : PaxosImpl :=
  { r with instances_ := fun k => if k = q then r.instances_ q else none,
           acceptorIns_ := fun k => if k = q then r.acceptorIns_ q else none }

/-- The iteration as slot `q` sees it: an iteration for another slot counts as
one that has not sent anything yet. -/
def Proposal.slotView (P : Proposal) (q : Int) : Proposal :=
  if P.seq = q then P else Proposal.new P.id P.proposer P.seq P.v P.n P.myDone

/-- The cluster as slot `q` sees it. -/
def Cluster.slotView (s : Cluster) (q : Int) : Cluster :=
  { replicas := fun i => (s.replicas i).slotView q,
    proposals := s.proposals.map (fun P => P.slotView q) }

/-- The inductive invariant behind consensus safety: `doneFreed_` is never
negative, and the slot invariant holds of every slot that is live. -/
structure Cluster.Inv (N : Nat) (s : Cluster) : Prop where
  freedNonneg : ∀ i, i < N → 0 ≤ (s.replicas i).doneFreed_
  slot : ∀ q, s.live N q = true → (s.slotView q).SlotInv N

/-- Two operations proposed for the same slot in the example run. -/
def exampleOpA : Op :=
  ⟨OpType.PUT, "r".toList, "c".toList, "1".toList, [], "A".toList, "-".toList⟩

/-- The second operation of the example run. -/
def exampleOpB : Op :=
  ⟨OpType.PUT, "r".toList, "c".toList, "2".toList, [], "B".toList, "-".toList⟩

/-- A run of three replicas: replicas 0 and 1 propose `A` and `B` for slot 0
concurrently, the proposal of replica 1 wins, replica 0 loses a Prepare reply,
fails its accept phase, retries and adopts `B`. -/
def exampleRun : List Event :=
  [Event.propose 0 0 exampleOpA, Event.propose 1 0 exampleOpB,
   Event.prepareCall 0 0 true true, Event.prepareCall 1 1 true true,
   Event.prepareCall 0 2 true true, Event.prepareCall 1 2 true true,
   Event.prepareCall 1 0 false false,
   Event.donePrepare 0, Event.donePrepare 1,
   Event.acceptCall 1 1 true true, Event.acceptCall 1 2 true true, Event.doneAccept 1,
   Event.acceptCall 0 0 true true, Event.acceptCall 0 2 true true,
   Event.acceptCall 0 1 true true, Event.doneAccept 0,
   Event.decideCall 1 1, Event.decideCall 1 2,
   Event.propose 0 0 exampleOpA, Event.prepareCall 2 0 true true,
   Event.prepareCall 2 1 true true, Event.donePrepare 2,
   Event.acceptCall 2 0 true true, Event.acceptCall 2 1 true true, Event.doneAccept 2,
   Event.decideCall 2 0]

/-- The state the example run ends in. -/
def exampleCluster : Cluster :=
  (Cluster.run 3 (Cluster.init 3) exampleRun).getD (Cluster.init 3)

/-- The example run continued: every replica calls `Done(0)`, replica 0 runs
`propose` for slot 1, learns from the Prepare replies that all peers are done
with slot 0, and frees slot 0 in the `collectGarbage()` that closes its
iteration; replica 1 learns the decision for slot 1. -/
def exampleRunDone : List Event :=
  exampleRun ++
  [Event.done 0 0, Event.done 1 0, Event.done 2 0,
   Event.propose 0 1 exampleOpA,
   Event.prepareCall 3 0 true true, Event.prepareCall 3 1 true true,
   Event.prepareCall 3 2 true true, Event.donePrepare 3,
   Event.acceptCall 3 0 true true, Event.acceptCall 3 1 true true,
   Event.acceptCall 3 2 true true, Event.doneAccept 3,
   Event.decideCall 3 0, Event.decideCall 3 1]

/-- The state the continued example run ends in. -/
def exampleClusterDone : Cluster :=
  (Cluster.run 3 (Cluster.init 3) exampleRunDone).getD (Cluster.init 3)

/-! ## Paxos: the calls of one replica and its done table -/

/-- What can happen on one replica: a `Done` call, the arrival of a Prepare,
Accept or Decide, the end of one of its own Prepare threads (peer `i`
answered, or the call failed and `reply` is default-constructed), a
`MinKnownSeq` call, and the head of an iteration of `propose`. -/
inductive ReplicaCall where
  | Done (seq : Int)
  | Prepare (args : PrepareArgs)
  | prepareReply (i : Nat) (reply : PrepareReply)
  | Accept (args : AcceptArgs)
  | Decide (args : DecideArgs)
  | MinKnownSeq
  | proposeHead (seq : Int)
  deriving DecidableEq, Repr

/-- The calls of a replica in a cluster of `N` peers: the sender of a Prepare and
the peer of a Prepare thread are indices of `peers_`. -/
def ReplicaCall.admissible (N : Nat) : ReplicaCall → Prop
  | .Prepare args => 0 ≤ args.sender ∧ args.sender < (N : Int)
  | .prepareReply i _ => i < N
  | _ => True

instance (N : Nat) : DecidablePred (ReplicaCall.admissible N) := fun c => by
  cases c <;> unfold ReplicaCall.admissible <;> infer_instance

/-- A value of type `int` other than `INT_MAX`. -/
def belowIntMax (x : Int) : Prop := INT_MIN ≤ x ∧ x < INT_MAX

instance : DecidablePred belowIntMax := fun x => by unfold belowIntMax; infer_instance

/-- The calls whose `done` value (the argument of `Done`, the field of a Prepare
or of a Prepare reply) is an `int` other than `INT_MAX`. -/
def ReplicaCall.doneBelowMax : ReplicaCall → Prop
  | .Done seq => belowIntMax seq
  | .Prepare args => belowIntMax args.done
  | .prepareReply _ reply => belowIntMax reply.done
  | _ => True

instance : DecidablePred ReplicaCall.doneBelowMax := fun c => by
  cases c <;> unfold ReplicaCall.doneBelowMax <;> infer_instance

/-- The state of the replica after one call. -/
def PaxosImpl.call (r : PaxosImpl) : ReplicaCall → PaxosImpl
  | .Done seq => r.Done seq
  | .Prepare args => (r.Prepare args).2
  | .prepareReply i reply => r.notePeerDone (i : Int) reply.done
  | .Accept args => (r.Accept args).2
  | .Decide args => (r.Decide args).2
  | .MinKnownSeq => r.MinKnownSeq.2
  | .proposeHead seq => (r.proposeHead seq).2

/-- The state of the replica after a sequence of calls. -/
def PaxosImpl.calls (r : PaxosImpl) : List ReplicaCall → PaxosImpl
  | [] => r
  | c :: rest => PaxosImpl.calls (r.call c) rest

/-- Two `peerDone_` maps with the same keys, the second with values at least as large. -/
def PeerDoneLe (a b : List (Int × Int)) : Prop :=
  List.Forall₂ (fun x y => x.1 = y.1 ∧ x.2 ≤ y.2) a b

/-- The map `peerDone_` has an entry for every peer index below `N`. -/
def HasPeers (N : Nat) (m : List (Int × Int)) : Prop :=
  ∀ k : Int, 0 ≤ k → k < (N : Int) → ∃ v, peerDoneFind k m = some v

/-- Every value of the map `peerDone_` is an `int` other than `INT_MAX`. -/
def PeerDoneBelowMax (m : List (Int × Int)) : Prop := ∀ e ∈ m, belowIntMax e.2

/-! ## Logger.hpp, and the constructor and request loop of KVSServer.hpp -/

/-- The macro `GLOBAL_SEQ_LOG`. -/
def GLOBAL_SEQ_LOG : Str := "global_seq.state".toList

/-- The decimal digit `d`, as a character. -/
def digitChar (d : Nat) : Char := Char.ofNat (48 + d)

/-- The decimal digits of `n`, most significant first; `fuel` bounds the number
of divisions and `n` itself is always enough. -/
def natDigits : Nat → Nat → Str
  | 0, n => [digitChar (n % 10)]
  | fuel + 1, n =>
    if n < 10 then [digitChar n] else natDigits fuel (n / 10) ++ [digitChar (n % 10)]

/-- Source: `std::to_string(int)`. -/
def to_string (i : Int) : Str :=
  if i < 0 then '-' :: natDigits i.natAbs i.natAbs else natDigits i.natAbs i.natAbs

/-- The test `std::isspace` in the C locale. -/
def isspace (c : Char) : Bool :=
  c = ' ' || (9 ≤ c.toNat && c.toNat ≤ 13)

/-- The value of the leading run of decimal digits of a string, continuing from `acc`. -/
def readDigits (acc : Nat) : Str → Nat
  | [] => acc
  | c :: rest => if c.isDigit then readDigits (acc * 10 + (c.toNat - 48)) rest else acc

/-- Whether the string starts with a decimal digit. -/
def startsWithDigit : Str → Bool
  | [] => false
  | c :: _ => c.isDigit

/-- Source: `std::stoi`, and the extraction `stream >> int`: leading white space is
skipped, then an optional sign and a run of digits are read. `none` stands for
the failure to read any digit (`std::invalid_argument` in `std::stoi`). Integers
are unbounded here, so `std::out_of_range` does not arise. -/
def stoi (s : Str) : Option Int :=
  match s.dropWhile isspace with
  | '-' :: rest => if startsWithDigit rest then some (-(readDigits 0 rest : Int)) else none
  | '+' :: rest => if startsWithDigit rest then some (readDigits 0 rest : Int) else none
  | rest => if startsWithDigit rest then some (readDigits 0 rest : Int) else none

/-- The log directory `logDir_` on disk: whether it exists, its files other than
`global_seq.state` by name, and the text of `global_seq.state` if that file
exists. Every file other than `global_seq.state` is taken to hold a serialized
`Op`, and is kept as the message that `ParseFromIstream` reads back from what
`SerializeToOstream` wrote. -/
structure LogDir where
  present : Bool
  logs : List (Str × Op)
  globalSeqState : Option Str
  deriving DecidableEq, Repr

/-- A log directory that does not exist yet. -/
def LogDir.absent : LogDir := { present := false, logs := [], globalSeqState := none }

/-- The message in the file `name`, if the file exists. -/
def readLog (name : Str) : List (Str × Op) → Option Op
  | [] => none
  | f :: rest => if f.1 = name then some f.2 else readLog name rest

/-- Create or truncate the file `name` and write the serialized `op`. -/
def writeLog (name : Str) (op : Op) : List (Str × Op) → List (Str × Op)
  | [] => [(name, op)]
  | f :: rest => if f.1 = name then (name, op) :: rest else f :: writeLog name op rest

/-- The file names `directory_iterator(logDir_)` yields. -/
def LogDir.fileNames (d : LogDir) : List Str :=
  d.logs.map Prod.fst ++ (if d.globalSeqState.isSome then [GLOBAL_SEQ_LOG] else [])

/-- State of a `Logger`, together with the directory it writes to. -/
structure Logger where
  dir : LogDir
  counter_ : Int
  currLogIndex_ : Int
  deriving DecidableEq, Repr

/-- The constructor `Logger(directory)`, on a directory with contents `dir`. -/
def Logger.new (dir : LogDir) : Logger := { dir := dir, counter_ := 0, currLogIndex_ := 0 }

/-- One step of the loop of `Logger::getMaxLogIndex`; `none` once `std::stoi` has thrown. -/
def maxLogIndexStep (acc : Option Int) (filename : Str) : Option Int :=
  match acc with
  | none => none
  | some maxIndex =>
    if filename.length > 4 ∧ filename.drop (filename.length - 4) = ".log".toList then
      match stoi (filename.take (filename.length - 4)) with
      | none => none
      | some k => some (max maxIndex k)
    else some maxIndex

/-- Source: `Logger::getMaxLogIndex`; `none` when `std::stoi` throws. -/
def getMaxLogIndex (d : LogDir) : Option Int :=
  d.fileNames.foldl maxLogIndexStep (some (-1))

/-- Source: `Logger::Recoverable`. -/
def Logger.Recoverable (lg : Logger) : Except Err Bool × Logger :=
  if !lg.dir.present then (.ok false, lg)
  else
    match getMaxLogIndex lg.dir with
    | none => (.error Err.invalid_argument, lg)
    | some m => (.ok (decide (m + 1 > 0)), { lg with counter_ := m + 1 })

/-- Source: `Logger::RecoverGlobalSeq`: the flag returned and the new value of the
caller's `globalSeq` (0 when the file holds no number). -/
def Logger.RecoverGlobalSeq (lg : Logger) (globalSeq : Int) : Bool × Int :=
  match lg.dir.globalSeqState with
  | none => (false, globalSeq)
  | some text => (true, (stoi text).getD 0)

/-- Source: `Logger::HasNextOp`. -/
def Logger.HasNextOp (lg : Logger) : Bool := decide (lg.currLogIndex_ < lg.counter_)

/-- Source: `Logger::RecoverOp`. -/
def Logger.RecoverOp (lg : Logger) : Except Err Op × Logger :=
  match readLog (to_string lg.currLogIndex_ ++ ".log".toList) lg.dir.logs with
  | none => (.error Err.runtime_error, lg)
  | some op => (.ok op, { lg with currLogIndex_ := lg.currLogIndex_ + 1 })

/-- Source: `Logger::Log`. Creating the directory and opening the two files always
succeed here. -/
def Logger.Log (lg : Logger) (op : Op) (globalSeq : Int) : Bool × Logger :=
  let name := to_string lg.counter_ ++ ".log".toList
  let d : LogDir := ⟨true, writeLog name op lg.dir.logs, some (to_string globalSeq)⟩
  (true, { lg with dir := d, counter_ := lg.counter_ + 1 })

/-- Successive `Log` calls, each with its operation and its `globalSeq` argument. -/
def Logger.logAll (lg : Logger) : List (Op × Int) → Logger
  | [] => lg
  | e :: rest => Logger.logAll (lg.Log e.1 e.2).2 rest

/-- The loop `while (HasNextOp()) RecoverOp(op)`, collecting the operations. -/
def Logger.recoverAll : Nat → Logger → Except Err (List Op) × Logger
  | 0, lg => (.ok [], lg)
  | fuel + 1, lg =>
    if lg.HasNextOp then
      match lg.RecoverOp with
      | (.error e, lg1) => (.error e, lg1)
      | (.ok op, lg1) =>
        match Logger.recoverAll fuel lg1 with
        | (.error e, lg2) => (.error e, lg2)
        | (.ok ops, lg2) => (.ok (op :: ops), lg2)
    else (.ok [], lg)

/-- A `KVSServer` together with the logger it holds (`logger_`). The Paxos
instance `paxos_` is represented by the map from slots to decided operations
that the calls below take, and by the events they record. -/
structure KVSNode where
  server : KVSServer
  logger_ : Logger

/-- What `makeAgreementAndApplyChange` does, in order: `paxos_->Start`,
`logger_->Log`, `applyChange` and `paxos_->Done`. -/
inductive ServerEvent where
  | Start (seq : Int) (op : Op)
  | Log (op : Op) (globalSeq : Int)
  | Apply (op : Op)
  | Done (seq : Int)
  deriving DecidableEq, Repr

/-- Operations applied one after the other, each with the clock reading and the
string capacities of its call, up to the first that raises. -/
def KVSServer.applyAll (sv : KVSServer) : List (Op × CallEnv) → Option Err × KVSServer
  | [] => (none, sv)
  | e :: rest =>
    match sv.applyChange e.1 e.2 with
    | (.error err, sv1) => (some err, sv1)
    | (.ok _, sv1) => KVSServer.applyAll sv1 rest

/-- The first loop of `makeAgreementAndApplyChange`: `Start(seq, op)`, wait for
the decision of slot `seq`, stop when it carries the request id of `op`, else
go on with `seq + 1`. `decided` gives the operation `waitForAgreement` returns
for each slot; `none` when the fuel runs out. -/
def proposeUntilAgreed (decided : Int → Op) (op : Op) :
    Nat → Int → Option (Int × List ServerEvent)
  | 0, _ => none
  | fuel + 1, seq =>
    if op.requestid = (decided seq).requestid then some (seq, [ServerEvent.Start seq op])
    else
      match proposeUntilAgreed decided op fuel (seq + 1) with
      | none => none
      | some r => some (r.1, ServerEvent.Start seq op :: r.2)

/-- The catch-up loop of `makeAgreementAndApplyChange`, for `n` slots from `i`
on: each missed operation is logged with the unchanged `globalSeq_` and then
applied with the clock reading and string capacities `clock i`. Returns the
exception that ended the loop, if any, the state and the events. -/
def KVSNode.catchUp (decided : Int → Op) (clock : Int → CallEnv) :
    Nat → Int → KVSNode → Option Err × KVSNode × List ServerEvent
  | 0, _, nd => (none, nd, [])
  | n + 1, i, nd =>
    let missedOp := decided i
    let lg := (nd.logger_.Log missedOp nd.server.globalSeq_).2
    let evs := [ServerEvent.Log missedOp nd.server.globalSeq_, ServerEvent.Apply missedOp]
    match nd.server.applyChange missedOp (clock i) with
    | (.error e, sv) => (some e, ⟨sv, lg⟩, evs)
    | (.ok _, sv) =>
      let r := KVSNode.catchUp decided clock n (i + 1) ⟨sv, lg⟩
      (r.1, r.2.1, evs ++ r.2.2)

/-- Source: `KVSServer::makeAgreementAndApplyChange`. Returns the output or the
exception raised, the state and the events performed; `none` when the fuel of
the first loop runs out. -/
def KVSNode.makeAgreementAndApplyChange (nd : KVSNode) (decided : Int → Op)
    (clock : Int → CallEnv) (fuel : Nat) (op : Op) :
    Option (Except Err OpOutput × KVSNode × List ServerEvent) :=
  match proposeUntilAgreed decided op fuel (nd.server.globalSeq_ + 1) with
  | none => none
  | some (seq, starts) =>
    let c := nd.catchUp decided clock (seq - (nd.server.globalSeq_ + 1)).toNat
      (nd.server.globalSeq_ + 1)
    match c.1 with
    | some e => some (.error e, c.2.1, starts ++ c.2.2)
    | none =>
      let g := c.2.1.server.globalSeq_
      let lg := (c.2.1.logger_.Log op (g + 1)).2
      let evs := starts ++ c.2.2 ++ [ServerEvent.Log op (g + 1), ServerEvent.Apply op]
      match c.2.1.server.applyChange op (clock seq) with
      | (.error e, sv) => some (.error e, ⟨sv, lg⟩, evs)
      | (.ok output, sv) =>
        some (.ok output, ⟨{ sv with globalSeq_ := seq }, lg⟩, evs ++ [ServerEvent.Done seq])

/-- The recovery loop of the constructor: `while (logger_->HasNextOp())`
`RecoverOp(op); applyChange(op);`, the operation of log index `k` being applied
with the clock reading and string capacities `clock k`. -/
def KVSNode.recoverLoop (clock : Int → CallEnv) : Nat → KVSNode → Option Err × KVSNode
  | 0, nd => (none, nd)
  | fuel + 1, nd =>
    if nd.logger_.HasNextOp then
      match nd.logger_.RecoverOp with
      | (.error e, lg) => (some e, ⟨nd.server, lg⟩)
      | (.ok op, lg) =>
        match nd.server.applyChange op (clock nd.logger_.currLogIndex_) with
        | (.error e, sv) => (some e, ⟨sv, lg⟩)
        | (.ok _, sv) => KVSNode.recoverLoop clock fuel ⟨sv, lg⟩
    else (none, nd)

/-- The constructor `KVSServer(me, paxos, store, logger)`. The loop runs at most
`counter_ - currLogIndex_` times. -/
def KVSNode.new (me : Nat) (st : Store) (lg : Logger) (clock : Int → CallEnv) :
    Except Err KVSNode :=
  let sv0 := KVSServer.new me st
  match lg.Recoverable with
  | (.error e, _) => .error e
  | (.ok false, lg1) => .ok ⟨sv0, lg1⟩
  | (.ok true, lg1) =>
    let g := (lg1.RecoverGlobalSeq sv0.globalSeq_).2
    let r := KVSNode.recoverLoop clock (lg1.counter_ - lg1.currLogIndex_).toNat
      ⟨{ sv0 with globalSeq_ := g }, lg1⟩
    match r.1 with
    | some e => .error e
    | none => .ok r.2

/-- The operations decided at the `n` slots from `i` on, each with the clock
reading at which it is applied. -/
def decidedOps (decided : Int → Op) (clock : Int → CallEnv) : Nat → Int → List (Op × CallEnv)
  | 0, _ => []
  | n + 1, i => (decided i, clock i) :: decidedOps decided clock n (i + 1)

/-- The same operations, each with the `globalSeq` argument `g` of its `Log` call. -/
def decidedLogs (decided : Int → Op) (g : Int) : Nat → Int → List (Op × Int)
  | 0, _ => []
  | n + 1, i => (decided i, g) :: decidedLogs decided g n (i + 1)

/-- The sequence the specification states for a call that wins slot `i + n` with
`global_seq = g` on entry: `Log(d_i), Apply(d_i), ...` for the `n` missed slots
from `i` on, then `Log(op), Apply(op)` and `Done(i + n)`. -/
def specEvents (decided : Int → Op) (op : Op) (g : Int) : Nat → Int → List ServerEvent
  | 0, i => [ServerEvent.Log op (g + 1), ServerEvent.Apply op, ServerEvent.Done i]
  | n + 1, i =>
    ServerEvent.Log (decided i) g :: ServerEvent.Apply (decided i) ::
      specEvents decided op g n (i + 1)

/-- The proposals `Start(i, op), ..., Start(i + n, op)` that precede them. -/
def specStarts (op : Op) : Nat → Int → List ServerEvent
  | 0, i => [ServerEvent.Start i op]
  | n + 1, i => ServerEvent.Start i op :: specStarts op n (i + 1)

/-- The files `k.log, (k+1).log, ...` holding the given operations in order. -/
def logFiles : List Op → Nat → List (Str × Op)
  | [], _ => []
  | o :: rest, k => (to_string (k : Int) ++ ".log".toList, o) :: logFiles rest (k + 1)

/-- The given operations in order, each with the clock reading at which the
recovery loop applies it: the operation of log index `k` at `clock k`. -/
def replayOps (clock : Int → CallEnv) : List Op → Nat → List (Op × CallEnv)
  | [], _ => []
  | o :: rest, k => (o, clock (k : Int)) :: replayOps clock rest (k + 1)

/-- The log directory after successive `Log` calls of a fresh logger on a
directory without files (`present` says whether the directory existed). -/
def loggedDir (present : Bool) (entries : List (Op × Int)) : LogDir :=
  ((Logger.new ⟨present, [], none⟩).logAll entries).dir

/-- A new `Store` object over the sstable directory of an earlier one, as
`main.cc` creates at start-up: the cache and the lock table are empty, the files
are those on disk. -/
def Store.reopen (s : Store) : Store :=
  { Store.new s.sstableDirectory_ s.scheduler_.capacity_ with disk := s.disk }

/-- Requests served one after the other by `makeAgreementAndApplyChange`: the
outputs (or exceptions) and the final state; `none` when the fuel runs out. -/
def KVSNode.serveAll (nd : KVSNode) (decided : Int → Op) (clock : Int → CallEnv) (fuel : Nat) :
    List Op → Option (List (Except Err OpOutput) × KVSNode)
  | [] => some ([], nd)
  | op :: rest =>
    match nd.makeAgreementAndApplyChange decided clock fuel op with
    | none => none
    | some r =>
      match KVSNode.serveAll r.2.1 decided clock fuel rest with
      | none => none
      | some r1 => some (r.1 :: r1.1, r1.2)

/-- A replica started for the first time: empty store with a cache of 100 bytes,
no log directory. -/
def exampleNode : KVSNode :=
  ⟨KVSServer.new 0 (Store.new "db".toList 100), Logger.new LogDir.absent⟩

/-- Decisions in which slot 0 went to operation `A` of another replica and the
later slots go to `B`. -/
def exampleDecided (i : Int) : Op := if i = 0 then exampleOpA else exampleOpB

/-- The clock and the string capacities of the examples: every call at time 0,
with strings that fit the 15 bytes of the local buffer. -/
def exampleClock (_ : Int) : CallEnv := ⟨0, 15, 15⟩

/-- Two log entries: `A` logged with `globalSeq = -1`, `B` with `globalSeq = 0`. -/
def exampleEntries : List (Op × Int) := [(exampleOpA, -1), (exampleOpB, 0)]

/-- Ten PUT requests with distinct keys and request ids. -/
def examplePuts : List Op :=
  (List.range 10).map (fun (k : Nat) =>
    ⟨OpType.PUT, to_string (k : Int), "c".toList, 'v' :: to_string (k : Int), [],
      'R' :: to_string (k : Int), "-".toList⟩)

/-- Decisions of a single replica that serves `examplePuts` without contention:
slot `i` goes to the i-th request. -/
def examplePutsDecided (i : Int) : Op := examplePuts.getD i.toNat Op.fresh

/-- The requests `PUT(abc, bcd, 5)` with request id `R0` and `CPUT(abc, bcd, 5 -> 6)`
with request id `R1`. -/
def examplePut5 : Op :=
  ⟨OpType.PUT, "abc".toList, "bcd".toList, "5".toList, [], "R0".toList, "-".toList⟩

/-- The request `CPUT(abc, bcd, 5 -> 6)` with request id `R1`. -/
def exampleCPut : Op :=
  ⟨OpType.CPUT, "abc".toList, "bcd".toList, "6".toList, "5".toList, "R1".toList, "-".toList⟩

/-- Decisions of a single replica that serves `examplePut5`, then `exampleCPut`,
then `exampleCPut` again. -/
def exampleRetryDecided (i : Int) : Op := if i = 0 then examplePut5 else exampleCPut

/-- The request `PUT(abc, bcd, 7)` with request id `R2`. -/
def examplePut7 : Op :=
  ⟨OpType.PUT, "abc".toList, "bcd".toList, "7".toList, [], "R2".toList, "-".toList⟩

/-- Decisions of a single replica that serves `examplePut5`, `examplePut7` and
then `examplePut5` again. -/
def exampleRetryPutDecided (i : Int) : Op :=
  if i = 0 then examplePut5 else if i = 1 then examplePut7 else examplePut5

/-- A replica started for the first time over a store with a cache of 50 bytes. -/
def exampleSmallNode : KVSNode :=
  ⟨KVSServer.new 0 (Store.new "db".toList 50), Logger.new LogDir.absent⟩

/-- The request `PUT(a, x, v)` with a value of 20 characters and request id `R0`. -/
def exampleBigPut : Op :=
  ⟨OpType.PUT, "a".toList, "x".toList, List.replicate 20 'v', [], "R0".toList, "-".toList⟩

/-- The request `GET(a, x)` with request id `R1`. -/
def exampleGet : Op :=
  ⟨OpType.GET, "a".toList, "x".toList, [], [], "R1".toList, "-".toList⟩

/-- Decisions of a single replica that serves `exampleBigPut`, then `exampleGet`. -/
def exampleBigDecided (i : Int) : Op := if i = 0 then exampleBigPut else exampleGet

/-- Calls at time 0 whose strings hold 20 characters exactly. -/
def exampleBigClock (_ : Int) : CallEnv := ⟨0, 20, 20⟩

/-! ## KVSClient.cc, and further Paxos.hpp entry points -/

/-- Source: `PaxosImpl::parseUniqueN`: the pair `(seq, peerID)` it stores. -/
def parseUniqueN (n : Int) : Int × Int :=
  (n >>> PEER_ID_BITS, Int.land n ((1 <<< (PEER_ID_BITS : Int)) - 1))

/-- A step of one replica: one of the calls of `ReplicaCall`, or a `Start`,
`Status` or `MaxKnownSeq` call of the application. -/
inductive ReplicaStep where
  | call (c : ReplicaCall)
  | Start (seq : Int) (v : Op)
  | Status (seq : Int)
  | MaxKnownSeq
  deriving DecidableEq, Repr

/-- The state of the replica after one step. -/
def PaxosImpl.step (r : PaxosImpl) : ReplicaStep → PaxosImpl
  | .call c => r.call c
  | .Start seq v => (r.Start seq v).2
  | .Status seq => (r.Status seq).2
  | .MaxKnownSeq => r

/-- The state of the replica after a sequence of steps. -/
def PaxosImpl.steps (r : PaxosImpl) : List ReplicaStep → PaxosImpl
  | [] => r
  | s :: rest => PaxosImpl.steps (r.step s) rest

/-- The replies fed to `SharedPrepareState::update` one after the other, each
with the transport status of its call. -/
def SharedPrepareState.updateAll (st : SharedPrepareState) :
    List (PrepareReply × Bool) → SharedPrepareState
  | [] => st
  | x :: rest => SharedPrepareState.updateAll (st.update x.1 x.2) rest

/-- Whether `update` counts a reply: the call succeeded and the reply has `ok`. -/
def countedReply (x : PrepareReply × Bool) : Bool := x.2 && x.1.ok

/-- Source: `KVSClient::validateArgs`. -/
def validateArgs (row col : Str) : Except Err Unit :=
  if row = [] ∨ col = [] then .error Err.invalid_argument
  else if ' ' ∈ row ∨ ' ' ∈ col then .error Err.invalid_argument
  else .ok ()

/-- The message `PutArgs`. -/
structure PutArgs where
  row : Str
  col : Str
  newvalue : Str
  currvalue : Str
  option : Int
  requestid : Str
  lockid : Str
  deriving DecidableEq, Repr

/-- The message `GetArgs`. -/
structure GetArgs where
  row : Str
  col : Str
  requestid : Str
  lockid : Str
  deriving DecidableEq, Repr

/-- A default-constructed `GetArgs`. -/
def GetArgs.new : GetArgs := { row := [], col := [], requestid := [], lockid := [] }

/-- The message `LockArgs`. -/
structure LockArgs where
  row : Str
  lockid : Str
  requestid : Str
  deriving DecidableEq, Repr

/-- A default-constructed `LockArgs`. -/
def LockArgs.new : LockArgs := { row := [], lockid := [], requestid := [] }

/-- The part of a `KVSClient` that the construction of a request reads. -/
structure KVSClient where
  transactionID_ : Nat
  clientID_ : Nat
  deriving DecidableEq, Repr

/-- The constructors of `KVSClient`: `transactionID_ = 1`, `clientID_ = nrand()`. -/
def KVSClient.new (rnd : Nat) : KVSClient := { transactionID_ := 1, clientID_ := rnd }

/-- Source: `KVSClient::generateID`, with the reading of the system clock and the
result of `nrand()` it uses. -/
def KVSClient.generateID (c : KVSClient) (wallclock : Int) (rnd : Nat) : Str :=
  to_string (c.clientID_ : Int) ++ ['-'] ++ to_string wallclock ++ ['-'] ++
    to_string (c.transactionID_ : Int) ++ ['-'] ++ to_string (rnd : Int)

/-- The request `args` that `KVSClient::DoPut` builds and then sends to the
servers of the row's cluster in turn. `to_base64` is `base64::to_base64`. -/
def KVSClient.DoPut (c : KVSClient) (to_base64 : Str → Str) (wallclock : Int) (rnd : Nat)
    (row col newValue oldValue key : Str) (option : Int) : PutArgs :=
  { row := row, col := col, newvalue := to_base64 newValue, currvalue := to_base64 oldValue,
    option := option, requestid := c.generateID wallclock rnd, lockid := key }

/-- The request `args` that `KVSClient::DoGet` builds. -/
def KVSClient.DoGet (c : KVSClient) (wallclock : Int) (rnd : Nat) (row col key : Str) :
    GetArgs :=
  { row := row, col := col, requestid := c.generateID wallclock rnd, lockid := key }

/-- The request `args` that `KVSClient::DoSetNX` builds: `keyRnd` is the `nrand()`
of the lock key, `rnd` that of the request id. -/
def KVSClient.DoSetNX (c : KVSClient) (wallclock : Int) (keyRnd rnd : Nat) (row : Str) :
    LockArgs :=
  { row := row, lockid := to_string (keyRnd : Int), requestid := c.generateID wallclock rnd }

/-- The request `args` that `KVSClient::DoDel` builds. -/
def KVSClient.DoDel (c : KVSClient) (wallclock : Int) (rnd : Nat) (row : Str) : LockArgs :=
  { LockArgs.new with row := row, requestid := c.generateID wallclock rnd }

/-- The request `args` that `KVSClient::DoGetAllRows` sends: it sets no field. -/
def KVSClient.DoGetAllRows (_c : KVSClient) : GetArgs := GetArgs.new

/-- The request `args` that `KVSClient::DoGetColsInRow` builds. -/
def KVSClient.DoGetColsInRow (_c : KVSClient) (row key : Str) : GetArgs :=
  { GetArgs.new with row := row, lockid := key }

/-- Source: `KVSClient::Put`: the exception of `validateArgs`, or the request sent. -/
def KVSClient.Put (c : KVSClient) (to_base64 : Str → Str) (wallclock : Int) (rnd : Nat)
    (row col value key : Str) : Except Err PutArgs :=
  match validateArgs row col with
  | .error e => .error e
  | .ok _ => .ok (c.DoPut to_base64 wallclock rnd row col value [] key 0)

/-- Source: `KVSClient::CPut`. -/
def KVSClient.CPut (c : KVSClient) (to_base64 : Str → Str) (wallclock : Int) (rnd : Nat)
    (row col oldValue newValue key : Str) : Except Err PutArgs :=
  match validateArgs row col with
  | .error e => .error e
  | .ok _ => .ok (c.DoPut to_base64 wallclock rnd row col newValue oldValue key 1)

/-- Source: `KVSClient::Get`. -/
def KVSClient.Get (c : KVSClient) (wallclock : Int) (rnd : Nat) (row col key : Str) :
    Except Err GetArgs :=
  match validateArgs row col with
  | .error e => .error e
  | .ok _ => .ok (c.DoGet wallclock rnd row col key)

/-- Source: `KVSClient::Delete`. -/
def KVSClient.Delete (c : KVSClient) (to_base64 : Str → Str) (wallclock : Int) (rnd : Nat)
    (row col key : Str) : Except Err PutArgs :=
  match validateArgs row col with
  | .error e => .error e
  | .ok _ => .ok (c.DoPut to_base64 wallclock rnd row col [] [] key 2)

/-- Between two states, the acceptor record of slot `k` was kept or raised:
`HighestSeen` has not decreased, and `HighestAcN ≤ HighestSeen` carries over. -/
def AccKept (r r1 : PaxosImpl) (k : Int) : Prop :=
  (r.acceptorRecord k).HighestSeen ≤ (r1.acceptorRecord k).HighestSeen ∧
  ((r.acceptorRecord k).HighestAcN ≤ (r.acceptorRecord k).HighestSeen →
    (r1.acceptorRecord k).HighestAcN ≤ (r1.acceptorRecord k).HighestSeen)

/-- Between two states, the acceptor record of slot `k` was garbage-collected. -/
def AccErased (r r1 : PaxosImpl) (k : Int) : Prop :=
  r1.acceptorIns_ k = none ∧ r.doneFreed_ < r1.doneFreed_ ∧ k < r1.doneFreed_

/-- What a step does to the acceptor table: `doneFreed_` does not decrease, and
every record is either kept or raised, or garbage-collected. -/
def AccStep (r r1 : PaxosImpl) : Prop :=
  r.doneFreed_ ≤ r1.doneFreed_ ∧ ∀ k, AccErased r r1 k ∨ AccKept r r1 k

/-! ## Theorems: cache, store and lock table -/

theorem totalSize_append (l1 l2 : List KeyValuePair) :
    totalSize (l1 ++ l2) = totalSize l1 + totalSize l2 := by
  induction l1 with
  | nil => simp [totalSize]
  | cons e rest ih => simp [totalSize, ih]; omega

theorem payloadSize_le_totalSize (l : List KeyValuePair) : payloadSize l ≤ totalSize l := by
  induction l with
  | nil => simp [payloadSize, totalSize]
  | cons e rest ih =>
    simp only [payloadSize, totalSize, chargedSize, copyCapacity]
    have : e.2.length ≤ max localCapacity e.2.length := le_max_right _ _
    omega

theorem totalSize_eraseKey (k : Key) (l : List KeyValuePair) (v : Str)
    (h : lookupKey k l = some v) : totalSize (eraseKey k l) + chargedSize v = totalSize l := by
  induction l with
  | nil => simp [lookupKey] at h
  | cons e rest ih =>
    by_cases he : e.1 = k
    · simp [lookupKey, he] at h
      simp [eraseKey, he, totalSize, h]; omega
    · simp [lookupKey, he] at h
      simp [eraseKey, he, totalSize]
      have := ih h
      omega

theorem eraseKey_of_lookup_none (k : Key) (l : List KeyValuePair)
    (h : lookupKey k l = none) : eraseKey k l = l := by
  induction l with
  | nil => rfl
  | cons e rest ih =>
    by_cases he : e.1 = k
    · simp [lookupKey, he] at h
    · simp [lookupKey, he] at h
      simp [eraseKey, he, ih h]

theorem lookupKey_eq_none_iff (k : Key) (l : List KeyValuePair) :
    lookupKey k l = none ↔ k ∉ l.map Prod.fst := by
  induction l with
  | nil => simp [lookupKey]
  | cons e rest ih =>
    by_cases he : e.1 = k
    · simp [lookupKey, he]
    · simp only [lookupKey, he, if_false, ih, List.map_cons, List.mem_cons, not_or]
      exact ⟨fun h => ⟨fun h' => he h'.symm, h⟩, fun h => h.2⟩

theorem lookupKey_some_mem (k : Key) (l : List KeyValuePair) (v : Str)
    (h : lookupKey k l = some v) : (k, v) ∈ l := by
  induction l with
  | nil => simp [lookupKey] at h
  | cons e rest ih =>
    by_cases he : e.1 = k
    · simp [lookupKey, he] at h
      rw [← he, ← h]; exact List.mem_cons_self _ _
    · simp [lookupKey, he] at h
      exact List.mem_cons_of_mem _ (ih h)

theorem lookupKey_append (k : Key) (l1 l2 : List KeyValuePair) :
    lookupKey k (l1 ++ l2) = (lookupKey k l1).orElse (fun _ => lookupKey k l2) := by
  induction l1 with
  | nil => simp [lookupKey]
  | cons e rest ih =>
    by_cases he : e.1 = k
    · simp [lookupKey, he]
    · simp [lookupKey, he, ih]

theorem mem_keys_eraseKey (k k' : Key) (l : List KeyValuePair)
    (h : k' ∈ (eraseKey k l).map Prod.fst) : k' ∈ l.map Prod.fst := by
  induction l with
  | nil => simp [eraseKey] at h
  | cons e rest ih =>
    by_cases he : e.1 = k
    · simp [eraseKey, he] at h
      simp only [List.map_cons, List.mem_cons]; right
      simpa using h
    · simp only [eraseKey, he, if_false, List.map_cons, List.mem_cons] at h ⊢
      rcases h with h | h
      · left; exact h
      · right; exact ih h

theorem nodup_eraseKey (k : Key) (l : List KeyValuePair)
    (h : (l.map Prod.fst).Nodup) : ((eraseKey k l).map Prod.fst).Nodup := by
  induction l with
  | nil => simp [eraseKey]
  | cons e rest ih =>
    simp only [List.map_cons, List.nodup_cons] at h
    by_cases he : e.1 = k
    · simp [eraseKey, he, h.2]
    · simp only [eraseKey, he, if_false, List.map_cons, List.nodup_cons]
      exact ⟨fun hm => h.1 (mem_keys_eraseKey k e.1 rest hm), ih h.2⟩

theorem lookupKey_eraseKey_self (k : Key) (l : List KeyValuePair)
    (h : (l.map Prod.fst).Nodup) : lookupKey k (eraseKey k l) = none := by
  induction l with
  | nil => simp [eraseKey, lookupKey]
  | cons e rest ih =>
    simp only [List.map_cons, List.nodup_cons] at h
    by_cases he : e.1 = k
    · simp only [eraseKey, he, if_true]
      rw [lookupKey_eq_none_iff]; rw [← he]; exact h.1
    · simp [eraseKey, he, lookupKey, ih h.2]

theorem lookupKey_eraseKey_ne (k k' : Key) (l : List KeyValuePair) (hne : k' ≠ k) :
    lookupKey k' (eraseKey k l) = lookupKey k' l := by
  induction l with
  | nil => simp [eraseKey]
  | cons e rest ih =>
    by_cases he : e.1 = k
    · have h1 : e.1 ≠ k' := fun h => hne (h.symm.trans he)
      simp only [eraseKey, if_pos he, lookupKey, if_neg h1]
    · by_cases he' : e.1 = k'
      · simp only [eraseKey, if_neg he, lookupKey, if_pos he']
      · simp only [eraseKey, if_neg he, lookupKey, if_neg he', ih]

/-- The state the callbacks leave when each of them returns. -/
theorem evictLoop_spec {σ : Type} (onEvict : EvictCallback σ) (cap vs : Nat)
    (l : List KeyValuePair) (cur : Nat) (env : σ) :
    ∃ ev, l = ev ++ (evictLoop onEvict cap vs l cur env).2.1 ∧
      (evictLoop onEvict cap vs l cur env).2.2.1 = cur - totalSize ev ∧
      (∀ n, n < ev.length → cap < (cur - totalSize (ev.take n)) + vs) ∧
      (evictLoop onEvict cap vs l cur env).2.2.2 =
        (match (evictLoop onEvict cap vs l cur env).1,
            (evictLoop onEvict cap vs l cur env).2.1 with
          | some _, lru :: _ =>
            (onEvict lru (ev.foldl (fun x e => (onEvict e x).2) env)).2
          | _, _ => ev.foldl (fun x e => (onEvict e x).2) env) ∧
      (∀ e ∈ ev, ∀ pre post, ev = pre ++ e :: post →
        (onEvict e (pre.foldl (fun x e => (onEvict e x).2) env)).1 = none) ∧
      ((evictLoop onEvict cap vs l cur env).1 = none →
        (evictLoop onEvict cap vs l cur env).2.1 = [] ∨
          (evictLoop onEvict cap vs l cur env).2.2.1 + vs ≤ cap) ∧
      (∀ err, (evictLoop onEvict cap vs l cur env).1 = some err →
        ∃ lru rest, (evictLoop onEvict cap vs l cur env).2.1 = lru :: rest ∧
          cap < (evictLoop onEvict cap vs l cur env).2.2.1 + vs ∧
          (onEvict lru (ev.foldl (fun x e => (onEvict e x).2) env)).1 = some err) := by
  induction l generalizing cur env with
  | nil =>
    refine ⟨[], ?_, ?_, ?_, ?_, ?_, ?_, ?_⟩ <;> simp [evictLoop, totalSize]
  | cons lru rest ih =>
    by_cases h : cur + vs > cap
    · cases hcb : onEvict lru env with
      | mk res env1 =>
        cases res with
        | some e =>
          refine ⟨[], ?_, ?_, ?_, ?_, ?_, ?_, ?_⟩
          · simp [evictLoop, h, hcb]
          · simp [evictLoop, h, hcb, totalSize]
          · intro n hn; simp at hn
          · simp [evictLoop, h, hcb]
          · intro e' he'; simp at he'
          · simp [evictLoop, h, hcb]
          · intro err herr
            simp only [evictLoop, if_pos h, hcb] at herr ⊢
            simp only [Option.some.injEq] at herr
            refine ⟨lru, rest, rfl, ?_, ?_⟩
            · omega
            · simp [hcb, herr]
        | none =>
          obtain ⟨ev, h1, h2, h3, h4, h5, h6, h7⟩ := ih (cur - chargedSize lru.2) env1
          have hloop : evictLoop onEvict cap vs (lru :: rest) cur env =
              evictLoop onEvict cap vs rest (cur - chargedSize lru.2) env1 := by
            simp [evictLoop, h, hcb]
          have henv : (onEvict lru env).2 = env1 := by rw [hcb]
          refine ⟨lru :: ev, ?_, ?_, ?_, ?_, ?_, ?_, ?_⟩
          · rw [hloop, List.cons_append, ← h1]
          · rw [hloop, h2]; simp only [totalSize]; omega
          · intro n hn
            cases n with
            | zero => simp [totalSize]; omega
            | succ m =>
              have := h3 m (by simpa using hn)
              simp only [List.take_succ_cons, totalSize]
              omega
          · rw [hloop, h4]
            simp only [List.foldl_cons, henv]
          · intro e he pre post hsplit
            cases pre with
            | nil =>
              simp only [List.nil_append, List.cons.injEq] at hsplit
              rw [← hsplit.1]
              simp [hcb]
            | cons p pre' =>
              simp only [List.cons_append, List.cons.injEq] at hsplit
              rw [← hsplit.1]
              simp only [List.foldl_cons, henv]
              have hmem : e ∈ ev := by rw [hsplit.2]; simp
              exact h5 e hmem pre' post hsplit.2
          · rw [hloop]; exact h6
          · intro err herr
            rw [hloop] at herr ⊢
            obtain ⟨a, b, c1, c2, c3⟩ := h7 err herr
            exact ⟨a, b, c1, c2, by simpa only [List.foldl_cons, henv] using c3⟩
    · refine ⟨[], ?_, ?_, ?_, ?_, ?_, ?_, ?_⟩
      · simp [evictLoop, h]
      · simp [evictLoop, h, totalSize]
      · intro n hn; simp at hn
      · simp [evictLoop, h]
      · intro e' he'; simp at he'
      · intro _; right
        simp only [evictLoop, if_neg h]
        omega
      · intro err herr
        simp [evictLoop, h] at herr

theorem Scheduler.eraseExisting_spec (s : Scheduler) (row col : Str) :
    (s.eraseExisting row col).cacheList_ = eraseKey (row, col) s.cacheList_ ∧
    (s.eraseExisting row col).capacity_ = s.capacity_ ∧
    (s.eraseExisting row col).currSize_ =
      s.currSize_ - (totalSize s.cacheList_ - totalSize (eraseKey (row, col) s.cacheList_)) := by
  unfold Scheduler.eraseExisting
  cases hl : lookupKey (row, col) s.cacheList_ with
  | none =>
    simp only [eraseKey_of_lookup_none _ _ hl]
    exact ⟨trivial, trivial, by omega⟩
  | some old =>
    have := totalSize_eraseKey _ _ _ hl
    refine ⟨rfl, rfl, ?_⟩
    show s.currSize_ - chargedSize old = _
    omega

theorem Scheduler.Put_oversized {σ : Type} (s : Scheduler) (onEvict : EvictCallback σ)
    (row col v : Str) (capacity : Nat) (env : σ) (hbig : s.capacity_ < sizeofValue + capacity) :
    s.Put onEvict row col v capacity env = (some Err.runtime_error, s, env) := by
  simp [Scheduler.Put, hbig]

theorem sublist_keys_nodup (l ev kept : List KeyValuePair) (h : l = ev ++ kept)
    (hnd : (l.map Prod.fst).Nodup) : (kept.map Prod.fst).Nodup ∧ (ev.map Prod.fst).Nodup := by
  rw [h, List.map_append, List.nodup_append] at hnd
  exact ⟨hnd.2.1, hnd.1⟩

/-- What `Scheduler::Put` does with a value that passes the size test, whatever
the callback does. -/
theorem Scheduler.Put_evicts {σ : Type} (s : Scheduler) (onEvict : EvictCallback σ)
    (row col v : Str) (capacity : Nat) (env : σ)
    (hfit : sizeofValue + capacity ≤ s.capacity_) :
    ∃ ev kept, eraseKey (row, col) s.cacheList_ = ev ++ kept ∧
      (s.Put onEvict row col v capacity env).2.1.capacity_ = s.capacity_ ∧
      (∀ n, n < ev.length → s.capacity_ <
        ((s.eraseExisting row col).currSize_ - totalSize (ev.take n)) +
          (sizeofValue + capacity)) ∧
      (∀ e ∈ ev, ∀ pre post, ev = pre ++ e :: post →
        (onEvict e (pre.foldl (fun x e => (onEvict e x).2) env)).1 = none) ∧
      ((s.Put onEvict row col v capacity env).1 = none →
        (s.Put onEvict row col v capacity env).2.1.cacheList_ = kept ++ [((row, col), v)] ∧
        (s.Put onEvict row col v capacity env).2.1.currSize_ =
          ((s.eraseExisting row col).currSize_ - totalSize ev) + (sizeofValue + capacity) ∧
        (s.Put onEvict row col v capacity env).2.2 = ev.foldl (fun x e => (onEvict e x).2) env ∧
        (kept = [] ∨ ((s.eraseExisting row col).currSize_ - totalSize ev) +
          (sizeofValue + capacity) ≤ s.capacity_)) ∧
      (∀ err, (s.Put onEvict row col v capacity env).1 = some err →
        (s.Put onEvict row col v capacity env).2.1.cacheList_ = kept ∧
        (s.Put onEvict row col v capacity env).2.1.currSize_ =
          (s.eraseExisting row col).currSize_ - totalSize ev ∧
        ∃ lru rest, kept = lru :: rest ∧
          (onEvict lru (ev.foldl (fun x e => (onEvict e x).2) env)).1 = some err ∧
          (s.Put onEvict row col v capacity env).2.2 =
            (onEvict lru (ev.foldl (fun x e => (onEvict e x).2) env)).2) := by
  have hnot : ¬ sizeofValue + capacity > s.capacity_ := by omega
  obtain ⟨he1, he2, he3⟩ := Scheduler.eraseExisting_spec s row col
  obtain ⟨ev, h1, h2, h3, h4, h5, h6, h7⟩ := evictLoop_spec onEvict s.capacity_
    (sizeofValue + capacity) (s.eraseExisting row col).cacheList_
    (s.eraseExisting row col).currSize_ env
  refine ⟨ev, (evictLoop onEvict s.capacity_ (sizeofValue + capacity)
    (s.eraseExisting row col).cacheList_ (s.eraseExisting row col).currSize_ env).2.1,
    ?_, ?_, h3, h5, ?_, ?_⟩
  · rw [← he1]; exact h1
  · simp only [Scheduler.Put, if_neg hnot]
    split <;> rfl
  · intro hnone
    simp only [Scheduler.Put, if_neg hnot] at hnone ⊢
    generalize hr : evictLoop onEvict s.capacity_ (sizeofValue + capacity)
      (s.eraseExisting row col).cacheList_ (s.eraseExisting row col).currSize_ env = r at *
    obtain ⟨r1, r2, r3, r4⟩ := r
    cases r1 with
    | some e => simp at hnone
    | none =>
      simp only at h2 h4 h6 ⊢
      refine ⟨trivial, by rw [h2], ?_, ?_⟩
      · rw [h4]
      · rcases h6 trivial with h | h
        · left; exact h
        · right; rw [← h2]; exact h
  · intro err herr
    simp only [Scheduler.Put, if_neg hnot] at herr ⊢
    generalize hr : evictLoop onEvict s.capacity_ (sizeofValue + capacity)
      (s.eraseExisting row col).cacheList_ (s.eraseExisting row col).currSize_ env = r at *
    obtain ⟨r1, r2, r3, r4⟩ := r
    cases r1 with
    | none => simp at herr
    | some e =>
      simp only [Option.some.injEq] at herr
      subst herr
      simp only at h2 h4 h7 ⊢
      obtain ⟨lru, rest, c1, c2, c3⟩ := h7 e rfl
      refine ⟨trivial, h2, lru, rest, c1, c3, ?_⟩
      rw [h4, c1]

/-- The representation invariant survives every `Put`, returning or raising, whose
argument has at least the capacity of a copy of it. -/
theorem Scheduler.Put_WF {σ : Type} (s : Scheduler) (onEvict : EvictCallback σ)
    (row col v : Str) (capacity : Nat) (env : σ) (hwf : s.WF)
    (hcap : copyCapacity v ≤ capacity) :
    (s.Put onEvict row col v capacity env).2.1.WF ∧
    (s.Put onEvict row col v capacity env).2.1.capacity_ = s.capacity_ := by
  obtain ⟨hnd, hsz, hle⟩ := hwf
  by_cases hbig : s.capacity_ < sizeofValue + capacity
  · rw [Scheduler.Put_oversized s onEvict row col v capacity env hbig]
    exact ⟨⟨hnd, hsz, hle⟩, rfl⟩
  · have hfit : sizeofValue + capacity ≤ s.capacity_ := by omega
    obtain ⟨ev, kept, h1, h2, -, -, h5, h6⟩ :=
      Scheduler.Put_evicts s onEvict row col v capacity env hfit
    obtain ⟨he1, he2, he3⟩ := Scheduler.eraseExisting_spec s row col
    have hnd1 := nodup_eraseKey (row, col) _ hnd
    have hself := lookupKey_eraseKey_self (row, col) _ hnd
    have hts : totalSize (eraseKey (row, col) s.cacheList_) = totalSize ev + totalSize kept := by
      rw [h1, totalSize_append]
    have hle1 : totalSize (eraseKey (row, col) s.cacheList_) ≤ totalSize s.cacheList_ := by
      cases hl : lookupKey (row, col) s.cacheList_ with
      | none => rw [eraseKey_of_lookup_none _ _ hl]
      | some old => have := totalSize_eraseKey _ _ _ hl; omega
    obtain ⟨hk1, hk2⟩ := sublist_keys_nodup _ ev kept h1 hnd1
    refine ⟨?_, h2⟩
    cases hres : (s.Put onEvict row col v capacity env).1 with
    | none =>
      obtain ⟨a1, a2, -, a4⟩ := h5 hres
      refine ⟨?_, ?_, ?_⟩
      · rw [a1, List.map_append, List.nodup_append]
        refine ⟨hk1, by simp, ?_⟩
        rw [h1, lookupKey_append] at hself
        intro a ha hb
        simp only [List.map_cons, List.map_nil, List.mem_singleton] at hb
        subst hb
        have hnone : lookupKey (row, col) kept = none := by
          cases h0 : lookupKey (row, col) ev with
          | none => simpa [h0] using hself
          | some x => simp [h0] at hself
        exact (lookupKey_eq_none_iff _ _).mp hnone ha
      · rw [a1, a2, totalSize_append]
        simp only [totalSize, chargedSize]
        omega
      · rw [a1, totalSize_append, h2]
        simp only [totalSize, chargedSize]
        rcases a4 with h | h
        · rw [h]; simp only [totalSize]; omega
        · omega
    | some err =>
      obtain ⟨a1, a2, -⟩ := h6 err hres
      refine ⟨by rw [a1]; exact hk1, ?_, ?_⟩
      · rw [a1, a2]; omega
      · rw [a1, h2]; omega

theorem Scheduler.Get_WF (s : Scheduler) (row col : Str) (hwf : s.WF) :
    (s.Get row col).2.WF ∧ (s.Get row col).2.capacity_ = s.capacity_ := by
  obtain ⟨hnd, hsz, hle⟩ := hwf
  unfold Scheduler.Get
  cases hl : lookupKey (row, col) s.cacheList_ with
  | none => exact ⟨⟨hnd, hsz, hle⟩, rfl⟩
  | some v =>
    dsimp only
    have hts : totalSize (eraseKey (row, col) s.cacheList_ ++ [((row, col), v)]) =
        totalSize s.cacheList_ := by
      simp only [totalSize_append, totalSize]
      have := totalSize_eraseKey _ _ _ hl
      omega
    refine ⟨⟨?_, ?_, ?_⟩, rfl⟩
    · have hnd1 := nodup_eraseKey (row, col) _ hnd
      have hself := lookupKey_eraseKey_self (row, col) _ hnd
      rw [lookupKey_eq_none_iff] at hself
      simp only [List.map_append, List.map_cons, List.map_nil]
      rw [List.nodup_append]
      refine ⟨hnd1, by simp, ?_⟩
      intro a ha hb
      simp only [List.mem_singleton] at hb
      subst hb
      exact hself ha
    · show totalSize _ ≤ s.currSize_
      rw [hts]; exact hsz
    · show totalSize _ ≤ s.capacity_
      rw [hts]; exact hle

theorem Scheduler.Delete_WF (s : Scheduler) (row col : Str) (hwf : s.WF) :
    (s.Delete row col).2.WF ∧ (s.Delete row col).2.capacity_ = s.capacity_ := by
  obtain ⟨hnd, hsz, hle⟩ := hwf
  unfold Scheduler.Delete
  cases hl : lookupKey (row, col) s.cacheList_ with
  | none => exact ⟨⟨hnd, hsz, hle⟩, rfl⟩
  | some v =>
    have := totalSize_eraseKey _ _ _ hl
    dsimp only
    refine ⟨⟨nodup_eraseKey _ _ hnd, ?_, ?_⟩, rfl⟩
    · show totalSize (eraseKey (row, col) s.cacheList_) ≤ s.currSize_ - chargedSize v
      omega
    · show totalSize (eraseKey (row, col) s.cacheList_) ≤ s.capacity_
      omega

theorem Scheduler.Reachable_WF (cap : Nat) (s : Scheduler) (h : Scheduler.Reachable cap s) :
    s.WF ∧ s.capacity_ = cap := by
  induction h with
  | init => exact ⟨⟨by simp [Scheduler.new], by simp [Scheduler.new, totalSize],
      by simp [Scheduler.new, totalSize]⟩, rfl⟩
  | put s onEvict row col value capacity env _ hc ih =>
    have := Scheduler.Put_WF s onEvict row col value capacity env ih.1 hc
    exact ⟨this.1, this.2.trans ih.2⟩
  | get s row col _ ih =>
    have := Scheduler.Get_WF s row col ih.1
    exact ⟨this.1, this.2.trans ih.2⟩
  | delete s row col _ ih =>
    have := Scheduler.Delete_WF s row col ih.1
    exact ⟨this.1, this.2.trans ih.2⟩

theorem ancestors_length (p a : Str) (h : a ∈ ancestors p) : a.length < p.length := by
  induction p generalizing a with
  | nil => simp [ancestors] at h
  | cons c rest ih =>
    simp only [ancestors] at h
    have hsub : ∀ x ∈ (ancestors rest).map (fun q => c :: q), x.length < (c :: rest).length := by
      intro x hx
      obtain ⟨y, hy, rfl⟩ := List.mem_map.mp hx
      have := ih y hy
      simp only [List.length_cons]; omega
    split at h
    · rename_i hh
      rcases List.mem_cons.mp h with h1 | h1
      · subst h1
        cases rest with
        | nil => simp at hh
        | cons d rest' => simp
      · exact hsub a h1
    · exact hsub a h

theorem ancestors_no_slash (n : Str) (hn : '/' ∉ n) : ancestors n = [] := by
  induction n with
  | nil => rfl
  | cons c rest ih =>
    simp only [List.mem_cons, not_or] at hn
    have hr : rest.head? ≠ some '/' := by
      cases rest with
      | nil => simp
      | cons d r =>
        simp only [List.mem_cons, not_or] at hn
        simp only [List.head?_cons, ne_eq, Option.some.injEq]
        exact fun h => hn.2.1 h.symm
    simp [ancestors, ih hn.2, hr]

theorem ancestors_cons (c : Char) (rest : Str) :
    ancestors (c :: rest) =
      if rest.head? = some '/' then [c] :: (ancestors rest).map (fun p => c :: p)
      else (ancestors rest).map (fun p => c :: p) := by
  simp [ancestors]

theorem ancestors_append_slash (p n : Str) (hn : '/' ∉ n) :
    ancestors (p ++ '/' :: n) = ancestors p ++ (if p = [] then [] else [p]) := by
  have hr : n.head? ≠ some '/' := by
    cases n with
    | nil => simp
    | cons d r =>
      simp only [List.mem_cons, not_or] at hn
      simp only [List.head?_cons, ne_eq, Option.some.injEq]
      exact fun h => hn.1 h.symm
  have h0 : ancestors ('/' :: n) = [] := by
    rw [ancestors_cons, if_neg hr, ancestors_no_slash n hn]; rfl
  induction p with
  | nil => simpa [ancestors] using h0
  | cons c rest ih =>
    cases rest with
    | nil =>
      show ancestors (c :: '/' :: n) = ancestors [c] ++ _
      rw [ancestors_cons, h0, ancestors_cons]
      simp [ancestors]
    | cons d r =>
      have ih1 : ancestors (d :: (r ++ '/' :: n)) = ancestors (d :: r) ++ [d :: r] := by
        simpa using ih
      show ancestors (c :: d :: (r ++ '/' :: n)) = ancestors (c :: d :: r) ++ _
      rw [ancestors_cons c (d :: (r ++ '/' :: n)), ancestors_cons c (d :: r), ih1]
      by_cases hd : d = '/'
      · simp [hd]
      · simp [hd]

theorem readFile_writeFile_same (p c : Str) (fs : List (Str × Str)) :
    readFile p (writeFile p c fs) = some c := by
  induction fs with
  | nil => simp [writeFile, readFile]
  | cons f rest ih =>
    by_cases hf : f.1 = p
    · simp [writeFile, hf, readFile]
    · simp [writeFile, hf, readFile, ih]

theorem readFile_writeFile_ne (p p' c : Str) (fs : List (Str × Str)) (hne : p' ≠ p) :
    readFile p' (writeFile p c fs) = readFile p' fs := by
  induction fs with
  | nil => simp [writeFile, readFile, hne.symm]
  | cons f rest ih =>
    by_cases hf : f.1 = p
    · have h1 : f.1 ≠ p' := fun h => hne (h.symm.trans hf)
      simp only [writeFile, if_pos hf, readFile, if_neg h1, if_neg hne.symm]
    · by_cases hf' : f.1 = p'
      · simp only [writeFile, if_neg hf, readFile, if_pos hf']
      · simp only [writeFile, if_neg hf, readFile, if_neg hf', ih]

theorem mem_writeFile (p c : Str) (fs : List (Str × Str)) (f : Str × Str)
    (h : f ∈ writeFile p c fs) : f = (p, c) ∨ f ∈ fs := by
  induction fs with
  | nil => simp [writeFile] at h; exact Or.inl h
  | cons g rest ih =>
    by_cases hg : g.1 = p
    · simp only [writeFile, if_pos hg, List.mem_cons] at h
      rcases h with h | h
      · exact Or.inl h
      · exact Or.inr (List.mem_cons_of_mem _ h)
    · simp only [writeFile, if_neg hg, List.mem_cons] at h
      rcases h with h | h
      · exact Or.inr (by rw [h]; exact List.mem_cons_self _ _)
      · rcases ih h with h1 | h1
        · exact Or.inl h1
        · exact Or.inr (List.mem_cons_of_mem _ h1)

theorem readFile_some_mem (p c : Str) (fs : List (Str × Str)) (h : readFile p fs = some c) :
    (p, c) ∈ fs := by
  induction fs with
  | nil => simp [readFile] at h
  | cons f rest ih =>
    by_cases hf : f.1 = p
    · simp only [readFile, if_pos hf, Option.some.injEq] at h
      rw [← hf, ← h]; exact List.mem_cons_self _ _
    · simp only [readFile, if_neg hf] at h
      exact List.mem_cons_of_mem _ (ih h)

theorem firstLine_append (a v : Str) (h : '\n' ∉ a) : firstLine (a ++ '\n' :: v) = a := by
  induction a with
  | nil => simp [firstLine]
  | cons c rest ih =>
    simp only [List.mem_cons, not_or] at h
    have hc : c ≠ '\n' := fun e => h.1 e.symm
    simp [firstLine, hc, ih h.2]

theorem afterFirstLine_append (a v : Str) (h : '\n' ∉ a) :
    afterFirstLine (a ++ '\n' :: v) = v := by
  induction a with
  | nil => simp [afterFirstLine]
  | cons c rest ih =>
    simp only [List.mem_cons, not_or] at h
    have hc : c ≠ '\n' := fun e => h.1 e.symm
    simp [afterFirstLine, hc, ih h.2]

theorem newline_not_mem_firstLine (s : Str) : '\n' ∉ firstLine s := by
  induction s with
  | nil => simp [firstLine]
  | cons c rest ih =>
    unfold firstLine
    split
    · simp
    · rename_i h
      simp only [List.mem_cons, not_or]
      exact ⟨fun e => h e.symm, ih⟩

theorem split_at_slash (a b x y : Str) (ha : '/' ∉ a) (hb : '/' ∉ b)
    (h : a ++ '/' :: x = b ++ '/' :: y) : a = b ∧ x = y := by
  induction a generalizing b with
  | nil =>
    cases b with
    | nil => simpa using h
    | cons c rest =>
      simp only [List.nil_append, List.cons_append, List.cons.injEq] at h
      simp only [List.mem_cons, not_or] at hb
      exact absurd h.1 hb.1
  | cons c rest ih =>
    cases b with
    | nil =>
      simp only [List.nil_append, List.cons_append, List.cons.injEq] at h
      simp only [List.mem_cons, not_or] at ha
      exact absurd h.1.symm ha.1
    | cons c' rest' =>
      simp only [List.cons_append, List.cons.injEq] at h
      simp only [List.mem_cons, not_or] at ha hb
      obtain ⟨h1, h2⟩ := ih rest' ha.2 hb.2 h.2
      exact ⟨by rw [h.1, h1], h2⟩

theorem cellPath_injective (root row col row' col' : Str) (h1 : '/' ∉ row) (h2 : '/' ∉ row')
    (h : cellPath root row col = cellPath root row' col') : row = row' ∧ col = col' := by
  unfold cellPath at h
  simp only [List.append_assoc, List.append_cancel_left_eq, List.singleton_append,
    List.cons.injEq, true_and, List.cons_append, List.nil_append] at h
  obtain ⟨hr, hc⟩ := split_at_slash row row' _ _ h1 h2 h
  exact ⟨hr, List.append_cancel_right hc⟩

theorem cellPath_eq (root row col : Str) :
    cellPath root row col = rowDir root row ++ '/' :: (col ++ ".dat".toList) := by
  simp [cellPath, rowDir]

theorem cellPath_ne_rowDir (root r c row : Str) (h : '/' ∉ row) :
    cellPath root r c ≠ rowDir root row := by
  intro e
  simp only [cellPath, rowDir, List.append_assoc, List.append_cancel_left_eq,
    List.singleton_append, List.cons.injEq, true_and, List.cons_append, List.nil_append] at e
  apply h
  rw [← e]
  simp

theorem cellPath_length (root r c : Str) : root.length < (cellPath root r c).length := by
  simp [cellPath]

theorem GoodKey.row_no_slash {k : Key} (h : GoodKey k) : '/' ∉ k.1 := h.1.2.2.2.1

theorem GoodKey.col_no_slash {k : Key} (h : GoodKey k) : '/' ∉ k.2 := by
  have := h.2.1.2.2.2.1
  intro hc
  exact this (List.mem_append_left _ hc)

theorem GoodKey.file_no_slash {k : Key} (h : GoodKey k) : '/' ∉ k.2 ++ ".dat".toList :=
  h.2.1.2.2.2.1

theorem mem_addDirs (ds l : List Str) (p : Str) :
    p ∈ List.foldl (fun ds p => if ds.contains p then ds else ds ++ [p]) ds l ↔
      p ∈ ds ∨ p ∈ l := by
  induction l generalizing ds with
  | nil => simp
  | cons a rest ih =>
    rw [List.foldl_cons, ih, List.mem_cons]
    by_cases ha : a ∈ ds
    · have hc : ds.contains a = true := by simpa using ha
      rw [if_pos hc]
      constructor
      · rintro (h | h)
        · exact Or.inl h
        · exact Or.inr (Or.inr h)
      · rintro (h | h | h)
        · exact Or.inl h
        · left; rw [h]; exact ha
        · exact Or.inr h
    · have hc : ¬ ds.contains a = true := by simpa using ha
      rw [if_neg hc, List.mem_append, List.mem_singleton]
      constructor
      · rintro ((h | h) | h)
        · exact Or.inl h
        · exact Or.inr (Or.inl h)
        · exact Or.inr (Or.inr h)
      · rintro (h | h | h)
        · exact Or.inl (Or.inl h)
        · exact Or.inl (Or.inr h)
        · exact Or.inr h

theorem Disk.Inv.not_file_of_short {root : Str} {d : Disk} (h : d.Inv root) (p : Str)
    (hp : p.length ≤ root.length) : d.isFile p = false := by
  cases hr : readFile p d.files with
  | none => simp [Disk.isFile, hr]
  | some c =>
    obtain ⟨k, -, hk⟩ := h.1 _ (readFile_some_mem _ _ _ hr)
    simp only at hk
    have := cellPath_length root k.1 k.2
    rw [← hk] at this
    omega

theorem Disk.Inv.not_file_rowDir {root : Str} {d : Disk} (h : d.Inv root) (row : Str)
    (hrow : '/' ∉ row) : d.isFile (rowDir root row) = false := by
  cases hr : readFile (rowDir root row) d.files with
  | none => simp [Disk.isFile, hr]
  | some c =>
    obtain ⟨k, -, hk⟩ := h.1 _ (readFile_some_mem _ _ _ hr)
    simp only at hk
    exact absurd hk.symm (cellPath_ne_rowDir root k.1 k.2 row hrow)

theorem Disk.Inv.not_dir_cellPath {root : Str} {d : Disk} (h : d.Inv root) (r c : Str) :
    d.isDir (cellPath root r c) = false := by
  cases hd : d.isDir (cellPath root r c) with
  | false => rfl
  | true =>
    have hm : cellPath root r c ∈ d.dirs := by simpa [Disk.isDir] using hd
    have hl := cellPath_length root r c
    rcases h.2 _ hm with h1 | h1 | ⟨row, hrow, h1⟩
    · have := ancestors_length _ _ h1; omega
    · rw [h1] at hl; omega
    · exact absurd h1 (cellPath_ne_rowDir root r c row hrow)

theorem ancestors_rowDir (root row : Str) (hrow : '/' ∉ row) :
    ancestors (rowDir root row) = ancestors root ++ (if root = [] then [] else [root]) := by
  have : rowDir root row = root ++ '/' :: row := by simp [rowDir]
  rw [this, ancestors_append_slash root row hrow]

theorem ancestors_cellPath (root row col : Str) (hcol : '/' ∉ col ++ ".dat".toList) :
    ancestors (cellPath root row col) = ancestors (rowDir root row) ++ [rowDir root row] := by
  rw [cellPath_eq, ancestors_append_slash _ _ hcol]
  have : rowDir root row ≠ [] := by simp [rowDir]
  simp [this]

/-- On a file system that holds only what the store wrote for good keys,
`flushToDisk` of a good key returns, writes the file of the cell and nothing
else, and leaves such a file system. -/
theorem flushToDisk_good (root : Str) (d : Disk) (row col v : Str) (hinv : d.Inv root)
    (hk : GoodKey (row, col)) :
    (flushToDisk root d row col v).1 = none ∧
    (flushToDisk root d row col v).2.files =
      writeFile (cellPath root row col) (row ++ ['-'] ++ col ++ ['\n'] ++ v) d.files ∧
    (flushToDisk root d row col v).2.Inv root := by
  have hrow : '/' ∉ row := hk.row_no_slash
  have hfile : '/' ∉ col ++ ".dat".toList := hk.file_no_slash
  have hnf := hinv.not_file_rowDir row hrow
  -- the directory step
  have hstep : ∃ d1 : Disk,
      (if d.pathExists (rowDir root row) then ((none : Option Err), d)
        else d.create_directories (rowDir root row)) = (none, d1) ∧
      d1.files = d.files ∧ d1.Inv root ∧ d1.isDir (rowDir root row) = true := by
    by_cases hex : d.pathExists (rowDir root row) = true
    · refine ⟨d, by simp [hex], rfl, hinv, ?_⟩
      simpa [Disk.pathExists, hnf] using hex
    · have hanc : (ancestors (rowDir root row) ++ [rowDir root row]).any d.isFile = false := by
        rw [List.any_eq_false]
        intro p hp
        rw [ancestors_rowDir root row hrow] at hp
        simp only [List.mem_append, List.mem_singleton] at hp
        rcases hp with (hp | hp) | hp
        · have := ancestors_length _ _ hp
          rw [hinv.not_file_of_short p (by omega)]; simp
        · split at hp
          · simp at hp
          · simp only [List.mem_singleton] at hp
            rw [hinv.not_file_of_short p (by rw [hp])]; simp
        · rw [hp, hnf]; simp
      refine ⟨⟨d.files, List.foldl
          (fun ds p => if ds.contains p then ds else ds ++ [p]) d.dirs
          (ancestors (rowDir root row) ++ [rowDir root row])⟩, ?_, rfl, ⟨hinv.1, ?_⟩, ?_⟩
      · simp [hex, Disk.create_directories, hanc]
      · intro p hp
        rw [mem_addDirs] at hp
        rcases hp with hp | hp
        · exact hinv.2 p hp
        · rw [ancestors_rowDir root row hrow] at hp
          simp only [List.mem_append, List.mem_singleton] at hp
          rcases hp with (hp | hp) | hp
          · exact Or.inl hp
          · split at hp
            · simp at hp
            · simp only [List.mem_singleton] at hp
              exact Or.inr (Or.inl hp)
          · exact Or.inr (Or.inr ⟨row, hrow, hp⟩)
      · have hm : rowDir root row ∈ List.foldl
            (fun ds p => if ds.contains p then ds else ds ++ [p]) d.dirs
            (ancestors (rowDir root row) ++ [rowDir root row]) := by
          rw [mem_addDirs]; right; simp
        show List.contains _ _ = true
        simpa using hm
  obtain ⟨d1, hd1, hfiles, hinv1, hdir⟩ := hstep
  have hopen : d1.canOpenForWrite (cellPath root row col) = true := by
    unfold Disk.canOpenForWrite
    rw [ancestors_cellPath root row col hfile]
    simp [hdir, hinv1.not_dir_cellPath row col]
  unfold flushToDisk
  simp only [hd1, hopen, if_true]
  refine ⟨trivial, by rw [hfiles], ⟨?_, hinv1.2⟩⟩
  intro f hf
  rcases mem_writeFile _ _ _ _ hf with h | h
  · exact ⟨(row, col), hk, by rw [h]⟩
  · exact hinv1.1 f h

theorem readFromDisk_flush_same (root : Str) (d : Disk) (row col v : Str)
    (hinv : d.Inv root) (hk : GoodKey (row, col)) :
    readFromDisk root (flushToDisk root d row col v).2 row col = some v := by
  have hn : '\n' ∉ row ++ ['-'] ++ col := by
    simp only [List.mem_append, List.mem_singleton, not_or]
    exact ⟨⟨hk.2.2.1, by decide⟩, hk.2.2.2⟩
  have e : row ++ ['-'] ++ col ++ ['\n'] ++ v = (row ++ ['-'] ++ col) ++ '\n' :: v := by simp
  simp only [readFromDisk, (flushToDisk_good root d row col v hinv hk).2.1,
    readFile_writeFile_same]
  rw [e, firstLine_append _ _ hn, afterFirstLine_append _ _ hn]
  simp

theorem readFromDisk_flush_ne (root : Str) (d : Disk) (row col v row' col' : Str)
    (hinv : d.Inv root) (hk : GoodKey (row, col)) (h2 : '/' ∉ row')
    (hne : (row', col') ≠ (row, col)) :
    readFromDisk root (flushToDisk root d row col v).2 row' col' =
      readFromDisk root d row' col' := by
  have hp : cellPath root row' col' ≠ cellPath root row col := by
    intro h
    obtain ⟨a, b⟩ := cellPath_injective root row' col' row col h2 hk.row_no_slash h
    exact hne (by rw [a, b])
  simp only [readFromDisk, (flushToDisk_good root d row col v hinv hk).2.1,
    readFile_writeFile_ne _ _ _ _ hp]

theorem flushAll_eq_foldl (root : Str) (d : Disk) (ev : List KeyValuePair) :
    flushAll root d ev = ev.foldl (fun x e => (Store.onEvict root e x).2) d := by
  induction ev generalizing d with
  | nil => rfl
  | cons e rest ih => simp [flushAll, ih]

theorem flushAll_good (root : Str) (d : Disk) (ev : List KeyValuePair) (hinv : d.Inv root)
    (hev : ∀ k' ∈ ev.map Prod.fst, GoodKey k') : (flushAll root d ev).Inv root := by
  induction ev generalizing d with
  | nil => exact hinv
  | cons e rest ih =>
    have he : GoodKey (e.1.1, e.1.2) := hev e.1 (by simp)
    have hfl : (Store.onEvict root e d).2 = (flushToDisk root d e.1.1 e.1.2 e.2).2 := rfl
    rw [flushAll, hfl]
    exact ih _ (flushToDisk_good root d e.1.1 e.1.2 e.2 hinv he).2.2
      (fun k' h => hev k' (by simp only [List.map_cons, List.mem_cons]; exact Or.inr h))

theorem readFromDisk_flushAll (root : Str) (d : Disk) (ev : List KeyValuePair) (k : Key)
    (hinv : d.Inv root) (hk : '/' ∉ k.1) (hev : ∀ k' ∈ ev.map Prod.fst, GoodKey k')
    (hnd : (ev.map Prod.fst).Nodup) :
    readFromDisk root (flushAll root d ev) k.1 k.2 =
      match lookupKey k ev with
      | some v => some v
      | none => readFromDisk root d k.1 k.2 := by
  induction ev generalizing d with
  | nil => simp [flushAll, lookupKey]
  | cons e rest ih =>
    simp only [List.map_cons, List.nodup_cons] at hnd
    have hrest : ∀ k' ∈ rest.map Prod.fst, GoodKey k' := fun k' h =>
      hev k' (by simp only [List.map_cons, List.mem_cons]; exact Or.inr h)
    have he : GoodKey (e.1.1, e.1.2) := hev e.1 (by simp)
    have hinv1 := (flushToDisk_good root d e.1.1 e.1.2 e.2 hinv he).2.2
    have hfl : (Store.onEvict root e d).2 = (flushToDisk root d e.1.1 e.1.2 e.2).2 := rfl
    rw [flushAll, hfl, ih _ hinv1 hrest hnd.2]
    by_cases hek : e.1 = k
    · have hnone : lookupKey k rest = none := by
        rw [lookupKey_eq_none_iff, ← hek]; exact hnd.1
      simp only [hnone, lookupKey, if_pos hek]
      rw [← hek]
      exact readFromDisk_flush_same root d e.1.1 e.1.2 e.2 hinv he
    · simp only [lookupKey, if_neg hek]
      have hne : (k.1, k.2) ≠ (e.1.1, e.1.2) := fun h => hek (by
        rcases e with ⟨⟨a, b⟩, c⟩; rcases k with ⟨x, y⟩; simp at h ⊢; exact ⟨h.1.symm, h.2.symm⟩)
      show (match lookupKey k rest with
        | some v => some v
        | none => readFromDisk root (flushToDisk root d e.1.1 e.1.2 e.2).2 k.1 k.2) = _
      rw [readFromDisk_flush_ne root d e.1.1 e.1.2 e.2 k.1 k.2 hinv he hk hne]

theorem lookupKey_disjoint (k : Key) (l1 l2 : List KeyValuePair) (a : Str)
    (hnd : ((l1 ++ l2).map Prod.fst).Nodup) (h : lookupKey k l1 = some a) :
    lookupKey k l2 = none := by
  rw [lookupKey_eq_none_iff]
  rw [List.map_append, List.nodup_append] at hnd
  intro hm
  have h1 : k ∈ l1.map Prod.fst := by
    have := lookupKey_some_mem k l1 a h
    exact List.mem_map.mpr ⟨(k, a), this, rfl⟩
  exact hnd.2.2 h1 hm

/-- On a store that satisfies its invariant, the scheduler's `Put` of a value that
passes the size test returns: the eviction callback cannot fail on good keys. -/
theorem Store.schedulerPut_ok (s : Store) (row col v : Str) (capacity : Nat)
    (hinv : s.Inv) (hfit : sizeofValue + capacity ≤ s.scheduler_.capacity_) :
    ∃ ev kept c, eraseKey (row, col) s.scheduler_.cacheList_ = ev ++ kept ∧
      s.scheduler_.Put (Store.onEvict s.sstableDirectory_) row col v capacity s.disk =
        (none, ⟨kept ++ [((row, col), v)], s.scheduler_.capacity_, c⟩,
          flushAll s.sstableDirectory_ s.disk ev) := by
  obtain ⟨hnd, hgood, hdisk⟩ := hinv
  obtain ⟨ev, kept, h1, h2, -, -, h5, h6⟩ := Scheduler.Put_evicts s.scheduler_
    (Store.onEvict s.sstableDirectory_) row col v capacity s.disk hfit
  have hsub : ∀ k' ∈ (ev ++ kept).map Prod.fst, GoodKey k' := by
    intro k' hk'
    rw [← h1] at hk'
    exact hgood k' (mem_keys_eraseKey _ _ _ hk')
  have hevgood : ∀ k' ∈ ev.map Prod.fst, GoodKey k' := fun k' h =>
    hsub k' (by rw [List.map_append]; exact List.mem_append_left _ h)
  have hfl := flushAll_eq_foldl s.sstableDirectory_ s.disk ev
  have hinv1 := flushAll_good s.sstableDirectory_ s.disk ev hdisk hevgood
  cases hres : (s.scheduler_.Put (Store.onEvict s.sstableDirectory_) row col v capacity
      s.disk).1 with
  | some err =>
    obtain ⟨-, -, lru, rest, c1, c2, -⟩ := h6 err hres
    have hlru : GoodKey (lru.1.1, lru.1.2) :=
      hsub lru.1 (by rw [c1]; simp)
    rw [← hfl] at c2
    have := (flushToDisk_good s.sstableDirectory_ _ lru.1.1 lru.1.2 lru.2 hinv1 hlru).1
    have e : (Store.onEvict s.sstableDirectory_ lru
        (flushAll s.sstableDirectory_ s.disk ev)).1 =
        (flushToDisk s.sstableDirectory_ (flushAll s.sstableDirectory_ s.disk ev)
          lru.1.1 lru.1.2 lru.2).1 := rfl
    rw [e, this] at c2
    exact absurd c2 (by simp)
  | none =>
    obtain ⟨a1, a2, a3, -⟩ := h5 hres
    refine ⟨ev, kept, (s.scheduler_.Put (Store.onEvict s.sstableDirectory_) row col v capacity
      s.disk).2.1.currSize_, h1, ?_⟩
    generalize hp : s.scheduler_.Put (Store.onEvict s.sstableDirectory_) row col v capacity
      s.disk = p at *
    obtain ⟨p1, ⟨pl, pc, pz⟩, p3⟩ := p
    simp only at hres a1 a3 h2
    rw [hres, a1, h2, a3, hfl]

theorem Store.Put_ok_eq (s : Store) (row col value : Str) (capacity : Nat) (lockId : Str)
    (now : Nat) (sch : Scheduler) (d : Disk)
    (hl : s.isResourceLocked row lockId now = false)
    (hput : s.scheduler_.Put (Store.onEvict s.sstableDirectory_) row col value capacity s.disk
      = (none, sch, d)) :
    s.Put row col value capacity lockId now =
      (.ok true, { s with scheduler_ := sch, disk := d }) := by
  simp [Store.Put, hl, hput]

theorem Store.Put_spec (s : Store) (row col value : Str) (capacity : Nat) (lockId : Str)
    (now : Nat) (hinv : s.Inv) (hk : GoodKey (row, col))
    (hfit : sizeofValue + capacity ≤ s.scheduler_.capacity_)
    (hl : s.isResourceLocked row lockId now = false) :
    (s.Put row col value capacity lockId now).1 = .ok true ∧
    (s.Put row col value capacity lockId now).2.Inv ∧
    (s.Put row col value capacity lockId now).2.locks_ = s.locks_ ∧
    (s.Put row col value capacity lockId now).2.sstableDirectory_ = s.sstableDirectory_ ∧
    (s.Put row col value capacity lockId now).2.scheduler_.capacity_ = s.scheduler_.capacity_ ∧
    ∀ k, GoodKey k →
      (s.Put row col value capacity lockId now).2.cell k =
        if k = (row, col) then some value else s.cell k := by
  obtain ⟨ev, rest, c, herase, hput⟩ := Store.schedulerPut_ok s row col value capacity hinv hfit
  obtain ⟨hnd0, hgood, hdisk⟩ := hinv
  rw [Store.Put_ok_eq s row col value capacity lockId now _ _ hl hput]
  have hnd := nodup_eraseKey (row, col) _ hnd0
  rw [herase] at hnd
  have hsub : ∀ k' ∈ (ev ++ rest).map Prod.fst, GoodKey k' := by
    intro k' hk'
    rw [← herase] at hk'
    exact hgood k' (mem_keys_eraseKey _ _ _ hk')
  have hevgood : ∀ k' ∈ ev.map Prod.fst, GoodKey k' := fun k' h =>
    hsub k' (by rw [List.map_append]; exact List.mem_append_left _ h)
  have hevnd : (ev.map Prod.fst).Nodup := by
    rw [List.map_append, List.nodup_append] at hnd; exact hnd.1
  have hself := lookupKey_eraseKey_self (row, col) _ hnd0
  rw [herase, lookupKey_append] at hself
  have hcell : ∀ k, GoodKey k →
      Store.cell { s with scheduler_ := ⟨rest ++ [((row, col), value)], s.scheduler_.capacity_, c⟩,
                          disk := flushAll s.sstableDirectory_ s.disk ev } k =
        if k = (row, col) then some value else s.cell k := by
    intro k hkg
    simp only [Store.cell, lookupKey_append]
    by_cases hkk : k = (row, col)
    · subst hkk
      cases h1 : lookupKey (row, col) ev with
      | some a => simp [h1] at hself
      | none =>
        simp only [h1, Option.orElse] at hself
        simp [hself, lookupKey]
    · have hne : ((row, col) : Key) ≠ k := fun h => hkk h.symm
      have hlk : lookupKey k s.scheduler_.cacheList_ = lookupKey k (ev ++ rest) := by
        rw [← herase, lookupKey_eraseKey_ne _ _ _ hkk]
      rw [lookupKey_append] at hlk
      simp only [if_neg hkk, hlk]
      rw [readFromDisk_flushAll _ _ _ k hdisk hkg.row_no_slash hevgood hevnd]
      cases h1 : lookupKey k ev with
      | some a =>
        have h2 := lookupKey_disjoint k ev rest a hnd h1
        simp [h2, lookupKey, hne]
      | none =>
        cases h2 : lookupKey k rest with
        | some b => simp [lookupKey, hne]
        | none => simp [lookupKey, hne]
  refine ⟨rfl, ⟨?_, ?_, ?_⟩, rfl, rfl, rfl, hcell⟩
  · show ((rest ++ [((row, col), value)]).map Prod.fst).Nodup
    rw [List.map_append, List.nodup_append]
    rw [List.map_append, List.nodup_append] at hnd
    refine ⟨hnd.2.1, by simp, ?_⟩
    intro a ha hb
    simp only [List.map_cons, List.map_nil, List.mem_singleton] at hb
    subst hb
    have hnone : lookupKey (row, col) rest = none := by
      cases h0 : lookupKey (row, col) ev with
      | none => simpa [h0] using hself
      | some x => simp [h0] at hself
    exact (lookupKey_eq_none_iff _ _).mp hnone ha
  · intro k hkm
    have hkm' : k ∈ (rest ++ [((row, col), value)]).map Prod.fst := hkm
    rw [List.map_append, List.mem_append] at hkm'
    rcases hkm' with h | h
    · exact hsub k (by rw [List.map_append]; exact List.mem_append_right _ h)
    · simp only [List.map_cons, List.map_nil, List.mem_singleton] at h
      rw [h]; exact hk
  · exact flushAll_good _ _ _ hdisk hevgood

theorem Store.Get_spec (s : Store) (row col : Str) (readCapacity : Nat) (lockId : Str)
    (now : Nat) (hinv : s.Inv) (hk : GoodKey (row, col))
    (hfit : sizeofValue + readCapacity ≤ s.scheduler_.capacity_)
    (hl : s.isResourceLocked row lockId now = false) :
    (s.Get row col readCapacity lockId now).1 = .ok (s.cell (row, col)) ∧
    (s.Get row col readCapacity lockId now).2.Inv ∧
    (s.Get row col readCapacity lockId now).2.locks_ = s.locks_ ∧
    (s.Get row col readCapacity lockId now).2.sstableDirectory_ = s.sstableDirectory_ ∧
    (s.Get row col readCapacity lockId now).2.scheduler_.capacity_ = s.scheduler_.capacity_ ∧
    ∀ k, GoodKey k → (s.Get row col readCapacity lockId now).2.cell k = s.cell k := by
  cases hlk : lookupKey (row, col) s.scheduler_.cacheList_ with
  | some v =>
    have hget : s.Get row col readCapacity lockId now =
        (.ok (some v), { s with scheduler_ := ⟨eraseKey (row, col) s.scheduler_.cacheList_ ++
          [((row, col), v)], s.scheduler_.capacity_, s.scheduler_.currSize_⟩ }) := by
      simp [Store.Get, hl, Scheduler.Get, hlk]
    have hcell : ∀ k, Store.cell { s with scheduler_ := ⟨eraseKey (row, col) s.scheduler_.cacheList_ ++
          [((row, col), v)], s.scheduler_.capacity_, s.scheduler_.currSize_⟩ } k =
        s.cell k := by
      intro k
      simp only [Store.cell, lookupKey_append]
      by_cases hkk : k = (row, col)
      · subst hkk
        rw [lookupKey_eraseKey_self _ _ hinv.1, hlk]
        simp [lookupKey]
      · have hne : ((row, col) : Key) ≠ k := fun h => hkk h.symm
        rw [lookupKey_eraseKey_ne _ _ _ hkk]
        cases h1 : lookupKey k s.scheduler_.cacheList_ with
        | some a => simp
        | none => simp [lookupKey, hne]
    rw [hget]
    refine ⟨by simp [Store.cell, hlk], ⟨?_, ?_, hinv.2.2⟩, rfl, rfl, rfl, fun k _ => hcell k⟩
    · show ((eraseKey (row, col) s.scheduler_.cacheList_ ++ [((row, col), v)]).map Prod.fst).Nodup
      have hnd1 := nodup_eraseKey (row, col) _ hinv.1
      have hself := lookupKey_eraseKey_self (row, col) _ hinv.1
      rw [lookupKey_eq_none_iff] at hself
      simp only [List.map_append, List.map_cons, List.map_nil]
      rw [List.nodup_append]
      refine ⟨hnd1, by simp, ?_⟩
      intro a ha hb
      simp only [List.mem_singleton] at hb
      subst hb
      exact hself ha
    · intro k hkm
      have hkm' : k ∈ (eraseKey (row, col) s.scheduler_.cacheList_ ++
          [((row, col), v)]).map Prod.fst := hkm
      simp only [List.map_append, List.mem_append, List.map_cons, List.map_nil,
        List.mem_singleton] at hkm'
      rcases hkm' with h | h
      · exact hinv.2.1 k (mem_keys_eraseKey _ _ _ h)
      · rw [h]; exact hk
  | none =>
    cases hrd : readFromDisk s.sstableDirectory_ s.disk row col with
    | none =>
      have hget : s.Get row col readCapacity lockId now = (.ok none, s) := by
        simp [Store.Get, hl, Scheduler.Get, hlk, hrd]
      rw [hget]
      exact ⟨by simp [Store.cell, hlk, hrd], hinv, rfl, rfl, rfl, fun _ _ => rfl⟩
    | some v =>
      have hc : s.cell (row, col) = some v := by simp [Store.cell, hlk, hrd]
      obtain ⟨ev, rest, c, herase, hput⟩ :=
        Store.schedulerPut_ok s row col v readCapacity hinv hfit
      have hget : s.Get row col readCapacity lockId now =
          (.ok (some v), (s.Put row col v readCapacity lockId now).2) := by
        rw [Store.Put_ok_eq s row col v readCapacity lockId now _ _ hl hput]
        simp [Store.Get, hl, Scheduler.Get, hlk, hrd, hput]
      have hp := Store.Put_spec s row col v readCapacity lockId now hinv hk hfit hl
      rw [hget]
      refine ⟨by rw [hc], hp.2.1, hp.2.2.1, hp.2.2.2.1, hp.2.2.2.2.1, ?_⟩
      intro k hkg
      rw [hp.2.2.2.2.2 k hkg]
      by_cases hkk : k = (row, col)
      · rw [if_pos hkk, hkk, hc]
      · rw [if_neg hkk]

theorem Store.isResourceLocked_congr (s s1 : Store) (row lockId : Str) (now : Nat)
    (h : s1.locks_ = s.locks_) :
    s1.isResourceLocked row lockId now = s.isResourceLocked row lockId now := by
  simp [Store.isResourceLocked, h]

theorem Store.CPut_spec (s : Store) (row col currValue newValue : Str)
    (newCapacity readCapacity : Nat) (lockId : Str) (now : Nat)
    (hinv : s.Inv) (hk : GoodKey (row, col))
    (hfit : sizeofValue + newCapacity ≤ s.scheduler_.capacity_)
    (hfitr : sizeofValue + readCapacity ≤ s.scheduler_.capacity_)
    (hl : s.isResourceLocked row lockId now = false) :
    (s.CPut row col currValue newValue newCapacity readCapacity lockId now).1 =
      .ok (decide (s.cell (row, col) = some currValue)) ∧
    (s.CPut row col currValue newValue newCapacity readCapacity lockId now).2.Inv ∧
    (s.CPut row col currValue newValue newCapacity readCapacity lockId now).2.locks_
      = s.locks_ ∧
    (s.CPut row col currValue newValue newCapacity readCapacity lockId now).2.sstableDirectory_
      = s.sstableDirectory_ ∧
    (s.CPut row col currValue newValue newCapacity readCapacity lockId now).2.scheduler_.capacity_
      = s.scheduler_.capacity_ ∧
    ∀ k, GoodKey k →
      (s.CPut row col currValue newValue newCapacity readCapacity lockId now).2.cell k =
        if s.cell (row, col) = some currValue ∧ k = (row, col) then some newValue
        else s.cell k := by
  obtain ⟨hg1, hg2, hg3, hg4, hg5, hg6⟩ :=
    Store.Get_spec s row col readCapacity lockId now hinv hk hfitr hl
  have hl1 : (s.Get row col readCapacity lockId now).2.isResourceLocked row lockId now
      = false := by
    rw [Store.isResourceLocked_congr _ _ _ _ _ hg3]; exact hl
  have hfit1 : sizeofValue + newCapacity ≤
      (s.Get row col readCapacity lockId now).2.scheduler_.capacity_ := by
    rw [hg5]; exact hfit
  obtain ⟨hp1, hp2, hp3, hp4, hp5, hp6⟩ :=
    Store.Put_spec (s.Get row col readCapacity lockId now).2 row col newValue newCapacity
      lockId now hg2 hk hfit1 hl1
  unfold Store.CPut
  rw [hl]
  simp only [Bool.false_eq_true, if_false]
  generalize hget : s.Get row col readCapacity lockId now = g at *
  obtain ⟨res, s1⟩ := g
  simp only at hg1 hg2 hg3 hg4 hg5 hg6 hp1 hp2 hp3 hp4 hp5 hp6
  subst hg1
  cases hc : s.cell (row, col) with
  | none =>
    simp only [reduceCtorEq, decide_False, false_and, if_false]
    exact ⟨trivial, hg2, hg3, hg4, hg5, hg6⟩
  | some value =>
    by_cases hv : value = currValue
    · subst hv
      generalize hput : s1.Put row col newValue newCapacity lockId now = p at *
      obtain ⟨pres, s2⟩ := p
      simp only at hp1 hp2 hp3 hp4 hp5 hp6
      subst hp1
      simp only [if_true, decide_True, true_and, hput]
      refine ⟨hp2, hp3.trans hg3, hp4.trans hg4, hp5.trans hg5, ?_⟩
      intro k hkg
      rw [hp6 k hkg]
      by_cases hkk : k = (row, col)
      · simp [hkk]
      · simp only [if_neg hkk]; exact hg6 k hkg
    · have hv' : ¬ (some value = some currValue) := fun h => hv (Option.some.inj h)
      simp only [if_neg hv, hv', decide_False, false_and, if_false]
      exact ⟨trivial, hg2, hg3, hg4, hg5, hg6⟩

theorem Store.isResourceLocked_of_no_locks (s : Store) (row lockId : Str) (now : Nat)
    (h : ∀ r, s.locks_ r = none) : s.isResourceLocked row lockId now = false := by
  simp [Store.isResourceLocked, h]

theorem Store.new_Inv (root : Str) (cap : Nat) : (Store.new root cap).Inv := by
  refine ⟨by simp [Store.new, Scheduler.new], by simp [Store.new, Scheduler.new], ?_, ?_⟩
  · intro f hf; simp [Store.new, Disk.empty] at hf
  · intro p hp; simp [Store.new, Disk.empty] at hp

theorem Store.runCellOps_refines (s : Store) (m : PlainMap) (ops : List (CellOp × Nat))
    (hinv : s.Inv) (hlocks : ∀ r, s.locks_ r = none)
    (hcell : ∀ k, GoodKey k → s.cell k = m k)
    (hops : ∀ op ∈ ops, CellOp.admissible s.scheduler_.capacity_ op.1) :
    s.runCellOps ops = m.runCellOps (ops.map Prod.fst) := by
  induction ops generalizing s m with
  | nil => rfl
  | cons op rest ih =>
    have hop := hops op (List.mem_cons_self _ _)
    have hrest : ∀ o ∈ rest, CellOp.admissible s.scheduler_.capacity_ o.1 :=
      fun o ho => hops o (List.mem_cons_of_mem _ ho)
    obtain ⟨o, now⟩ := op
    simp only [Store.runCellOps, List.map_cons, PlainMap.runCellOps]
    cases o with
    | Put row col value capacity lockId =>
      obtain ⟨hk, hfit⟩ := hop
      have hl := Store.isResourceLocked_of_no_locks s row lockId now hlocks
      obtain ⟨h1, h2, h3, h4, h5, h6⟩ :=
        Store.Put_spec s row col value capacity lockId now hinv hk hfit hl
      simp only [Store.applyCellOp, PlainMap.applyCellOp]
      generalize hres : s.Put row col value capacity lockId now = res at *
      obtain ⟨b, s1⟩ := res
      simp only at h1 h2 h3 h4 h5 h6
      subst h1
      simp only
      congr 1
      apply ih
      · exact h2
      · intro r; rw [h3]; exact hlocks r
      · intro k hkg
        rw [h6 k hkg]
        by_cases hkk : k = (row, col)
        · simp [hkk]
        · simp [hkk, hcell k hkg]
      · rw [h5]; exact hrest
    | CPut row col currValue newValue newCapacity readCapacity lockId =>
      obtain ⟨hk, hfit, hfitr⟩ := hop
      have hl := Store.isResourceLocked_of_no_locks s row lockId now hlocks
      obtain ⟨h1, h2, h3, h4, h5, h6⟩ :=
        Store.CPut_spec s row col currValue newValue newCapacity readCapacity lockId now
          hinv hk hfit hfitr hl
      simp only [Store.applyCellOp, PlainMap.applyCellOp]
      generalize hres : s.CPut row col currValue newValue newCapacity readCapacity lockId now
        = res at *
      obtain ⟨b, s1⟩ := res
      simp only at h1 h2 h3 h4 h5 h6
      subst h1
      rw [hcell (row, col) hk] at h6
      by_cases hm : m (row, col) = some currValue
      · simp only [hcell (row, col) hk, hm, decide_True, if_true]
        congr 1
        apply ih
        · exact h2
        · intro r; rw [h3]; exact hlocks r
        · intro k hkg
          rw [h6 k hkg]
          by_cases hkk : k = (row, col)
          · simp [hkk, hm]
          · simp [hkk, hcell k hkg]
        · rw [h5]; exact hrest
      · simp only [hcell (row, col) hk, hm, decide_False, if_false]
        congr 1
        apply ih
        · exact h2
        · intro r; rw [h3]; exact hlocks r
        · intro k hkg
          rw [h6 k hkg]
          simp [hm, hcell k hkg]
        · rw [h5]; exact hrest
    | Get row col readCapacity lockId =>
      obtain ⟨hk, hfit⟩ := hop
      have hl := Store.isResourceLocked_of_no_locks s row lockId now hlocks
      obtain ⟨h1, h2, h3, h4, h5, h6⟩ :=
        Store.Get_spec s row col readCapacity lockId now hinv hk hfit hl
      simp only [Store.applyCellOp, PlainMap.applyCellOp]
      generalize hres : s.Get row col readCapacity lockId now = res at *
      obtain ⟨b, s1⟩ := res
      simp only at h1 h2 h3 h4 h5 h6
      subst h1
      simp only [hcell (row, col) hk]
      congr 1
      apply ih
      · exact h2
      · intro r; rw [h3]; exact hlocks r
      · intro k hkg
        rw [h6 k hkg]; exact hcell k hkg
      · rw [h5]; exact hrest

/-- C3, counterexample. On a store with a cache of 40 bytes the value `hello` has
header plus length 37, which fits, and its key is a plain name. `Put` returns
true (the scheduler charges 32 + 15 for the string, refuses it, and the value goes
to disk), and the following `Get` raises `runtime_error`, where the plain map
returns the value. -/
theorem fits_by_length_get_raises :
    sizeofValue + "hello".toList.length ≤ 40 ∧ GoodKey ("r".toList, "c".toList) ∧
    (Store.new "db".toList 40).runCellOps
      [(CellOp.Put "r".toList "c".toList "hello".toList 15 "-".toList, 0),
       (CellOp.Get "r".toList "c".toList 15 "-".toList, 1)] =
      [CellResult.flag true, CellResult.raised Err.runtime_error] ∧
    PlainMap.runCellOps (fun _ => none)
      [CellOp.Put "r".toList "c".toList "hello".toList 15 "-".toList,
       CellOp.Get "r".toList "c".toList 15 "-".toList] =
      [CellResult.flag true, CellResult.value (some "hello".toList)] := by
  decide

/-- C3, amended. The write-back cache never loses or resurrects a value: on an
initially empty store of any capacity, every sequence of Put, CPut and Get
operations over good keys (row and `col.dat` are plain file names, no newline),
in which every string handed to the cache (the value written, and the string in
which a value read from disk arrives) has `sizeof(Value) + capacity()` within
the capacity of the cache, returns exactly what the same sequence returns on a
plain map from (row, col) to value. -/
theorem cache_refines_plain_map (root : Str) (cap : Nat) (ops : List (CellOp × Nat))
    (hops : ∀ op ∈ ops, CellOp.admissible cap op.1) :
    (Store.new root cap).runCellOps ops =
      PlainMap.runCellOps (fun _ => none) (ops.map Prod.fst) := by
  apply Store.runCellOps_refines _ _ _ (Store.new_Inv root cap) (fun _ => rfl)
  · intro k _
    simp [Store.cell, Store.new, Scheduler.new, lookupKey, readFromDisk, Disk.empty, readFile]
  · exact hops

/-- Witness for C3 (as amended): a cache of 50 bytes holds one short value at a
time, so the run below evicts and reloads cells, and returns what the plain map
returns. -/
theorem cache_refines_plain_map_witness :
    (∀ op ∈ [(CellOp.Put "a".toList "x".toList "v1".toList 15 "-".toList, 0),
             (CellOp.Put "b".toList "y".toList "v2".toList 15 "-".toList, 1),
             (CellOp.Get "a".toList "x".toList 15 "-".toList, 2),
             (CellOp.CPut "a".toList "x".toList "v1".toList "v3".toList 15 15 "-".toList, 3),
             (CellOp.CPut "b".toList "y".toList "zz".toList "v4".toList 15 15 "-".toList, 4),
             (CellOp.Get "b".toList "y".toList 15 "-".toList, 5),
             (CellOp.Get "a".toList "x".toList 15 "-".toList, 6),
             (CellOp.Get "c".toList "z".toList 15 "-".toList, 7)],
      CellOp.admissible 50 op.1) ∧
    (Store.new "db".toList 50).runCellOps
      [(CellOp.Put "a".toList "x".toList "v1".toList 15 "-".toList, 0),
       (CellOp.Put "b".toList "y".toList "v2".toList 15 "-".toList, 1),
       (CellOp.Get "a".toList "x".toList 15 "-".toList, 2),
       (CellOp.CPut "a".toList "x".toList "v1".toList "v3".toList 15 15 "-".toList, 3),
       (CellOp.CPut "b".toList "y".toList "zz".toList "v4".toList 15 15 "-".toList, 4),
       (CellOp.Get "b".toList "y".toList 15 "-".toList, 5),
       (CellOp.Get "a".toList "x".toList 15 "-".toList, 6),
       (CellOp.Get "c".toList "z".toList 15 "-".toList, 7)] =
    [CellResult.flag true, CellResult.flag true, CellResult.value (some "v1".toList),
     CellResult.flag true, CellResult.flag false, CellResult.value (some "v2".toList),
     CellResult.value (some "v3".toList), CellResult.value none] :=
  ⟨by decide, (cache_refines_plain_map "db".toList 50 _ (by decide)).trans (by decide)⟩

/-- C4, counterexample. After `Put(1, 1, "hello")` on an empty scheduler of
capacity 100, `currSize_` is 47 (32 + the 15 bytes of the local buffer) while
header plus length is 37. After `Put` of a 20-character value whose string has
capacity 30 and `Delete` of the same key, the cache is empty and `currSize_`
is 10: `Put` added 32 + 30, `Delete` took off 32 + 20, the capacity of the
stored copy. -/
theorem currSize_not_payload :
    Scheduler.Reachable 100
      ((Scheduler.new 100).Put noCallback "1".toList "1".toList "hello".toList 15 ()).2.1 ∧
    ((Scheduler.new 100).Put noCallback "1".toList "1".toList "hello".toList 15 ()).2.1.currSize_
      = 47 ∧
    payloadSize ((Scheduler.new 100).Put noCallback "1".toList "1".toList "hello".toList 15
      ()).2.1.cacheList_ = 37 ∧
    Scheduler.Reachable 100
      (((Scheduler.new 100).Put noCallback "1".toList "1".toList
        "aaaaaaaaaaaaaaaaaaaa".toList 30 ()).2.1.Delete "1".toList "1".toList).2 ∧
    (((Scheduler.new 100).Put noCallback "1".toList "1".toList
        "aaaaaaaaaaaaaaaaaaaa".toList 30 ()).2.1.Delete "1".toList "1".toList).2.cacheList_ = [] ∧
    (((Scheduler.new 100).Put noCallback "1".toList "1".toList
        "aaaaaaaaaaaaaaaaaaaa".toList 30 ()).2.1.Delete "1".toList "1".toList).2.currSize_ = 10 :=
  ⟨Scheduler.Reachable.put _ _ _ _ _ _ _ Scheduler.Reachable.init (by decide), by decide,
   by decide,
   Scheduler.Reachable.delete _ _ _
     (Scheduler.Reachable.put _ _ _ _ _ _ _ Scheduler.Reachable.init (by decide)),
   by decide, by decide⟩

/-- C4, amended. LRU bound: in every state reachable from an empty scheduler by
Put (returning or raising, with any callback), Get and Delete, the sum over the
cached entries of header plus value length is at most the sum of their charged
sizes (header plus the capacity of the stored copy), which is at most
`capacity_` and at most `currSize_`. -/
theorem lru_bound (cap : Nat) (s : Scheduler) (h : Scheduler.Reachable cap s) :
    payloadSize s.cacheList_ ≤ totalSize s.cacheList_ ∧
    totalSize s.cacheList_ ≤ s.capacity_ ∧ totalSize s.cacheList_ ≤ s.currSize_ ∧
    s.capacity_ = cap := by
  obtain ⟨⟨_, h1, h2⟩, h3⟩ := Scheduler.Reachable_WF cap s h
  exact ⟨payloadSize_le_totalSize _, h2, h1, h3⟩

/-- Witness for C4 (as amended): the state `testCapacityEnforcement` reaches, with
three values of 18 characters in strings of capacity 18. -/
theorem lru_bound_witness :
    Scheduler.Reachable 100
      ⟨[(("2".toList, "1".toList), "bbbbbbbbbbbbbbbbbb".toList),
        (("3".toList, "3".toList), "cccccccccccccccccc".toList)], 100, 100⟩ ∧
    payloadSize [(("2".toList, "1".toList), "bbbbbbbbbbbbbbbbbb".toList),
        (("3".toList, "3".toList), "cccccccccccccccccc".toList)] ≤ 100 :=
  have hr : Scheduler.Reachable 100
      ⟨[(("2".toList, "1".toList), "bbbbbbbbbbbbbbbbbb".toList),
        (("3".toList, "3".toList), "cccccccccccccccccc".toList)], 100, 100⟩ :=
    Scheduler.Reachable.put _ noCallback "3".toList "3".toList "cccccccccccccccccc".toList 18 ()
      (Scheduler.Reachable.put _ noCallback "2".toList "1".toList "bbbbbbbbbbbbbbbbbb".toList
        18 ()
        (Scheduler.Reachable.put _ noCallback "1".toList "1".toList "aaaaaaaaaaaaaaaaaa".toList
          18 () Scheduler.Reachable.init (by decide)) (by decide)) (by decide)
  ⟨hr, le_trans (lru_bound 100 _ hr).1 (lru_bound 100 _ hr).2.1⟩

/-- C2. Failing input for the PUT/GET round trip: on a store with a cache of 50
bytes a value of 20 characters is charged at least 32 + 20. `Put` writes it to
disk and returns true; the following `Get` raises `runtime_error`, whatever the
capacity of the string it reads into; and when an older value of the cell is
still cached the following `Get` returns that older value. -/
theorem put_get_oversized :
    ((Store.new "db".toList 50).Put "r".toList "c".toList "aaaaaaaaaaaaaaaaaaaa".toList 20
        "-".toList 0).1 = .ok true ∧
    (∀ slack : Nat,
      (((Store.new "db".toList 50).Put "r".toList "c".toList "aaaaaaaaaaaaaaaaaaaa".toList 20
        "-".toList 0).2.Get "r".toList "c".toList (20 + slack) "-".toList 0).1
        = .error Err.runtime_error) ∧
    ((((Store.new "db".toList 50).Put "r".toList "c".toList "old".toList 15 "-".toList 0).2.Put
        "r".toList "c".toList "aaaaaaaaaaaaaaaaaaaa".toList 20 "-".toList 0).1 = .ok true) ∧
    ((((Store.new "db".toList 50).Put "r".toList "c".toList "old".toList 15 "-".toList 0).2.Put
        "r".toList "c".toList "aaaaaaaaaaaaaaaaaaaa".toList 20 "-".toList 0).2.Get
        "r".toList "c".toList 15 "-".toList 0).1 = .ok (some "old".toList) := by
  refine ⟨by decide, ?_, by decide, by decide⟩
  intro slack
  have hbig : ∀ (sch : Scheduler), sch.capacity_ = 50 → ∀ (d : Disk) (v : Str),
      (sch.Put (Store.onEvict "db".toList) "r".toList "c".toList v (20 + slack) d) =
        (some Err.runtime_error, sch, d) := by
    intro sch hc d v
    exact Scheduler.Put_oversized _ _ _ _ _ _ _ (by rw [hc]; simp [sizeofValue]; omega)
  simp only [Store.Get]
  rw [show (((Store.new "db".toList 50).Put "r".toList "c".toList
      "aaaaaaaaaaaaaaaaaaaa".toList 20 "-".toList 0).2.isResourceLocked "r".toList "-".toList 0)
      = false by decide]
  simp only [Bool.false_eq_true, if_false]
  rw [show ((Store.new "db".toList 50).Put "r".toList "c".toList
      "aaaaaaaaaaaaaaaaaaaa".toList 20 "-".toList 0).2.scheduler_.Get "r".toList "c".toList
      = (none, Scheduler.new 50) by decide]
  simp only
  rw [show readFromDisk ((Store.new "db".toList 50).Put "r".toList "c".toList
      "aaaaaaaaaaaaaaaaaaaa".toList 20 "-".toList 0).2.sstableDirectory_
      ((Store.new "db".toList 50).Put "r".toList "c".toList
      "aaaaaaaaaaaaaaaaaaaa".toList 20 "-".toList 0).2.disk "r".toList "c".toList
      = some "aaaaaaaaaaaaaaaaaaaa".toList by decide]
  simp only
  rw [show ((Store.new "db".toList 50).Put "r".toList "c".toList
      "aaaaaaaaaaaaaaaaaaaa".toList 20 "-".toList 0).2.sstableDirectory_ = "db".toList
      by decide]
  rw [hbig _ (by decide)]

/-- C5. Failing input for DELETE: with a cache of 50 bytes, which holds one short
value, after `Put(a,x,v1)`, `Put(b,y,v2)` (which evicts `a/x` to disk) and
`Get(a,x)` (which reloads it into the cache and keeps the file), `Delete(a,x)`
returns true but removes only the cached entry, and the following `Get(a,x)`
still finds `v1` on disk. -/
theorem delete_leaves_disk_copy :
    ((((((Store.new "db".toList 50).Put "a".toList "x".toList "v1".toList 15 "-".toList 0).2.Put
        "b".toList "y".toList "v2".toList 15 "-".toList 0).2.Get
        "a".toList "x".toList 15 "-".toList 0).2.Delete "a".toList "x".toList "-".toList 0).1
        = .ok true) ∧
    ((((((Store.new "db".toList 50).Put "a".toList "x".toList "v1".toList 15 "-".toList 0).2.Put
        "b".toList "y".toList "v2".toList 15 "-".toList 0).2.Get
        "a".toList "x".toList 15 "-".toList 0).2.Delete "a".toList "x".toList "-".toList 0).2.Get
        "a".toList "x".toList 15 "-".toList 0).1 = .ok (some "v1".toList) := by
  decide

theorem Store.isResourceLocked_bypass (s : Store) (row : Str) (now : Nat) :
    s.isResourceLocked row BY_PASS_LOCK_ID now = false := by
  simp [Store.isResourceLocked]

/-- C6, counterexample. A cache of 50 bytes holds one short value. The cell
`("a\nb", "c")` is cached and `("r", "c")` is on disk with value `v`. The call
`CPut(r, c, zz, w)` returns false, yet it evicts `("a\nb", "c")` to a file whose
first line no longer matches the key, so that cell no longer reads as before. -/
theorem cput_false_changes_a_cell :
    ((((Store.new "db".toList 50).Put "r".toList "c".toList "v".toList 15 "-".toList 0).2.Put
        "a\nb".toList "c".toList "u".toList 15 "-".toList 0).2.CPut
        "r".toList "c".toList "zz".toList "w".toList 15 15 "-".toList 0).1 = .ok false ∧
    ((((Store.new "db".toList 50).Put "r".toList "c".toList "v".toList 15 "-".toList 0).2.Put
        "a\nb".toList "c".toList "u".toList 15 "-".toList 0).2.Get
        "a\nb".toList "c".toList 15 BY_PASS_LOCK_ID 0).1 = .ok (some "u".toList) ∧
    (((((Store.new "db".toList 50).Put "r".toList "c".toList "v".toList 15 "-".toList 0).2.Put
        "a\nb".toList "c".toList "u".toList 15 "-".toList 0).2.CPut
        "r".toList "c".toList "zz".toList "w".toList 15 15 "-".toList 0).2.Get
        "a\nb".toList "c".toList 15 BY_PASS_LOCK_ID 0).1 = .ok none := by
  decide

/-- C6, amended. In a store state whose cached keys are good (row and `col.dat`
plain file names, no newline) and whose disk holds only files of good keys, for a
good key, strings whose `sizeof(Value) + capacity()` fits the cache (the new
value, and the string a value read from disk arrives in) and a non-blocked lock
id: `CPut` returns true iff `Get` finds the cell with exactly the expected value;
when it returns true a following `Get` returns the new value; when it returns
false, and also when the expected and new values coincide, every cell with a good
key reads as before. -/
theorem cput_writes_iff_match (s : Store) (row col expected newValue : Str)
    (newCapacity readCapacity : Nat) (lockId : Str) (now : Nat)
    (hinv : s.Inv) (hk : GoodKey (row, col))
    (hfit : sizeofValue + newCapacity ≤ s.scheduler_.capacity_)
    (hfitr : sizeofValue + readCapacity ≤ s.scheduler_.capacity_)
    (hl : s.isResourceLocked row lockId now = false) :
    (s.CPut row col expected newValue newCapacity readCapacity lockId now).1 =
      .ok (decide ((s.Get row col readCapacity lockId now).1 = .ok (some expected))) ∧
    ((s.CPut row col expected newValue newCapacity readCapacity lockId now).1 = .ok true →
      ((s.CPut row col expected newValue newCapacity readCapacity lockId now).2.Get
        row col readCapacity lockId now).1 = .ok (some newValue)) ∧
    ((s.CPut row col expected newValue newCapacity readCapacity lockId now).1 = .ok false ∨
        expected = newValue →
      ∀ (r c : Str) (rc t : Nat), GoodKey (r, c) →
        sizeofValue + rc ≤ s.scheduler_.capacity_ →
        ((s.CPut row col expected newValue newCapacity readCapacity lockId now).2.Get
          r c rc BY_PASS_LOCK_ID t).1 = (s.Get r c rc BY_PASS_LOCK_ID t).1) := by
  obtain ⟨h1, h2, h3, h4, h5, h6⟩ :=
    Store.CPut_spec s row col expected newValue newCapacity readCapacity lockId now
      hinv hk hfit hfitr hl
  have hg := (Store.Get_spec s row col readCapacity lockId now hinv hk hfitr hl).1
  have hl1 : (s.CPut row col expected newValue newCapacity readCapacity lockId
      now).2.isResourceLocked row lockId now = false := by
    rw [Store.isResourceLocked_congr _ _ _ _ _ h3]; exact hl
  refine ⟨?_, ?_, ?_⟩
  · rw [h1, hg]
    by_cases hc : s.cell (row, col) = some expected
    · simp [hc]
    · have : ¬ ((Except.ok (s.cell (row, col)) : Except Err (Option Str)) =
          Except.ok (some expected)) := fun h => hc (Except.ok.inj h)
      simp [hc, this]
  · intro ht
    rw [h1] at ht
    have hc : s.cell (row, col) = some expected := by simpa using ht
    rw [(Store.Get_spec _ row col readCapacity lockId now h2 hk (by rw [h5]; exact hfitr)
      hl1).1, h6 (row, col) hk]
    simp [hc]
  · intro hcase r c rc t hkg hrc
    rw [(Store.Get_spec _ r c rc BY_PASS_LOCK_ID t h2 hkg (by rw [h5]; exact hrc)
        (Store.isResourceLocked_bypass _ _ _)).1,
      (Store.Get_spec s r c rc BY_PASS_LOCK_ID t hinv hkg hrc
        (Store.isResourceLocked_bypass _ _ _)).1,
      h6 (r, c) hkg]
    rcases hcase with hf | he
    · rw [h1] at hf
      have hc : ¬ s.cell (row, col) = some expected := by simpa using hf
      simp [hc]
    · by_cases hc : s.cell (row, col) = some expected ∧ (r, c) = (row, col)
      · rw [if_pos hc, hc.2, hc.1, he]
      · rw [if_neg hc]

/-- Witness for C6 (as amended): on the store that holds `(a, x) = v1`, the call
`CPut(a, x, v1, v3)` returns true and the following `Get` returns `v3`. -/
theorem cput_writes_iff_match_witness :
    ((Store.new "db".toList 50).Put "a".toList "x".toList "v1".toList 15 "-".toList 0).2.Inv ∧
    GoodKey ("a".toList, "x".toList) ∧
    (((Store.new "db".toList 50).Put "a".toList "x".toList "v1".toList 15 "-".toList 0).2.CPut
      "a".toList "x".toList "v1".toList "v3".toList 15 15 "-".toList 1).1 = .ok true ∧
    ((((Store.new "db".toList 50).Put "a".toList "x".toList "v1".toList 15 "-".toList 0).2.CPut
      "a".toList "x".toList "v1".toList "v3".toList 15 15 "-".toList 1).2.Get
      "a".toList "x".toList 15 "-".toList 1).1 = .ok (some "v3".toList) :=
  have hinv : ((Store.new "db".toList 50).Put "a".toList "x".toList "v1".toList 15
      "-".toList 0).2.Inv :=
    (Store.Put_spec (Store.new "db".toList 50) "a".toList "x".toList "v1".toList 15 "-".toList 0
      (Store.new_Inv _ _) (by decide) (by decide) (by decide)).2.1
  ⟨hinv, by decide,
    (cput_writes_iff_match _ "a".toList "x".toList "v1".toList "v3".toList 15 15 "-".toList 1
      hinv (by decide) (by decide) (by decide) (by decide)).1.trans (by decide),
    (cput_writes_iff_match _ "a".toList "x".toList "v1".toList "v3".toList 15 15 "-".toList 1
      hinv (by decide) (by decide) (by decide) (by decide)).2.1 (by decide)⟩

theorem Store.isResourceLocked_iff (s : Store) (row lockId : Str) (now : Nat) :
    s.isResourceLocked row lockId now = true ↔
      (lockId ≠ BY_PASS_LOCK_ID ∧
        ∃ l, s.locks_ row = some l ∧ l.expired now = false ∧ l.lockId ≠ lockId) := by
  unfold Store.isResourceLocked
  by_cases hb : lockId = BY_PASS_LOCK_ID
  · simp [hb]
  · cases hl : s.locks_ row with
    | none => simp [hb]
    | some l =>
      by_cases he : l.expired now = true
      · simp [hb, he]
      · by_cases hi : l.lockId = lockId
        · simp [hb, he, hi]
        · simp [hb, he, hi]

theorem Store.isResourceLocked_Del (s : Store) (row lockId : Str) (now : Nat) :
    (s.Del row).2.isResourceLocked row lockId now = false := by
  simp [Store.isResourceLocked, Store.Del]

theorem Store.Put_congr (a b : Store) (row col v : Str) (capacity : Nat) (lockId : Str)
    (now : Nat) (h1 : a.scheduler_ = b.scheduler_) (h2 : a.disk = b.disk)
    (h3 : a.sstableDirectory_ = b.sstableDirectory_)
    (ha : a.isResourceLocked row lockId now = false)
    (hb : b.isResourceLocked row lockId now = false) :
    a.Put row col v capacity lockId now =
      ((b.Put row col v capacity lockId now).1,
        { (b.Put row col v capacity lockId now).2 with locks_ := a.locks_ }) := by
  obtain ⟨as, ar, al, ad⟩ := a
  obtain ⟨bs, br, bl, bd⟩ := b
  simp only at h1 h2 h3
  subst h1 h2 h3
  simp only [Store.Put, ha, hb, Bool.false_eq_true, if_false]
  cases hp : as.Put (Store.onEvict ar) row col v capacity ad with
  | mk res rest =>
    obtain ⟨sch, d⟩ := rest
    cases res with
    | none => rfl
    | some e =>
      simp only
      cases hf : flushToDisk ar d row col v with
      | mk fres d1 => cases fres <;> rfl

theorem Store.Get_congr (a b : Store) (row col : Str) (readCapacity : Nat) (lockId : Str)
    (now : Nat) (h1 : a.scheduler_ = b.scheduler_) (h2 : a.disk = b.disk)
    (h3 : a.sstableDirectory_ = b.sstableDirectory_)
    (ha : a.isResourceLocked row lockId now = false)
    (hb : b.isResourceLocked row lockId now = false) :
    a.Get row col readCapacity lockId now =
      ((b.Get row col readCapacity lockId now).1,
        { (b.Get row col readCapacity lockId now).2 with locks_ := a.locks_ }) := by
  obtain ⟨as, ar, al, ad⟩ := a
  obtain ⟨bs, br, bl, bd⟩ := b
  simp only at h1 h2 h3
  subst h1 h2 h3
  simp only [Store.Get, ha, hb, Bool.false_eq_true, if_false]
  cases hg : as.Get row col with
  | mk o sch =>
    cases o with
    | some v => rfl
    | none =>
      simp only
      cases hr : readFromDisk ar ad row col with
      | none => rfl
      | some v =>
        simp only
        cases hp : as.Put (Store.onEvict ar) row col v readCapacity ad with
        | mk res rest =>
          obtain ⟨sch1, d⟩ := rest
          cases res <;> rfl

theorem Store.Get_locks (s : Store) (row col : Str) (readCapacity : Nat) (lockId : Str)
    (now : Nat) : (s.Get row col readCapacity lockId now).2.locks_ = s.locks_ := by
  unfold Store.Get
  split
  · rfl
  · split
    · rfl
    · split
      · split <;> rfl
      · rfl

theorem Store.Put_locks (s : Store) (row col v : Str) (capacity : Nat) (lockId : Str)
    (now : Nat) : (s.Put row col v capacity lockId now).2.locks_ = s.locks_ := by
  unfold Store.Put
  split
  · rfl
  · split
    · rfl
    · split <;> rfl

theorem Store.Delete_locks (s : Store) (row col lockId : Str) (now : Nat) :
    (s.Delete row col lockId now).2.locks_ = s.locks_ := by
  unfold Store.Delete
  split
  · rfl
  · split
    · rfl
    · split
      · rfl
      · dsimp only
        split
        · split <;> rfl
        · rfl

theorem Store.CPut_congr (a b : Store) (row col cur v : Str) (newCapacity readCapacity : Nat)
    (lockId : Str) (now : Nat)
    (h1 : a.scheduler_ = b.scheduler_) (h2 : a.disk = b.disk)
    (h3 : a.sstableDirectory_ = b.sstableDirectory_)
    (ha : a.isResourceLocked row lockId now = false)
    (hb : b.isResourceLocked row lockId now = false) :
    a.CPut row col cur v newCapacity readCapacity lockId now =
      ((b.CPut row col cur v newCapacity readCapacity lockId now).1,
        { (b.CPut row col cur v newCapacity readCapacity lockId now).2 with
          locks_ := a.locks_ }) := by
  have hg := Store.Get_congr a b row col readCapacity lockId now h1 h2 h3 ha hb
  have hbl := Store.Get_locks b row col readCapacity lockId now
  simp only [Store.CPut, ha, hb, Bool.false_eq_true, if_false]
  rw [hg]
  generalize b.Get row col readCapacity lockId now = g at *
  obtain ⟨res, b1⟩ := g
  simp only at hbl
  cases res with
  | error e => rfl
  | ok o =>
    cases o with
    | none => rfl
    | some value =>
      simp only
      by_cases hv : value = cur
      · simp only [if_pos hv]
        have hb1 : b1.isResourceLocked row lockId now = false := by
          rw [Store.isResourceLocked_congr _ _ _ _ _ hbl]; exact hb
        have ha1 : Store.isResourceLocked { b1 with locks_ := a.locks_ } row lockId now
            = false := by
          exact (Store.isResourceLocked_congr a _ row lockId now rfl).trans ha
        rw [Store.Put_congr { b1 with locks_ := a.locks_ } b1 row col v newCapacity lockId now
          rfl rfl rfl ha1 hb1]
        cases hp : b1.Put row col v newCapacity lockId now with
        | mk pres b2 => cases pres <;> rfl
      · simp only [if_neg hv]

theorem Store.CPut_locks (s : Store) (row col cur v : Str) (newCapacity readCapacity : Nat)
    (lockId : Str) (now : Nat) :
    (s.CPut row col cur v newCapacity readCapacity lockId now).2.locks_ = s.locks_ := by
  have hg := Store.Get_locks s row col readCapacity lockId now
  unfold Store.CPut
  split
  · rfl
  · generalize s.Get row col readCapacity lockId now = g at *
    obtain ⟨res, s1⟩ := g
    simp only at hg
    cases res with
    | error e => exact hg
    | ok o =>
      cases o with
      | none => exact hg
      | some value =>
        simp only
        split
        · have hp := Store.Put_locks s1 row col v newCapacity lockId now
          cases hpe : s1.Put row col v newCapacity lockId now with
          | mk pres s2 =>
            rw [hpe] at hp
            cases pres <;> exact hp.trans hg
        · exact hg

/-- C7. Lock enforcement. `isResourceLocked(row, lock_id)` holds iff the lock id
is not `LOCK_BYPASS`, the row has a lock record that has not expired and the
recorded id differs. When it holds, each of Put, Get, Delete, CPut, SetNX and
GetColsInRow returns false and leaves the whole store state unchanged. When it
does not hold, each of them returns (or raises) what it returns (or raises) on
the store whose lock record for the row has been removed, and leaves the same
cache and disk. -/
theorem lock_enforcement (s : Store) (row col value currValue lockId : Str)
    (capacity readCapacity : Nat) (cols : List Str) (now : Nat) :
    (s.isResourceLocked row lockId now = true ↔
      (lockId ≠ BY_PASS_LOCK_ID ∧
        ∃ l, s.locks_ row = some l ∧ l.expired now = false ∧ l.lockId ≠ lockId)) ∧
    (s.isResourceLocked row lockId now = true →
      s.Put row col value capacity lockId now = (.ok false, s) ∧
      s.Get row col readCapacity lockId now = (.ok none, s) ∧
      s.Delete row col lockId now = (.ok false, s) ∧
      s.CPut row col currValue value capacity readCapacity lockId now = (.ok false, s) ∧
      s.SetNX row lockId now = (false, s) ∧
      s.GetColsInRow row cols lockId now = (.ok false, cols)) ∧
    (s.isResourceLocked row lockId now = false →
      s.Put row col value capacity lockId now =
        (((s.Del row).2.Put row col value capacity lockId now).1,
          { ((s.Del row).2.Put row col value capacity lockId now).2 with locks_ := s.locks_ }) ∧
      s.Get row col readCapacity lockId now =
        (((s.Del row).2.Get row col readCapacity lockId now).1,
          { ((s.Del row).2.Get row col readCapacity lockId now).2 with locks_ := s.locks_ }) ∧
      s.Delete row col lockId now =
        (((s.Del row).2.Delete row col lockId now).1,
          { ((s.Del row).2.Delete row col lockId now).2 with locks_ := s.locks_ }) ∧
      s.CPut row col currValue value capacity readCapacity lockId now =
        (((s.Del row).2.CPut row col currValue value capacity readCapacity lockId now).1,
          { ((s.Del row).2.CPut row col currValue value capacity readCapacity lockId now).2
            with locks_ := s.locks_ }) ∧
      s.SetNX row lockId now = (s.Del row).2.SetNX row lockId now ∧
      s.GetColsInRow row cols lockId now = (s.Del row).2.GetColsInRow row cols lockId now) := by
  refine ⟨Store.isResourceLocked_iff s row lockId now, ?_, ?_⟩
  · intro h
    simp [Store.Put, Store.Get, Store.Delete, Store.CPut, Store.SetNX, Store.GetColsInRow, h]
  · intro h
    have hd := Store.isResourceLocked_Del s row lockId now
    refine ⟨Store.Put_congr s _ row col value capacity lockId now rfl rfl rfl h hd,
      Store.Get_congr s _ row col readCapacity lockId now rfl rfl rfl h hd, ?_,
      Store.CPut_congr s _ row col currValue value capacity readCapacity lockId now
        rfl rfl rfl h hd, ?_, ?_⟩
    · simp only [Store.Delete, h, hd, Bool.false_eq_true, if_false]
      have e1 : (s.Del row).2.scheduler_ = s.scheduler_ := rfl
      have e2 : (s.Del row).2.disk = s.disk := rfl
      have e3 : (s.Del row).2.sstableDirectory_ = s.sstableDirectory_ := rfl
      rw [e1, e2, e3]
      cases hdl : s.scheduler_.Delete row col with
      | mk b sch =>
        cases b with
        | true => rfl
        | false =>
          simp only
          cases hr : s.disk.remove (cellPath s.sstableDirectory_ row col) with
          | mk res d1 =>
            cases res with
            | some e => rfl
            | none =>
              simp only
              split
              · cases hr2 : d1.remove (rowDir s.sstableDirectory_ row) with
                | mk res2 d2 => cases res2 <;> rfl
              · rfl
    · simp only [Store.SetNX, h, hd, Bool.false_eq_true, if_false]
      simp only [Store.Del, Prod.mk.injEq, true_and]
      congr 1
      funext r
      by_cases hr : r = row <;> simp [hr]
    · simp only [Store.GetColsInRow, h, hd, Bool.false_eq_true, if_false]
      rfl

/-- C8, counterexample. After `SetNX(r, t1)` succeeded at time 0, and with no
`Del` in between, `SetNX(r, t1)` at time 1 and `SetNX(r, LOCK_BYPASS)` at time 1
both return true and overwrite the lock record. -/
theorem setnx_same_id_succeeds :
    ((Store.new "db".toList 40).SetNX "r".toList "t1".toList 0).1 = true ∧
    (((Store.new "db".toList 40).SetNX "r".toList "t1".toList 0).2.SetNX
        "r".toList "t1".toList 1).1 = true ∧
    (((Store.new "db".toList 40).SetNX "r".toList "t1".toList 0).2.SetNX
        "r".toList "t1".toList 1).2.locks_ "r".toList = some ⟨"t1".toList, 1⟩ ∧
    (((Store.new "db".toList 40).SetNX "r".toList "t1".toList 0).2.SetNX
        "r".toList BY_PASS_LOCK_ID 1).1 = true ∧
    (((Store.new "db".toList 40).SetNX "r".toList "t1".toList 0).2.SetNX
        "r".toList BY_PASS_LOCK_ID 1).2.locks_ "r".toList = some ⟨BY_PASS_LOCK_ID, 1⟩ := by
  decide

/-- C8, amended. A successful `SetNX(r, t1)` at time `t0` records `(t1, t0)`.
Put, Get, Delete and CPut on any row, and SetNX and Del on other rows, leave
that record in place. In every state that still holds the record, while it has
not expired, `SetNX(r, t2)` with `t2` different from `t1` and from `LOCK_BYPASS`
returns false and leaves the state unchanged. After `Del(r)`, `SetNX(r, t2)`
returns true and records `t2`. -/
theorem setnx_exclusive (s : Store) (r t1 : Str) (t0 : Nat)
    (hs : (s.SetNX r t1 t0).1 = true) :
    (s.SetNX r t1 t0).2.locks_ r = some ⟨t1, t0⟩ ∧
    (∀ (s2 : Store) (row col v cur lockId : Str) (capacity readCapacity now : Nat),
      (s2.Put row col v capacity lockId now).2.locks_ = s2.locks_ ∧
      (s2.Get row col readCapacity lockId now).2.locks_ = s2.locks_ ∧
      (s2.Delete row col lockId now).2.locks_ = s2.locks_ ∧
      (s2.CPut row col cur v capacity readCapacity lockId now).2.locks_ = s2.locks_ ∧
      (row ≠ r → (s2.SetNX row lockId now).2.locks_ r = s2.locks_ r) ∧
      (row ≠ r → (s2.Del row).2.locks_ r = s2.locks_ r)) ∧
    (∀ (s2 : Store) (t2 : Str) (now : Nat), s2.locks_ r = some ⟨t1, t0⟩ →
      LockInfo.expired ⟨t1, t0⟩ now = false → t2 ≠ t1 → t2 ≠ BY_PASS_LOCK_ID →
      s2.SetNX r t2 now = (false, s2)) ∧
    (∀ (s2 : Store) (t2 : Str) (now : Nat),
      ((s2.Del r).2.SetNX r t2 now).1 = true ∧
      ((s2.Del r).2.SetNX r t2 now).2.locks_ r = some ⟨t2, now⟩) := by
  refine ⟨?_, ?_, ?_, ?_⟩
  · unfold Store.SetNX at hs ⊢
    by_cases hl : s.isResourceLocked r t1 t0 = true
    · simp [hl] at hs
    · simp [hl]
  · intro s2 row col v cur lockId capacity readCapacity now
    refine ⟨Store.Put_locks _ _ _ _ _ _ _, Store.Get_locks _ _ _ _ _ _,
      Store.Delete_locks _ _ _ _ _, Store.CPut_locks _ _ _ _ _ _ _ _ _, ?_, ?_⟩
    · intro hne
      unfold Store.SetNX
      split
      · rfl
      · simp [hne.symm]
    · intro hne
      simp [Store.Del, hne.symm]
  · intro s2 t2 now hrec hexp hne hby
    have hl : s2.isResourceLocked r t2 now = true := by
      rw [Store.isResourceLocked_iff]
      exact ⟨hby, ⟨t1, t0⟩, hrec, hexp, fun h => hne h.symm⟩
    simp [Store.SetNX, hl]
  · intro s2 t2 now
    have hd := Store.isResourceLocked_Del s2 r t2 now
    simp [Store.SetNX, hd]

theorem setnx_exclusive_witness :
    ((Store.new "db".toList 40).SetNX "r".toList "t1".toList 0).1 = true ∧
    ((Store.new "db".toList 40).SetNX "r".toList "t1".toList 0).2.SetNX "r".toList "t2".toList 9000
      = (false, ((Store.new "db".toList 40).SetNX "r".toList "t1".toList 0).2) :=
  ⟨by decide,
    (setnx_exclusive (Store.new "db".toList 40) "r".toList "t1".toList 0 (by decide)).2.2.1
      _ "t2".toList 9000
      (setnx_exclusive (Store.new "db".toList 40) "r".toList "t1".toList 0 (by decide)).1
      (by decide) (by decide) (by decide)⟩

/-- C9, counterexample. It is not the case that a lock is expired exactly when
more than 10 000 ms have elapsed: 10 500 ms after acquisition it is still held. -/
theorem lock_not_expired_at_10500 :
    ¬ (∀ (l : LockInfo) (now : Nat),
        l.expired now = true ↔ (now : Int) - (l.start : Int) > 10000) := by
  intro h
  have := (h ⟨[], 0⟩ 10500).mpr (by decide)
  exact absurd this (by decide)

/-- C9, amended. With time in milliseconds, the elapsed time is truncated to
whole seconds before it is compared with 10: `LockInfo::expired()` is true
exactly when at least 11 000 ms have elapsed since acquisition, and a lock
acquired at `t0` is treated as held at `t` iff `t - t0 < 11 s`. -/
theorem lock_expiry_threshold (l : LockInfo) (now : Nat) :
    (l.expired now = true ↔ (now : Int) - (l.start : Int) ≥ 11000) ∧
    (l.expired now = false ↔ (now : Int) - (l.start : Int) < 11000) := by
  have key : l.expired now = true ↔ (now : Int) - (l.start : Int) ≥ 11000 := by
    unfold LockInfo.expired LOCK_MAX_DURATION
    rw [decide_eq_true_iff]
    constructor
    · intro h
      by_contra hc
      push_neg at hc
      by_cases hneg : (now : Int) - (l.start : Int) < 0
      · have h1 : (0 : Int) ≤ Int.tdiv (-((now : Int) - (l.start : Int))) 1000 :=
          Int.tdiv_nonneg (by omega) (by norm_num)
        rw [Int.neg_tdiv] at h1
        omega
      · have hnn : 0 ≤ (now : Int) - (l.start : Int) := by omega
        rw [Int.tdiv_eq_ediv hnn (by norm_num)] at h
        omega
    · intro h
      have hnn : 0 ≤ (now : Int) - (l.start : Int) := by omega
      rw [Int.tdiv_eq_ediv hnn (by norm_num)]
      omega
  refine ⟨key, ?_⟩
  constructor
  · intro h
    by_contra hc
    have := key.mpr (by omega)
    rw [h] at this
    exact absurd this (by simp)
  · intro h
    cases he : l.expired now with
    | false => rfl
    | true => have := key.mp he; omega

/-- C10, counterexample. Row `r` holds a live lock with token `t1` (taken at
time 0). Applying at time 1 a DEL op that carries the lock id `t2` reports
success and removes the lock record. -/
theorem del_ignores_token :
    (((KVSServer.new 0 (Store.new "db".toList 40)).applyChange
        ⟨.SETNX, "r".toList, [], [], [], "q1".toList, "t1".toList⟩ ⟨0, 15, 15⟩).2.store_.locks_
        "r".toList = some ⟨"t1".toList, 0⟩) ∧
    ((((KVSServer.new 0 (Store.new "db".toList 40)).applyChange
        ⟨.SETNX, "r".toList, [], [], [], "q1".toList, "t1".toList⟩ ⟨0, 15, 15⟩).2.applyChange
        ⟨.DEL, "r".toList, [], [], [], "q2".toList, "t2".toList⟩ ⟨1, 15, 15⟩).1
        = .ok ⟨true, [], []⟩) ∧
    ((((KVSServer.new 0 (Store.new "db".toList 40)).applyChange
        ⟨.SETNX, "r".toList, [], [], [], "q1".toList, "t1".toList⟩ ⟨0, 15, 15⟩).2.applyChange
        ⟨.DEL, "r".toList, [], [], [], "q2".toList, "t2".toList⟩ ⟨1, 15, 15⟩).2.store_.locks_
        "r".toList = none) := by
  decide

/-- C10, amended. When the replicated server applies a DEL op on a row, the
lock record of the row is removed whatever lock id the op carries and whatever
token the row holds, the op reports success, the lock records of the other rows
and the cache and disk are left as they were. -/
theorem del_removes_lock_unconditionally (sv : KVSServer) (op : Op) (env : CallEnv)
    (hop : op.type = OpType.DEL) :
    (sv.applyChange op env).1 = .ok ⟨true, [], []⟩ ∧
    (sv.applyChange op env).2.store_.locks_ op.row = none ∧
    (∀ r, r ≠ op.row → (sv.applyChange op env).2.store_.locks_ r = sv.store_.locks_ r) ∧
    (sv.applyChange op env).2.store_.scheduler_ = sv.store_.scheduler_ ∧
    (sv.applyChange op env).2.store_.disk = sv.store_.disk := by
  have h : sv.applyChange op env = sv.record op true [] (sv.store_.Del op.row).2 := by
    unfold KVSServer.applyChange
    rw [hop]
    rfl
  rw [h]
  refine ⟨rfl, ?_, ?_, rfl, rfl⟩
  · simp [KVSServer.record, Store.Del]
  · intro r hr
    simp [KVSServer.record, Store.Del, hr]

theorem del_removes_lock_unconditionally_witness :
    (((KVSServer.new 0 (Store.new "db".toList 40)).applyChange
        ⟨.SETNX, "r".toList, [], [], [], "q1".toList, "t1".toList⟩ ⟨0, 15, 15⟩).2.applyChange
        ⟨.DEL, "r".toList, [], [], [], "q2".toList, "t2".toList⟩ ⟨1, 15, 15⟩).1
        = .ok ⟨true, [], []⟩ :=
  (del_removes_lock_unconditionally _ ⟨.DEL, "r".toList, [], [], [], "q2".toList, "t2".toList⟩
    ⟨1, 15, 15⟩ rfl).1

/-! ## Theorems: Paxos safety -/

theorem peerDoneFind_assign (k k' v : Int) (m : List (Int × Int)) :
    peerDoneFind k (peerDoneAssign k' v m) = if k = k' then some v else peerDoneFind k m := by
  induction m with
  | nil =>
    by_cases h : k = k'
    · simp [peerDoneAssign, peerDoneFind, h]
    · have h' : ¬ k' = k := fun e => h e.symm
      simp [peerDoneAssign, peerDoneFind, h, h']
  | cons e rest ih =>
    by_cases he : e.1 = k'
    · by_cases h : k = k'
      · simp [peerDoneAssign, peerDoneFind, he, h]
      · have h' : ¬ k' = k := fun e => h e.symm
        have h2 : ¬ e.1 = k := fun e2 => h (e2.symm.trans he)
        simp [peerDoneAssign, peerDoneFind, he, h, h', h2]
    · by_cases h2 : e.1 = k
      · have h : ¬ k = k' := fun e2 => he (h2.trans e2)
        simp [peerDoneAssign, peerDoneFind, he, h2, h]
      · simp [peerDoneAssign, peerDoneFind, he, h2, ih]

theorem peerDoneFind_index (k k' : Int) (m : List (Int × Int)) (v : Int)
    (h : peerDoneFind k m = some v) : peerDoneFind k (peerDoneIndex k' m).2 = some v := by
  unfold peerDoneIndex
  cases hk : peerDoneFind k' m with
  | some w => exact h
  | none =>
    simp only [peerDoneFind_assign]
    by_cases e : k = k'
    · rw [e, hk] at h; exact absurd h (by simp)
    · simp [e, h]

theorem peerDoneIndex_found (k : Int) (m : List (Int × Int)) (v : Int)
    (h : peerDoneFind k m = some v) : peerDoneIndex k m = (v, m) := by
  simp [peerDoneIndex, h]

theorem foldl_min_le_init (m : List (Int × Int)) (init : Int) :
    m.foldl (fun res pair => min res pair.2) init ≤ init := by
  induction m generalizing init with
  | nil => simp
  | cons e rest ih =>
    simp only [List.foldl_cons]
    exact le_trans (ih _) (min_le_left _ _)

theorem foldl_min_le_of_find (k v : Int) (m : List (Int × Int)) (init : Int)
    (h : peerDoneFind k m = some v) :
    m.foldl (fun res pair => min res pair.2) init ≤ v := by
  induction m generalizing init with
  | nil => simp [peerDoneFind] at h
  | cons e rest ih =>
    simp only [List.foldl_cons]
    by_cases he : e.1 = k
    · simp only [peerDoneFind, if_pos he, Option.some.injEq] at h
      exact le_trans (foldl_min_le_init _ _) (h ▸ min_le_right _ _)
    · simp only [peerDoneFind, if_neg he] at h
      exact ih _ h

theorem PaxosImpl.acceptorRecord_congr (r1 r : PaxosImpl)
    (h : r1.acceptorIns_ = r.acceptorIns_) (k : Int) :
    r1.acceptorRecord k = r.acceptorRecord k := by
  unfold PaxosImpl.acceptorRecord
  rw [h]

theorem PaxosImpl.acceptorRecord_setAcceptor (r : PaxosImpl) (seq : Int) (acc : Instance)
    (k : Int) :
    (r.setAcceptor seq acc).acceptorRecord k = if k = seq then acc else r.acceptorRecord k := by
  unfold PaxosImpl.acceptorRecord PaxosImpl.setAcceptor
  by_cases h : k = seq <;> simp [h]

/-- What the Accept handler does. -/
theorem PaxosImpl.Accept_spec (r : PaxosImpl) (args : AcceptArgs) :
    (r.Accept args).2.doneFreed_ = r.doneFreed_ ∧
    (r.Accept args).2.instances_ = r.instances_ ∧
    (∀ k, k ≠ args.seq → (r.Accept args).2.acceptorRecord k = r.acceptorRecord k) ∧
    (if args.n ≥ (r.acceptorRecord args.seq).HighestSeen then
      (r.Accept args).1.ok = true ∧
      (r.Accept args).2.acceptorRecord args.seq =
        { r.acceptorRecord args.seq with
          HighestSeen := args.n, HighestAcN := args.n, HighestAcV := args.v }
    else
      (r.Accept args).1.ok = false ∧
      (r.Accept args).2.acceptorRecord args.seq = r.acceptorRecord args.seq) := by
  unfold PaxosImpl.Accept
  by_cases hn : args.n ≥ (r.acceptorRecord args.seq).HighestSeen
  · rw [if_pos hn, if_pos hn]
    refine ⟨rfl, rfl, ?_, rfl, ?_⟩
    · intro k hk
      rw [PaxosImpl.acceptorRecord_setAcceptor, if_neg hk]
    · rw [PaxosImpl.acceptorRecord_setAcceptor, if_pos rfl]
  · rw [if_neg hn, if_neg hn]
    exact ⟨rfl, rfl, fun _ _ => rfl, rfl, rfl⟩

theorem mem_setProposal (ps : List Proposal) (a : Nat) (P1 Q : Proposal)
    (h : Q ∈ setProposal ps a P1) : Q = P1 ∨ (Q ∈ ps ∧ Q.id ≠ a) := by
  unfold setProposal at h
  obtain ⟨R, hR, hRQ⟩ := List.mem_map.mp h
  by_cases hid : R.id = a
  · left; rw [if_pos hid] at hRQ; exact hRQ.symm
  · right; rw [if_neg hid] at hRQ; rw [← hRQ]; exact ⟨hR, hid⟩

theorem mem_setProposal_old (ps : List Proposal) (a : Nat) (P1 Q : Proposal)
    (h : Q ∈ ps) (hid : Q.id ≠ a) : Q ∈ setProposal ps a P1 := by
  unfold setProposal
  exact List.mem_map.mpr ⟨Q, h, by rw [if_neg hid]⟩

theorem mem_setProposal_new (ps : List Proposal) (a : Nat) (P P1 : Proposal)
    (h : P ∈ ps) (hid : P.id = a) : P1 ∈ setProposal ps a P1 := by
  unfold setProposal
  exact List.mem_map.mpr ⟨P, h, by rw [if_pos hid]⟩

theorem findProposal_some (ps : List Proposal) (a : Nat) (P : Proposal)
    (h : findProposal ps a = some P) : P ∈ ps ∧ P.id = a := by
  unfold findProposal at h
  have h1 := List.mem_of_find?_eq_some h
  have h2 := List.find?_some h
  exact ⟨h1, by simpa using h2⟩

theorem ids_unique (ps : List Proposal) (h : ps.map Proposal.id = List.range ps.length)
    (P Q : Proposal) (hP : P ∈ ps) (hQ : Q ∈ ps) (hid : P.id = Q.id) : P = Q := by
  have hnd : (ps.map Proposal.id).Nodup := by rw [h]; exact List.nodup_range _
  exact List.inj_on_of_nodup_map hnd hP hQ hid

theorem ids_setProposal (ps : List Proposal) (a : Nat) (P1 : Proposal) (h1 : P1.id = a) :
    (setProposal ps a P1).map Proposal.id = ps.map Proposal.id := by
  unfold setProposal
  rw [List.map_map]
  apply List.map_congr_left
  intro Q _
  by_cases hid : Q.id = a
  · simp [hid, h1]
  · simp [hid]

theorem length_setProposal (ps : List Proposal) (a : Nat) (P1 : Proposal) :
    (setProposal ps a P1).length = ps.length := by
  simp [setProposal]

theorem quorum_intersect (N : Nat) (W1 W2 : List Nat) (h1 : IsQuorum N W1)
    (h2 : IsQuorum N W2) : ∃ i, i ∈ W1 ∧ i ∈ W2 := by
  by_contra hno
  push_neg at hno
  have hdisj : Disjoint W1.toFinset W2.toFinset := by
    rw [Finset.disjoint_left]
    intro a ha hb
    exact hno a (List.mem_toFinset.mp ha) (List.mem_toFinset.mp hb)
  have hsub : W1.toFinset ∪ W2.toFinset ⊆ Finset.range N := by
    intro a ha
    rw [Finset.mem_union] at ha
    rw [Finset.mem_range]
    rcases ha with ha | ha
    · exact h1.2.1 a (List.mem_toFinset.mp ha)
    · exact h2.2.1 a (List.mem_toFinset.mp ha)
  have hcard := Finset.card_le_card hsub
  rw [Finset.card_union_of_disjoint hdisj, Finset.card_range,
    List.toFinset_card_of_nodup h1.1, List.toFinset_card_of_nodup h2.1] at hcard
  have := h1.2.2
  have := h2.2.2
  omega

theorem Cluster.SlotInv.promiserQuorum {N : Nat} {s : Cluster} (hinv : s.SlotInv N) (P : Proposal)
    (hP : P ∈ s.proposals) (hs : P.sentAccept = true) :
    IsQuorum N (P.promisers.map Prod.fst) := by
  obtain ⟨hnd, _, hx⟩ := hinv.promisers P hP
  refine ⟨hnd, ?_, ?_⟩
  · intro i hi
    obtain ⟨x, hxm, rfl⟩ := List.mem_map.mp hi
    exact (hx x hxm).1
  · rw [List.length_map]; exact (hinv.sent P hP hs).2.2

theorem Cluster.SlotInv.sameBallot {N : Nat} {s : Cluster} (hinv : s.SlotInv N) (P Q : Proposal)
    (hP : P ∈ s.proposals) (hQ : Q ∈ s.proposals) (hsP : P.sentAccept = true)
    (hsQ : Q.sentAccept = true) (hseq : P.seq = Q.seq) (hn : P.n = Q.n) : P = Q := by
  obtain ⟨i, hi1, hi2⟩ := quorum_intersect N _ _ (hinv.promiserQuorum P hP hsP)
    (hinv.promiserQuorum Q hQ hsQ)
  obtain ⟨x, hx, hxi⟩ := List.mem_map.mp hi1
  obtain ⟨y, hy, hyi⟩ := List.mem_map.mp hi2
  have hid := hinv.promiseOnce P hP Q hQ hseq hn x hx y hy (hxi.trans hyi.symm)
  exact ids_unique _ hinv.ids P Q hP hQ hid

theorem Cluster.SlotInv.voterQuorum {N : Nat} {s : Cluster} (hinv : s.SlotInv N) (P : Proposal)
    (hP : P ∈ s.proposals) (hd : P.phase = Phase.decide) : IsQuorum N P.voters := by
  obtain ⟨hnd, _, _, hv⟩ := hinv.voters P hP
  exact ⟨hnd, fun i hi => (hv i hi).1, hinv.decidePhase P hP hd⟩

theorem Proposal.sentAccept_of_decide (P : Proposal) (h : P.phase = Phase.decide) :
    P.sentAccept = true := by
  simp [Proposal.sentAccept, h]

theorem Cluster.SlotInv.decideAgree {N : Nat} {s : Cluster} (hinv : s.SlotInv N) (P Q : Proposal)
    (hP : P ∈ s.proposals) (hQ : Q ∈ s.proposals) (hdP : P.phase = Phase.decide)
    (hdQ : Q.phase = Phase.decide) (hseq : Q.seq = P.seq) (hle : Q.n ≤ P.n) :
    Q.actualV = P.actualV := by
  have hsP := P.sentAccept_of_decide hdP
  have hsQ := Q.sentAccept_of_decide hdQ
  by_cases hn : Q.n = P.n
  · rw [hinv.sameBallot Q P hQ hP hsQ hsP hseq hn]
  · by_contra hv
    obtain ⟨W, hW, hWp⟩ := hinv.safe P hP Q hQ hsP hsQ hseq (by omega) hv
    obtain ⟨i, hi1, hi2⟩ := quorum_intersect N _ _ hW (hinv.voterQuorum Q hQ hdQ)
    exact (hWp i hi1).1 hi2

theorem Cluster.SlotInv.agreement {N : Nat} {s : Cluster} (hinv : s.SlotInv N) (i j : Nat) (seq : Int)
    (v w : Op) (hi : i < N) (hj : j < N) (hv : s.decided i seq = some v)
    (hw : s.decided j seq = some w) : v = w := by
  obtain ⟨P, hP, hdP, hsP, hvP⟩ := hinv.decidedFrom i seq v hi hv
  obtain ⟨Q, hQ, hdQ, hsQ, hvQ⟩ := hinv.decidedFrom j seq w hj hw
  rw [← hvP, ← hvQ]
  rcases le_total Q.n P.n with h | h
  · exact (hinv.decideAgree P Q hP hQ hdP hdQ (hsQ.trans hsP.symm) h).symm
  · exact hinv.decideAgree Q P hQ hP hdQ hdP (hsP.trans hsQ.symm) h

theorem Cluster.VotedFor_mono (s s1 : Cluster) (i : Nat) (seq n : Int) (v : Op)
    (h : ∀ P ∈ s.proposals, P.sentAccept = true → ∃ P1 ∈ s1.proposals,
      P1.sentAccept = true ∧ P1.seq = P.seq ∧ P1.n = P.n ∧ P1.actualV = P.actualV ∧
      ∀ j ∈ P.voters, j ∈ P1.voters)
    (hv : s.VotedFor i seq n v) : s1.VotedFor i seq n v := by
  obtain ⟨P, hP, h1, h2, h3, h4, h5⟩ := hv
  obtain ⟨P1, hP1, g1, g2, g3, g4, g5⟩ := h P hP h1
  exact ⟨P1, hP1, g1, g2.trans h2, g3.trans h3, g4.trans h4, g5 i h5⟩

/-- The invariant only reads the proposals, the acceptor records and the decided
values: a step that leaves the first two alone preserves it. -/
theorem Cluster.SlotInv.of_same_acc {N : Nat} {s s1 : Cluster} (hinv : s.SlotInv N)
    (hp : s1.proposals = s.proposals)
    (hacc : ∀ i seq, s1.acc i seq = s.acc i seq)
    (hdec : ∀ i seq v, i < N → s1.decided i seq = some v →
      ∃ P ∈ s1.proposals, P.phase = Phase.decide ∧ P.seq = seq ∧ P.actualV = v) :
    s1.SlotInv N := by
  have hvf : ∀ i seq n v, s.VotedFor i seq n v → s1.VotedFor i seq n v := by
    intro i seq n v hv
    unfold Cluster.VotedFor at hv ⊢
    rw [hp]; exact hv
  refine ⟨?_, ?_, ?_, ?_, ?_, ?_, ?_, ?_, ?_, ?_, ?_, hdec⟩
  · rw [hp]; exact hinv.ids
  · rw [hp]; exact hinv.proposer
  · intro i seq hi; rw [hacc]; exact hinv.accBounds i seq hi
  · intro i seq hi h
    rw [hacc] at h ⊢
    exact hvf _ _ _ _ (hinv.accVoted i seq hi h)
  · intro P hP
    rw [hp] at hP
    obtain ⟨h1, h2, h3, h4⟩ := hinv.voters P hP
    refine ⟨h1, h2, h3, ?_⟩
    intro i hi; rw [hacc]; exact h4 i hi
  · intro P hP
    rw [hp] at hP
    obtain ⟨h1, h2, h3⟩ := hinv.promisers P hP
    refine ⟨h1, h2, ?_⟩
    intro x hx
    obtain ⟨g1, g2, g3, g4, g5, g6, g7⟩ := h3 x hx
    refine ⟨g1, g2, by rw [hacc]; exact g3, g4, g5, fun h => hvf _ _ _ _ (g6 h), ?_⟩
    rw [hp]; exact g7
  · rw [hp]; exact hinv.promiseOnce
  · rw [hp]; exact hinv.selected
  · rw [hp]; exact hinv.sent
  · intro P hP Q hQ h1 h2 h3 h4 h5
    rw [hp] at hP hQ
    obtain ⟨W, hW, hWp⟩ := hinv.safe P hP Q hQ h1 h2 h3 h4 h5
    exact ⟨W, hW, fun i hi => by rw [hacc]; exact hWp i hi⟩
  · rw [hp]; exact hinv.decidePhase

theorem PaxosImpl.Decide_spec (r : PaxosImpl) (args : DecideArgs) :
    (r.Decide args).2.doneFreed_ = r.doneFreed_ ∧
    (r.Decide args).2.acceptorIns_ = r.acceptorIns_ ∧
    (∀ k, k ≠ args.seq → (r.Decide args).2.instances_ k = r.instances_ k) ∧
    ∃ inst, (r.Decide args).2.instances_ args.seq = some inst ∧ inst.Decided = true ∧
      inst.DecidedV = args.v := by
  unfold PaxosImpl.Decide
  refine ⟨rfl, rfl, ?_, ?_⟩
  · intro k hk; simp [hk]
  · cases hi : r.instances_ args.seq with
    | none =>
      exact ⟨{ Instance.new with Decided := true, DecidedV := args.v }, by simp, rfl, rfl⟩
    | some it =>
      exact ⟨{ it with Decided := true, DecidedV := args.v }, by simp, rfl, rfl⟩

theorem setReplica_same (reps : Nat → PaxosImpl) (i : Nat) (r : PaxosImpl) :
    setReplica reps i r i = r := by
  simp [setReplica]

theorem setReplica_other (reps : Nat → PaxosImpl) (i j : Nat) (r : PaxosImpl) (h : j ≠ i) :
    setReplica reps i r j = reps j := by
  simp [setReplica, h]

theorem setProposal_old_of_ne (ps : List Proposal) (hids : ps.map Proposal.id = List.range ps.length)
    (a : Nat) (P P1 Q : Proposal) (hP : P ∈ ps) (hPa : P.id = a) (hQ : Q ∈ ps) (hne : Q ≠ P) :
    Q ∈ setProposal ps a P1 ∧ Q.id ≠ a := by
  have hid : Q.id ≠ a := by
    intro e
    exact hne (ids_unique ps hids Q P hQ hP (e.trans hPa.symm))
  exact ⟨mem_setProposal_old ps a P1 Q hQ hid, hid⟩

/-- A step that replaces the iteration `P` by `P1`, where `P1` differs from `P`
only in its phase and in the `done` flag of its accept state, and `P` had sent
its Accept already, preserves the invariant, provided `P1` is in the decide
phase only with a majority of voters. -/
theorem Cluster.SlotInv.rephase {N : Nat} {s : Cluster} (hinv : s.SlotInv N) (a : Nat)
    (P P1 : Proposal) (hf : findProposal s.proposals a = some P)
    (hsP : P.sentAccept = true) (hsP1 : P1.sentAccept = true)
    (hnd : P.phase ≠ Phase.decide)
    (hcore : P1 = { P with phase := P1.phase, accState := P1.accState })
    (hcount : P1.accState.acceptOKCount = P.accState.acceptOKCount)
    (hdec : P1.phase = Phase.decide → N / 2 + 1 ≤ P.voters.length) :
    Cluster.SlotInv N { s with proposals := setProposal s.proposals a P1 } := by
  obtain ⟨hPm, hPa⟩ := findProposal_some _ _ _ hf
  have e_id : P1.id = P.id := by rw [hcore]
  have e_seq : P1.seq = P.seq := by rw [hcore]
  have e_n : P1.n = P.n := by rw [hcore]
  have e_v : P1.actualV = P.actualV := by rw [hcore]
  have e_vot : P1.voters = P.voters := by rw [hcore]
  have e_pro : P1.promisers = P.promisers := by rw [hcore]
  have e_prep : P1.prepState = P.prepState := by rw [hcore]
  have e_pc : P1.prepCalled = P.prepCalled := by rw [hcore]
  have e_ac : P1.accCalled = P.accCalled := by rw [hcore]
  have e_md : P1.myDone = P.myDone := by rw [hcore]
  have e_pp : P1.proposer = P.proposer := by rw [hcore]
  -- every new proposal has an old counterpart with the same data
  have back : ∀ Q1 ∈ setProposal s.proposals a P1, ∃ Q ∈ s.proposals,
      Q1.id = Q.id ∧ Q1.seq = Q.seq ∧ Q1.n = Q.n ∧ Q1.actualV = Q.actualV ∧
      Q1.voters = Q.voters ∧ Q1.promisers = Q.promisers ∧ Q1.prepState = Q.prepState ∧
      Q1.prepCalled = Q.prepCalled ∧ Q1.accCalled = Q.accCalled ∧ Q1.myDone = Q.myDone ∧
      Q1.proposer = Q.proposer ∧ Q1.sentAccept = Q.sentAccept ∧
      Q1.accState.acceptOKCount = Q.accState.acceptOKCount ∧
      (Q1.phase = Phase.decide → Q.phase = Phase.decide ∨ Q1 = P1) := by
    intro Q1 hQ1
    rcases mem_setProposal _ _ _ _ hQ1 with e | ⟨hm, _⟩
    · subst e
      exact ⟨P, hPm, e_id, e_seq, e_n, e_v, e_vot, e_pro, e_prep, e_pc, e_ac, e_md, e_pp,
        hsP1.trans hsP.symm, hcount, fun _ => Or.inr rfl⟩
    · exact ⟨Q1, hm, rfl, rfl, rfl, rfl, rfl, rfl, rfl, rfl, rfl, rfl, rfl, rfl, rfl,
        fun h => Or.inl h⟩
  have fwd : ∀ Q ∈ s.proposals, ∃ Q1 ∈ setProposal s.proposals a P1,
      Q1.id = Q.id ∧ Q1.seq = Q.seq ∧ Q1.n = Q.n ∧ Q1.actualV = Q.actualV ∧
      Q1.voters = Q.voters ∧ Q1.sentAccept = Q.sentAccept ∧
      (Q.phase = Phase.decide → Q1.phase = Phase.decide) := by
    intro Q hQ
    by_cases e : Q = P
    · subst e
      exact ⟨P1, mem_setProposal_new _ _ _ _ hPm hPa, e_id, e_seq, e_n, e_v, e_vot,
        hsP1.trans hsP.symm, fun h => absurd h hnd⟩
    · exact ⟨Q, (setProposal_old_of_ne _ hinv.ids a P P1 Q hPm hPa hQ e).1, rfl, rfl, rfl,
        rfl, rfl, rfl, fun h => h⟩
  have hvf : ∀ i seq n v, s.VotedFor i seq n v →
      Cluster.VotedFor { s with proposals := setProposal s.proposals a P1 } i seq n v := by
    intro i seq n v hv
    apply Cluster.VotedFor_mono s _ i seq n v _ hv
    intro Q hQ hs
    obtain ⟨Q1, hQ1, -, g2, g3, g4, g5, g6, -⟩ := fwd Q hQ
    exact ⟨Q1, hQ1, g6.trans hs, g2, g3, g4, fun j hj => by rw [g5]; exact hj⟩
  refine ⟨?_, ?_, hinv.accBounds, ?_, ?_, ?_, ?_, ?_, ?_, ?_, ?_, ?_⟩
  · show (setProposal s.proposals a P1).map Proposal.id = List.range (setProposal _ _ _).length
    rw [ids_setProposal _ _ _ (e_id.trans hPa), length_setProposal]; exact hinv.ids
  · intro Q1 hQ1
    obtain ⟨Q, hQ, -, -, -, -, -, -, -, -, -, g10, g11, -⟩ := back Q1 hQ1
    rw [g11]; exact hinv.proposer Q hQ
  · intro i seq hi h
    exact hvf _ _ _ _ (hinv.accVoted i seq hi h)
  · intro Q1 hQ1
    obtain ⟨Q, hQ, -, g2, g3, -, g5, -, -, -, g9, -, -, g12, g13, -⟩ := back Q1 hQ1
    rw [g5, g9, g12, g13, g2, g3]
    exact hinv.voters Q hQ
  · intro Q1 hQ1
    obtain ⟨Q, hQ, -, g2, g3, -, -, g6, g7, g8, -⟩ := back Q1 hQ1
    rw [g6, g7, g8, g2, g3]
    obtain ⟨h1, h2, h3⟩ := hinv.promisers Q hQ
    refine ⟨h1, h2, ?_⟩
    intro x hx
    obtain ⟨k1, k2, k3, k4, k5, k6, k7⟩ := h3 x hx
    refine ⟨k1, k2, k3, k4, k5, fun h => hvf _ _ _ _ (k6 h), ?_⟩
    intro R1 hR1 hseq hvo hn
    obtain ⟨R, hR, -, r2, r3, -, r5, -⟩ := back R1 hR1
    rw [r3] at hn ⊢
    exact k7 R hR (r2 ▸ hseq) (r5 ▸ hvo) hn
  · intro Q1 hQ1 R1 hR1 hseq hn x hx y hy hxy
    obtain ⟨Q, hQ, g1, g2, g3, -, -, g6, -⟩ := back Q1 hQ1
    obtain ⟨R, hR, r1, r2, r3, -, -, r6, -⟩ := back R1 hR1
    rw [g1, r1]
    exact hinv.promiseOnce Q hQ R hR (g2 ▸ r2 ▸ hseq) (g3 ▸ r3 ▸ hn) x (g6 ▸ hx) y (r6 ▸ hy) hxy
  · intro Q1 hQ1
    obtain ⟨Q, hQ, -, -, -, -, -, g6, g7, -⟩ := back Q1 hQ1
    rw [g6, g7]; exact hinv.selected Q hQ
  · intro Q1 hQ1 hs
    obtain ⟨Q, hQ, -, -, -, g4, -, g6, g7, -, -, -, -, g12, -⟩ := back Q1 hQ1
    rw [g4, g6, g7]; exact hinv.sent Q hQ (g12 ▸ hs)
  · intro Q1 hQ1 R1 hR1 hs1 hs2 hseq hn hv
    obtain ⟨Q, hQ, -, g2, g3, g4, -, -, -, -, -, -, -, g12, -⟩ := back Q1 hQ1
    obtain ⟨R, hR, -, r2, r3, r4, r5, -, -, -, -, -, -, r12, -⟩ := back R1 hR1
    rw [g2, r3, r5]
    exact hinv.safe Q hQ R hR (g12 ▸ hs1) (r12 ▸ hs2) (g2 ▸ r2 ▸ hseq) (g3 ▸ r3 ▸ hn)
      (g4 ▸ r4 ▸ hv)
  · intro Q1 hQ1 hd
    obtain ⟨Q, hQ, -, -, -, -, g5, -, -, -, -, -, -, -, -, g14⟩ := back Q1 hQ1
    rcases g14 hd with h | h
    · rw [g5]; exact hinv.decidePhase Q hQ h
    · subst h; rw [e_vot]; exact hdec hd
  · intro i seq v hi hv
    obtain ⟨Q, hQ, hd, hseq, hval⟩ := hinv.decidedFrom i seq v hi hv
    obtain ⟨Q1, hQ1, -, g2, -, g4, -, -, g7⟩ := fwd Q hQ
    exact ⟨Q1, hQ1, g7 hd, g2.trans hseq, g4.trans hval⟩

theorem Cluster.decided_eq (s : Cluster) (i : Nat) (seq : Int) :
    s.decided i seq = ((s.replicas i).instances_ seq).bind
      (fun inst => if inst.Decided then some inst.DecidedV else none) := by
  unfold Cluster.decided
  cases (s.replicas i).instances_ seq <;> rfl

/-- Beginning a new iteration preserves the invariant. -/
theorem Cluster.SlotInv.append {N : Nat} {s : Cluster} (hinv : s.SlotInv N) (p : Nat) (seq : Int)
    (v : Op) (n d : Int) (hp : p < N) :
    Cluster.SlotInv N { s with proposals :=
      s.proposals ++ [Proposal.new s.proposals.length p seq v n d] } := by
  have hmem : ∀ Q ∈ s.proposals ++ [Proposal.new s.proposals.length p seq v n d],
      Q ∈ s.proposals ∨ Q = Proposal.new s.proposals.length p seq v n d := by
    intro Q hQ
    rcases List.mem_append.mp hQ with h | h
    · exact Or.inl h
    · exact Or.inr (List.mem_singleton.mp h)
  have hvf : ∀ i sq m w, s.VotedFor i sq m w →
      Cluster.VotedFor { s with proposals :=
        s.proposals ++ [Proposal.new s.proposals.length p seq v n d] } i sq m w := by
    intro i sq m w hv
    apply Cluster.VotedFor_mono s _ i sq m w _ hv
    intro Q hQ hs
    exact ⟨Q, List.mem_append_left _ hQ, hs, rfl, rfl, rfl, fun _ h => h⟩
  refine ⟨?_, ?_, hinv.accBounds, ?_, ?_, ?_, ?_, ?_, ?_, ?_, ?_, ?_⟩
  · show (s.proposals ++ [_]).map Proposal.id = List.range (s.proposals ++ [_]).length
    rw [List.map_append, hinv.ids, List.length_append, List.length_singleton, List.range_succ]
    rfl
  · intro Q hQ
    rcases hmem Q hQ with h | h
    · exact hinv.proposer Q h
    · subst h; exact hp
  · intro i sq hi h
    exact hvf _ _ _ _ (hinv.accVoted i sq hi h)
  · intro Q hQ
    rcases hmem Q hQ with h | h
    · exact hinv.voters Q h
    · subst h
      simp [Proposal.new, SharedAcceptState.new]
  · intro Q hQ
    rcases hmem Q hQ with h | h
    · obtain ⟨h1, h2, h3⟩ := hinv.promisers Q h
      refine ⟨h1, h2, ?_⟩
      intro x hx
      obtain ⟨k1, k2, k3, k4, k5, k6, k7⟩ := h3 x hx
      refine ⟨k1, k2, k3, k4, k5, fun e => hvf _ _ _ _ (k6 e), ?_⟩
      intro R hR hseq hvo hn
      rcases hmem R hR with hR1 | hR1
      · exact k7 R hR1 hseq hvo hn
      · subst hR1; simp [Proposal.new] at hvo
    · subst h
      simp [Proposal.new, SharedPrepareState.new]
  · intro Q hQ R hR hseq hn x hx y hy hxy
    rcases hmem Q hQ with h | h
    · rcases hmem R hR with h1 | h1
      · exact hinv.promiseOnce Q h R h1 hseq hn x hx y hy hxy
      · subst h1; simp [Proposal.new] at hy
    · subst h; simp [Proposal.new] at hx
  · intro Q hQ
    rcases hmem Q hQ with h | h
    · exact hinv.selected Q h
    · subst h
      simp [Proposal.new, SharedPrepareState.new]
  · intro Q hQ hs
    rcases hmem Q hQ with h | h
    · exact hinv.sent Q h hs
    · subst h; simp [Proposal.new, Proposal.sentAccept] at hs
  · intro Q hQ R hR hs1 hs2 hseq hn hv
    rcases hmem Q hQ with h | h
    · rcases hmem R hR with h1 | h1
      · exact hinv.safe Q h R h1 hs1 hs2 hseq hn hv
      · subst h1; simp [Proposal.new, Proposal.sentAccept] at hs2
    · subst h; simp [Proposal.new, Proposal.sentAccept] at hs1
  · intro Q hQ hd
    rcases hmem Q hQ with h | h
    · exact hinv.decidePhase Q h hd
    · subst h; simp [Proposal.new] at hd
  · intro i sq w hi hw
    obtain ⟨Q, hQ, h1, h2, h3⟩ := hinv.decidedFrom i sq w hi hw
    exact ⟨Q, List.mem_append_left _ hQ, h1, h2, h3⟩

theorem Cluster.SlotInv.sent_nonneg {N : Nat} {s : Cluster} (hinv : s.SlotInv N) (Q : Proposal)
    (hQ : Q ∈ s.proposals) (hs : Q.sentAccept = true) : 0 ≤ Q.n := by
  have hlen := (hinv.sent Q hQ hs).2.2
  obtain ⟨_, _, hx⟩ := hinv.promisers Q hQ
  cases hp : Q.promisers with
  | nil => rw [hp] at hlen; simp at hlen
  | cons x rest =>
    obtain ⟨_, _, _, k4, k5, _⟩ := hx x (by rw [hp]; exact List.mem_cons_self _ _)
    omega

/-- Closing the prepare phase of the iteration `P` preserves the invariant:
`P1` is `P` with `done` set, and either gives up or carries
`actualV = nextPhaseV` into the accept phase after a majority of promises. -/
theorem Cluster.SlotInv.closePrepare {N : Nat} {s : Cluster} (hinv : s.SlotInv N) (a : Nat)
    (P P1 : Proposal) (hf : findProposal s.proposals a = some P)
    (hph : P.phase = Phase.prepare)
    (hcore : P1 =
      { P with phase := P1.phase, actualV := P1.actualV, prepState := P.prepState.donePrepare })
    (hcase : P1.phase = Phase.prepareFailed ∨
      (P1.phase = Phase.accept ∧ P1.actualV = P.prepState.nextPhaseV ∧
        N / 2 + 1 ≤ P.promisers.length)) :
    Cluster.SlotInv N { s with proposals := setProposal s.proposals a P1 } := by
  obtain ⟨hPm, hPa⟩ := findProposal_some _ _ _ hf
  have hsP : P.sentAccept = false := by simp [Proposal.sentAccept, hph]
  have hPv : P.voters = [] := (hinv.voters P hPm).2.2.1 hsP
  have e_id : P1.id = P.id := by rw [hcore]
  have e_seq : P1.seq = P.seq := by rw [hcore]
  have e_n : P1.n = P.n := by rw [hcore]
  have e_vot : P1.voters = P.voters := by rw [hcore]
  have e_pro : P1.promisers = P.promisers := by rw [hcore]
  have e_pc : P1.prepCalled = P.prepCalled := by rw [hcore]
  have e_ac : P1.accCalled = P.accCalled := by rw [hcore]
  have e_as : P1.accState = P.accState := by rw [hcore]
  have e_md : P1.myDone = P.myDone := by rw [hcore]
  have e_pp : P1.proposer = P.proposer := by rw [hcore]
  have e_cnt : P1.prepState.prepareOKCount = P.prepState.prepareOKCount := by rw [hcore]; rfl
  have e_hn : P1.prepState.highestNAccepted = P.prepState.highestNAccepted := by rw [hcore]; rfl
  have e_nv : P1.prepState.nextPhaseV = P.prepState.nextPhaseV := by rw [hcore]; rfl
  have e_dn : P1.prepState.done = true := by rw [hcore]; rfl
  have hnd1 : P1.phase ≠ Phase.decide := by
    rcases hcase with h | h
    · rw [h]; decide
    · rw [h.1]; decide
  have back : ∀ Q1 ∈ setProposal s.proposals a P1,
      (Q1 = P1) ∨ (Q1 ∈ s.proposals ∧ Q1 ≠ P) := by
    intro Q1 hQ1
    rcases mem_setProposal _ _ _ _ hQ1 with e | ⟨hm, hid⟩
    · exact Or.inl e
    · exact Or.inr ⟨hm, fun e => hid (e ▸ hPa)⟩
  have fwd : ∀ Q ∈ s.proposals, Q ≠ P → Q ∈ setProposal s.proposals a P1 := fun Q hQ hne =>
    (setProposal_old_of_ne _ hinv.ids a P P1 Q hPm hPa hQ hne).1
  have hP1m : P1 ∈ setProposal s.proposals a P1 := mem_setProposal_new _ _ _ _ hPm hPa
  have hvf : ∀ i seq n v, s.VotedFor i seq n v →
      Cluster.VotedFor { s with proposals := setProposal s.proposals a P1 } i seq n v := by
    intro i seq n v hv
    apply Cluster.VotedFor_mono s _ i seq n v _ hv
    intro Q hQ hs
    have hne : Q ≠ P := fun e => by rw [e, hsP] at hs; exact absurd hs (by simp)
    exact ⟨Q, fwd Q hQ hne, hs, rfl, rfl, rfl, fun _ h => h⟩
  refine ⟨?_, ?_, hinv.accBounds, ?_, ?_, ?_, ?_, ?_, ?_, ?_, ?_, ?_⟩
  · show (setProposal s.proposals a P1).map Proposal.id = List.range (setProposal _ _ _).length
    rw [ids_setProposal _ _ _ (e_id.trans hPa), length_setProposal]; exact hinv.ids
  · intro Q1 hQ1
    rcases back Q1 hQ1 with e | ⟨hm, _⟩
    · subst e; rw [e_pp]; exact hinv.proposer P hPm
    · exact hinv.proposer Q1 hm
  · intro i seq hi h
    exact hvf _ _ _ _ (hinv.accVoted i seq hi h)
  · intro Q1 hQ1
    rcases back Q1 hQ1 with e | ⟨hm, _⟩
    · subst e
      obtain ⟨h1, h2, h3, h4⟩ := hinv.voters P hPm
      rw [e_vot, e_as, e_ac, e_n, e_seq]
      exact ⟨h1, h2, fun _ => hPv, h4⟩
    · exact hinv.voters Q1 hm
  · -- promisers
    have hclause : ∀ (Q : Proposal) (x : Nat × Int × Op),
        (∀ R ∈ s.proposals, R.seq = Q.seq → x.1 ∈ R.voters → R.n < Q.n → R.n ≤ x.2.1) →
        ∀ R1 ∈ setProposal s.proposals a P1, R1.seq = Q.seq → x.1 ∈ R1.voters →
          R1.n < Q.n → R1.n ≤ x.2.1 := by
      intro Q x hold R1 hR1 hseq hvo hn
      rcases back R1 hR1 with e | ⟨hm, _⟩
      · subst e; rw [e_vot, hPv] at hvo; simp at hvo
      · exact hold R1 hm hseq hvo hn
    intro Q1 hQ1
    rcases back Q1 hQ1 with e | ⟨hm, _⟩
    · subst e
      obtain ⟨h1, h2, h3⟩ := hinv.promisers P hPm
      rw [e_pro, e_cnt, e_pc, e_n, e_seq]
      refine ⟨h1, h2, ?_⟩
      intro x hx
      obtain ⟨k1, k2, k3, k4, k5, k6, k7⟩ := h3 x hx
      exact ⟨k1, k2, k3, k4, k5, fun e => hvf _ _ _ _ (k6 e), hclause P x k7⟩
    · obtain ⟨h1, h2, h3⟩ := hinv.promisers Q1 hm
      refine ⟨h1, h2, ?_⟩
      intro x hx
      obtain ⟨k1, k2, k3, k4, k5, k6, k7⟩ := h3 x hx
      exact ⟨k1, k2, k3, k4, k5, fun e => hvf _ _ _ _ (k6 e), hclause Q1 x k7⟩
  · -- promiseOnce
    have hb : ∀ Q1 ∈ setProposal s.proposals a P1, ∃ Q ∈ s.proposals,
        Q1.id = Q.id ∧ Q1.seq = Q.seq ∧ Q1.n = Q.n ∧ Q1.promisers = Q.promisers := by
      intro Q1 hQ1
      rcases back Q1 hQ1 with e | ⟨hm, _⟩
      · subst e; exact ⟨P, hPm, e_id, e_seq, e_n, e_pro⟩
      · exact ⟨Q1, hm, rfl, rfl, rfl, rfl⟩
    intro Q1 hQ1 R1 hR1 hseq hn x hx y hy hxy
    obtain ⟨Q, hQ, g1, g2, g3, g4⟩ := hb Q1 hQ1
    obtain ⟨R, hR, r1, r2, r3, r4⟩ := hb R1 hR1
    rw [g1, r1]
    exact hinv.promiseOnce Q hQ R hR (g2 ▸ r2 ▸ hseq) (g3 ▸ r3 ▸ hn) x (g4 ▸ hx) y (r4 ▸ hy) hxy
  · intro Q1 hQ1
    rcases back Q1 hQ1 with e | ⟨hm, _⟩
    · subst e; rw [e_hn, e_pro, e_nv]; exact hinv.selected P hPm
    · exact hinv.selected Q1 hm
  · intro Q1 hQ1 hs
    rcases back Q1 hQ1 with e | ⟨hm, _⟩
    · subst e
      rcases hcase with h | h
      · simp [Proposal.sentAccept, h] at hs
      · rw [e_nv, e_pro]; exact ⟨h.2.1, e_dn, h.2.2⟩
    · exact hinv.sent Q1 hm hs
  · -- safe
    intro Q1 hQ1 R1 hR1 hs1 hs2 hseq hn hv
    rcases back Q1 hQ1 with e | ⟨hm, _⟩
    · subst e
      rcases back R1 hR1 with e2 | ⟨hRm, _⟩
      · subst e2; omega
      · -- the new proposal against an older, lower one
        rcases hcase with h | h
        · simp [Proposal.sentAccept, h] at hs1
        obtain ⟨hc1, hc2, hc3⟩ := hinv.selected P hPm
        obtain ⟨hp1, hp2, hp3⟩ := hinv.promisers P hPm
        rw [e_seq] at hseq ⊢
        rw [e_n] at hn
        rw [h.2.1] at hv
        have hR0 := hinv.sent_nonneg R1 hRm hs2
        by_cases hcmp : P.prepState.highestNAccepted < R1.n
        · refine ⟨P.promisers.map Prod.fst, ⟨hp1, ?_, by rw [List.length_map]; exact h.2.2⟩, ?_⟩
          · intro i hi
            obtain ⟨x, hx, rfl⟩ := List.mem_map.mp hi
            exact (hp3 x hx).1
          · intro i hi
            obtain ⟨x, hx, rfl⟩ := List.mem_map.mp hi
            obtain ⟨k1, k2, k3, k4, k5, k6, k7⟩ := hp3 x hx
            refine ⟨?_, ?_⟩
            · intro hvo
              have := k7 R1 hRm hseq hvo hn
              have := hc2 x hx
              omega
            · show R1.n < (s.acc x.1 P.seq).HighestSeen
              omega
        · have hcne : P.prepState.highestNAccepted ≠ -1 := by omega
          obtain ⟨x, hx, hxn, hxv⟩ := hc3 hcne
          obtain ⟨k1, k2, k3, k4, k5, k6, k7⟩ := hp3 x hx
          obtain ⟨T, hT, t1, t2, t3, t4, t5⟩ := k6 (by rw [hxn]; exact hcne)
          rw [hxn] at t3
          rw [hxv] at t4
          by_cases heq : R1.n = P.prepState.highestNAccepted
          · exfalso
            have := hinv.sameBallot R1 T hRm hT hs2 t1 (hseq.trans t2.symm) (heq.trans t3.symm)
            rw [this, t4] at hv
            exact hv rfl
          · obtain ⟨W, hW, hWp⟩ := hinv.safe T hT R1 hRm t1 hs2 (hseq.trans t2.symm)
              (by omega) (by rw [t4]; exact hv)
            rw [t2] at hWp
            exact ⟨W, hW, hWp⟩
    · rcases back R1 hR1 with e2 | ⟨hRm, _⟩
      · -- an older, higher proposal against the new one
        subst e2
        rw [e_seq] at hseq
        rw [e_n] at hn ⊢
        obtain ⟨hq1, hq2, hq3⟩ := hinv.promisers Q1 hm
        refine ⟨Q1.promisers.map Prod.fst, hinv.promiserQuorum Q1 hm hs1, ?_⟩
        intro i hi
        obtain ⟨x, hx, rfl⟩ := List.mem_map.mp hi
        obtain ⟨k1, k2, k3, k4, k5, k6, k7⟩ := hq3 x hx
        refine ⟨by rw [e_vot, hPv]; simp, ?_⟩
        show P.n < (s.acc x.1 Q1.seq).HighestSeen
        omega
      · exact hinv.safe Q1 hm R1 hRm hs1 hs2 hseq hn hv
  · intro Q1 hQ1 hd
    rcases back Q1 hQ1 with e | ⟨hm, _⟩
    · subst e; exact absurd hd hnd1
    · exact hinv.decidePhase Q1 hm hd
  · intro i seq v hi hv
    obtain ⟨Q, hQ, hd, hseq, hval⟩ := hinv.decidedFrom i seq v hi hv
    have hne : Q ≠ P := fun e => by rw [e, hph] at hd; exact absurd hd (by decide)
    exact ⟨Q, fwd Q hQ hne, hd, hseq, hval⟩

/-- A Prepare call of the iteration `P` on peer `i` preserves the invariant.
The acceptor record of `i` for the slot is unchanged or gets `HighestSeen = n`
(a promise); `P1` is `P` after the reply has been fed to `update`, which
either counts nothing or counts a promise carrying the peer's accepted pair. -/
theorem Cluster.SlotInv.promiseStep {N : Nat} {s s1 : Cluster} (hinv : s.SlotInv N) (a i : Nat)
    (P P1 : Proposal) (hf : findProposal s.proposals a = some P) (hi : i < N)
    (hic : i ∉ P.prepCalled)
    (hprops : s1.proposals = setProposal s.proposals a P1)
    (hdec : ∀ j seq, s1.decided j seq = s.decided j seq)
    (hother : ∀ j seq, (j ≠ i ∨ seq ≠ P.seq) → s1.acc j seq = s.acc j seq)
    (hrec : s1.acc i P.seq = s.acc i P.seq ∨
      (P.n > (s.acc i P.seq).HighestSeen ∧
        s1.acc i P.seq = { s.acc i P.seq with HighestSeen := P.n }))
    (hcore : P1 = { P with prepState := P1.prepState, prepCalled := i :: P.prepCalled,
                           promisers := P1.promisers })
    (hcase : (P1.promisers = P.promisers ∧
        P1.prepState.prepareOKCount = P.prepState.prepareOKCount ∧
        P1.prepState.highestNAccepted = P.prepState.highestNAccepted ∧
        P1.prepState.nextPhaseV = P.prepState.nextPhaseV ∧
        P1.prepState.done = P.prepState.done) ∨
      (P.prepState.done = false ∧ P1.prepState.done = false ∧
        P.n > (s.acc i P.seq).HighestSeen ∧
        s1.acc i P.seq = { s.acc i P.seq with HighestSeen := P.n } ∧
        P1.promisers =
          (i, (s.acc i P.seq).HighestAcN, (s.acc i P.seq).HighestAcV) :: P.promisers ∧
        P1.prepState.prepareOKCount = P.prepState.prepareOKCount + 1 ∧
        (((s.acc i P.seq).HighestAcN > P.prepState.highestNAccepted ∧
            P1.prepState.highestNAccepted = (s.acc i P.seq).HighestAcN ∧
            P1.prepState.nextPhaseV = (s.acc i P.seq).HighestAcV) ∨
          ((s.acc i P.seq).HighestAcN ≤ P.prepState.highestNAccepted ∧
            P1.prepState.highestNAccepted = P.prepState.highestNAccepted ∧
            P1.prepState.nextPhaseV = P.prepState.nextPhaseV)))) :
    s1.SlotInv N := by
  obtain ⟨hPm, hPa⟩ := findProposal_some _ _ _ hf
  have e_id : P1.id = P.id := by rw [hcore]
  have e_seq : P1.seq = P.seq := by rw [hcore]
  have e_n : P1.n = P.n := by rw [hcore]
  have e_v : P1.actualV = P.actualV := by rw [hcore]
  have e_vot : P1.voters = P.voters := by rw [hcore]
  have e_pc : P1.prepCalled = i :: P.prepCalled := by rw [hcore]
  have e_ac : P1.accCalled = P.accCalled := by rw [hcore]
  have e_as : P1.accState = P.accState := by rw [hcore]
  have e_md : P1.myDone = P.myDone := by rw [hcore]
  have e_pp : P1.proposer = P.proposer := by rw [hcore]
  have e_ph : P1.phase = P.phase := by rw [hcore]
  have e_sa : P1.sentAccept = P.sentAccept := by simp [Proposal.sentAccept, e_ph]
  -- the acceptor records: accepted pairs are unchanged, HighestSeen does not decrease
  have hAcN : ∀ j seq, (s1.acc j seq).HighestAcN = (s.acc j seq).HighestAcN ∧
      (s1.acc j seq).HighestAcV = (s.acc j seq).HighestAcV ∧
      (s.acc j seq).HighestSeen ≤ (s1.acc j seq).HighestSeen := by
    intro j seq
    by_cases hj : j ≠ i ∨ seq ≠ P.seq
    · rw [hother j seq hj]; exact ⟨rfl, rfl, le_refl _⟩
    · push_neg at hj
      obtain ⟨rfl, rfl⟩ := hj
      rcases hrec with h | ⟨h1, h2⟩
      · rw [h]; exact ⟨rfl, rfl, le_refl _⟩
      · rw [h2]; exact ⟨rfl, rfl, by show _ ≤ P.n; omega⟩
  have back : ∀ Q1 ∈ s1.proposals, ∃ Q ∈ s.proposals,
      Q1.id = Q.id ∧ Q1.seq = Q.seq ∧ Q1.n = Q.n ∧ Q1.actualV = Q.actualV ∧
      Q1.voters = Q.voters ∧ Q1.accCalled = Q.accCalled ∧ Q1.accState = Q.accState ∧
      Q1.myDone = Q.myDone ∧ Q1.proposer = Q.proposer ∧ Q1.phase = Q.phase ∧
      Q1.sentAccept = Q.sentAccept ∧ ((Q1 = P1 ∧ Q = P) ∨ (Q1 = Q ∧ Q ≠ P)) := by
    intro Q1 hQ1
    rw [hprops] at hQ1
    rcases mem_setProposal _ _ _ _ hQ1 with e | ⟨hm, hid⟩
    · subst e
      exact ⟨P, hPm, e_id, e_seq, e_n, e_v, e_vot, e_ac, e_as, e_md, e_pp, e_ph, e_sa,
        Or.inl ⟨rfl, rfl⟩⟩
    · exact ⟨Q1, hm, rfl, rfl, rfl, rfl, rfl, rfl, rfl, rfl, rfl, rfl, rfl,
        Or.inr ⟨rfl, fun e => hid (e ▸ hPa)⟩⟩
  have fwd : ∀ Q ∈ s.proposals, ∃ Q1 ∈ s1.proposals,
      Q1.seq = Q.seq ∧ Q1.n = Q.n ∧ Q1.actualV = Q.actualV ∧
      Q1.voters = Q.voters ∧ Q1.phase = Q.phase ∧ Q1.sentAccept = Q.sentAccept := by
    intro Q hQ
    rw [hprops]
    by_cases e : Q = P
    · subst e
      exact ⟨P1, mem_setProposal_new _ _ _ _ hPm hPa, e_seq, e_n, e_v, e_vot, e_ph, e_sa⟩
    · exact ⟨Q, (setProposal_old_of_ne _ hinv.ids a P P1 Q hPm hPa hQ e).1, rfl, rfl, rfl,
        rfl, rfl, rfl⟩
  have hvf : ∀ j seq n v, s.VotedFor j seq n v → s1.VotedFor j seq n v := by
    intro j seq n v hv
    apply Cluster.VotedFor_mono s _ j seq n v _ hv
    intro Q hQ hs
    obtain ⟨Q1, hQ1, g1, g2, g3, g4, -, g6⟩ := fwd Q hQ
    exact ⟨Q1, hQ1, g6.trans hs, g1, g2, g3, fun k hk => by rw [g4]; exact hk⟩
  -- the seventh clause of `promisers`, for entries that were there before
  have hclause : ∀ (Q : Proposal) (x : Nat × Int × Op),
      (∀ R ∈ s.proposals, R.seq = Q.seq → x.1 ∈ R.voters → R.n < Q.n → R.n ≤ x.2.1) →
      ∀ R1 ∈ s1.proposals, R1.seq = Q.seq → x.1 ∈ R1.voters → R1.n < Q.n → R1.n ≤ x.2.1 := by
    intro Q x hold R1 hR1 hseq hvo hn
    obtain ⟨R, hR, -, r2, r3, -, r5, -⟩ := back R1 hR1
    rw [r3] at hn ⊢
    exact hold R hR (r2 ▸ hseq) (r5 ▸ hvo) hn
  have hold_entry : ∀ (Q : Proposal), Q ∈ s.proposals → ∀ x ∈ Q.promisers,
      x.1 < N ∧ x.1 ∈ Q.prepCalled ∧ Q.n ≤ (s1.acc x.1 Q.seq).HighestSeen ∧ -1 ≤ x.2.1 ∧
      x.2.1 < Q.n ∧ (x.2.1 ≠ -1 → s1.VotedFor x.1 Q.seq x.2.1 x.2.2) ∧
      (∀ R1 ∈ s1.proposals, R1.seq = Q.seq → x.1 ∈ R1.voters → R1.n < Q.n → R1.n ≤ x.2.1) := by
    intro Q hQ x hx
    obtain ⟨k1, k2, k3, k4, k5, k6, k7⟩ := (hinv.promisers Q hQ).2.2 x hx
    have := (hAcN x.1 Q.seq).2.2
    exact ⟨k1, k2, by omega, k4, k5, fun e => hvf _ _ _ _ (k6 e), hclause Q x k7⟩
  have hPpro := hinv.promisers P hPm
  have hnotin : i ∉ P.promisers.map Prod.fst := by
    intro hmem
    obtain ⟨x, hx, hxi⟩ := List.mem_map.mp hmem
    exact hic (hxi ▸ (hPpro.2.2 x hx).2.1)
  have hacc_old := hinv.accBounds i P.seq hi
  refine ⟨?_, ?_, ?_, ?_, ?_, ?_, ?_, ?_, ?_, ?_, ?_, ?_⟩
  · rw [hprops, ids_setProposal _ _ _ (e_id.trans hPa), length_setProposal]; exact hinv.ids
  · intro Q1 hQ1
    obtain ⟨Q, hQ, -, -, -, -, -, -, -, g8, g9, -⟩ := back Q1 hQ1
    rw [g9]; exact hinv.proposer Q hQ
  · intro j seq hj
    obtain ⟨h1, h2, h3⟩ := hAcN j seq
    have := hinv.accBounds j seq hj
    omega
  · intro j seq hj h
    obtain ⟨h1, h2, h3⟩ := hAcN j seq
    rw [h1] at h ⊢
    rw [h2]
    exact hvf _ _ _ _ (hinv.accVoted j seq hj h)
  · intro Q1 hQ1
    obtain ⟨Q, hQ, -, g2, g3, -, g5, g6, g7, -, -, -, g11, -⟩ := back Q1 hQ1
    rw [g5, g6, g7, g11, g2, g3]
    obtain ⟨h1, h2, h3, h4⟩ := hinv.voters Q hQ
    refine ⟨h1, h2, h3, ?_⟩
    intro j hj
    rw [(hAcN j Q.seq).1]
    exact h4 j hj
  · -- promisers
    intro Q1 hQ1
    obtain ⟨Q, hQ, -, g2, g3, -, -, -, -, -, -, -, -, hc⟩ := back Q1 hQ1
    rcases hc with ⟨rfl, rfl⟩ | ⟨rfl, hne⟩
    · rw [e_seq, e_n, e_pc]
      rcases hcase with ⟨c1, c2, c3, c4, c5⟩ | ⟨c1, c2, c3, c4, c5, c6, c7⟩
      · rw [c1, c2]
        refine ⟨hPpro.1, hPpro.2.1, ?_⟩
        intro x hx
        obtain ⟨k1, k2, k3, k4, k5, k6, k7⟩ := hold_entry Q hQ x hx
        exact ⟨k1, List.mem_cons_of_mem _ k2, k3, k4, k5, k6, k7⟩
      · rw [c5, c6]
        refine ⟨?_, ?_, ?_⟩
        · simp only [List.map_cons, List.nodup_cons]
          exact ⟨hnotin, hPpro.1⟩
        · rw [hPpro.2.1]; simp
        · intro x hx
          rcases List.mem_cons.mp hx with e | hxold
          · subst e
            refine ⟨hi, List.mem_cons_self _ _, ?_, hacc_old.1,
              (by show (s.acc i Q.seq).HighestAcN < Q.n; omega), ?_, ?_⟩
            · show Q.n ≤ (s1.acc i Q.seq).HighestSeen
              rw [c4]
            · intro hne
              exact hvf _ _ _ _ (hinv.accVoted i Q.seq hi hne)
            · intro R1 hR1 hseq hvo hn
              obtain ⟨R, hR, -, r2, r3, -, r5, -⟩ := back R1 hR1
              have := ((hinv.voters R hR).2.2.2 i (r5 ▸ hvo)).2.2
              rw [r2] at hseq
              rw [hseq] at this
              rw [r3]
              exact this
          · obtain ⟨k1, k2, k3, k4, k5, k6, k7⟩ := hold_entry Q hQ x hxold
            exact ⟨k1, List.mem_cons_of_mem _ k2, k3, k4, k5, k6, k7⟩
    · obtain ⟨h1, h2, -⟩ := hinv.promisers Q1 hQ
      exact ⟨h1, h2, hold_entry Q1 hQ⟩
  · -- promiseOnce
    -- an entry of the new list is an old entry, or the promise just counted
    have hentry : ∀ Q1 ∈ s1.proposals, ∀ x ∈ Q1.promisers, ∃ Q ∈ s.proposals,
        Q1.id = Q.id ∧ Q1.seq = Q.seq ∧ Q1.n = Q.n ∧
        (x ∈ Q.promisers ∨ (Q = P ∧ x.1 = i ∧ P.n > (s.acc i P.seq).HighestSeen)) := by
      intro Q1 hQ1 x hx
      obtain ⟨Q, hQ, g1, g2, g3, -, -, -, -, -, -, -, -, hc⟩ := back Q1 hQ1
      refine ⟨Q, hQ, g1, g2, g3, ?_⟩
      rcases hc with ⟨rfl, rfl⟩ | ⟨rfl, hne⟩
      · rcases hcase with ⟨c1, -⟩ | ⟨c1, c2, c3, c4, c5, c6, c7⟩
        · rw [c1] at hx; exact Or.inl hx
        · rw [c5] at hx
          rcases List.mem_cons.mp hx with e | hxold
          · subst e; exact Or.inr ⟨rfl, rfl, c3⟩
          · exact Or.inl hxold
      · exact Or.inl hx
    intro Q1 hQ1 R1 hR1 hseq hn x hx y hy hxy
    obtain ⟨Q, hQ, g1, g2, g3, g4⟩ := hentry Q1 hQ1 x hx
    obtain ⟨R, hR, r1, r2, r3, r4⟩ := hentry R1 hR1 y hy
    rw [g1, r1]
    rw [g2, r2] at hseq
    rw [g3, r3] at hn
    rcases g4 with g4 | ⟨rfl, gi, ggt⟩
    · rcases r4 with r4 | ⟨rfl, ri, rgt⟩
      · exact hinv.promiseOnce Q hQ R hR hseq hn x g4 y r4 hxy
      · exfalso
        have := ((hinv.promisers Q hQ).2.2 x g4).2.2.1
        rw [hxy, ri, hseq] at this
        omega
    · rcases r4 with r4 | ⟨rfl, ri, rgt⟩
      · exfalso
        have := ((hinv.promisers R hR).2.2 y r4).2.2.1
        rw [← hxy, gi, ← hseq] at this
        omega
      · rfl
  · -- selected
    intro Q1 hQ1
    obtain ⟨Q, hQ, -, -, -, -, -, -, -, -, -, -, -, hc⟩ := back Q1 hQ1
    rcases hc with ⟨rfl, rfl⟩ | ⟨rfl, hne⟩
    · obtain ⟨s1', s2', s3'⟩ := hinv.selected Q hQ
      rcases hcase with ⟨c1, c2, c3, c4, c5⟩ | ⟨c1, c2, c3, c4, c5, c6, c7⟩
      · rw [c1, c3, c4]; exact ⟨s1', s2', s3'⟩
      · rw [c5]
        rcases c7 with ⟨d1, d2, d3⟩ | ⟨d1, d2, d3⟩
        · rw [d2, d3]
          refine ⟨hacc_old.1, ?_, ?_⟩
          · intro x hx
            rcases List.mem_cons.mp hx with e | hxold
            · subst e; exact le_refl _
            · have := s2' x hxold; omega
          · intro _
            exact ⟨_, List.mem_cons_self _ _, rfl, rfl⟩
        · rw [d2, d3]
          refine ⟨s1', ?_, ?_⟩
          · intro x hx
            rcases List.mem_cons.mp hx with e | hxold
            · subst e; exact d1
            · exact s2' x hxold
          · intro hne
            obtain ⟨x, hx, hx1, hx2⟩ := s3' hne
            exact ⟨x, List.mem_cons_of_mem _ hx, hx1, hx2⟩
    · exact hinv.selected Q1 hQ
  · -- sent
    intro Q1 hQ1 hs
    obtain ⟨Q, hQ, -, -, -, g4, -, -, -, -, -, -, g11, hc⟩ := back Q1 hQ1
    rcases hc with ⟨rfl, rfl⟩ | ⟨rfl, hne⟩
    · obtain ⟨t1, t2, t3⟩ := hinv.sent Q hQ (g11 ▸ hs)
      rcases hcase with ⟨c1, c2, c3, c4, c5⟩ | ⟨c1, -⟩
      · rw [g4, c1, c4, c5]; exact ⟨t1, t2, t3⟩
      · rw [t2] at c1; exact absurd c1 (by simp)
    · exact hinv.sent Q1 hQ hs
  · -- safe
    intro Q1 hQ1 R1 hR1 hs1 hs2 hseq hn hv
    obtain ⟨Q, hQ, -, g2, g3, g4, -, -, -, -, -, -, g11, -⟩ := back Q1 hQ1
    obtain ⟨R, hR, -, r2, r3, r4, r5, -, -, -, -, -, r11, -⟩ := back R1 hR1
    obtain ⟨W, hW, hWp⟩ := hinv.safe Q hQ R hR (g11 ▸ hs1) (r11 ▸ hs2) (g2 ▸ r2 ▸ hseq)
      (g3 ▸ r3 ▸ hn) (g4 ▸ r4 ▸ hv)
    refine ⟨W, hW, ?_⟩
    intro j hj
    obtain ⟨w1, w2⟩ := hWp j hj
    have := (hAcN j Q.seq).2.2
    rw [r5, r3, g2]
    exact ⟨w1, by omega⟩
  · intro Q1 hQ1 hd
    obtain ⟨Q, hQ, -, -, -, -, g5, -, -, -, -, g10, -⟩ := back Q1 hQ1
    rw [g5]; exact hinv.decidePhase Q hQ (g10 ▸ hd)
  · intro j seq v hj hv
    rw [hdec] at hv
    obtain ⟨Q, hQ, hd, hseq, hval⟩ := hinv.decidedFrom j seq v hj hv
    obtain ⟨Q1, hQ1, g1, -, g3, -, g5, -⟩ := fwd Q hQ
    exact ⟨Q1, hQ1, g5.trans hd, g1.trans hseq, g3.trans hval⟩

theorem SharedPrepareState.update_uncounted (st : SharedPrepareState) (reply : PrepareReply)
    (status : Bool) (h : (status && reply.ok && !st.done) = false) :
    (st.update reply status).prepareOKCount = st.prepareOKCount ∧
    (st.update reply status).highestNAccepted = st.highestNAccepted ∧
    (st.update reply status).nextPhaseV = st.nextPhaseV ∧
    (st.update reply status).done = st.done := by
  unfold SharedPrepareState.update
  by_cases hd : st.done = true
  · simp [hd]
  · have hd' : st.done = false := by simpa using hd
    rw [hd'] at h
    simp only [Bool.not_false, Bool.and_true] at h
    simp [hd', h]

theorem SharedPrepareState.update_counted (st : SharedPrepareState) (reply : PrepareReply)
    (status : Bool) (h : (status && reply.ok && !st.done) = true) :
    st.done = false ∧ (st.update reply status).done = false ∧
    (st.update reply status).prepareOKCount = st.prepareOKCount + 1 ∧
    ((reply.na > st.highestNAccepted ∧
        (st.update reply status).highestNAccepted = reply.na ∧
        (st.update reply status).nextPhaseV = reply.va) ∨
      (reply.na ≤ st.highestNAccepted ∧
        (st.update reply status).highestNAccepted = st.highestNAccepted ∧
        (st.update reply status).nextPhaseV = st.nextPhaseV)) := by
  simp only [Bool.and_eq_true, Bool.not_eq_true'] at h
  obtain ⟨⟨h1, h2⟩, h3⟩ := h
  unfold SharedPrepareState.update
  by_cases hgt : reply.na > st.highestNAccepted
  · simp [h1, h2, h3, hgt]
  · have hle : reply.na ≤ st.highestNAccepted := by omega
    simp [h1, h2, h3, hgt, hle]

/-- An Accept call of the iteration `P` on peer `i` preserves the invariant.
Either the peer's record is unchanged and no vote is recorded, or the peer
accepts: its record for the slot becomes `(n, n, actualV)` and `i` joins the
voters of `P`. -/
theorem Cluster.SlotInv.voteStep {N : Nat} {s s1 : Cluster} (hinv : s.SlotInv N) (a i : Nat)
    (P P1 : Proposal) (hf : findProposal s.proposals a = some P)
    (hsP : P.sentAccept = true) (hi : i < N) (hic : i ∉ P.accCalled)
    (hprops : s1.proposals = setProposal s.proposals a P1)
    (hdec : ∀ j seq, s1.decided j seq = s.decided j seq)
    (hother : ∀ j seq, (j ≠ i ∨ seq ≠ P.seq) → s1.acc j seq = s.acc j seq)
    (hcore : P1 = { P with accState := P1.accState, accCalled := i :: P.accCalled,
                           voters := P1.voters })
    (hcase : (P1.voters = P.voters ∧ s1.acc i P.seq = s.acc i P.seq ∧
        P1.accState.acceptOKCount = P.accState.acceptOKCount) ∨
      (P1.voters = i :: P.voters ∧ P.n ≥ (s.acc i P.seq).HighestSeen ∧
        s1.acc i P.seq = { s.acc i P.seq with
          HighestSeen := P.n, HighestAcN := P.n, HighestAcV := P.actualV } ∧
        P1.accState.acceptOKCount ≤ P.accState.acceptOKCount + 1)) :
    s1.SlotInv N := by
  obtain ⟨hPm, hPa⟩ := findProposal_some _ _ _ hf
  have e_id : P1.id = P.id := by rw [hcore]
  have e_seq : P1.seq = P.seq := by rw [hcore]
  have e_n : P1.n = P.n := by rw [hcore]
  have e_v : P1.actualV = P.actualV := by rw [hcore]
  have e_pro : P1.promisers = P.promisers := by rw [hcore]
  have e_ps : P1.prepState = P.prepState := by rw [hcore]
  have e_pc : P1.prepCalled = P.prepCalled := by rw [hcore]
  have e_ac : P1.accCalled = i :: P.accCalled := by rw [hcore]
  have e_md : P1.myDone = P.myDone := by rw [hcore]
  have e_pp : P1.proposer = P.proposer := by rw [hcore]
  have e_ph : P1.phase = P.phase := by rw [hcore]
  have e_sa : P1.sentAccept = P.sentAccept := by simp [Proposal.sentAccept, e_ph]
  have hPvot := hinv.voters P hPm
  have hinotin : i ∉ P.voters := fun hm => hic (hPvot.2.2.2 i hm).2.1
  have hb_old := hinv.accBounds i P.seq hi
  -- whether the peer voted
  have hvote : (s1.acc i P.seq = s.acc i P.seq) ∨
      (P1.voters = i :: P.voters ∧ P.n ≥ (s.acc i P.seq).HighestSeen ∧
        s1.acc i P.seq = { s.acc i P.seq with
          HighestSeen := P.n, HighestAcN := P.n, HighestAcV := P.actualV }) := by
    rcases hcase with ⟨_, c2, _⟩ | ⟨c1, c2, c3, _⟩
    · exact Or.inl c2
    · exact Or.inr ⟨c1, c2, c3⟩
  have hsub : ∀ j ∈ P.voters, j ∈ P1.voters := by
    intro j hj
    rcases hcase with ⟨c1, _⟩ | ⟨c1, _⟩
    · rw [c1]; exact hj
    · rw [c1]; exact List.mem_cons_of_mem _ hj
  have hnew : ∀ j ∈ P1.voters, j ∈ P.voters ∨
      (j = i ∧ P.n ≥ (s.acc i P.seq).HighestSeen) := by
    intro j hj
    rcases hcase with ⟨c1, _⟩ | ⟨c1, c2, _⟩
    · rw [c1] at hj; exact Or.inl hj
    · rw [c1] at hj
      rcases List.mem_cons.mp hj with e | e
      · exact Or.inr ⟨e, c2⟩
      · exact Or.inl e
  have hmono : ∀ j seq, (s.acc j seq).HighestSeen ≤ (s1.acc j seq).HighestSeen ∧
      (s.acc j seq).HighestAcN ≤ (s1.acc j seq).HighestAcN := by
    intro j seq
    by_cases hj : j ≠ i ∨ seq ≠ P.seq
    · rw [hother j seq hj]; exact ⟨le_refl _, le_refl _⟩
    · push_neg at hj
      obtain ⟨rfl, rfl⟩ := hj
      rcases hvote with h | ⟨_, h1, h2⟩
      · rw [h]; exact ⟨le_refl _, le_refl _⟩
      · rw [h2]
        refine ⟨?_, ?_⟩
        · show _ ≤ P.n; omega
        · show _ ≤ P.n; omega
  have back : ∀ Q1 ∈ s1.proposals, ∃ Q ∈ s.proposals,
      Q1.id = Q.id ∧ Q1.seq = Q.seq ∧ Q1.n = Q.n ∧ Q1.actualV = Q.actualV ∧
      Q1.promisers = Q.promisers ∧ Q1.prepState = Q.prepState ∧
      Q1.prepCalled = Q.prepCalled ∧ Q1.myDone = Q.myDone ∧ Q1.proposer = Q.proposer ∧
      Q1.phase = Q.phase ∧ Q1.sentAccept = Q.sentAccept ∧
      ((Q1 = P1 ∧ Q = P) ∨ (Q1 = Q ∧ Q ≠ P)) := by
    intro Q1 hQ1
    rw [hprops] at hQ1
    rcases mem_setProposal _ _ _ _ hQ1 with e | ⟨hm, hid⟩
    · subst e
      exact ⟨P, hPm, e_id, e_seq, e_n, e_v, e_pro, e_ps, e_pc, e_md, e_pp, e_ph, e_sa,
        Or.inl ⟨rfl, rfl⟩⟩
    · exact ⟨Q1, hm, rfl, rfl, rfl, rfl, rfl, rfl, rfl, rfl, rfl, rfl, rfl,
        Or.inr ⟨rfl, fun e => hid (e ▸ hPa)⟩⟩
  -- a voter of a new proposal voted before, or is the peer voting now
  have backv : ∀ Q1 ∈ s1.proposals, ∃ Q ∈ s.proposals,
      Q1.seq = Q.seq ∧ Q1.n = Q.n ∧ ∀ j ∈ Q1.voters, j ∈ Q.voters ∨
        (j = i ∧ Q = P ∧ P.n ≥ (s.acc i P.seq).HighestSeen) := by
    intro Q1 hQ1
    obtain ⟨Q, hQ, -, g2, g3, -, -, -, -, -, -, -, -, hc⟩ := back Q1 hQ1
    refine ⟨Q, hQ, g2, g3, ?_⟩
    intro j hj
    rcases hc with ⟨rfl, rfl⟩ | ⟨rfl, _⟩
    · rcases hnew j hj with h | ⟨h1, h2⟩
      · exact Or.inl h
      · exact Or.inr ⟨h1, rfl, h2⟩
    · exact Or.inl hj
  have fwd : ∀ Q ∈ s.proposals, ∃ Q1 ∈ s1.proposals,
      Q1.seq = Q.seq ∧ Q1.n = Q.n ∧ Q1.actualV = Q.actualV ∧
      (∀ j ∈ Q.voters, j ∈ Q1.voters) ∧ Q1.phase = Q.phase ∧ Q1.sentAccept = Q.sentAccept := by
    intro Q hQ
    rw [hprops]
    by_cases e : Q = P
    · subst e
      exact ⟨P1, mem_setProposal_new _ _ _ _ hPm hPa, e_seq, e_n, e_v, hsub, e_ph, e_sa⟩
    · exact ⟨Q, (setProposal_old_of_ne _ hinv.ids a P P1 Q hPm hPa hQ e).1, rfl, rfl, rfl,
        fun _ h => h, rfl, rfl⟩
  have hP1m : P1 ∈ s1.proposals := by
    rw [hprops]; exact mem_setProposal_new _ _ _ _ hPm hPa
  have hvf : ∀ j seq n v, s.VotedFor j seq n v → s1.VotedFor j seq n v := by
    intro j seq n v hv
    apply Cluster.VotedFor_mono s _ j seq n v _ hv
    intro Q hQ hs
    obtain ⟨Q1, hQ1, g1, g2, g3, g4, -, g6⟩ := fwd Q hQ
    exact ⟨Q1, hQ1, g6.trans hs, g1, g2, g3, g4⟩
  refine ⟨?_, ?_, ?_, ?_, ?_, ?_, ?_, ?_, ?_, ?_, ?_, ?_⟩
  · rw [hprops, ids_setProposal _ _ _ (e_id.trans hPa), length_setProposal]; exact hinv.ids
  · intro Q1 hQ1
    obtain ⟨Q, hQ, -, -, -, -, -, -, -, g8, g9, -⟩ := back Q1 hQ1
    rw [g9]; exact hinv.proposer Q hQ
  · -- accBounds
    intro j seq hj
    by_cases hjs : j ≠ i ∨ seq ≠ P.seq
    · rw [hother j seq hjs]; exact hinv.accBounds j seq hj
    · push_neg at hjs
      obtain ⟨rfl, rfl⟩ := hjs
      rcases hvote with h | ⟨_, h1, h2⟩
      · rw [h]; exact hb_old
      · rw [h2]
        refine ⟨?_, ?_⟩
        · show -1 ≤ P.n; omega
        · show P.n ≤ P.n; omega
  · -- accVoted
    intro j seq hj hne
    by_cases hjs : j ≠ i ∨ seq ≠ P.seq
    · rw [hother j seq hjs] at hne ⊢
      exact hvf _ _ _ _ (hinv.accVoted j seq hj hne)
    · push_neg at hjs
      obtain ⟨rfl, rfl⟩ := hjs
      rcases hvote with h | ⟨h0, h1, h2⟩
      · rw [h] at hne ⊢
        exact hvf _ _ _ _ (hinv.accVoted j P.seq hj hne)
      · rw [h2]
        exact ⟨P1, hP1m, e_sa.trans hsP, e_seq, e_n, e_v, by rw [h0]; exact List.mem_cons_self _ _⟩
  · -- voters
    intro Q1 hQ1
    obtain ⟨Q, hQ, -, g2, g3, -, -, -, -, -, -, -, g11, hc⟩ := back Q1 hQ1
    rcases hc with ⟨rfl, rfl⟩ | ⟨rfl, hne⟩
    · rw [e_seq, e_n, e_ac]
      obtain ⟨v1, v2, v3, v4⟩ := hPvot
      have hall : ∀ j ∈ Q.voters, j < N ∧ j ∈ i :: Q.accCalled ∧
          Q.n ≤ (s1.acc j Q.seq).HighestAcN := by
        intro j hj
        obtain ⟨w1, w2, w3⟩ := v4 j hj
        have := (hmono j Q.seq).2
        exact ⟨w1, List.mem_cons_of_mem _ w2, by omega⟩
      rcases hcase with ⟨c1, c2, c3⟩ | ⟨c1, c2, c3, c4⟩
      · rw [c1, c3]
        exact ⟨v1, v2, fun h => v3 (e_sa ▸ h), hall⟩
      · rw [c1]
        refine ⟨List.nodup_cons.mpr ⟨hinotin, v1⟩, ?_, ?_, ?_⟩
        · simp only [List.length_cons]; push_cast; omega
        · intro h; rw [e_sa, hsP] at h; exact absurd h (by simp)
        · intro j hj
          rcases List.mem_cons.mp hj with e | e
          · subst e
            refine ⟨hi, List.mem_cons_self _ _, ?_⟩
            rw [c3]
          · exact hall j e
    · obtain ⟨v1, v2, v3, v4⟩ := hinv.voters Q1 hQ
      refine ⟨v1, v2, v3, ?_⟩
      intro j hj
      obtain ⟨w1, w2, w3⟩ := v4 j hj
      have := (hmono j Q1.seq).2
      exact ⟨w1, w2, by omega⟩
  · -- promisers
    intro Q1 hQ1
    obtain ⟨Q, hQ, -, g2, g3, -, g5, g6, g7, -⟩ := back Q1 hQ1
    rw [g5, g6, g7, g2, g3]
    obtain ⟨h1, h2, h3⟩ := hinv.promisers Q hQ
    refine ⟨h1, h2, ?_⟩
    intro x hx
    obtain ⟨k1, k2, k3, k4, k5, k6, k7⟩ := h3 x hx
    have := (hmono x.1 Q.seq).1
    refine ⟨k1, k2, by omega, k4, k5, fun e => hvf _ _ _ _ (k6 e), ?_⟩
    intro R1 hR1 hseq hvo hn
    obtain ⟨R, hR, r2, r3, r4⟩ := backv R1 hR1
    rw [r3] at hn ⊢
    rw [r2] at hseq
    rcases r4 x.1 hvo with h | ⟨e1, e2, e3⟩
    · exact k7 R hR hseq h hn
    · exfalso
      subst e2
      rw [e1, ← hseq] at k3
      omega
  · intro Q1 hQ1 R1 hR1 hseq hn x hx y hy hxy
    obtain ⟨Q, hQ, g1, g2, g3, -, g5, -⟩ := back Q1 hQ1
    obtain ⟨R, hR, r1, r2, r3, -, r5, -⟩ := back R1 hR1
    rw [g1, r1]
    exact hinv.promiseOnce Q hQ R hR (g2 ▸ r2 ▸ hseq) (g3 ▸ r3 ▸ hn) x (g5 ▸ hx) y (r5 ▸ hy) hxy
  · intro Q1 hQ1
    obtain ⟨Q, hQ, -, -, -, -, g5, g6, -⟩ := back Q1 hQ1
    rw [g5, g6]; exact hinv.selected Q hQ
  · intro Q1 hQ1 hs
    obtain ⟨Q, hQ, -, -, -, g4, g5, g6, -, -, -, -, g11, -⟩ := back Q1 hQ1
    rw [g4, g5, g6]; exact hinv.sent Q hQ (g11 ▸ hs)
  · -- safe
    intro Q1 hQ1 R1 hR1 hs1 hs2 hseq hn hv
    obtain ⟨Q, hQ, -, g2, g3, g4, -, -, -, -, -, -, g11, -⟩ := back Q1 hQ1
    obtain ⟨R, hR, -, r2, r3, r4, -, -, -, -, -, -, r11, hc⟩ := back R1 hR1
    have hseq' : R.seq = Q.seq := g2 ▸ r2 ▸ hseq
    obtain ⟨W, hW, hWp⟩ := hinv.safe Q hQ R hR (g11 ▸ hs1) (r11 ▸ hs2) hseq'
      (g3 ▸ r3 ▸ hn) (g4 ▸ r4 ▸ hv)
    refine ⟨W, hW, ?_⟩
    intro j hj
    obtain ⟨w1, w2⟩ := hWp j hj
    have hm := (hmono j Q.seq).1
    rw [r3, g2]
    refine ⟨?_, by omega⟩
    intro hvo
    rcases hc with ⟨rfl, rfl⟩ | ⟨rfl, _⟩
    · rcases hnew j hvo with h | ⟨h1, h2⟩
      · exact w1 h
      · rw [h1, ← hseq'] at w2
        omega
    · exact w1 hvo
  · intro Q1 hQ1 hd
    obtain ⟨Q, hQ, -, -, -, -, -, -, -, -, -, g10, -, hc⟩ := back Q1 hQ1
    have := hinv.decidePhase Q hQ (g10 ▸ hd)
    rcases hc with ⟨rfl, rfl⟩ | ⟨rfl, _⟩
    · rcases hcase with ⟨c1, _⟩ | ⟨c1, _⟩
      · rw [c1]; exact this
      · rw [c1]; simp only [List.length_cons]; omega
    · exact this
  · intro j seq v hj hv
    rw [hdec] at hv
    obtain ⟨Q, hQ, hd, hseq, hval⟩ := hinv.decidedFrom j seq v hj hv
    obtain ⟨Q1, hQ1, g1, -, g3, -, g5, -⟩ := fwd Q hQ
    exact ⟨Q1, hQ1, g5.trans hd, g1.trans hseq, g3.trans hval⟩

theorem SharedAcceptState.update_count (st : SharedAcceptState) (reply : AcceptReply)
    (status : Bool) :
    ((st.update reply status).acceptOKCount = st.acceptOKCount) ∨
    (status = true ∧ reply.ok = true ∧
      (st.update reply status).acceptOKCount = st.acceptOKCount + 1) := by
  unfold SharedAcceptState.update
  by_cases hd : st.done = true
  · simp [hd]
  · by_cases hs : (status && reply.ok) = true
    · right
      simp only [Bool.and_eq_true] at hs
      by_cases hgt : reply.n > st.highestNObserved
      · simp [hd, hs.1, hs.2, hgt]
      · simp [hd, hs.1, hs.2, hgt]
    · left
      simp [hd, hs]

theorem Cluster.Reachable_of_run (N : Nat) (s s1 : Cluster) (evs : List Event)
    (hs : Cluster.Reachable N s) (h : Cluster.run N s evs = some s1) :
    Cluster.Reachable N s1 := by
  induction evs generalizing s with
  | nil =>
    simp only [Cluster.run, Option.some.injEq] at h
    rw [← h]; exact hs
  | cons e rest ih =>
    simp only [Cluster.run] at h
    cases hst : s.step N e with
    | none => rw [hst] at h; exact absurd h (by simp)
    | some s2 =>
      rw [hst] at h
      exact ih s2 (Cluster.Reachable.step s s2 e hs hst) h

theorem PaxosImpl.freed_eq_false (r : PaxosImpl) (q : Int) :
    r.freed q = false ↔ (r.doneFreed_ ≤ 0 ∨ r.doneFreed_ ≤ q) := by
  unfold PaxosImpl.freed
  rw [decide_eq_false_iff_not]
  omega

theorem PaxosImpl.freed_mono (r r1 : PaxosImpl) (q : Int) (h : r.doneFreed_ ≤ r1.doneFreed_)
    (hl : r1.freed q = false) : r.freed q = false := by
  rw [PaxosImpl.freed_eq_false] at hl ⊢
  omega

theorem Cluster.live_iff (N : Nat) (s : Cluster) (q : Int) :
    s.live N q = true ↔ ∀ i, i < N → (s.replicas i).freed q = false := by
  unfold Cluster.live
  rw [List.all_eq_true]
  constructor
  · intro h i hi
    simpa using h i (List.mem_range.mpr hi)
  · intro h i hi
    simpa using h i (List.mem_range.mp hi)

theorem PaxosImpl.collectGarbage_eq (r : PaxosImpl) :
    (getMinSeqNum r.peerDone_ > r.doneFreed_ ∧
      r.collectGarbage =
        { r with instances_ := fun k => if k < getMinSeqNum r.peerDone_ then none
                   else r.instances_ k,
                 acceptorIns_ := fun k => if k < getMinSeqNum r.peerDone_ then none
                   else r.acceptorIns_ k,
                 doneFreed_ := getMinSeqNum r.peerDone_ }) ∨
    (¬ getMinSeqNum r.peerDone_ > r.doneFreed_ ∧ r.collectGarbage = r) := by
  by_cases h : getMinSeqNum r.peerDone_ > r.doneFreed_
  · left; exact ⟨h, by simp only [PaxosImpl.collectGarbage, if_pos h]⟩
  · right; exact ⟨h, by simp only [PaxosImpl.collectGarbage, if_neg h]⟩

theorem PaxosImpl.collectGarbage_doneFreed (r : PaxosImpl) :
    r.doneFreed_ ≤ r.collectGarbage.doneFreed_ := by
  rcases r.collectGarbage_eq with ⟨h, e⟩ | ⟨_, e⟩
  · rw [e]
    show r.doneFreed_ ≤ getMinSeqNum r.peerDone_
    omega
  · rw [e]

/-- A collection that does not free slot `q` leaves its records alone. -/
theorem PaxosImpl.collectGarbage_live (r : PaxosImpl) (q : Int) (h0 : 0 ≤ r.doneFreed_)
    (hl : r.collectGarbage.freed q = false) :
    r.collectGarbage.acceptorIns_ q = r.acceptorIns_ q ∧
    r.collectGarbage.instances_ q = r.instances_ q := by
  rw [PaxosImpl.freed_eq_false] at hl
  rcases r.collectGarbage_eq with ⟨h, e⟩ | ⟨_, e⟩
  · rw [e] at hl ⊢
    have hl' : getMinSeqNum r.peerDone_ ≤ 0 ∨ getMinSeqNum r.peerDone_ ≤ q := hl
    have hq : ¬ q < getMinSeqNum r.peerDone_ := by omega
    exact ⟨by simp only [if_neg hq], by simp only [if_neg hq]⟩
  · rw [e]; exact ⟨rfl, rfl⟩

theorem SlotKept.same (r : PaxosImpl) (q : Int) : SlotKept r r q := ⟨rfl, rfl⟩

theorem SlotKept.of_tables (r r1 : PaxosImpl) (q : Int)
    (ha : r1.acceptorIns_ q = r.acceptorIns_ q) (hi : r1.instances_ q = r.instances_ q) :
    SlotKept r r1 q := by
  unfold SlotKept PaxosImpl.acceptorRecord PaxosImpl.decidedValue
  rw [ha, hi]
  exact ⟨rfl, rfl⟩

theorem SlotKept.chain {r r1 r2 : PaxosImpl} {q : Int} (h1 : SlotKept r r1 q)
    (h2 : SlotKept r1 r2 q) : SlotKept r r2 q :=
  ⟨h2.1.trans h1.1, h2.2.trans h1.2⟩

theorem Cluster.decided_eq_decidedValue (s : Cluster) (i : Nat) (seq : Int) :
    s.decided i seq = (s.replicas i).decidedValue seq := rfl

theorem PaxosImpl.frame_collectGarbage (r : PaxosImpl) (q : Int) (h0 : 0 ≤ r.doneFreed_)
    (hl : r.collectGarbage.freed q = false) : SlotKept r r.collectGarbage q := by
  obtain ⟨h1, h2⟩ := r.collectGarbage_live q h0 hl
  exact SlotKept.of_tables _ _ q h1 h2

/-- The calls `Done`, `MinKnownSeq`, `Start` and `Status` never lower
`doneFreed_`, and leave the records of every slot they do not free. -/
theorem PaxosImpl.frame_Done (r : PaxosImpl) (seq : Int) :
    r.doneFreed_ ≤ (r.Done seq).doneFreed_ ∧ ∀ q, SlotKept r (r.Done seq) q :=
  ⟨le_refl _, fun q => SlotKept.of_tables _ _ q rfl rfl⟩

theorem PaxosImpl.frame_MinKnownSeq (r : PaxosImpl) (h0 : 0 ≤ r.doneFreed_) :
    r.doneFreed_ ≤ r.MinKnownSeq.2.doneFreed_ ∧
    ∀ q, r.MinKnownSeq.2.freed q = false → SlotKept r r.MinKnownSeq.2 q :=
  ⟨r.collectGarbage_doneFreed, fun q hl => r.frame_collectGarbage q h0 hl⟩

theorem PaxosImpl.Start_tables (r : PaxosImpl) (seq : Int) (v : Op) :
    (r.Start seq v).2.doneFreed_ = r.collectGarbage.doneFreed_ ∧
    (r.Start seq v).2.acceptorIns_ = r.collectGarbage.acceptorIns_ ∧
    (r.Start seq v).2.instances_ = r.collectGarbage.instances_ := by
  unfold PaxosImpl.Start PaxosImpl.MinKnownSeq
  simp only
  have key : ∀ x : PaxosImpl, x = (if seq > r.collectGarbage.highestSeqSeen_ then
        { r.collectGarbage with highestSeqSeen_ := seq } else r.collectGarbage) →
      x.doneFreed_ = r.collectGarbage.doneFreed_ ∧
      x.acceptorIns_ = r.collectGarbage.acceptorIns_ ∧
      x.instances_ = r.collectGarbage.instances_ := by
    intro x hx
    rw [hx]
    split <;> exact ⟨rfl, rfl, rfl⟩
  split
  · exact ⟨rfl, rfl, rfl⟩
  · split
    · split <;> exact key _ rfl
    · exact key _ rfl

theorem PaxosImpl.frame_Start (r : PaxosImpl) (seq : Int) (v : Op) (h0 : 0 ≤ r.doneFreed_) :
    r.doneFreed_ ≤ (r.Start seq v).2.doneFreed_ ∧
    ∀ q, (r.Start seq v).2.freed q = false → SlotKept r (r.Start seq v).2 q := by
  obtain ⟨h1, h2, h3⟩ := r.Start_tables seq v
  refine ⟨by rw [h1]; exact r.collectGarbage_doneFreed, ?_⟩
  intro q hl
  have hl' : r.collectGarbage.freed q = false := by
    rw [PaxosImpl.freed_eq_false] at hl ⊢
    rw [h1] at hl; exact hl
  obtain ⟨g1, g2⟩ := r.collectGarbage_live q h0 hl'
  exact SlotKept.of_tables _ _ q (by rw [h2]; exact g1) (by rw [h3]; exact g2)

theorem decidedValue_insert (f : Int → Option Instance) (seq q : Int) :
    (match (if q = seq then some ((f seq).getD Instance.new) else f q) with
      | some inst => if inst.Decided then some inst.DecidedV else none
      | none => none) =
    (match f q with
      | some inst => if inst.Decided then some inst.DecidedV else none
      | none => none) := by
  by_cases hq : q = seq
  · subst hq
    cases hi : f q with
    | none => simp [Instance.new]
    | some it => simp
  · simp [hq]

theorem PaxosImpl.frame_Status (r : PaxosImpl) (seq : Int) :
    r.doneFreed_ ≤ (r.Status seq).2.doneFreed_ ∧ ∀ q, SlotKept r (r.Status seq).2 q := by
  refine ⟨le_refl _, fun q => ⟨rfl, ?_⟩⟩
  exact decidedValue_insert r.instances_ seq q

theorem PaxosImpl.frame_proposeHead (r : PaxosImpl) (seq : Int) (h0 : 0 ≤ r.doneFreed_) :
    r.doneFreed_ ≤ (r.proposeHead seq).2.doneFreed_ ∧
    ∀ q, (r.proposeHead seq).2.freed q = false → SlotKept r (r.proposeHead seq).2 q := by
  have hd : (r.proposeHead seq).2.doneFreed_ = r.collectGarbage.doneFreed_ := by
    unfold PaxosImpl.proposeHead
    simp only
    split <;> rfl
  have ha : (r.proposeHead seq).2.acceptorIns_ = r.collectGarbage.acceptorIns_ := by
    unfold PaxosImpl.proposeHead
    simp only
    split <;> rfl
  have hins : (r.proposeHead seq).2.instances_ = fun k =>
      if k = seq then some ((r.collectGarbage.instances_ seq).getD Instance.new)
      else r.collectGarbage.instances_ k := by
    unfold PaxosImpl.proposeHead
    simp only
    split <;> rfl
  have hi : ∀ q, (r.proposeHead seq).2.decidedValue q = r.collectGarbage.decidedValue q := by
    intro q
    unfold PaxosImpl.decidedValue
    rw [hins]
    exact decidedValue_insert r.collectGarbage.instances_ seq q
  refine ⟨by rw [hd]; exact r.collectGarbage_doneFreed, ?_⟩
  intro q hl
  have hl' : r.collectGarbage.freed q = false := by
    rw [PaxosImpl.freed_eq_false] at hl ⊢
    rw [hd] at hl; exact hl
  have hk := r.frame_collectGarbage q h0 hl'
  refine ⟨?_, (hi q).trans hk.2⟩
  unfold PaxosImpl.acceptorRecord
  rw [ha]
  exact hk.1

theorem PaxosImpl.prepareTail_live (r : PaxosImpl) (reply : PrepareReply) (args : PrepareArgs) :
    (r.prepareTail reply args).1.ok = reply.ok ∧
    (r.prepareTail reply args).1.na = reply.na ∧
    (r.prepareTail reply args).1.va = reply.va ∧
    r.doneFreed_ ≤ (r.prepareTail reply args).2.doneFreed_ ∧
    ∀ q, 0 ≤ r.doneFreed_ → (r.prepareTail reply args).2.freed q = false →
      (r.prepareTail reply args).2.acceptorIns_ q = r.acceptorIns_ q ∧
      (r.prepareTail reply args).2.instances_ q = r.instances_ q := by
  unfold PaxosImpl.prepareTail
  refine ⟨rfl, rfl, rfl, ?_, ?_⟩
  · exact PaxosImpl.collectGarbage_doneFreed _
  · intro q h0 hl
    exact PaxosImpl.collectGarbage_live _ q h0 hl

theorem PaxosImpl.acceptorRecord_congr_at (r1 r : PaxosImpl) (q : Int)
    (h : r1.acceptorIns_ q = r.acceptorIns_ q) : r1.acceptorRecord q = r.acceptorRecord q := by
  unfold PaxosImpl.acceptorRecord
  rw [h]

theorem PaxosImpl.decidedValue_congr_at (r1 r : PaxosImpl) (q : Int)
    (h : r1.instances_ q = r.instances_ q) : r1.decidedValue q = r.decidedValue q := by
  unfold PaxosImpl.decidedValue
  rw [h]

/-- What the Prepare handler does to a slot it does not free. -/
theorem PaxosImpl.Prepare_live (r : PaxosImpl) (args : PrepareArgs) :
    r.doneFreed_ ≤ (r.Prepare args).2.doneFreed_ ∧
    ∀ q, 0 ≤ r.doneFreed_ → (r.Prepare args).2.freed q = false →
      (r.Prepare args).2.decidedValue q = r.decidedValue q ∧
      (q ≠ args.seq → (r.Prepare args).2.acceptorRecord q = r.acceptorRecord q) ∧
      (q = args.seq →
        if args.n > (r.acceptorRecord args.seq).HighestSeen then
          (r.Prepare args).1.ok = true ∧
          (r.Prepare args).1.na = (r.acceptorRecord args.seq).HighestAcN ∧
          (r.Prepare args).1.va = (r.acceptorRecord args.seq).HighestAcV ∧
          (r.Prepare args).2.acceptorRecord args.seq =
            { r.acceptorRecord args.seq with HighestSeen := args.n }
        else
          (r.Prepare args).1.ok = false ∧
          (r.Prepare args).2.acceptorRecord args.seq = r.acceptorRecord args.seq) := by
  by_cases hn : args.n > (r.acceptorRecord args.seq).HighestSeen
  · have e : r.Prepare args =
        (r.setAcceptor args.seq { r.acceptorRecord args.seq with HighestSeen := args.n }).prepareTail
          { ok := true, na := (r.acceptorRecord args.seq).HighestAcN,
            va := (r.acceptorRecord args.seq).HighestAcV, done := 0 } args := by
      simp only [PaxosImpl.Prepare, if_pos hn]
    rw [e]
    simp only [if_pos hn]
    obtain ⟨k1, k2, k3, k4, k5⟩ := PaxosImpl.prepareTail_live
      (r.setAcceptor args.seq { r.acceptorRecord args.seq with HighestSeen := args.n })
      { ok := true, na := (r.acceptorRecord args.seq).HighestAcN,
        va := (r.acceptorRecord args.seq).HighestAcV, done := 0 } args
    refine ⟨k4, ?_⟩
    intro q h0 hl
    obtain ⟨g1, g2⟩ := k5 q h0 hl
    refine ⟨PaxosImpl.decidedValue_congr_at _ _ q g2, ?_, ?_⟩
    · intro hq
      rw [PaxosImpl.acceptorRecord_congr_at _ _ q g1, PaxosImpl.acceptorRecord_setAcceptor,
        if_neg hq]
    · intro hq
      subst hq
      refine ⟨k1, k2, k3, ?_⟩
      rw [PaxosImpl.acceptorRecord_congr_at _ _ _ g1, PaxosImpl.acceptorRecord_setAcceptor,
        if_pos rfl]
  · have e : r.Prepare args = r.prepareTail PrepareReply.new args := by
      simp only [PaxosImpl.Prepare, if_neg hn]
    rw [e]
    simp only [if_neg hn]
    obtain ⟨k1, k2, k3, k4, k5⟩ := PaxosImpl.prepareTail_live r PrepareReply.new args
    refine ⟨k4, ?_⟩
    intro q h0 hl
    obtain ⟨g1, g2⟩ := k5 q h0 hl
    refine ⟨PaxosImpl.decidedValue_congr_at _ _ q g2, ?_, ?_⟩
    · intro _
      exact PaxosImpl.acceptorRecord_congr_at _ _ q g1
    · intro hq
      subst hq
      exact ⟨by rw [k1]; rfl, PaxosImpl.acceptorRecord_congr_at _ _ _ g1⟩

theorem PaxosImpl.slotView_acceptorRecord (r : PaxosImpl) (q k : Int) :
    (r.slotView q).acceptorRecord k = if k = q then r.acceptorRecord q else Instance.unseen := by
  unfold PaxosImpl.acceptorRecord PaxosImpl.slotView
  by_cases h : k = q
  · simp only [if_pos h]
  · simp only [if_neg h]

theorem Cluster.slotView_acc (s : Cluster) (q : Int) (i : Nat) (k : Int) :
    (s.slotView q).acc i k = if k = q then s.acc i q else Instance.unseen :=
  PaxosImpl.slotView_acceptorRecord _ q k

theorem Cluster.slotView_decided (s : Cluster) (q : Int) (i : Nat) (k : Int) :
    (s.slotView q).decided i k = if k = q then s.decided i q else none := by
  unfold Cluster.decided Cluster.slotView PaxosImpl.slotView
  by_cases h : k = q
  · simp only [if_pos h]
  · simp only [if_neg h]

theorem Proposal.slotView_id (P : Proposal) (q : Int) : (P.slotView q).id = P.id := by
  unfold Proposal.slotView; split <;> rfl

theorem Proposal.slotView_of_eq (P : Proposal) (q : Int) (h : P.seq = q) : P.slotView q = P := by
  simp [Proposal.slotView, h]

theorem Proposal.slotView_of_ne (P : Proposal) (q : Int) (h : P.seq ≠ q) :
    P.slotView q = Proposal.new P.id P.proposer P.seq P.v P.n P.myDone := by
  simp [Proposal.slotView, h]

theorem Proposal.slotView_new (id p : Nat) (seq : Int) (v : Op) (n d q : Int) :
    (Proposal.new id p seq v n d).slotView q = Proposal.new id p seq v n d := by
  unfold Proposal.slotView
  split <;> rfl

theorem findProposal_slotView (ps : List Proposal) (a : Nat) (P : Proposal) (q : Int)
    (hf : findProposal ps a = some P) :
    findProposal (ps.map (fun P => P.slotView q)) a = some (P.slotView q) := by
  unfold findProposal at hf ⊢
  rw [List.find?_map]
  have e : ((fun Q : Proposal => decide (Q.id = a)) ∘ fun P => P.slotView q) =
      fun Q : Proposal => decide (Q.id = a) := by
    funext Q
    simp [Proposal.slotView_id]
  rw [e, hf]
  rfl

theorem slotView_setProposal (ps : List Proposal) (a : Nat) (P1 : Proposal) (q : Int) :
    (setProposal ps a P1).map (fun P => P.slotView q) =
      setProposal (ps.map (fun P => P.slotView q)) a (P1.slotView q) := by
  unfold setProposal
  rw [List.map_map, List.map_map]
  apply List.map_congr_left
  intro Q _
  simp only [Function.comp, Proposal.slotView_id]
  by_cases h : Q.id = a
  · simp only [if_pos h]
  · simp only [if_neg h]

theorem setProposal_self (ps : List Proposal)
    (hids : ps.map Proposal.id = List.range ps.length) (a : Nat) (P : Proposal)
    (hf : findProposal ps a = some P) : setProposal ps a P = ps := by
  obtain ⟨hPm, hPa⟩ := findProposal_some _ _ _ hf
  unfold setProposal
  conv_rhs => rw [← List.map_id ps]
  apply List.map_congr_left
  intro Q hQ
  by_cases h : Q.id = a
  · rw [if_pos h]
    exact (ids_unique ps hids Q P hQ hPm (h.trans hPa.symm)).symm
  · rw [if_neg h]; rfl

/-- A variant of `of_same_acc` for a step that leaves the decided values alone. -/
theorem Cluster.SlotInv.of_same {N : Nat} {s s1 : Cluster} (hinv : s.SlotInv N)
    (hp : s1.proposals = s.proposals)
    (hacc : ∀ i seq, s1.acc i seq = s.acc i seq)
    (hdec : ∀ i seq, s1.decided i seq = s.decided i seq) : s1.SlotInv N := by
  refine hinv.of_same_acc hp hacc ?_
  intro i seq v hi hv
  rw [hdec] at hv
  rw [hp]
  exact hinv.decidedFrom i seq v hi hv

/-- A step that, seen from slot `q`, changes neither the iterations nor the
records of the replicas, preserves the invariant of slot `q`. -/
theorem Cluster.SlotInv.of_view_kept {N : Nat} {s s1 : Cluster} {q : Int}
    (hs : (s.slotView q).SlotInv N)
    (hp : (s1.slotView q).proposals = (s.slotView q).proposals)
    (hk : ∀ i, SlotKept (s.replicas i) (s1.replicas i) q) : (s1.slotView q).SlotInv N := by
  refine hs.of_same hp ?_ ?_
  · intro i seq
    rw [Cluster.slotView_acc, Cluster.slotView_acc]
    by_cases h : seq = q
    · simp only [if_pos h]; exact (hk i).1
    · simp only [if_neg h]
  · intro i seq
    rw [Cluster.slotView_decided, Cluster.slotView_decided]
    by_cases h : seq = q
    · simp only [if_pos h]; exact (hk i).2
    · simp only [if_neg h]

theorem Cluster.Inv.live_before {N : Nat} {s s1 : Cluster} {q : Int}
    (hfr : ∀ i, i < N → (s.replicas i).doneFreed_ ≤ (s1.replicas i).doneFreed_)
    (hl : s1.live N q = true) : s.live N q = true := by
  rw [Cluster.live_iff] at hl ⊢
  intro i hi
  exact PaxosImpl.freed_mono _ _ q (hfr i hi) (hl i hi)

/-- Replacing replica `i` by a state that has not lowered `doneFreed_` and
that keeps the records of every slot it has not freed preserves the invariant. -/
theorem Cluster.Inv.setReplica_kept {N : Nat} {s : Cluster} (hinv : s.Inv N) (i : Nat)
    (r1 : PaxosImpl) (hi : i < N)
    (hfr : (s.replicas i).doneFreed_ ≤ r1.doneFreed_)
    (hk : ∀ q, r1.freed q = false → SlotKept (s.replicas i) r1 q) :
    Cluster.Inv N { s with replicas := setReplica s.replicas i r1 } := by
  have hfr' : ∀ j, j < N → (s.replicas j).doneFreed_ ≤
      (setReplica s.replicas i r1 j).doneFreed_ := by
    intro j _
    by_cases hj : j = i
    · subst hj; rw [setReplica_same]; exact hfr
    · rw [setReplica_other _ _ _ _ hj]
  refine ⟨?_, ?_⟩
  · intro j hj
    exact le_trans (hinv.freedNonneg j hj) (hfr' j hj)
  · intro q hl
    have hl0 := Cluster.Inv.live_before hfr' hl
    rw [Cluster.live_iff] at hl
    refine Cluster.SlotInv.of_view_kept (hinv.slot q hl0) rfl ?_
    intro j
    show SlotKept (s.replicas j) (setReplica s.replicas i r1 j) q
    by_cases hj : j = i
    · subst hj
      rw [setReplica_same]
      have := hl j hi
      simp only [setReplica_same] at this
      exact hk q this
    · rw [setReplica_other _ _ _ _ hj]
      exact SlotKept.same _ q

theorem Cluster.applicationCall_Inv {N : Nat} {s s1 : Cluster} (i : Nat)
    (f : PaxosImpl → PaxosImpl) (hinv : s.Inv N)
    (hf : ∀ r, 0 ≤ r.doneFreed_ → r.doneFreed_ ≤ (f r).doneFreed_ ∧
      ∀ q, (f r).freed q = false → SlotKept r (f r) q)
    (h : s.applicationCall N i f = some s1) : s1.Inv N := by
  unfold Cluster.applicationCall at h
  by_cases hi : i < N
  · rw [if_pos hi] at h
    simp only [Option.some.injEq] at h
    rw [← h]
    obtain ⟨h1, h2⟩ := hf (s.replicas i) (hinv.freedNonneg i hi)
    exact hinv.setReplica_kept i _ hi h1 h2
  · rw [if_neg hi] at h
    exact absurd h (by simp)

theorem Cluster.init_Inv (N : Nat) : (Cluster.init N).Inv N := by
  refine ⟨?_, ?_⟩
  · intro i _
    simp [Cluster.init, PaxosImpl.new]
  · intro q _
    exact {
      ids := rfl
      proposer := by intro P hP; simp [Cluster.init, Cluster.slotView] at hP
      accBounds := by
        intro i seq _
        rw [Cluster.slotView_acc]
        split <;>
          simp [Cluster.acc, Cluster.init, PaxosImpl.new, PaxosImpl.acceptorRecord,
            Instance.unseen]
      accVoted := by
        intro i seq _ h
        rw [Cluster.slotView_acc] at h
        split at h <;>
          simp [Cluster.acc, Cluster.init, PaxosImpl.new, PaxosImpl.acceptorRecord,
            Instance.unseen] at h
      voters := by intro P hP; simp [Cluster.init, Cluster.slotView] at hP
      promisers := by intro P hP; simp [Cluster.init, Cluster.slotView] at hP
      promiseOnce := by intro P hP; simp [Cluster.init, Cluster.slotView] at hP
      selected := by intro P hP; simp [Cluster.init, Cluster.slotView] at hP
      sent := by intro P hP; simp [Cluster.init, Cluster.slotView] at hP
      safe := by intro P hP; simp [Cluster.init, Cluster.slotView] at hP
      decidePhase := by intro P hP; simp [Cluster.init, Cluster.slotView] at hP
      decidedFrom := by
        intro i seq v _ h
        rw [Cluster.slotView_decided] at h
        split at h
        · simp [Cluster.decided, Cluster.init, PaxosImpl.new] at h
        · simp at h }

/-- Beginning a new iteration preserves the invariant. -/
theorem Cluster.Inv.appendProposal {N : Nat} {s : Cluster} (hinv : s.Inv N) (p : Nat) (seq : Int)
    (v : Op) (n d : Int) (hp : p < N) :
    Cluster.Inv N { s with proposals :=
      s.proposals ++ [Proposal.new s.proposals.length p seq v n d] } := by
  refine ⟨hinv.freedNonneg, ?_⟩
  intro q hl
  have hs := hinv.slot q hl
  have h := hs.append p seq v n d hp
  have e : Cluster.slotView { s with proposals :=
        s.proposals ++ [Proposal.new s.proposals.length p seq v n d] } q =
      { replicas := (s.slotView q).replicas,
        proposals := (s.slotView q).proposals ++
          [Proposal.new (s.slotView q).proposals.length p seq v n d] } := by
    simp only [Cluster.slotView, List.map_append, List.map_cons, List.map_nil,
      Proposal.slotView_new, List.length_map]
  rw [e]
  exact h

theorem Cluster.propose_Inv {N : Nat} {s s1 : Cluster} (p : Nat) (seq : Int) (v : Op)
    (hinv : s.Inv N) (h : s.propose N p seq v = some s1) : s1.Inv N := by
  unfold Cluster.propose at h
  by_cases hp : p < N
  · rw [if_pos hp] at h
    obtain ⟨h1, h2⟩ := (s.replicas p).frame_proposeHead seq (hinv.freedNonneg p hp)
    have hmid := hinv.setReplica_kept p ((s.replicas p).proposeHead seq).2 hp h1 h2
    cases hres : ((s.replicas p).proposeHead seq).1 with
    | none =>
      simp only [hres, Option.some.injEq] at h
      rw [← h]; exact hmid
    | some nd =>
      simp only [hres, Option.some.injEq] at h
      rw [← h]
      exact hmid.appendProposal p seq v nd.1 nd.2 hp
  · rw [if_neg hp] at h
    exact absurd h (by simp)

/-- The ids of the iterations are those of the slot view, which the invariant
of a live slot numbers from 0. -/
theorem Cluster.slotView_ids {N : Nat} {s : Cluster} {q : Int} (hs : (s.slotView q).SlotInv N) :
    s.proposals.map Proposal.id = List.range s.proposals.length := by
  have h := hs.ids
  simp only [Cluster.slotView, List.map_map, List.length_map] at h
  rw [← h]
  apply List.map_congr_left
  intro P _
  simp [Proposal.slotView_id]

/-- A step that replaces the iteration `P` by `P1` and leaves the replicas alone
preserves the invariant, when it preserves the invariant of a slot. -/
theorem Cluster.Inv.setProposal_step {N : Nat} {s : Cluster} (hinv : s.Inv N) (a : Nat)
    (P P1 : Proposal) (hf : findProposal s.proposals a = some P)
    (hid : P1.id = P.id) (hpr : P1.proposer = P.proposer) (hseq : P1.seq = P.seq)
    (hv : P1.v = P.v) (hn : P1.n = P.n) (hmd : P1.myDone = P.myDone)
    (hstep : ∀ t : Cluster, t.SlotInv N → findProposal t.proposals a = some P →
      Cluster.SlotInv N { t with proposals := setProposal t.proposals a P1 }) :
    Cluster.Inv N { s with proposals := setProposal s.proposals a P1 } := by
  refine ⟨hinv.freedNonneg, ?_⟩
  intro q hl
  have hs := hinv.slot q hl
  have hfv := findProposal_slotView s.proposals a P q hf
  have e : Cluster.slotView { s with proposals := setProposal s.proposals a P1 } q =
      { replicas := (s.slotView q).replicas,
        proposals := setProposal (s.slotView q).proposals a (P1.slotView q) } := by
    simp only [Cluster.slotView, slotView_setProposal]
  rw [e]
  by_cases hq : P.seq = q
  · rw [Proposal.slotView_of_eq P q hq] at hfv
    rw [Proposal.slotView_of_eq P1 q (hseq.trans hq)]
    exact hstep _ hs hfv
  · have e1 : P1.slotView q = P.slotView q := by
      rw [Proposal.slotView_of_ne P q hq, Proposal.slotView_of_ne P1 q (by rw [hseq]; exact hq),
        hid, hpr, hseq, hv, hn, hmd]
    rw [e1, setProposal_self _ hs.ids a _ hfv]
    exact hs

theorem Cluster.donePrepare_Inv {N : Nat} {s s1 : Cluster} (a : Nat) (hinv : s.Inv N)
    (h : s.donePrepare N a = some s1) : s1.Inv N := by
  unfold Cluster.donePrepare at h
  cases hf : findProposal s.proposals a with
  | none => rw [hf] at h; exact absurd h (by simp)
  | some P =>
    rw [hf] at h
    simp only at h
    split at h
    · rename_i hg
      simp only [Option.some.injEq] at h
      subst h
      refine hinv.setProposal_step a P _ hf ?_ ?_ ?_ ?_ ?_ ?_ ?_
      · split <;> rfl
      · split <;> rfl
      · split <;> rfl
      · split <;> rfl
      · split <;> rfl
      · split <;> rfl
      · intro t ht hft
        obtain ⟨hPm, _⟩ := findProposal_some _ _ _ hft
        have hcnt := (ht.promisers P hPm).2.1
        apply ht.closePrepare a P _ hft hg.1
        · split <;> rfl
        · split
          · exact Or.inl rfl
          · rename_i hc
            refine Or.inr ⟨rfl, rfl, ?_⟩
            simp only [SharedPrepareState.donePrepare] at hc
            omega
    · exact absurd h (by simp)

theorem Cluster.doneAccept_Inv {N : Nat} {s s1 : Cluster} (a : Nat) (hinv : s.Inv N)
    (h : s.doneAccept N a = some s1) : s1.Inv N := by
  unfold Cluster.doneAccept at h
  cases hf : findProposal s.proposals a with
  | none => rw [hf] at h; exact absurd h (by simp)
  | some P =>
    rw [hf] at h
    simp only at h
    split at h
    · rename_i hg
      simp only [Option.some.injEq] at h
      subst h
      have hsP : P.sentAccept = true := by simp [Proposal.sentAccept, hg.1]
      refine hinv.setProposal_step a P _ hf ?_ ?_ ?_ ?_ ?_ ?_ ?_
      · split <;> rfl
      · split <;> rfl
      · split <;> rfl
      · split <;> rfl
      · split <;> rfl
      · split <;> rfl
      · intro t ht hft
        obtain ⟨hPm, _⟩ := findProposal_some _ _ _ hft
        have hvot := (ht.voters P hPm).2.1
        apply ht.rephase a P _ hft hsP
        · split <;> simp [Proposal.sentAccept]
        · rw [hg.1]; decide
        · split <;> rfl
        · split <;> rfl
        · intro hd
          split at hd
          · simp at hd
          · rename_i hc
            simp only [SharedAcceptState.doneAccept] at hc
            omega
    · exact absurd h (by simp)

/-- A step that never lowers `doneFreed_` and preserves the invariant of every
slot that is live after it preserves the invariant. -/
theorem Cluster.Inv.of_slots {N : Nat} {s s1 : Cluster} (hinv : s.Inv N)
    (hfr : ∀ j, j < N → (s.replicas j).doneFreed_ ≤ (s1.replicas j).doneFreed_)
    (hslot : ∀ q, (∀ j, j < N → (s1.replicas j).freed q = false) →
      (s.slotView q).SlotInv N → (s1.slotView q).SlotInv N) : s1.Inv N := by
  refine ⟨fun j hj => le_trans (hinv.freedNonneg j hj) (hfr j hj), ?_⟩
  intro q hl
  have hl0 := Cluster.Inv.live_before hfr hl
  rw [Cluster.live_iff] at hl
  exact hslot q hl (hinv.slot q hl0)

/-- The slot view of the iterations after one of them, for another slot, has
been replaced. -/
theorem slotView_setProposal_other {N : Nat} {s : Cluster} {q : Int}
    (hs : (s.slotView q).SlotInv N) (a : Nat) (P P1 : Proposal)
    (hf : findProposal s.proposals a = some P) (hq : P.seq ≠ q)
    (hid : P1.id = P.id) (hpr : P1.proposer = P.proposer) (hseq : P1.seq = P.seq)
    (hv : P1.v = P.v) (hn : P1.n = P.n) (hmd : P1.myDone = P.myDone) :
    (setProposal s.proposals a P1).map (fun P => P.slotView q) =
      s.proposals.map (fun P => P.slotView q) := by
  have hfv := findProposal_slotView s.proposals a P q hf
  have e1 : P1.slotView q = P.slotView q := by
    rw [Proposal.slotView_of_ne P q hq, Proposal.slotView_of_ne P1 q (by rw [hseq]; exact hq),
      hid, hpr, hseq, hv, hn, hmd]
  rw [slotView_setProposal, e1]
  exact setProposal_self _ hs.ids a _ hfv

theorem slotView_setProposal_same (ps : List Proposal) (a : Nat) (P1 : Proposal) (q : Int)
    (h : P1.seq = q) :
    (setProposal ps a P1).map (fun P => P.slotView q) =
      setProposal (ps.map (fun P => P.slotView q)) a P1 := by
  rw [slotView_setProposal, Proposal.slotView_of_eq P1 q h]

theorem Cluster.prepareCall_Inv {N : Nat} {s s1 : Cluster} (a i : Nat) (executed status : Bool)
    (hinv : s.Inv N) (h : s.prepareCall N a i executed status = some s1) : s1.Inv N := by
  unfold Cluster.prepareCall at h
  cases hf : findProposal s.proposals a with
  | none => rw [hf] at h; exact absurd h (by simp)
  | some P =>
    rw [hf] at h
    simp only at h
    split at h
    swap
    · exact absurd h (by simp)
    rename_i hg
    obtain ⟨hi, hic, hse, hself, hpeer⟩ := hg
    simp only [Option.some.injEq] at h
    -- the handler's reply and the peer after the call
    generalize hres : (if executed = true then
        (s.replicas i).Prepare
          { seq := P.seq, n := P.n, sender := (P.proposer : Int), done := P.myDone }
      else (PrepareReply.new, s.replicas i)) = res at h
    have h0 := hinv.freedNonneg i hi
    have hprep := PaxosImpl.Prepare_live (s.replicas i)
      { seq := P.seq, n := P.n, sender := (P.proposer : Int), done := P.myDone }
    have hres_fr : (s.replicas i).doneFreed_ ≤ res.2.doneFreed_ := by
      by_cases he : executed = true
      · rw [if_pos he] at hres
        rw [← hres]; exact hprep.1
      · rw [if_neg he] at hres
        rw [← hres]
    have hres_kept : ∀ q, res.2.freed q = false →
        res.2.decidedValue q = (s.replicas i).decidedValue q ∧
        (q ≠ P.seq → res.2.acceptorRecord q = (s.replicas i).acceptorRecord q) := by
      intro q hl
      by_cases he : executed = true
      · rw [if_pos he] at hres
        rw [← hres] at hl ⊢
        obtain ⟨d1, d2, -⟩ := hprep.2 q h0 hl
        exact ⟨d1, d2⟩
      · rw [if_neg he] at hres
        rw [← hres]; exact ⟨rfl, fun _ => rfl⟩
    have hres_rec : res.2.freed P.seq = false →
        res.2.acceptorRecord P.seq = (s.replicas i).acceptorRecord P.seq ∨
        (P.n > ((s.replicas i).acceptorRecord P.seq).HighestSeen ∧
          res.2.acceptorRecord P.seq =
            { (s.replicas i).acceptorRecord P.seq with HighestSeen := P.n }) := by
      intro hl
      by_cases he : executed = true
      · rw [if_pos he] at hres
        rw [← hres] at hl ⊢
        have h5 := (hprep.2 P.seq h0 hl).2.2 rfl
        by_cases hn : P.n > ((s.replicas i).acceptorRecord P.seq).HighestSeen
        · rw [if_pos hn] at h5; exact Or.inr ⟨hn, h5.2.2.2⟩
        · rw [if_neg hn] at h5; exact Or.inl h5.2
      · rw [if_neg he] at hres
        rw [← hres]; exact Or.inl rfl
    have hres_ok : res.2.freed P.seq = false → executed = true → res.1.ok = true →
        P.n > ((s.replicas i).acceptorRecord P.seq).HighestSeen ∧
        res.1.na = ((s.replicas i).acceptorRecord P.seq).HighestAcN ∧
        res.1.va = ((s.replicas i).acceptorRecord P.seq).HighestAcV ∧
        res.2.acceptorRecord P.seq =
          { (s.replicas i).acceptorRecord P.seq with HighestSeen := P.n } := by
      intro hl he hok
      rw [if_pos he] at hres
      rw [← hres] at hl hok ⊢
      have h5 := (hprep.2 P.seq h0 hl).2.2 rfl
      by_cases hn : P.n > ((s.replicas i).acceptorRecord P.seq).HighestSeen
      · rw [if_pos hn] at h5; exact ⟨hn, h5.2.1, h5.2.2.1, h5.2.2.2⟩
      · rw [if_neg hn] at h5
        rw [h5.1] at hok; exact absurd hok (by simp)
    -- the replicas after the call
    have hreps : ∀ j, (s1.replicas j).acceptorIns_ =
          (setReplica s.replicas i res.2 j).acceptorIns_ ∧
        (s1.replicas j).instances_ = (setReplica s.replicas i res.2 j).instances_ ∧
        (s1.replicas j).doneFreed_ = (setReplica s.replicas i res.2 j).doneFreed_ := by
      intro j
      rw [← h]
      by_cases hip : i = P.proposer
      · simp only [if_pos hip]
        exact ⟨trivial, trivial, trivial⟩
      · simp only [if_neg hip]
        by_cases hj : j = P.proposer
        · subst hj
          simp only [setReplica_same]
          exact ⟨rfl, rfl, rfl⟩
        · simp only [setReplica_other _ _ _ _ hj]
          exact ⟨trivial, trivial, trivial⟩
    have hprops : s1.proposals = setProposal s.proposals a
        { P with
          prepState := P.prepState.update (if status = true then res.1 else PrepareReply.new) status,
          prepCalled := i :: P.prepCalled,
          promisers := if (status && (if status = true then res.1 else PrepareReply.new).ok &&
              !P.prepState.done) = true then
            (i, (if status = true then res.1 else PrepareReply.new).na,
              (if status = true then res.1 else PrepareReply.new).va) :: P.promisers
            else P.promisers } := by
      rw [← h]
    have hrec1 : ∀ j q, (s1.replicas j).acceptorRecord q =
        (setReplica s.replicas i res.2 j).acceptorRecord q := fun j q =>
      PaxosImpl.acceptorRecord_congr_at _ _ q (by rw [(hreps j).1])
    have hdv1 : ∀ j q, (s1.replicas j).decidedValue q =
        (setReplica s.replicas i res.2 j).decidedValue q := fun j q =>
      PaxosImpl.decidedValue_congr_at _ _ q (by rw [(hreps j).2.1])
    have hfreed1 : ∀ q, (s1.replicas i).freed q = false → res.2.freed q = false := by
      intro q hl
      rw [PaxosImpl.freed_eq_false] at hl ⊢
      rw [(hreps i).2.2, setReplica_same] at hl
      exact hl
    have hother : ∀ j q, j ≠ i → SlotKept (s.replicas j) (s1.replicas j) q := by
      intro j q hj
      refine ⟨?_, ?_⟩
      · rw [hrec1, setReplica_other _ _ _ _ hj]
      · rw [hdv1, setReplica_other _ _ _ _ hj]
    refine hinv.of_slots ?_ ?_
    · intro j _
      rw [(hreps j).2.2]
      by_cases hj : j = i
      · subst hj; rw [setReplica_same]; exact hres_fr
      · rw [setReplica_other _ _ _ _ hj]
    · intro q hl hs
      have hli := hfreed1 q (hl i hi)
      obtain ⟨d1, d2⟩ := hres_kept q hli
      have hdec : ∀ j, (s1.replicas j).decidedValue q = (s.replicas j).decidedValue q := by
        intro j
        by_cases hj : j = i
        · subst hj; rw [hdv1, setReplica_same]; exact d1
        · exact (hother j q hj).2
      by_cases hq : P.seq = q
      · subst hq
        have hfv := findProposal_slotView s.proposals a P P.seq hf
        rw [Proposal.slotView_of_eq P P.seq rfl] at hfv
        have hacci : (s1.slotView P.seq).acc i P.seq = res.2.acceptorRecord P.seq := by
          rw [Cluster.slotView_acc, if_pos rfl]
          show (s1.replicas i).acceptorRecord P.seq = _
          rw [hrec1, setReplica_same]
        have hacc0 : (Cluster.slotView s P.seq).acc i P.seq =
            (s.replicas i).acceptorRecord P.seq := by
          rw [Cluster.slotView_acc, if_pos rfl]; rfl
        refine hs.promiseStep a i P _ hfv hi hic
          (by
            show s1.proposals.map _ = _
            rw [hprops]
            exact slotView_setProposal_same _ a _ P.seq rfl) ?_ ?_ ?_ (by rfl) ?_
        · intro j seq
          rw [Cluster.slotView_decided, Cluster.slotView_decided]
          by_cases hsq : seq = P.seq
          · simp only [if_pos hsq]; exact hdec j
          · simp only [if_neg hsq]
        · intro j seq hne
          rw [Cluster.slotView_acc, Cluster.slotView_acc]
          by_cases hsq : seq = P.seq
          · simp only [if_pos hsq]
            rcases hne with e | e
            · exact (hother j P.seq e).1
            · exact absurd hsq e
          · simp only [if_neg hsq]
        · rw [hacci, hacc0]
          exact hres_rec hli
        · -- what `update` counted
          rw [hacci, hacc0]
          cases hc : (status && (if status = true then res.1 else PrepareReply.new).ok &&
              !P.prepState.done) with
          | false =>
            left
            have hu := SharedPrepareState.update_uncounted P.prepState _ status hc
            simp only [Bool.false_eq_true, if_false]
            exact ⟨trivial, hu.1, hu.2.1, hu.2.2.1, hu.2.2.2⟩
          | true =>
            right
            have hu := SharedPrepareState.update_counted P.prepState _ status hc
            simp only [Bool.and_eq_true, Bool.not_eq_true'] at hc
            obtain ⟨⟨hst, hok⟩, hdn⟩ := hc
            rw [if_pos hst] at hok hu
            obtain ⟨o1, o2, o3, o4⟩ := hres_ok hli (hse hst) hok
            simp only [if_pos hst, if_true]
            rw [o2, o3] at hu ⊢
            exact ⟨hu.1, hu.2.1, o1, o4, rfl, hu.2.2.1, hu.2.2.2⟩
      · refine Cluster.SlotInv.of_view_kept hs ?_ ?_
        · show s1.proposals.map _ = s.proposals.map _
          rw [hprops]
          exact slotView_setProposal_other hs a P _ hf hq rfl rfl rfl rfl rfl rfl
        · intro j
          by_cases hj : j = i
          · subst hj
            refine ⟨?_, hdec j⟩
            rw [hrec1, setReplica_same]
            exact d2 (fun e => hq e.symm)
          · exact hother j q hj

theorem Cluster.acceptCall_Inv {N : Nat} {s s1 : Cluster} (a i : Nat) (executed status : Bool)
    (hinv : s.Inv N) (h : s.acceptCall N a i executed status = some s1) : s1.Inv N := by
  unfold Cluster.acceptCall at h
  cases hf : findProposal s.proposals a with
  | none => rw [hf] at h; exact absurd h (by simp)
  | some P =>
    rw [hf] at h
    simp only at h
    split at h
    swap
    · exact absurd h (by simp)
    rename_i hg
    obtain ⟨hsP, hi, hic, hse, hself, hpeer⟩ := hg
    simp only [Option.some.injEq] at h
    generalize hres : (if executed = true then
        (s.replicas i).Accept { seq := P.seq, n := P.n, v := P.actualV }
      else (AcceptReply.new, s.replicas i)) = res at h
    have hacc := PaxosImpl.Accept_spec (s.replicas i)
      { seq := P.seq, n := P.n, v := P.actualV }
    have hres_kept : res.2.doneFreed_ = (s.replicas i).doneFreed_ ∧
        res.2.instances_ = (s.replicas i).instances_ ∧
        (∀ k, k ≠ P.seq → res.2.acceptorRecord k = (s.replicas i).acceptorRecord k) := by
      by_cases he : executed = true
      · rw [if_pos he] at hres
        rw [← hres]; exact ⟨hacc.1, hacc.2.1, hacc.2.2.1⟩
      · rw [if_neg he] at hres
        rw [← hres]; exact ⟨rfl, rfl, fun _ _ => rfl⟩
    have hres_rec : ((executed && res.1.ok) = false ∧
          res.2.acceptorRecord P.seq = (s.replicas i).acceptorRecord P.seq) ∨
        ((executed && res.1.ok) = true ∧
          P.n ≥ ((s.replicas i).acceptorRecord P.seq).HighestSeen ∧
          res.2.acceptorRecord P.seq =
            { (s.replicas i).acceptorRecord P.seq with
              HighestSeen := P.n, HighestAcN := P.n, HighestAcV := P.actualV }) := by
      by_cases he : executed = true
      · rw [if_pos he] at hres
        rw [← hres]
        have h5 := hacc.2.2.2
        by_cases hn : P.n ≥ ((s.replicas i).acceptorRecord P.seq).HighestSeen
        · rw [if_pos hn] at h5
          exact Or.inr ⟨by rw [he, h5.1]; rfl, hn, h5.2⟩
        · rw [if_neg hn] at h5
          exact Or.inl ⟨by rw [h5.1]; simp, h5.2⟩
      · rw [if_neg he] at hres
        rw [← hres]
        have he' : executed = false := by simpa using he
        exact Or.inl ⟨by rw [he']; rfl, rfl⟩
    have hprops : s1.proposals = setProposal s.proposals a
        { P with
          accState := P.accState.update (if status = true then res.1 else AcceptReply.new) status,
          accCalled := i :: P.accCalled,
          voters := if (executed && res.1.ok) = true then i :: P.voters else P.voters } := by
      rw [← h]
    have hrep : s1.replicas = setReplica s.replicas i res.2 := by rw [← h]
    have hother : ∀ j q, j ≠ i → SlotKept (s.replicas j) (s1.replicas j) q := by
      intro j q hj
      rw [hrep, setReplica_other _ _ _ _ hj]
      exact SlotKept.same _ q
    have hdec : ∀ j q, (s1.replicas j).decidedValue q = (s.replicas j).decidedValue q := by
      intro j q
      by_cases hj : j = i
      · subst hj
        rw [hrep, setReplica_same]
        exact PaxosImpl.decidedValue_congr_at _ _ q (by rw [hres_kept.2.1])
      · exact (hother j q hj).2
    refine hinv.of_slots ?_ ?_
    · intro j _
      rw [hrep]
      by_cases hj : j = i
      · subst hj; rw [setReplica_same, hres_kept.1]
      · rw [setReplica_other _ _ _ _ hj]
    · intro q hl hs
      by_cases hq : P.seq = q
      · subst hq
        have hfv := findProposal_slotView s.proposals a P P.seq hf
        rw [Proposal.slotView_of_eq P P.seq rfl] at hfv
        have hacci : (s1.slotView P.seq).acc i P.seq = res.2.acceptorRecord P.seq := by
          rw [Cluster.slotView_acc, if_pos rfl]
          show (s1.replicas i).acceptorRecord P.seq = _
          rw [hrep, setReplica_same]
        have hacc0 : (Cluster.slotView s P.seq).acc i P.seq =
            (s.replicas i).acceptorRecord P.seq := by
          rw [Cluster.slotView_acc, if_pos rfl]; rfl
        refine hs.voteStep a i P _ hfv hsP hi hic
          (by
            show s1.proposals.map _ = _
            rw [hprops]
            exact slotView_setProposal_same _ a _ P.seq rfl) ?_ ?_ (by rfl) ?_
        · intro j seq
          rw [Cluster.slotView_decided, Cluster.slotView_decided]
          by_cases hsq : seq = P.seq
          · simp only [if_pos hsq]; exact hdec j P.seq
          · simp only [if_neg hsq]
        · intro j seq hne
          rw [Cluster.slotView_acc, Cluster.slotView_acc]
          by_cases hsq : seq = P.seq
          · simp only [if_pos hsq]
            rcases hne with e | e
            · exact (hother j P.seq e).1
            · exact absurd hsq e
          · simp only [if_neg hsq]
        · rw [hacci, hacc0]
          have hcount := SharedAcceptState.update_count P.accState
            (if status = true then res.1 else AcceptReply.new) status
          rcases hres_rec with ⟨r1, r2⟩ | ⟨r1, r2, r3⟩
          · left
            simp only [r1, Bool.false_eq_true, if_false]
            refine ⟨trivial, r2, ?_⟩
            rcases hcount with c | ⟨c1, c2, c3⟩
            · exact c
            · exfalso
              rw [if_pos c1] at c2
              rw [hse c1, c2] at r1
              exact absurd r1 (by simp)
          · right
            simp only [r1, if_true]
            refine ⟨trivial, r2, r3, ?_⟩
            rcases hcount with c | ⟨c1, c2, c3⟩
            · omega
            · omega
      · refine Cluster.SlotInv.of_view_kept hs ?_ ?_
        · show s1.proposals.map _ = s.proposals.map _
          rw [hprops]
          exact slotView_setProposal_other hs a P _ hf hq rfl rfl rfl rfl rfl rfl
        · intro j
          by_cases hj : j = i
          · subst hj
            refine ⟨?_, hdec j q⟩
            rw [hrep, setReplica_same]
            exact hres_kept.2.2 q (fun e => hq e.symm)
          · exact hother j q hj

theorem mem_slotView_of_eq (ps : List Proposal) (P : Proposal) (hP : P ∈ ps) :
    P ∈ ps.map (fun Q => Q.slotView P.seq) :=
  List.mem_map.mpr ⟨P, hP, Proposal.slotView_of_eq P P.seq rfl⟩

theorem Cluster.decideCall_Inv {N : Nat} {s s1 : Cluster} (a i : Nat) (hinv : s.Inv N)
    (h : s.decideCall N a i = some s1) : s1.Inv N := by
  unfold Cluster.decideCall at h
  cases hf : findProposal s.proposals a with
  | none => rw [hf] at h; exact absurd h (by simp)
  | some P =>
    rw [hf] at h
    simp only at h
    by_cases hg : P.phase = Phase.decide ∧ i < N
    swap
    · rw [if_neg hg] at h
      exact absurd h (by simp)
    rw [if_pos hg] at h
    simp only [Option.some.injEq] at h
    obtain ⟨hPm, _⟩ := findProposal_some _ _ _ hf
    have hi := hg.2
    have h0 := hinv.freedNonneg i hi
    obtain ⟨e1, e2, e3, inst, e4, e5, e6⟩ :=
      PaxosImpl.Decide_spec (s.replicas i) ⟨P.seq, P.actualV⟩
    -- the replica after the call
    obtain ⟨r1, hs1, hr1⟩ : ∃ r1 : PaxosImpl,
        s1 = { s with replicas := setReplica s.replicas i r1 } ∧
        (r1 = ((s.replicas i).Decide ⟨P.seq, P.actualV⟩).2 ∨
          r1 = ((s.replicas i).Decide ⟨P.seq, P.actualV⟩).2.collectGarbage) := by
      by_cases hip : i = P.proposer
      · rw [if_pos hip] at h
        exact ⟨_, h.symm, Or.inr rfl⟩
      · rw [if_neg hip] at h
        exact ⟨_, h.symm, Or.inl rfl⟩
    have hfr : (s.replicas i).doneFreed_ ≤ r1.doneFreed_ := by
      rcases hr1 with e | e
      · rw [e, e1]
      · rw [e]
        have := PaxosImpl.collectGarbage_doneFreed ((s.replicas i).Decide ⟨P.seq, P.actualV⟩).2
        rw [e1] at this
        exact this
    have htab : ∀ q, r1.freed q = false →
        r1.acceptorIns_ q = (s.replicas i).acceptorIns_ q ∧
        r1.instances_ q = ((s.replicas i).Decide ⟨P.seq, P.actualV⟩).2.instances_ q := by
      intro q hl
      rcases hr1 with e | e
      · rw [e, e2]; exact ⟨rfl, rfl⟩
      · rw [e] at hl ⊢
        obtain ⟨g1, g2⟩ := PaxosImpl.collectGarbage_live _ q (by rw [e1]; exact h0) hl
        rw [g1, g2, e2]
        exact ⟨rfl, rfl⟩
    subst hs1
    refine hinv.of_slots ?_ ?_
    · intro j _
      show (s.replicas j).doneFreed_ ≤ (setReplica s.replicas i r1 j).doneFreed_
      by_cases hj : j = i
      · subst hj; rw [setReplica_same]; exact hfr
      · rw [setReplica_other _ _ _ _ hj]
    · intro q hl hs
      have hli : r1.freed q = false := by
        have := hl i hi
        simp only [setReplica_same] at this
        exact this
      obtain ⟨t1, t2⟩ := htab q hli
      have haccAll : ∀ j, (setReplica s.replicas i r1 j).acceptorRecord q =
          (s.replicas j).acceptorRecord q := by
        intro j
        by_cases hj : j = i
        · subst hj
          rw [setReplica_same]
          exact PaxosImpl.acceptorRecord_congr_at _ _ q t1
        · rw [setReplica_other _ _ _ _ hj]
      by_cases hq : P.seq = q
      · subst hq
        refine hs.of_same_acc rfl ?_ ?_
        · intro j seq
          rw [Cluster.slotView_acc, Cluster.slotView_acc]
          by_cases hsq : seq = P.seq
          · simp only [if_pos hsq]; exact haccAll j
          · simp only [if_neg hsq]
        · intro j seq v hj hv
          rw [Cluster.slotView_decided] at hv
          by_cases hsq : seq = P.seq
          · rw [if_pos hsq] at hv
            by_cases hji : j = i
            · subst hji
              have hd : (setReplica s.replicas j r1 j).decidedValue P.seq = some P.actualV := by
                rw [setReplica_same]
                unfold PaxosImpl.decidedValue
                rw [t2, e4]
                simp only [e5, if_true, e6]
              rw [Cluster.decided_eq_decidedValue] at hv
              rw [hd] at hv
              simp only [Option.some.injEq] at hv
              exact ⟨P, mem_slotView_of_eq _ P hPm, hg.1, hsq.symm, hv⟩
            · have hsame : Cluster.decided
                  { s with replicas := setReplica s.replicas i r1 } j P.seq =
                  s.decided j P.seq := by
                rw [Cluster.decided_eq_decidedValue, Cluster.decided_eq_decidedValue]
                show (setReplica s.replicas i r1 j).decidedValue P.seq = _
                rw [setReplica_other _ _ _ _ hji]
              rw [hsame] at hv
              have hv' : (s.slotView P.seq).decided j seq = some v := by
                rw [Cluster.slotView_decided, if_pos hsq]; exact hv
              exact hs.decidedFrom j seq v hj hv'
          · rw [if_neg hsq] at hv
            exact absurd hv (by simp)
      · refine Cluster.SlotInv.of_view_kept hs rfl ?_
        intro j
        show SlotKept (s.replicas j) (setReplica s.replicas i r1 j) q
        refine ⟨haccAll j, ?_⟩
        by_cases hj : j = i
        · subst hj
          rw [setReplica_same]
          exact PaxosImpl.decidedValue_congr_at _ _ q
            (by rw [t2]; exact e3 q (fun e => hq e.symm))
        · rw [setReplica_other _ _ _ _ hj]

/-- Every step of the cluster preserves the invariant. -/
theorem Cluster.step_Inv {N : Nat} {s s1 : Cluster} (e : Event) (hinv : s.Inv N)
    (h : s.step N e = some s1) : s1.Inv N := by
  cases e with
  | propose p seq v => exact Cluster.propose_Inv p seq v hinv h
  | prepareCall a i executed status => exact Cluster.prepareCall_Inv a i executed status hinv h
  | donePrepare a => exact Cluster.donePrepare_Inv a hinv h
  | acceptCall a i executed status => exact Cluster.acceptCall_Inv a i executed status hinv h
  | doneAccept a => exact Cluster.doneAccept_Inv a hinv h
  | decideCall a i => exact Cluster.decideCall_Inv a i hinv h
  | done i seq =>
    exact Cluster.applicationCall_Inv i _ hinv
      (fun r _ => ⟨(r.frame_Done seq).1, fun q _ => (r.frame_Done seq).2 q⟩) h
  | minKnownSeq i =>
    exact Cluster.applicationCall_Inv i _ hinv (fun r h0 => r.frame_MinKnownSeq h0) h
  | start i seq v =>
    exact Cluster.applicationCall_Inv i _ hinv (fun r h0 => r.frame_Start seq v h0) h
  | status i seq =>
    exact Cluster.applicationCall_Inv i _ hinv
      (fun r _ => ⟨(r.frame_Status seq).1, fun q _ => (r.frame_Status seq).2 q⟩) h

theorem Cluster.Reachable_Inv {N : Nat} {s : Cluster} (h : Cluster.Reachable N s) :
    s.Inv N := by
  induction h with
  | init => exact Cluster.init_Inv N
  | step s s1 e _ hstep ih => exact Cluster.step_Inv e ih hstep

/-- C1. Consensus safety. In every state that a cluster of `N` replicas reaches
by steps of `propose` (Prepare, Accept and Decide calls with lost, late and
rejected replies, concurrent and retried iterations) and by `Done`,
`MinKnownSeq`, `Start` and `Status` calls of the application on any replica,
with the garbage collection these bring about and no crash, for every slot
`seq` that no replica has freed, any two replicas whose instance for `seq` is
marked `Decided` hold the same `DecidedV`. No bound on the replica indices is
needed. -/
theorem consensus_safety (N : Nat) (s : Cluster) (h : Cluster.Reachable N s) (seq : Int)
    (hlive : s.live N seq = true)
    (i j : Nat) (hi : i < N) (hj : j < N) (ii ij : Instance)
    (hii : (s.replicas i).instances_ seq = some ii) (hdi : ii.Decided = true)
    (hij : (s.replicas j).instances_ seq = some ij) (hdj : ij.Decided = true) :
    ii.DecidedV = ij.DecidedV :=
  ((Cluster.Reachable_Inv h).slot seq hlive).agreement i j seq ii.DecidedV ij.DecidedV hi hj
    (by rw [Cluster.slotView_decided, if_pos rfl]; simp [Cluster.decided, hii, hdi])
    (by rw [Cluster.slotView_decided, if_pos rfl]; simp [Cluster.decided, hij, hdj])

/-- The continued example run ends in a state where replica 0 has freed slot 0,
slot 1 is live, and replicas 0 and 1 both hold slot 1 as decided, with the
same value. -/
theorem consensus_safety_witness :
    Cluster.Reachable 3 exampleClusterDone ∧
    (exampleClusterDone.replicas 0).freed 0 = true ∧
    exampleClusterDone.live 3 1 = true ∧
    (exampleClusterDone.replicas 0).instances_ 1 =
      some ⟨0, Op.fresh, 0, true, exampleOpA⟩ ∧
    (exampleClusterDone.replicas 1).instances_ 1 =
      some ⟨0, Op.fresh, 0, true, exampleOpA⟩ ∧
    exampleOpA = exampleOpA :=
  have hr : Cluster.Reachable 3 exampleClusterDone :=
    Cluster.Reachable_of_run 3 _ _ exampleRunDone Cluster.Reachable.init rfl
  ⟨hr, by decide, by decide, rfl, rfl,
    consensus_safety 3 exampleClusterDone hr 1 (by decide) 0 1 (by decide) (by decide) _ _
      rfl rfl rfl rfl⟩

/-! ## Theorems: LRU order, cache round trip and lock bypass -/

theorem Scheduler.Put_returns {σ : Type} (s : Scheduler) (onEvict : EvictCallback σ)
    (row col v : Str) (capacity : Nat) (env : σ)
    (hfit : sizeofValue + capacity ≤ s.capacity_)
    (hcb : ∀ e x, (onEvict e x).1 = none) :
    (s.Put onEvict row col v capacity env).1 = none := by
  obtain ⟨ev, kept, -, -, -, -, -, h6⟩ := Scheduler.Put_evicts s onEvict row col v capacity env hfit
  cases hres : (s.Put onEvict row col v capacity env).1 with
  | none => rfl
  | some err =>
    obtain ⟨-, -, lru, rest, -, c2, -⟩ := h6 err hres
    rw [hcb] at c2
    exact absurd c2 (by simp)

/-- C20, counterexample. On a scheduler of capacity 40 the value `value` has
header plus length 37, which fits, yet `Put(1, 1, "value")` raises (the string
is charged 32 + 15) and the following `Get(1, 1)` finds nothing. -/
theorem round_trip_fits_by_length_fails :
    sizeofValue + "value".toList.length ≤ (Scheduler.new 40).capacity_ ∧
    ((Scheduler.new 40).Put noCallback "1".toList "1".toList "value".toList 15 ()).1 =
      some Err.runtime_error ∧
    (((Scheduler.new 40).Put noCallback "1".toList "1".toList "value".toList 15 ()).2.1.Get
      "1".toList "1".toList).1 = none := by
  decide

/-- C20, amended. Cache round trip: in every scheduler state (each key held
once, as `cacheMap_` indexes the list), for every key and every value held in a
string with `sizeof(Value) + capacity()` at most the capacity of the cache,
`Put(row, col, v)` returns whenever the callback returns on every call; and
whenever `Put` returns, the following `Get(row, col)` returns the value `v` and
the list holds the key exactly once. -/
theorem cache_round_trip {σ : Type} (s : Scheduler) (onEvict : EvictCallback σ)
    (row col v : Str) (capacity : Nat) (env : σ)
    (hnd : (s.cacheList_.map Prod.fst).Nodup)
    (hfit : sizeofValue + capacity ≤ s.capacity_) :
    ((∀ e x, (onEvict e x).1 = none) → (s.Put onEvict row col v capacity env).1 = none) ∧
    ((s.Put onEvict row col v capacity env).1 = none →
      ((s.Put onEvict row col v capacity env).2.1.Get row col).1 = some v ∧
      (s.Put onEvict row col v capacity env).2.1.cacheList_.filter
        (fun e => e.1 = (row, col)) = [((row, col), v)] ∧
      ((s.Put onEvict row col v capacity env).2.1.cacheList_.map Prod.fst).Nodup) := by
  refine ⟨Scheduler.Put_returns s onEvict row col v capacity env hfit, ?_⟩
  intro hres
  obtain ⟨ev, kept, h1, -, -, -, h5, -⟩ := Scheduler.Put_evicts s onEvict row col v capacity env hfit
  obtain ⟨a1, -, -, -⟩ := h5 hres
  have hnd1 := nodup_eraseKey (row, col) _ hnd
  have hself := lookupKey_eraseKey_self (row, col) _ hnd
  rw [h1] at hnd1 hself
  rw [lookupKey_eq_none_iff] at hself
  simp only [List.map_append, List.mem_append, not_or] at hself
  simp only [List.map_append] at hnd1
  have hnd2 : ((kept ++ [((row, col), v)]).map Prod.fst).Nodup := by
    simp only [List.map_append, List.map_cons, List.map_nil]
    rw [List.nodup_append]
    refine ⟨(List.nodup_append.mp hnd1).2.1, by simp, ?_⟩
    intro a ha hb
    simp only [List.mem_singleton] at hb
    subst hb
    exact hself.2 ha
  have hl : lookupKey (row, col) (kept ++ [((row, col), v)]) = some v := by
    rw [lookupKey_append, (lookupKey_eq_none_iff _ _).mpr hself.2]
    simp [lookupKey]
  rw [a1]
  refine ⟨?_, ?_, hnd2⟩
  · simp only [Scheduler.Get, a1, hl]
  · have hnone : kept.filter (fun e => e.1 = (row, col)) = [] := by
      rw [List.filter_eq_nil_iff]
      intro e he hk
      simp only [decide_eq_true_eq] at hk
      exact hself.2 (List.mem_map.mpr ⟨e, he, hk⟩)
    rw [List.filter_append, hnone]
    simp

/-- Witness for C20 (as amended): `testBasicInsertion`, capacity 1024. -/
theorem cache_round_trip_witness :
    ((Scheduler.new 1024).cacheList_.map Prod.fst).Nodup ∧
    sizeofValue + 15 ≤ (Scheduler.new 1024).capacity_ ∧
    ((Scheduler.new 1024).Put noCallback "1".toList "1".toList "value".toList 15 ()).1 = none ∧
    (((Scheduler.new 1024).Put noCallback "1".toList "1".toList "value".toList 15 ()).2.1.Get
      "1".toList "1".toList).1 = some "value".toList :=
  ⟨by decide, by decide,
    (cache_round_trip (Scheduler.new 1024) noCallback "1".toList "1".toList "value".toList 15 ()
      (by decide) (by decide)).1 (fun _ _ => rfl),
    ((cache_round_trip (Scheduler.new 1024) noCallback "1".toList "1".toList "value".toList 15 ()
      (by decide) (by decide)).2 (by decide)).1⟩

/-- C19, counterexample. On a scheduler of capacity 80, `Put(1, 1, "aaaaa")` then
`Put(2, 1, "bbbbb")`: header plus length is 37 for each, so both would fit
together, yet the second `Put` hands `(1, 1)` to the callback and drops it, since
each string is charged 32 + 15. -/
theorem eviction_by_capacity_not_length :
    (sizeofValue + "aaaaa".toList.length) + (sizeofValue + "bbbbb".toList.length) ≤ 80 ∧
    (((Scheduler.new 80).Put recordCallback "1".toList "1".toList "aaaaa".toList 15 []).2.1.Put
      recordCallback "2".toList "1".toList "bbbbb".toList 15 []) =
      (none, ⟨[(("2".toList, "1".toList), "bbbbb".toList)], 80, 47⟩,
        [(("1".toList, "1".toList), "aaaaa".toList)]) := by
  decide

/-- C19, amended. Strict LRU eviction with write-back. `cacheList_` runs from
least to most recently used. `Get` returns the cached value of the key, if any;
on a hit it moves the entry to the end and on a miss it changes nothing. For a
`Put(row, col, v)` whose `sizeof(Value) + capacity()` fits the capacity: with
`c` the value of `currSize_` after the cached entry of the key, if any, has been
taken off, the entries evicted are a prefix `ev` of the cached entries other
than the key written; the callback was called on them one after the other,
least recent first, and returned; and for every shorter prefix `p` the counter
`c` minus the charged sizes of `p`, plus the size of the new value, still
exceeds the capacity. When `Put` returns, no other call of the callback was
made, the entries after `ev` stay cached in their order, followed by the new
entry, the counter then fits the capacity unless nothing is left to evict, and
the charged sizes of the cached entries fit the capacity. When `Put` raises,
the callback was called once more, on the entry after `ev`, and raised; that
entry and those after it are still cached and the new entry is not. -/
theorem lru_eviction {σ : Type} (s : Scheduler) (onEvict : EvictCallback σ)
    (row col v : Str) (capacity : Nat) (env : σ) (hwf : s.WF)
    (hcap : copyCapacity v ≤ capacity) (hfit : sizeofValue + capacity ≤ s.capacity_) :
    (s.Get row col).1 = lookupKey (row, col) s.cacheList_ ∧
    (∀ w, lookupKey (row, col) s.cacheList_ = some w →
      (s.Get row col).2 =
        { s with cacheList_ := eraseKey (row, col) s.cacheList_ ++ [((row, col), w)] }) ∧
    (lookupKey (row, col) s.cacheList_ = none → (s.Get row col).2 = s) ∧
    ∃ ev kept, eraseKey (row, col) s.cacheList_ = ev ++ kept ∧
      (∀ n, n < ev.length → s.capacity_ <
        ((s.eraseExisting row col).currSize_ - totalSize (ev.take n)) +
          (sizeofValue + capacity)) ∧
      (∀ e ∈ ev, ∀ pre post, ev = pre ++ e :: post →
        (onEvict e (pre.foldl (fun x e => (onEvict e x).2) env)).1 = none) ∧
      ((s.Put onEvict row col v capacity env).1 = none →
        (s.Put onEvict row col v capacity env).2.1.cacheList_ = kept ++ [((row, col), v)] ∧
        (s.Put onEvict row col v capacity env).2.2 = ev.foldl (fun x e => (onEvict e x).2) env ∧
        (kept = [] ∨ (s.Put onEvict row col v capacity env).2.1.currSize_ ≤ s.capacity_) ∧
        totalSize (s.Put onEvict row col v capacity env).2.1.cacheList_ ≤ s.capacity_) ∧
      (∀ err, (s.Put onEvict row col v capacity env).1 = some err →
        ∃ lru rest, kept = lru :: rest ∧
          (onEvict lru (ev.foldl (fun x e => (onEvict e x).2) env)).1 = some err ∧
          (s.Put onEvict row col v capacity env).2.2 =
            (onEvict lru (ev.foldl (fun x e => (onEvict e x).2) env)).2 ∧
          (s.Put onEvict row col v capacity env).2.1.cacheList_ = lru :: rest) := by
  refine ⟨?_, ?_, ?_, ?_⟩
  · unfold Scheduler.Get
    cases lookupKey (row, col) s.cacheList_ <;> rfl
  · intro w hw
    simp only [Scheduler.Get, hw]
  · intro hn
    simp only [Scheduler.Get, hn]
  · obtain ⟨ev, kept, h1, h2, h3, h4, h5, h6⟩ :=
      Scheduler.Put_evicts s onEvict row col v capacity env hfit
    obtain ⟨hw1, hw2⟩ := Scheduler.Put_WF s onEvict row col v capacity env hwf hcap
    refine ⟨ev, kept, h1, h3, h4, ?_, ?_⟩
    · intro hres
      obtain ⟨a1, a2, a3, a4⟩ := h5 hres
      refine ⟨a1, a3, ?_, ?_⟩
      · rcases a4 with a4 | a4
        · exact Or.inl a4
        · exact Or.inr (by rw [a2]; exact a4)
      · have := hw1.2.2
        rw [hw2] at this
        exact this
    · intro err herr
      obtain ⟨b1, -, lru, rest, b3, b4, b5⟩ := h6 err herr
      exact ⟨lru, rest, b3, b4, b5, by rw [b1, b3]⟩

/-- The state of `testEvictionOrder` before its third `Put`: capacity 100, cells
`(1, 1)` and `(2, 1)` written with 18-character values, then `(1, 1)` read. -/
theorem evictionOrderState_eq :
    ((((Scheduler.new 100).Put recordCallback "1".toList "1".toList
        (List.replicate 18 'a') 18 []).2.1.Put recordCallback "2".toList "1".toList
        (List.replicate 18 'b') 18 []).2.1.Get "1".toList "1".toList).2 =
      ⟨[(("2".toList, "1".toList), List.replicate 18 'b'),
        (("1".toList, "1".toList), List.replicate 18 'a')], 100, 100⟩ := by
  decide

/-- Witness for C19 (as amended): `testEvictionOrder`. With `(2, 1)` the least
recently used of two 18-character cells in a cache of capacity 100, the `Put`
of a third hands `(2, 1)`, and nothing else, to the callback. -/
theorem lru_eviction_witness :
    (Scheduler.mk [(("2".toList, "1".toList), List.replicate 18 'b'),
        (("1".toList, "1".toList), List.replicate 18 'a')] 100 100).WF ∧
    (Scheduler.mk [(("2".toList, "1".toList), List.replicate 18 'b'),
        (("1".toList, "1".toList), List.replicate 18 'a')] 100 100).Put recordCallback
        "3".toList "1".toList (List.replicate 18 'c') 18 [] =
      (none, ⟨[(("1".toList, "1".toList), List.replicate 18 'a'),
          (("3".toList, "1".toList), List.replicate 18 'c')], 100, 100⟩,
        [(("2".toList, "1".toList), List.replicate 18 'b')]) ∧
    ∃ ev kept, eraseKey ("3".toList, "1".toList)
        [(("2".toList, "1".toList), List.replicate 18 'b'),
          (("1".toList, "1".toList), List.replicate 18 'a')] = ev ++ kept ∧
      ((Scheduler.mk [(("2".toList, "1".toList), List.replicate 18 'b'),
        (("1".toList, "1".toList), List.replicate 18 'a')] 100 100).Put recordCallback
        "3".toList "1".toList (List.replicate 18 'c') 18 []).2.2 =
        ev.foldl (fun x e => (recordCallback e x).2) [] :=
  ⟨by decide, by decide,
    (lru_eviction (Scheduler.mk [(("2".toList, "1".toList), List.replicate 18 'b'),
        (("1".toList, "1".toList), List.replicate 18 'a')] 100 100) recordCallback
      "3".toList "1".toList (List.replicate 18 'c') 18 [] (by decide) (by decide)
      (by decide)).2.2.2.elim
      (fun ev h => h.elim (fun kept hk => ⟨ev, kept, hk.1, (hk.2.2.2.1 (by decide)).2.1⟩))⟩

theorem mem_removeFile (p : Str) (l : List (Str × Str)) (f : Str × Str)
    (h : f ∈ removeFile p l) : f ∈ l := by
  induction l with
  | nil => simp [removeFile] at h
  | cons a rest ih =>
    simp only [removeFile] at h
    split at h
    · exact List.mem_cons_of_mem _ h
    · rcases List.mem_cons.mp h with h | h
      · rw [h]; exact List.mem_cons_self _ _
      · exact List.mem_cons_of_mem _ (ih h)

/-- On a file system that holds only what the store wrote for good keys,
`remove` of the file of a good key returns and leaves such a file system. -/
theorem Disk.remove_cellPath_good (root : Str) (d : Disk) (row col : Str) (hinv : d.Inv root)
    (hk : GoodKey (row, col)) :
    (d.remove (cellPath root row col)).1 = none ∧ (d.remove (cellPath root row col)).2.Inv root := by
  have hrow : '/' ∉ row := hk.row_no_slash
  have hfile : '/' ∉ col ++ ".dat".toList := hk.file_no_slash
  unfold Disk.remove
  by_cases hf : d.isFile (cellPath root row col) = true
  · rw [if_pos hf]
    refine ⟨rfl, ?_, hinv.2⟩
    intro f hmem
    exact hinv.1 f (mem_removeFile _ _ _ hmem)
  · rw [if_neg hf]
    have hnd := hinv.not_dir_cellPath row col
    rw [if_neg (by simp [hnd])]
    have hany : ((ancestors (cellPath root row col)).any d.isFile) = false := by
      rw [List.any_eq_false]
      intro p hp
      rw [ancestors_cellPath root row col hfile, ancestors_rowDir root row hrow] at hp
      simp only [List.mem_append, List.mem_singleton] at hp
      rcases hp with (hp | hp) | hp
      · have := ancestors_length _ _ hp
        simp [hinv.not_file_of_short p (by omega)]
      · by_cases hr : root = []
        · simp [hr] at hp
        · simp only [if_neg hr, List.mem_singleton] at hp
          subst hp
          simp [hinv.not_file_of_short p (le_refl _)]
      · subst hp
        simp [hinv.not_file_rowDir row hrow]
    rw [if_neg (by simp [hany])]
    exact ⟨rfl, hinv⟩

theorem Disk.remove_rowDir_good (root : Str) (d : Disk) (row : Str) (hinv : d.Inv root)
    (hrow : '/' ∉ row) (hex : (d.pathExists (rowDir root row) && d.is_empty (rowDir root row)) = true) :
    (d.remove (rowDir root row)).1 = none ∧ (d.remove (rowDir root row)).2.Inv root := by
  have hnf := hinv.not_file_rowDir row hrow
  simp only [Bool.and_eq_true, Disk.pathExists, hnf, Bool.or_false] at hex
  obtain ⟨hd, he⟩ := hex
  simp only [Disk.is_empty, hd, if_true, decide_eq_true_eq] at he
  unfold Disk.remove
  rw [if_neg (by simp [hnf]), if_pos hd, if_pos he]
  refine ⟨rfl, hinv.1, ?_⟩
  intro p hp
  exact hinv.2 p (List.mem_of_mem_erase hp)

/-- On a store that holds only good keys, `Put` of a good key by a caller that is
not locked out returns true, whatever the size of the value. -/
theorem Store.Put_good (s : Store) (row col value : Str) (capacity : Nat) (lockId : Str)
    (now : Nat) (hinv : s.Inv) (hk : GoodKey (row, col))
    (hl : s.isResourceLocked row lockId now = false) :
    (s.Put row col value capacity lockId now).1 = .ok true := by
  by_cases hbig : s.scheduler_.capacity_ < sizeofValue + capacity
  · have hf := flushToDisk_good s.sstableDirectory_ s.disk row col value hinv.2.2 hk
    simp only [Store.Put, hl, Bool.false_eq_true, if_false,
      Scheduler.Put_oversized s.scheduler_ _ row col value capacity s.disk hbig]
    generalize flushToDisk s.sstableDirectory_ s.disk row col value = r at *
    obtain ⟨o, d1⟩ := r
    simp only at hf
    rw [hf.1]
  · exact (Store.Put_spec s row col value capacity lockId now hinv hk (by omega) hl).1

/-- On a store that holds only good keys, `Delete` of a good key by a caller that
is not locked out returns true. -/
theorem Store.Delete_good (s : Store) (row col lockId : Str) (now : Nat) (hinv : s.Inv)
    (hk : GoodKey (row, col)) (hl : s.isResourceLocked row lockId now = false) :
    (s.Delete row col lockId now).1 = .ok true := by
  have hrow : '/' ∉ row := hk.row_no_slash
  obtain ⟨h1, h2⟩ := Disk.remove_cellPath_good s.sstableDirectory_ s.disk row col hinv.2.2 hk
  simp only [Store.Delete, hl, Bool.false_eq_true, if_false]
  cases hd : s.scheduler_.Delete row col with
  | mk b sch =>
    cases b with
    | true => rfl
    | false =>
      simp only
      generalize s.disk.remove (cellPath s.sstableDirectory_ row col) = r at *
      obtain ⟨o, d1⟩ := r
      simp only at h1 h2
      subst h1
      simp only
      by_cases hex : (d1.pathExists (rowDir s.sstableDirectory_ row) &&
          d1.is_empty (rowDir s.sstableDirectory_ row)) = true
      · rw [if_pos hex]
        obtain ⟨h3, -⟩ := Disk.remove_rowDir_good s.sstableDirectory_ d1 row h2 hrow hex
        generalize d1.remove (rowDir s.sstableDirectory_ row) = r2 at *
        obtain ⟨o2, d2⟩ := r2
        simp only at h3
        subst h3
        rfl
      · rw [if_neg hex]

/-- C11, counterexample. `Put` and `Delete` called with `LOCK_BYPASS` need not
return true. On a fresh store of capacity 50 (no lock at all), `Put(a, b/c, v)`
with a 20-character value raises `runtime_error`: the cache refuses the value
and `flushToDisk` cannot open `db/a/b/c.dat`. After `Put(a/x.dat, c, v)`, which
writes `db/a/x.dat/c.dat`, `Delete(a, x)` raises `filesystem_error`: it asks to
remove `db/a/x.dat`, a directory that is not empty. -/
theorem bypass_put_and_delete_raise :
    ((Store.new "db".toList 50).Put "a".toList "b/c".toList (List.replicate 20 'v') 20
      BY_PASS_LOCK_ID 0).1 = .error Err.runtime_error ∧
    ((Store.new "db".toList 50).Put "a/x.dat".toList "c".toList (List.replicate 20 'v') 20
      BY_PASS_LOCK_ID 0).1 = .ok true ∧
    (((Store.new "db".toList 50).Put "a/x.dat".toList "c".toList (List.replicate 20 'v') 20
      BY_PASS_LOCK_ID 0).2.Delete "a".toList "x".toList BY_PASS_LOCK_ID 0).1 =
      .error Err.filesystem_error := by
  decide

/-- C11, amended. Lock bypass is independent of the lock table. For a store `s`
and any other lock table `L`, at any two clock readings, each of Put, Get,
Delete, CPut and GetColsInRow called with `LOCK_BYPASS` returns the same result,
or raises the same exception, on `s` and on `s` with its lock table replaced by
`L`, and leaves the same cache and disk (and each lock table as it was). Put
and Delete return true whenever they return; and they return when the store
holds only cells whose row and whose file name `col.dat` are plain file names
and the key is such a cell. -/
theorem lock_bypass_independent (s : Store) (L : Str → Option LockInfo)
    (row col value currValue : Str) (capacity readCapacity : Nat) (cols : List Str)
    (now now1 : Nat) :
    Store.Put { s with locks_ := L } row col value capacity BY_PASS_LOCK_ID now1 =
      ((s.Put row col value capacity BY_PASS_LOCK_ID now).1,
        { (s.Put row col value capacity BY_PASS_LOCK_ID now).2 with locks_ := L }) ∧
    Store.Get { s with locks_ := L } row col readCapacity BY_PASS_LOCK_ID now1 =
      ((s.Get row col readCapacity BY_PASS_LOCK_ID now).1,
        { (s.Get row col readCapacity BY_PASS_LOCK_ID now).2 with locks_ := L }) ∧
    Store.Delete { s with locks_ := L } row col BY_PASS_LOCK_ID now1 =
      ((s.Delete row col BY_PASS_LOCK_ID now).1,
        { (s.Delete row col BY_PASS_LOCK_ID now).2 with locks_ := L }) ∧
    Store.CPut { s with locks_ := L } row col currValue value capacity readCapacity
        BY_PASS_LOCK_ID now1 =
      ((s.CPut row col currValue value capacity readCapacity BY_PASS_LOCK_ID now).1,
        { (s.CPut row col currValue value capacity readCapacity BY_PASS_LOCK_ID now).2 with
          locks_ := L }) ∧
    Store.GetColsInRow { s with locks_ := L } row cols BY_PASS_LOCK_ID now1 =
      s.GetColsInRow row cols BY_PASS_LOCK_ID now ∧
    (s.Put row col value capacity BY_PASS_LOCK_ID now).2.locks_ = s.locks_ ∧
    (s.Get row col readCapacity BY_PASS_LOCK_ID now).2.locks_ = s.locks_ ∧
    (s.Delete row col BY_PASS_LOCK_ID now).2.locks_ = s.locks_ ∧
    (s.CPut row col currValue value capacity readCapacity BY_PASS_LOCK_ID now).2.locks_ =
      s.locks_ ∧
    (∀ b, (s.Put row col value capacity BY_PASS_LOCK_ID now).1 = .ok b → b = true) ∧
    (∀ b, (s.Delete row col BY_PASS_LOCK_ID now).1 = .ok b → b = true) ∧
    (s.Inv → GoodKey (row, col) →
      (s.Put row col value capacity BY_PASS_LOCK_ID now).1 = .ok true ∧
      (s.Delete row col BY_PASS_LOCK_ID now).1 = .ok true) := by
  have hb : ∀ (t : Store) (n : Nat), t.isResourceLocked row BY_PASS_LOCK_ID n = false :=
    fun t n => Store.isResourceLocked_bypass t row n
  refine ⟨?_, ?_, ?_, ?_, ?_, Store.Put_locks _ _ _ _ _ _ _, Store.Get_locks _ _ _ _ _ _,
    Store.Delete_locks _ _ _ _ _, Store.CPut_locks _ _ _ _ _ _ _ _ _, ?_, ?_, ?_⟩
  · simp only [Store.Put, hb, Bool.false_eq_true, if_false]
    cases hp : s.scheduler_.Put (Store.onEvict s.sstableDirectory_) row col value capacity
      s.disk with
    | mk res rest =>
      obtain ⟨sch, d⟩ := rest
      cases res with
      | none => rfl
      | some e =>
        simp only
        cases hf : flushToDisk s.sstableDirectory_ d row col value with
        | mk o d1 => cases o <;> rfl
  · simp only [Store.Get, hb, Bool.false_eq_true, if_false]
    cases hg : s.scheduler_.Get row col with
    | mk o sch =>
      cases o with
      | some v => rfl
      | none =>
        simp only
        cases hr : readFromDisk s.sstableDirectory_ s.disk row col with
        | none => rfl
        | some v =>
          simp only
          cases hp : s.scheduler_.Put (Store.onEvict s.sstableDirectory_) row col v
            readCapacity s.disk with
          | mk res rest =>
            obtain ⟨sch1, d⟩ := rest
            cases res <;> rfl
  · simp only [Store.Delete, hb, Bool.false_eq_true, if_false]
    cases hd : s.scheduler_.Delete row col with
    | mk b sch =>
      cases b with
      | true => rfl
      | false =>
        simp only
        cases hr : s.disk.remove (cellPath s.sstableDirectory_ row col) with
        | mk o d1 =>
          cases o with
          | some e => rfl
          | none =>
            simp only
            split
            · cases hr2 : d1.remove (rowDir s.sstableDirectory_ row) with
              | mk o2 d2 => cases o2 <;> rfl
            · rfl
  · have h := Store.CPut_congr { s with locks_ := L } s row col currValue value capacity
      readCapacity BY_PASS_LOCK_ID now rfl rfl rfl (hb _ _) (hb _ _)
    have h1 : Store.CPut { s with locks_ := L } row col currValue value capacity readCapacity
        BY_PASS_LOCK_ID now1 = Store.CPut { s with locks_ := L } row col currValue value
        capacity readCapacity BY_PASS_LOCK_ID now := by
      simp only [Store.CPut, Store.Get, Store.Put, Store.isResourceLocked_bypass,
        Bool.false_eq_true, if_false]
    rw [h1, h]
  · simp only [Store.GetColsInRow, hb, Bool.false_eq_true, if_false]
  · intro b hres
    simp only [Store.Put, hb, Bool.false_eq_true, if_false] at hres
    split at hres
    · simp only [Except.ok.injEq] at hres; exact hres.symm
    · split at hres
      · simp only [Except.ok.injEq] at hres; exact hres.symm
      · simp at hres
  · intro b hres
    simp only [Store.Delete, hb, Bool.false_eq_true, if_false] at hres
    split at hres
    · simp only [Except.ok.injEq] at hres; exact hres.symm
    · split at hres
      · simp at hres
      · split at hres
        · split at hres
          · simp at hres
          · simp only [Except.ok.injEq] at hres; exact hres.symm
        · simp only [Except.ok.injEq] at hres; exact hres.symm
  · intro hinv hk
    exact ⟨Store.Put_good s row col value capacity _ now hinv hk (hb _ _),
      Store.Delete_good s row col _ now hinv hk (hb _ _)⟩

/-- Witness for C11 (as amended): on a fresh store of capacity 50 with a lock
table that holds a lock on row `a`, `Put(a, b, v)` and `Delete(a, b)` with
`LOCK_BYPASS` return true. -/
theorem lock_bypass_independent_witness :
    (Store.new "db".toList 50).Inv ∧ GoodKey ("a".toList, "b".toList) ∧
    ((Store.new "db".toList 50).Put "a".toList "b".toList "v".toList 15 BY_PASS_LOCK_ID 0).1 =
      .ok true ∧
    ((Store.new "db".toList 50).Delete "a".toList "b".toList BY_PASS_LOCK_ID 0).1 = .ok true :=
  ⟨Store.new_Inv _ _, by decide,
    (lock_bypass_independent (Store.new "db".toList 50)
      (fun r => if r = "a".toList then some ⟨"id".toList, 0⟩ else none)
      "a".toList "b".toList "v".toList [] 15 15 [] 0 0).2.2.2.2.2.2.2.2.2.2.2
      (Store.new_Inv _ _) (by decide)⟩

/-! ## Theorems: row and column enumeration -/

/-- C17. Failing input for GetColsInRow: with capacity 50 (one short value fits),
after `Put(a,x,v1)` and `Put(b,y,v2)` the cell `a/x` lives on disk only.
`GetColsInRow(a)` returns found with the single name `x.dat`, the file name with
its extension; `Get(a, x.dat)` finds nothing, while `Get(a, x)` finds `v1`. Once
`Get(a, x)` has reloaded the cell into the cache, `GetColsInRow(a)` lists it
twice, as `x` and as `x.dat`. A row without cached cell and without directory is
reported as not found. -/
theorem getcolsinrow_keeps_extension :
    (((Store.new "db".toList 50).Put "a".toList "x".toList "v1".toList 15 "-".toList 0).2.Put
        "b".toList "y".toList "v2".toList 15 "-".toList 0).2.GetColsInRow
        "a".toList [] "-".toList 0 = (.ok true, ["x.dat".toList]) ∧
    ((((Store.new "db".toList 50).Put "a".toList "x".toList "v1".toList 15 "-".toList 0).2.Put
        "b".toList "y".toList "v2".toList 15 "-".toList 0).2.Get
        "a".toList "x.dat".toList 15 "-".toList 0).1 = .ok none ∧
    ((((Store.new "db".toList 50).Put "a".toList "x".toList "v1".toList 15 "-".toList 0).2.Put
        "b".toList "y".toList "v2".toList 15 "-".toList 0).2.Get
        "a".toList "x".toList 15 "-".toList 0).1 = .ok (some "v1".toList) ∧
    ((((Store.new "db".toList 50).Put "a".toList "x".toList "v1".toList 15 "-".toList 0).2.Put
        "b".toList "y".toList "v2".toList 15 "-".toList 0).2.Get
        "a".toList "x".toList 15 "-".toList 0).2.GetColsInRow
        "a".toList [] "-".toList 0 = (.ok true, ["x".toList, "x.dat".toList]) ∧
    (((Store.new "db".toList 50).Put "a".toList "x".toList "v1".toList 15 "-".toList 0).2.Put
        "b".toList "y".toList "v2".toList 15 "-".toList 0).2.GetColsInRow
        "q".toList [] "-".toList 0 = (.ok false, []) := by
  decide

/-- C18. Failing input for GetAllRows: with capacity 50 (one short value fits),
after `Put(a,x,v1)`, `Put(b,y,v2)` and `Put(a,z,v3)` the row `a` has the cell
`a/z` in the cache and the cell `a/x` on disk, and `GetAllRows` lists `a` twice
and `b` once: three entries for two rows. And after `Put(a,x,v1)`,
`Put(b,y,v2)`, `Get(a,x)`, a `Delete(a,x)` of the only cell of row `a` returns
true, yet `GetAllRows` still lists `a`. The statements count entries, so they do
not depend on the order in which the directory is read. -/
theorem getallrows_lists_row_twice :
    (((((Store.new "db".toList 50).Put "a".toList "x".toList "v1".toList 15 "-".toList 0).2.Put
        "b".toList "y".toList "v2".toList 15 "-".toList 0).2.Put
        "a".toList "z".toList "v3".toList 15 "-".toList 0).2.GetAllRows []).1 = .ok true ∧
    (((((Store.new "db".toList 50).Put "a".toList "x".toList "v1".toList 15 "-".toList 0).2.Put
        "b".toList "y".toList "v2".toList 15 "-".toList 0).2.Put
        "a".toList "z".toList "v3".toList 15 "-".toList 0).2.GetAllRows []).2.count
        "a".toList = 2 ∧
    (((((Store.new "db".toList 50).Put "a".toList "x".toList "v1".toList 15 "-".toList 0).2.Put
        "b".toList "y".toList "v2".toList 15 "-".toList 0).2.Put
        "a".toList "z".toList "v3".toList 15 "-".toList 0).2.GetAllRows []).2.count
        "b".toList = 1 ∧
    (((((Store.new "db".toList 50).Put "a".toList "x".toList "v1".toList 15 "-".toList 0).2.Put
        "b".toList "y".toList "v2".toList 15 "-".toList 0).2.Put
        "a".toList "z".toList "v3".toList 15 "-".toList 0).2.GetAllRows []).2.length = 3 ∧
    (((((Store.new "db".toList 50).Put "a".toList "x".toList "v1".toList 15 "-".toList 0).2.Put
        "b".toList "y".toList "v2".toList 15 "-".toList 0).2.Get
        "a".toList "x".toList 15 "-".toList 0).2.Delete
        "a".toList "x".toList "-".toList 0).1 = .ok true ∧
    "a".toList ∈ ((((((Store.new "db".toList 50).Put "a".toList "x".toList "v1".toList 15
        "-".toList 0).2.Put "b".toList "y".toList "v2".toList 15 "-".toList 0).2.Get
        "a".toList "x".toList 15 "-".toList 0).2.Delete
        "a".toList "x".toList "-".toList 0).2.GetAllRows []).2 := by
  decide

/-! ## Theorems: garbage-collection bound -/

theorem PeerDoneLe.refl (a : List (Int × Int)) : PeerDoneLe a a := by
  induction a with
  | nil => exact List.Forall₂.nil
  | cons e rest ih => exact List.Forall₂.cons ⟨rfl, le_refl _⟩ ih

theorem PeerDoneLe.trans {a b c : List (Int × Int)} (h1 : PeerDoneLe a b)
    (h2 : PeerDoneLe b c) : PeerDoneLe a c := by
  unfold PeerDoneLe at *
  induction h1 generalizing c with
  | nil => cases h2; exact List.Forall₂.nil
  | cons hxy _ ih =>
    cases h2 with
    | cons hyz hrest =>
      exact List.Forall₂.cons ⟨hxy.1.trans hyz.1, le_trans hxy.2 hyz.2⟩ (ih hrest)

theorem PeerDoneLe.find {a b : List (Int × Int)} (h : PeerDoneLe a b) (k v : Int)
    (hf : peerDoneFind k a = some v) : ∃ w, peerDoneFind k b = some w ∧ v ≤ w := by
  unfold PeerDoneLe at h
  induction h with
  | nil => simp [peerDoneFind] at hf
  | @cons x y l1 l2 hxy _ ih =>
    by_cases hx : x.1 = k
    · have hy : y.1 = k := hxy.1 ▸ hx
      simp only [peerDoneFind, if_pos hx, Option.some.injEq] at hf
      exact ⟨y.2, by simp [peerDoneFind, hy], hf ▸ hxy.2⟩
    · have hy : ¬ y.1 = k := fun e => hx (hxy.1.trans e)
      simp only [peerDoneFind, if_neg hx] at hf
      simp only [peerDoneFind, if_neg hy]
      exact ih hf

theorem PeerDoneLe.hasPeers {a b : List (Int × Int)} (h : PeerDoneLe a b) (N : Nat)
    (ha : HasPeers N a) : HasPeers N b := by
  intro k h0 hN
  obtain ⟨v, hv⟩ := ha k h0 hN
  obtain ⟨w, hw, _⟩ := h.find k v hv
  exact ⟨w, hw⟩

theorem PeerDoneLe.foldl_min {a b : List (Int × Int)} (h : PeerDoneLe a b) (i j : Int)
    (hij : i ≤ j) :
    a.foldl (fun res pair => min res pair.2) i ≤ b.foldl (fun res pair => min res pair.2) j := by
  unfold PeerDoneLe at h
  induction h generalizing i j with
  | nil => exact hij
  | cons hxy _ ih =>
    simp only [List.foldl_cons]
    exact ih _ _ (min_le_min hij hxy.2)

theorem peerDoneAssign_le (k v w : Int) (m : List (Int × Int))
    (hf : peerDoneFind k m = some v) (hvw : v ≤ w) : PeerDoneLe m (peerDoneAssign k w m) := by
  induction m with
  | nil => simp [peerDoneFind] at hf
  | cons e rest ih =>
    by_cases he : e.1 = k
    · simp only [peerDoneFind, if_pos he, Option.some.injEq] at hf
      simp only [peerDoneAssign, if_pos he]
      exact List.Forall₂.cons ⟨he, hf ▸ hvw⟩ (PeerDoneLe.refl rest)
    · simp only [peerDoneFind, if_neg he] at hf
      simp only [peerDoneAssign, if_neg he]
      exact List.Forall₂.cons ⟨rfl, le_refl _⟩ (ih hf)

theorem PaxosImpl.notePeerDone_le (r : PaxosImpl) (k done v : Int)
    (hf : peerDoneFind k r.peerDone_ = some v) :
    PeerDoneLe r.peerDone_ (r.notePeerDone k done).peerDone_ := by
  unfold PaxosImpl.notePeerDone
  rw [peerDoneIndex_found k _ v hf]
  show PeerDoneLe r.peerDone_ (if done > v then peerDoneAssign k done r.peerDone_ else r.peerDone_)
  by_cases hd : done > v
  · rw [if_pos hd]; exact peerDoneAssign_le k v done _ hf (le_of_lt hd)
  · rw [if_neg hd]; exact PeerDoneLe.refl _

theorem PaxosImpl.collectGarbage_peerDone (r : PaxosImpl) :
    r.collectGarbage.peerDone_ = r.peerDone_ ∧ r.collectGarbage.me_ = r.me_ := by
  unfold PaxosImpl.collectGarbage
  simp only
  split <;> exact ⟨rfl, rfl⟩

theorem PaxosImpl.notePeerDone_me (r : PaxosImpl) (k done : Int) :
    (r.notePeerDone k done).me_ = r.me_ := rfl

theorem PaxosImpl.prepareTail_le (r : PaxosImpl) (reply : PrepareReply) (args : PrepareArgs)
    (N : Nat) (hp : HasPeers N r.peerDone_) (hme : r.me_ < N)
    (hs : 0 ≤ args.sender ∧ args.sender < (N : Int)) :
    PeerDoneLe r.peerDone_ (r.prepareTail reply args).2.peerDone_ ∧
    (r.prepareTail reply args).2.me_ = r.me_ := by
  obtain ⟨v, hv⟩ := hp (r.me_ : Int) (by omega) (by omega)
  obtain ⟨w, hw⟩ := hp args.sender hs.1 hs.2
  unfold PaxosImpl.prepareTail
  rw [peerDoneIndex_found _ _ v hv]
  simp only
  rw [(PaxosImpl.collectGarbage_peerDone _).1, (PaxosImpl.collectGarbage_peerDone _).2]
  exact ⟨PaxosImpl.notePeerDone_le { r with peerDone_ := r.peerDone_ } args.sender args.done w hw,
    rfl⟩

theorem PaxosImpl.call_le (r : PaxosImpl) (c : ReplicaCall) (N : Nat)
    (hp : HasPeers N r.peerDone_) (hme : r.me_ < N) (hc : c.admissible N) :
    PeerDoneLe r.peerDone_ (r.call c).peerDone_ ∧ (r.call c).me_ = r.me_ := by
  obtain ⟨v, hv⟩ := hp (r.me_ : Int) (by omega) (by omega)
  cases c with
  | Done seq => exact ⟨PaxosImpl.notePeerDone_le r _ seq v hv, rfl⟩
  | Prepare args =>
    show PeerDoneLe r.peerDone_ (r.Prepare args).2.peerDone_ ∧ (r.Prepare args).2.me_ = r.me_
    unfold PaxosImpl.Prepare
    simp only
    split
    · exact PaxosImpl.prepareTail_le (r.setAcceptor args.seq _) _ args N hp hme hc
    · exact PaxosImpl.prepareTail_le r _ args N hp hme hc
  | prepareReply i reply =>
    obtain ⟨w, hw⟩ := hp (i : Int) (by omega) (by have : i < N := hc; omega)
    exact ⟨PaxosImpl.notePeerDone_le r _ reply.done w hw, rfl⟩
  | Accept args =>
    show PeerDoneLe r.peerDone_ (r.Accept args).2.peerDone_ ∧ (r.Accept args).2.me_ = r.me_
    unfold PaxosImpl.Accept
    simp only
    split <;> exact ⟨PeerDoneLe.refl _, rfl⟩
  | Decide args => exact ⟨PeerDoneLe.refl _, rfl⟩
  | MinKnownSeq =>
    show PeerDoneLe r.peerDone_ r.collectGarbage.peerDone_ ∧ r.collectGarbage.me_ = r.me_
    rw [(PaxosImpl.collectGarbage_peerDone r).1]
    exact ⟨PeerDoneLe.refl _, (PaxosImpl.collectGarbage_peerDone r).2⟩
  | proposeHead seq =>
    show PeerDoneLe r.peerDone_ (r.proposeHead seq).2.peerDone_ ∧
      (r.proposeHead seq).2.me_ = r.me_
    have hg := PaxosImpl.collectGarbage_peerDone r
    unfold PaxosImpl.proposeHead
    simp only
    split
    · exact ⟨hg.1 ▸ PeerDoneLe.refl _, hg.2⟩
    · simp only [hg.1, hg.2]
      rw [peerDoneIndex_found _ _ v hv]
      exact ⟨PeerDoneLe.refl _, trivial⟩

theorem PaxosImpl.calls_le (r : PaxosImpl) (cs : List ReplicaCall) (N : Nat)
    (hp : HasPeers N r.peerDone_) (hme : r.me_ < N) (hc : ∀ c ∈ cs, c.admissible N) :
    PeerDoneLe r.peerDone_ (r.calls cs).peerDone_ ∧ (r.calls cs).me_ = r.me_ := by
  induction cs generalizing r with
  | nil => exact ⟨PeerDoneLe.refl _, rfl⟩
  | cons c rest ih =>
    have h1 := PaxosImpl.call_le r c N hp hme (hc c (List.mem_cons_self _ _))
    have h2 := ih (r.call c) (h1.1.hasPeers N hp) (h1.2 ▸ hme)
      (fun d hd => hc d (List.mem_cons_of_mem _ hd))
    exact ⟨h1.1.trans h2.1, h2.2.trans h1.2⟩

theorem PaxosImpl.new_peerDone (N i : Nat) (h : i < N) :
    peerDoneFind (i : Int) (PaxosImpl.new N i).peerDone_ = some (-1) := by
  show peerDoneFind (i : Int) ((List.range N).map (fun j => ((j : Int), (-1 : Int)))) = some (-1)
  have key : ∀ (l : List Nat), i ∈ l →
      peerDoneFind (i : Int) (l.map (fun j => ((j : Int), (-1 : Int)))) = some (-1) := by
    intro l hl
    induction l with
    | nil => simp at hl
    | cons a rest ih =>
      simp only [List.map_cons, peerDoneFind]
      by_cases ha : (a : Int) = (i : Int)
      · rw [if_pos ha]
      · rw [if_neg ha]
        apply ih
        rcases List.mem_cons.mp hl with e | e
        · exact absurd (by rw [e]) ha
        · exact e
  exact key _ (List.mem_range.mpr h)

theorem HasPeers_new (N me : Nat) : HasPeers N (PaxosImpl.new N me).peerDone_ := by
  intro k h0 hN
  obtain ⟨n, rfl⟩ := Int.eq_ofNat_of_zero_le h0
  exact ⟨-1, PaxosImpl.new_peerDone N n (by omega)⟩

theorem foldl_min_const (l : List (Int × Int)) (init : Int) (h : -1 ≤ init) (hl : l ≠ [])
    (hall : ∀ e ∈ l, e.2 = -1) :
    l.foldl (fun res pair => min res pair.2) init = -1 := by
  induction l generalizing init with
  | nil => exact absurd rfl hl
  | cons e rest ih =>
    simp only [List.foldl_cons]
    have he : e.2 = -1 := hall e (List.mem_cons_self _ _)
    have hmin : min init e.2 = -1 := by rw [he]; exact min_eq_right h
    rw [hmin]
    cases rest with
    | nil => rfl
    | cons e2 rest2 =>
      exact ih (-1) (le_refl _) (by simp) (fun x hx => hall x (List.mem_cons_of_mem _ hx))

theorem getMinSeqNum_new (N me : Nat) (hme : me < N) :
    getMinSeqNum (PaxosImpl.new N me).peerDone_ = 0 := by
  have hfind := PaxosImpl.new_peerDone N me hme
  have hne : (PaxosImpl.new N me).peerDone_ ≠ [] := by
    intro h
    rw [h] at hfind
    simp [peerDoneFind] at hfind
  have hall : ∀ e ∈ (PaxosImpl.new N me).peerDone_, e.2 = -1 := by
    intro e he
    simp only [PaxosImpl.new, List.mem_map] at he
    obtain ⟨x, _, hx⟩ := he
    rw [← hx]
  unfold getMinSeqNum
  rw [foldl_min_const _ INT_MAX (by decide) hne hall]
  rfl

theorem wrapInt_of_int (x : Int) (h1 : INT_MIN ≤ x) (h2 : x ≤ INT_MAX) : wrapInt x = x := by
  unfold wrapInt
  unfold INT_MIN at h1
  unfold INT_MAX at h2
  omega

theorem foldl_min_ge (m : List (Int × Int)) (init lo : Int) (h0 : lo ≤ init)
    (h : ∀ e ∈ m, lo ≤ e.2) : lo ≤ m.foldl (fun res pair => min res pair.2) init := by
  induction m generalizing init with
  | nil => exact h0
  | cons e rest ih =>
    simp only [List.foldl_cons]
    exact ih _ (le_min h0 (h e (List.mem_cons_self _ _)))
      (fun x hx => h x (List.mem_cons_of_mem _ hx))

theorem peerDoneFind_mem (k v : Int) (m : List (Int × Int)) (h : peerDoneFind k m = some v) :
    ∃ e ∈ m, e.2 = v := by
  induction m with
  | nil => simp [peerDoneFind] at h
  | cons e rest ih =>
    by_cases he : e.1 = k
    · simp only [peerDoneFind, if_pos he, Option.some.injEq] at h
      exact ⟨e, List.mem_cons_self _ _, h⟩
    · simp only [peerDoneFind, if_neg he] at h
      obtain ⟨x, hx, hxv⟩ := ih h
      exact ⟨x, List.mem_cons_of_mem _ hx, hxv⟩

/-- On a map that has an entry for peer 0 and holds only values below `INT_MAX`,
the closing `res + 1` of `getMinSeqNum` does not overflow. -/
theorem getMinSeqNum_of_belowMax (N : Nat) (hN : 0 < N) (m : List (Int × Int))
    (hp : HasPeers N m) (hr : PeerDoneBelowMax m) :
    getMinSeqNum m = m.foldl (fun res pair => min res pair.2) INT_MAX + 1 := by
  obtain ⟨v, hv⟩ := hp 0 (le_refl _) (by omega)
  obtain ⟨e, he, hev⟩ := peerDoneFind_mem 0 v m hv
  have h1 := foldl_min_le_of_find 0 v m INT_MAX hv
  have h2 := foldl_min_ge m INT_MAX INT_MIN (by decide) (fun x hx => (hr x hx).1)
  have h3 := (hr e he).2
  unfold getMinSeqNum
  apply wrapInt_of_int
  · unfold INT_MIN at h2 ⊢; omega
  · rw [hev] at h3; omega

theorem PeerDoneLe.getMinSeqNum {a b : List (Int × Int)} (h : PeerDoneLe a b) (N : Nat)
    (hN : 0 < N) (hpa : HasPeers N a) (hra : PeerDoneBelowMax a) (hrb : PeerDoneBelowMax b) :
    getMinSeqNum a ≤ getMinSeqNum b := by
  rw [getMinSeqNum_of_belowMax N hN a hpa hra,
    getMinSeqNum_of_belowMax N hN b (h.hasPeers N hpa) hrb]
  have := h.foldl_min INT_MAX INT_MAX (le_refl _)
  omega

theorem peerDoneAssign_belowMax (k v : Int) (m : List (Int × Int)) (hv : belowIntMax v)
    (hm : PeerDoneBelowMax m) : PeerDoneBelowMax (peerDoneAssign k v m) := by
  induction m with
  | nil =>
    intro e he
    simp only [peerDoneAssign, List.mem_singleton] at he
    rw [he]; exact hv
  | cons x rest ih =>
    intro e he
    by_cases hx : x.1 = k
    · simp only [peerDoneAssign, if_pos hx, List.mem_cons] at he
      rcases he with he | he
      · rw [he]; exact hv
      · exact hm e (List.mem_cons_of_mem _ he)
    · simp only [peerDoneAssign, if_neg hx, List.mem_cons] at he
      rcases he with he | he
      · rw [he]; exact hm x (List.mem_cons_self _ _)
      · exact ih (fun y hy => hm y (List.mem_cons_of_mem _ hy)) e he

theorem peerDoneIndex_belowMax (k : Int) (m : List (Int × Int)) (hm : PeerDoneBelowMax m) :
    PeerDoneBelowMax (peerDoneIndex k m).2 := by
  unfold peerDoneIndex
  cases peerDoneFind k m with
  | some v => exact hm
  | none => exact peerDoneAssign_belowMax k 0 m (by decide) hm

theorem PaxosImpl.notePeerDone_belowMax (r : PaxosImpl) (k done : Int) (hd : belowIntMax done)
    (hm : PeerDoneBelowMax r.peerDone_) : PeerDoneBelowMax (r.notePeerDone k done).peerDone_ := by
  unfold PaxosImpl.notePeerDone
  simp only
  split
  · exact peerDoneAssign_belowMax k done _ hd (peerDoneIndex_belowMax k _ hm)
  · exact peerDoneIndex_belowMax k _ hm

theorem PaxosImpl.prepareTail_belowMax (r : PaxosImpl) (reply : PrepareReply)
    (args : PrepareArgs) (hd : belowIntMax args.done) (hm : PeerDoneBelowMax r.peerDone_) :
    PeerDoneBelowMax (r.prepareTail reply args).2.peerDone_ := by
  unfold PaxosImpl.prepareTail
  simp only
  rw [(PaxosImpl.collectGarbage_peerDone _).1]
  exact PaxosImpl.notePeerDone_belowMax _ args.sender args.done hd
    (peerDoneIndex_belowMax _ _ hm)

theorem PaxosImpl.call_belowMax (r : PaxosImpl) (c : ReplicaCall) (hc : c.doneBelowMax)
    (hm : PeerDoneBelowMax r.peerDone_) : PeerDoneBelowMax (r.call c).peerDone_ := by
  cases c with
  | Done seq => exact PaxosImpl.notePeerDone_belowMax r _ seq hc hm
  | Prepare args =>
    show PeerDoneBelowMax (r.Prepare args).2.peerDone_
    unfold PaxosImpl.Prepare
    simp only
    split
    · exact PaxosImpl.prepareTail_belowMax (r.setAcceptor args.seq _) _ args hc hm
    · exact PaxosImpl.prepareTail_belowMax r _ args hc hm
  | prepareReply i reply => exact PaxosImpl.notePeerDone_belowMax r _ reply.done hc hm
  | Accept args =>
    show PeerDoneBelowMax (r.Accept args).2.peerDone_
    unfold PaxosImpl.Accept
    simp only
    split <;> exact hm
  | Decide args => exact hm
  | MinKnownSeq =>
    show PeerDoneBelowMax r.collectGarbage.peerDone_
    rw [(PaxosImpl.collectGarbage_peerDone r).1]
    exact hm
  | proposeHead seq =>
    show PeerDoneBelowMax (r.proposeHead seq).2.peerDone_
    have hg := PaxosImpl.collectGarbage_peerDone r
    unfold PaxosImpl.proposeHead
    simp only
    split
    · show PeerDoneBelowMax r.collectGarbage.peerDone_
      rw [hg.1]; exact hm
    · show PeerDoneBelowMax (peerDoneIndex _ r.collectGarbage.peerDone_).2
      rw [hg.1]
      exact peerDoneIndex_belowMax _ _ hm

theorem PaxosImpl.calls_belowMax (r : PaxosImpl) (cs : List ReplicaCall)
    (hc : ∀ c ∈ cs, c.doneBelowMax) (hm : PeerDoneBelowMax r.peerDone_) :
    PeerDoneBelowMax (r.calls cs).peerDone_ := by
  induction cs generalizing r with
  | nil => exact hm
  | cons c rest ih =>
    exact ih (r.call c) (fun d hd => hc d (List.mem_cons_of_mem _ hd))
      (PaxosImpl.call_belowMax r c (hc c (List.mem_cons_self _ _)) hm)

theorem PeerDoneBelowMax_new (N me : Nat) : PeerDoneBelowMax (PaxosImpl.new N me).peerDone_ := by
  intro e he
  simp only [PaxosImpl.new, List.mem_map] at he
  obtain ⟨x, _, hx⟩ := he
  rw [← hx]
  show belowIntMax (-1)
  decide

/-- C16, counterexample. On the only replica of a one-peer cluster, `MinKnownSeq()`
returns 4 after `Done(3)` and, after a further `Done(2147483647)`, returns
`-2147483648`: the closing `res + 1` of `getMinSeqNum` overflows. -/
theorem min_known_seq_falls :
    (∀ c ∈ [ReplicaCall.Done 3, ReplicaCall.Done 2147483647], c.admissible 1) ∧
    ((PaxosImpl.new 1 0).calls [ReplicaCall.Done 3]).MinKnownSeq.1 = 4 ∧
    ((((PaxosImpl.new 1 0).calls [ReplicaCall.Done 3]).MinKnownSeq.2).calls
      [ReplicaCall.Done 2147483647]).MinKnownSeq.1 = -2147483648 := by
  decide

/-- C16, amended. GC monotonicity. On a replica with index `me` of a cluster of
`N` peers, `MinKnownSeq()` returns 0 on the freshly constructed replica, and for
every sequence of calls (`Done`, arrivals of Prepare with a sender index in
`[0, N)`, Accept and Decide, ends of Prepare threads for peers below `N` with any
reply, iterations of `propose`, `MinKnownSeq` itself) whose `done` values are
`int`s other than `INT_MAX`, the value `MinKnownSeq()` returns after the
sequence `cs` is at most the value it returns after the further calls `cs1`. -/
theorem gc_monotone (N me : Nat) (hme : me < N) (cs cs1 : List ReplicaCall)
    (hcs : ∀ c ∈ cs, c.admissible N) (hcs1 : ∀ c ∈ cs1, c.admissible N)
    (hrs : ∀ c ∈ cs, c.doneBelowMax) (hrs1 : ∀ c ∈ cs1, c.doneBelowMax) :
    (PaxosImpl.new N me).MinKnownSeq.1 = 0 ∧
    ((PaxosImpl.new N me).calls cs).MinKnownSeq.1 ≤
      ((((PaxosImpl.new N me).calls cs).MinKnownSeq.2).calls cs1).MinKnownSeq.1 := by
  constructor
  · exact getMinSeqNum_new N me hme
  · have h0 := PaxosImpl.calls_le (PaxosImpl.new N me) cs N (HasPeers_new N me) hme hcs
    have hp1 := h0.1.hasPeers N (HasPeers_new N me)
    have hme1 : ((PaxosImpl.new N me).calls cs).me_ < N := by rw [h0.2]; exact hme
    have hg := PaxosImpl.collectGarbage_peerDone ((PaxosImpl.new N me).calls cs)
    have hb0 := PaxosImpl.calls_belowMax (PaxosImpl.new N me) cs hrs (PeerDoneBelowMax_new N me)
    have h1 := PaxosImpl.calls_le ((PaxosImpl.new N me).calls cs).MinKnownSeq.2 cs1 N
      (by show HasPeers N ((PaxosImpl.new N me).calls cs).collectGarbage.peerDone_
          rw [hg.1]; exact hp1)
      (by show ((PaxosImpl.new N me).calls cs).collectGarbage.me_ < N
          rw [hg.2]; exact hme1) hcs1
    have hb1 := PaxosImpl.calls_belowMax ((PaxosImpl.new N me).calls cs).MinKnownSeq.2 cs1 hrs1
      (by show PeerDoneBelowMax ((PaxosImpl.new N me).calls cs).collectGarbage.peerDone_
          rw [hg.1]; exact hb0)
    have h2 : PeerDoneLe ((PaxosImpl.new N me).calls cs).peerDone_
        ((((PaxosImpl.new N me).calls cs).MinKnownSeq.2).calls cs1).peerDone_ := by
      have := h1.1
      rw [show ((PaxosImpl.new N me).calls cs).MinKnownSeq.2.peerDone_ =
        ((PaxosImpl.new N me).calls cs).peerDone_ from hg.1] at this
      exact this
    exact h2.getMinSeqNum N (by omega) hp1 hb0 hb1

/-- Witness for C16 (as amended). A replica of a three-peer cluster: after `Done(4)`, a reply from peer 1 with
done 5 and a Prepare from peer 2 with done 3, `MinKnownSeq()` returns 4; after a
reply from peer 2 with done 7, `Done(9)` and a failed call to peer 1, it returns 6. -/
theorem gc_monotone_witness :
    0 < 3 ∧
    (PaxosImpl.new 3 0).MinKnownSeq.1 = 0 ∧
    ((PaxosImpl.new 3 0).calls
      [ReplicaCall.Done 4, ReplicaCall.prepareReply 1 ⟨true, -1, Op.fresh, 5⟩,
       ReplicaCall.Prepare ⟨0, 258, 2, 3⟩]).MinKnownSeq.1 = 4 ∧
    ((((PaxosImpl.new 3 0).calls
      [ReplicaCall.Done 4, ReplicaCall.prepareReply 1 ⟨true, -1, Op.fresh, 5⟩,
       ReplicaCall.Prepare ⟨0, 258, 2, 3⟩]).MinKnownSeq.2).calls
      [ReplicaCall.prepareReply 2 ⟨true, -1, Op.fresh, 7⟩, ReplicaCall.Done 9,
       ReplicaCall.prepareReply 1 PrepareReply.new]).MinKnownSeq.1 = 6 ∧
    ((PaxosImpl.new 3 0).calls
      [ReplicaCall.Done 4, ReplicaCall.prepareReply 1 ⟨true, -1, Op.fresh, 5⟩,
       ReplicaCall.Prepare ⟨0, 258, 2, 3⟩]).MinKnownSeq.1 ≤
    ((((PaxosImpl.new 3 0).calls
      [ReplicaCall.Done 4, ReplicaCall.prepareReply 1 ⟨true, -1, Op.fresh, 5⟩,
       ReplicaCall.Prepare ⟨0, 258, 2, 3⟩]).MinKnownSeq.2).calls
      [ReplicaCall.prepareReply 2 ⟨true, -1, Op.fresh, 7⟩, ReplicaCall.Done 9,
       ReplicaCall.prepareReply 1 PrepareReply.new]).MinKnownSeq.1 :=
  ⟨by decide, by decide, by decide, by decide,
    (gc_monotone 3 0 (by decide)
      [ReplicaCall.Done 4, ReplicaCall.prepareReply 1 ⟨true, -1, Op.fresh, 5⟩,
       ReplicaCall.Prepare ⟨0, 258, 2, 3⟩]
      [ReplicaCall.prepareReply 2 ⟨true, -1, Op.fresh, 7⟩, ReplicaCall.Done 9,
       ReplicaCall.prepareReply 1 PrepareReply.new] (by decide) (by decide) (by decide)
      (by decide)).2⟩

/-! ## Theorems: log, recovery and the request loop -/

theorem KVSServer.applyChange_globalSeq (sv : KVSServer) (op : Op) (env : CallEnv) :
    (sv.applyChange op env).2.globalSeq_ = sv.globalSeq_ := by
  unfold KVSServer.applyChange
  cases op.type <;> simp only [KVSServer.record] <;> first | rfl | (split <;> rfl)

theorem KVSServer.applyAll_append (sv : KVSServer) (l1 l2 : List (Op × CallEnv))
    (h : (sv.applyAll l1).1 = none) :
    sv.applyAll (l1 ++ l2) = (sv.applyAll l1).2.applyAll l2 := by
  induction l1 generalizing sv with
  | nil => rfl
  | cons e rest ih =>
    simp only [List.cons_append, KVSServer.applyAll] at h ⊢
    cases hr : sv.applyChange e.1 e.2 with
    | mk res sv1 =>
      rw [hr] at h
      cases res with
      | error err => simp at h
      | ok out => exact ih sv1 h

theorem KVSServer.applyAll_prefix (sv : KVSServer) (l1 l2 : List (Op × CallEnv))
    (h : (sv.applyAll (l1 ++ l2)).1 = none) : (sv.applyAll l1).1 = none := by
  induction l1 generalizing sv with
  | nil => rfl
  | cons e rest ih =>
    simp only [List.cons_append, KVSServer.applyAll] at h ⊢
    cases hr : sv.applyChange e.1 e.2 with
    | mk res sv1 =>
      rw [hr] at h
      cases res with
      | error err => simp at h
      | ok out => exact ih sv1 h

theorem proposeUntilAgreed_spec (decided : Int → Op) (op : Op) (k fuel : Nat) (i : Int)
    (hfirst : ∀ j : Nat, j < k → (decided (i + j)).requestid ≠ op.requestid)
    (hs : (decided (i + k)).requestid = op.requestid) (hfuel : k < fuel) :
    proposeUntilAgreed decided op fuel i = some (i + k, specStarts op k i) := by
  induction k generalizing fuel i with
  | zero =>
    obtain ⟨f, rfl⟩ : ∃ f, fuel = f + 1 := ⟨fuel - 1, by omega⟩
    have hs0 : (decided i).requestid = op.requestid := by simpa using hs
    simp [proposeUntilAgreed, hs0, specStarts]
  | succ k ih =>
    obtain ⟨f, rfl⟩ : ∃ f, fuel = f + 1 := ⟨fuel - 1, by omega⟩
    have h0 : ¬ op.requestid = (decided i).requestid := by
      have := hfirst 0 (by omega)
      simp only [Nat.cast_zero, add_zero] at this
      exact fun e => this e.symm
    have hrest := ih f (i + 1)
      (fun j hj => by
        have := hfirst (j + 1) (by omega)
        rw [show i + ((j + 1 : Nat) : Int) = i + 1 + (j : Int) by omega] at this
        exact this)
      (by rw [show i + 1 + (k : Int) = i + ((k + 1 : Nat) : Int) by omega]; exact hs)
      (by omega)
    simp only [proposeUntilAgreed, if_neg h0, hrest, specStarts]
    congr 2
    all_goals omega

theorem KVSNode.catchUp_spec (decided : Int → Op) (clock : Int → CallEnv) (n : Nat) (i : Int)
    (nd : KVSNode)
    (hok : (nd.server.applyAll (decidedOps decided clock n i)).1 = none) :
    nd.catchUp decided clock n i =
      (none,
        ⟨(nd.server.applyAll (decidedOps decided clock n i)).2,
          nd.logger_.logAll (decidedLogs decided nd.server.globalSeq_ n i)⟩,
        (specEvents decided Op.fresh nd.server.globalSeq_ n i).take (2 * n)) ∧
    (nd.server.applyAll (decidedOps decided clock n i)).2.globalSeq_ = nd.server.globalSeq_ := by
  induction n generalizing i nd with
  | zero => exact ⟨rfl, rfl⟩
  | succ n ih =>
    simp only [decidedOps, KVSServer.applyAll] at hok ⊢
    simp only [KVSNode.catchUp, decidedLogs, Logger.logAll, specEvents]
    have hg := KVSServer.applyChange_globalSeq nd.server (decided i) (clock i)
    cases hr : nd.server.applyChange (decided i) (clock i) with
    | mk res sv1 =>
      rw [hr] at hok hg
      cases res with
      | error err => simp at hok
      | ok out =>
        simp only at hok hg ⊢
        have := ih (i + 1) ⟨sv1, (nd.logger_.Log (decided i) nd.server.globalSeq_).2⟩ hok
        simp only [hg] at this
        rw [this.1]
        refine ⟨?_, this.2⟩
        rw [show 2 * (n + 1) = (2 * n) + 1 + 1 by ring]
        simp only [List.take_succ_cons, List.cons_append, List.nil_append]

theorem specEvents_split (decided : Int → Op) (op op1 : Op) (g : Int) (n : Nat) (i : Int) :
    specEvents decided op g n i =
      (specEvents decided op1 g n i).take (2 * n) ++
        [ServerEvent.Log op (g + 1), ServerEvent.Apply op, ServerEvent.Done (i + n)] := by
  induction n generalizing i with
  | zero => simp [specEvents]
  | succ n ih =>
    rw [show 2 * (n + 1) = (2 * n) + 1 + 1 by ring]
    simp only [specEvents, List.take_succ_cons, List.cons_append]
    rw [ih (i + 1)]
    have e : i + 1 + (n : Int) = i + ((n + 1 : Nat) : Int) := by omega
    rw [e]

theorem Logger.logAll_append (lg : Logger) (l1 l2 : List (Op × Int)) :
    lg.logAll (l1 ++ l2) = (lg.logAll l1).logAll l2 := by
  induction l1 generalizing lg with
  | nil => rfl
  | cons e rest ih =>
    show (lg.Log e.1 e.2).2.logAll (rest ++ l2) = ((lg.Log e.1 e.2).2.logAll rest).logAll l2
    exact ih _

theorem specEvents_length (decided : Int → Op) (op : Op) (g : Int) (n : Nat) (i : Int) :
    (specEvents decided op g n i).length = 2 * n + 3 := by
  induction n generalizing i with
  | zero => rfl
  | succ n ih =>
    simp only [specEvents, List.length_cons, ih (i + 1)]
    ring

theorem specEvents_take_all (decided : Int → Op) (op op1 : Op) (g : Int) (n : Nat) (i : Int) :
    (specEvents decided op g n i).take (2 * n) = (specEvents decided op1 g n i).take (2 * n) := by
  have hl := specEvents_length decided op1 g n i
  rw [specEvents_split decided op op1 g n i, List.take_append_eq_append_take,
    List.take_take, List.length_take, hl]
  simp

theorem specEvents_take_apply (decided : Int → Op) (op op1 : Op) (g : Int) (n : Nat) (i : Int) :
    (specEvents decided op g n i).take (2 * n + 2) =
      (specEvents decided op1 g n i).take (2 * n) ++
        [ServerEvent.Log op (g + 1), ServerEvent.Apply op] := by
  have hl := specEvents_length decided op1 g n i
  rw [specEvents_split decided op op1 g n i, List.take_append_eq_append_take,
    List.take_take, List.length_take, hl]
  have e1 : min (2 * n + 2) (2 * n) = 2 * n := by omega
  have e2 : 2 * n + 2 - min (2 * n) (2 * n + 3) = 2 := by omega
  rw [e1, e2]
  rfl

theorem decidedOps_succ (decided : Int → Op) (clock : Int → CallEnv) (n : Nat) (i : Int) :
    decidedOps decided clock (n + 1) i =
      decidedOps decided clock n i ++ [(decided (i + n), clock (i + n))] := by
  induction n generalizing i with
  | zero => simp [decidedOps]
  | succ n ih =>
    rw [decidedOps, ih (i + 1), decidedOps]
    simp only [List.cons_append]
    have e : i + 1 + (n : Int) = i + ((n + 1 : Nat) : Int) := by push_cast; ring
    rw [e]

/-- The catch-up loop when the operation of slot `i + j` raises, the ones before
it having returned: the loop ends there, with the operation logged and no later
slot touched. -/
theorem KVSNode.catchUp_raise (decided : Int → Op) (clock : Int → CallEnv) (n j : Nat)
    (i : Int) (nd : KVSNode) (err : Err) (hj : j < n)
    (hok : (nd.server.applyAll (decidedOps decided clock j i)).1 = none)
    (herr : ((nd.server.applyAll (decidedOps decided clock j i)).2.applyChange
      (decided (i + j)) (clock (i + j))).1 = .error err) :
    nd.catchUp decided clock n i =
      (some err,
        ⟨((nd.server.applyAll (decidedOps decided clock j i)).2.applyChange
            (decided (i + j)) (clock (i + j))).2,
          nd.logger_.logAll (decidedLogs decided nd.server.globalSeq_ (j + 1) i)⟩,
        (specEvents decided Op.fresh nd.server.globalSeq_ (j + 1) i).take (2 * (j + 1))) := by
  induction j generalizing n i nd with
  | zero =>
    obtain ⟨m, rfl⟩ : ∃ m, n = m + 1 := ⟨n - 1, by omega⟩
    simp only [decidedOps, KVSServer.applyAll, Nat.cast_zero, add_zero] at herr ⊢
    simp only [KVSNode.catchUp, decidedLogs, Logger.logAll, specEvents]
    cases hr : nd.server.applyChange (decided i) (clock i) with
    | mk res sv1 =>
      rw [hr] at herr
      cases res with
      | ok out => simp at herr
      | error e =>
        simp only [Except.error.injEq] at herr
        subst herr
        rfl
  | succ j ih =>
    obtain ⟨m, rfl⟩ : ∃ m, n = m + 1 := ⟨n - 1, by omega⟩
    have e : i + ((j + 1 : Nat) : Int) = i + 1 + (j : Int) := by push_cast; ring
    rw [e] at herr ⊢
    simp only [decidedOps, KVSServer.applyAll] at hok herr ⊢
    simp only [KVSNode.catchUp, decidedLogs, Logger.logAll, specEvents]
    have hg := KVSServer.applyChange_globalSeq nd.server (decided i) (clock i)
    cases hr : nd.server.applyChange (decided i) (clock i) with
    | mk res sv1 =>
      rw [hr] at hok herr hg
      cases res with
      | error e1 => simp at hok
      | ok out =>
        simp only at hok herr hg ⊢
        have := ih m (i + 1) ⟨sv1, (nd.logger_.Log (decided i) nd.server.globalSeq_).2⟩
          (by omega) hok herr
        simp only [hg] at this
        rw [this]
        rw [show 2 * (j + 1 + 1) = (2 * (j + 1)) + 1 + 1 by ring]
        simp only [List.take_succ_cons, List.cons_append, List.nil_append]
        rfl

/-- C12, counterexample. A replica over a cache of 50 bytes has served
`PUT(a, x, v)` with a value of 20 characters, which went to disk past the cache.
Its request `GET(a, x)` is decided at slot 1, the first slot after `globalSeq_ = 0`.
The call logs the request and applies it; the application raises (the value
read does not fit the cache), so the call returns no output, `globalSeq_` stays
0 and `Done` is not called. -/
theorem decided_get_raises :
    (exampleSmallNode.serveAll exampleBigDecided exampleBigClock 1 [exampleBigPut]).map
        (fun r => (r.1, r.2.server.globalSeq_)) = some ([.ok ⟨true, [], []⟩], 0) ∧
    (exampleBigDecided 1).requestid = exampleGet.requestid ∧
    (exampleSmallNode.serveAll exampleBigDecided exampleBigClock 1 [exampleBigPut]).map
        (fun r => (r.2.makeAgreementAndApplyChange exampleBigDecided exampleBigClock 1
          exampleGet).map (fun r1 => (r1.1, r1.2.1.server.globalSeq_, r1.2.2))) =
      some (some (.error Err.runtime_error, 0,
        [ServerEvent.Start 1 exampleGet, ServerEvent.Log exampleGet 1,
          ServerEvent.Apply exampleGet])) := by
  refine ⟨by rfl, by rfl, by rfl⟩

/-- C12, amended. Catch-up and log-before-apply order. Let `g` be `globalSeq_` on
entry, let the decisions of the slots `g+1, ..., g+k` not carry the request id
of `op` and the decision of slot `s = g+1+k` carry it. Then, with fuel for `k+1`
rounds of the first loop, `makeAgreementAndApplyChange(op)` ends, after the
events `Start(g+1, op), ..., Start(s, op)`, in one of three ways. When no
application raises, the further events are exactly `Log(d_{g+1}),
Apply(d_{g+1}), ..., Log(d_{s-1}), Apply(d_{s-1}), Log(op), Apply(op), Done(s)`,
the store and the log are those that result from these applications and log
writes, `globalSeq_` is `s` afterwards, and the output is that of `Apply(op)`.
When the application of the missed operation of slot `g+1+j` raises, the call
raises with it after `Log(d_{g+1}), Apply(d_{g+1}), ..., Log(d_{g+1+j}),
Apply(d_{g+1+j})`. When the application of `op` raises, the call raises with it
after `Log(d_{g+1}), ..., Apply(d_{s-1}), Log(op), Apply(op)`. In both raising
cases `globalSeq_` is still `g` and `Done` is not called. -/
theorem catch_up_log_before_apply (nd : KVSNode) (decided : Int → Op) (clock : Int → CallEnv)
    (op : Op) (k fuel : Nat)
    (hfirst : ∀ j : Nat, j < k →
      (decided (nd.server.globalSeq_ + 1 + j)).requestid ≠ op.requestid)
    (hs : (decided (nd.server.globalSeq_ + 1 + k)).requestid = op.requestid)
    (hfuel : k < fuel) :
    ((nd.server.applyAll (decidedOps decided clock k (nd.server.globalSeq_ + 1) ++
        [(op, clock (nd.server.globalSeq_ + 1 + k))])).1 = none →
      ∃ out,
        ((nd.server.applyAll
          (decidedOps decided clock k (nd.server.globalSeq_ + 1))).2.applyChange
          op (clock (nd.server.globalSeq_ + 1 + k))).1 = .ok out ∧
        nd.makeAgreementAndApplyChange decided clock fuel op =
          some (.ok out,
            ⟨{ ((nd.server.applyAll
                  (decidedOps decided clock k (nd.server.globalSeq_ + 1))).2.applyChange
                  op (clock (nd.server.globalSeq_ + 1 + k))).2 with
                globalSeq_ := nd.server.globalSeq_ + 1 + k },
              nd.logger_.logAll (decidedLogs decided nd.server.globalSeq_ k
                (nd.server.globalSeq_ + 1) ++ [(op, nd.server.globalSeq_ + 1)])⟩,
            specStarts op k (nd.server.globalSeq_ + 1) ++
              specEvents decided op nd.server.globalSeq_ k (nd.server.globalSeq_ + 1))) ∧
    (∀ (j : Nat) (err : Err), j < k →
      (nd.server.applyAll (decidedOps decided clock j (nd.server.globalSeq_ + 1))).1 = none →
      ((nd.server.applyAll
        (decidedOps decided clock j (nd.server.globalSeq_ + 1))).2.applyChange
        (decided (nd.server.globalSeq_ + 1 + j)) (clock (nd.server.globalSeq_ + 1 + j))).1 =
        .error err →
      nd.makeAgreementAndApplyChange decided clock fuel op =
        some (.error err,
          ⟨((nd.server.applyAll
              (decidedOps decided clock j (nd.server.globalSeq_ + 1))).2.applyChange
              (decided (nd.server.globalSeq_ + 1 + j))
              (clock (nd.server.globalSeq_ + 1 + j))).2,
            nd.logger_.logAll (decidedLogs decided nd.server.globalSeq_ (j + 1)
              (nd.server.globalSeq_ + 1))⟩,
          specStarts op k (nd.server.globalSeq_ + 1) ++
            (specEvents decided op nd.server.globalSeq_ (j + 1)
              (nd.server.globalSeq_ + 1)).take (2 * (j + 1))) ∧
      ((nd.server.applyAll
        (decidedOps decided clock j (nd.server.globalSeq_ + 1))).2.applyChange
        (decided (nd.server.globalSeq_ + 1 + j))
        (clock (nd.server.globalSeq_ + 1 + j))).2.globalSeq_ = nd.server.globalSeq_) ∧
    (∀ err : Err,
      (nd.server.applyAll (decidedOps decided clock k (nd.server.globalSeq_ + 1))).1 = none →
      ((nd.server.applyAll
        (decidedOps decided clock k (nd.server.globalSeq_ + 1))).2.applyChange
        op (clock (nd.server.globalSeq_ + 1 + k))).1 = .error err →
      nd.makeAgreementAndApplyChange decided clock fuel op =
        some (.error err,
          ⟨((nd.server.applyAll
              (decidedOps decided clock k (nd.server.globalSeq_ + 1))).2.applyChange
              op (clock (nd.server.globalSeq_ + 1 + k))).2,
            nd.logger_.logAll (decidedLogs decided nd.server.globalSeq_ k
              (nd.server.globalSeq_ + 1) ++ [(op, nd.server.globalSeq_ + 1)])⟩,
          specStarts op k (nd.server.globalSeq_ + 1) ++
            (specEvents decided op nd.server.globalSeq_ k
              (nd.server.globalSeq_ + 1)).take (2 * k + 2)) ∧
      ((nd.server.applyAll
        (decidedOps decided clock k (nd.server.globalSeq_ + 1))).2.applyChange
        op (clock (nd.server.globalSeq_ + 1 + k))).2.globalSeq_ = nd.server.globalSeq_) := by
  have hprop := proposeUntilAgreed_spec decided op k fuel (nd.server.globalSeq_ + 1)
    hfirst hs hfuel
  have hn : (nd.server.globalSeq_ + 1 + (k : Int) - (nd.server.globalSeq_ + 1)).toNat = k := by
    omega
  refine ⟨?_, ?_, ?_⟩
  · intro hok
    have hpre := KVSServer.applyAll_prefix _ _ _ hok
    have hcu := KVSNode.catchUp_spec decided clock k (nd.server.globalSeq_ + 1) nd hpre
    rw [KVSServer.applyAll_append _ _ _ hpre] at hok
    generalize hsvc : (nd.server.applyAll
      (decidedOps decided clock k (nd.server.globalSeq_ + 1))).2 = svc at hok hcu ⊢
    cases hr : svc.applyChange op (clock (nd.server.globalSeq_ + 1 + k)) with
    | mk res sv1 =>
      simp only [KVSServer.applyAll, hr] at hok
      cases res with
      | error err => simp at hok
      | ok out =>
        refine ⟨out, rfl, ?_⟩
        simp only [KVSNode.makeAgreementAndApplyChange, hprop, hn, hcu.1, hcu.2, hr,
          Logger.logAll_append, Logger.logAll]
        rw [specEvents_split decided op Op.fresh nd.server.globalSeq_ k
          (nd.server.globalSeq_ + 1)]
        simp only [List.append_assoc, List.cons_append, List.nil_append]
  · intro j err hj hok herr
    have hcu := KVSNode.catchUp_raise decided clock k j (nd.server.globalSeq_ + 1) nd err hj
      hok herr
    have hgs := KVSNode.catchUp_spec decided clock j (nd.server.globalSeq_ + 1) nd hok
    refine ⟨?_, ?_⟩
    · simp only [KVSNode.makeAgreementAndApplyChange, hprop, hn, hcu]
      rw [specEvents_take_all decided op Op.fresh nd.server.globalSeq_ (j + 1)
        (nd.server.globalSeq_ + 1)]
    · rw [KVSServer.applyChange_globalSeq]; exact hgs.2
  · intro err hok herr
    have hcu := KVSNode.catchUp_spec decided clock k (nd.server.globalSeq_ + 1) nd hok
    refine ⟨?_, ?_⟩
    · generalize hsvc : (nd.server.applyAll
        (decidedOps decided clock k (nd.server.globalSeq_ + 1))).2 = svc at herr hcu ⊢
      cases hr : svc.applyChange op (clock (nd.server.globalSeq_ + 1 + k)) with
      | mk res sv1 =>
        rw [hr] at herr
        cases res with
        | ok out => simp at herr
        | error e =>
          simp only [Except.error.injEq] at herr
          subst herr
          simp only [KVSNode.makeAgreementAndApplyChange, hprop, hn, hcu.1, hcu.2, hr,
            Logger.logAll_append, Logger.logAll]
          rw [specEvents_take_apply decided op Op.fresh nd.server.globalSeq_ k
            (nd.server.globalSeq_ + 1)]
          simp only [List.append_assoc]
    · rw [KVSServer.applyChange_globalSeq]; exact hcu.2

theorem digitChar_spec (d : Nat) (hd : d < 10) :
    (digitChar d).isDigit = true ∧ (digitChar d).toNat - 48 = d ∧
    isspace (digitChar d) = false ∧ digitChar d ≠ '-' ∧ digitChar d ≠ '+' := by
  interval_cases d <;> decide

theorem natDigits_head (fuel n : Nat) :
    ∃ d rest, d < 10 ∧ natDigits fuel n = digitChar d :: rest := by
  induction fuel generalizing n with
  | zero => exact ⟨n % 10, [], Nat.mod_lt _ (by decide), rfl⟩
  | succ f ih =>
    by_cases h : n < 10
    · exact ⟨n, [], h, by simp [natDigits, h]⟩
    · obtain ⟨d, rest, hd, hr⟩ := ih (n / 10)
      exact ⟨d, rest ++ [digitChar (n % 10)], hd, by simp [natDigits, h, hr]⟩

theorem readDigits_natDigits (fuel n acc : Nat) (tail : Str) (h : n ≤ fuel) :
    readDigits acc (natDigits fuel n ++ tail) =
      readDigits (acc * 10 ^ (natDigits fuel n).length + n) tail := by
  induction fuel generalizing n acc tail with
  | zero =>
    have hn : n = 0 := by omega
    subst hn
    have hd := digitChar_spec 0 (by decide)
    simp only [natDigits, Nat.zero_mod, List.cons_append, List.nil_append, readDigits, hd.1,
      if_true, hd.2.1, List.length_singleton, pow_one, add_zero]
    rfl
  | succ f ih =>
    by_cases hlt : n < 10
    · have hd := digitChar_spec n hlt
      simp only [natDigits, if_pos hlt, List.cons_append, List.nil_append, readDigits, hd.1,
        if_true, hd.2.1, List.length_singleton, pow_one]
    · have hd := digitChar_spec (n % 10) (Nat.mod_lt _ (by decide))
      have hdiv : n / 10 ≤ f := by omega
      simp only [natDigits, if_neg hlt, List.append_assoc, List.length_append,
        List.length_singleton]
      rw [ih (n / 10) acc _ hdiv]
      simp only [List.cons_append, List.nil_append, readDigits, hd.1, if_true, hd.2.1]
      congr 1
      rw [pow_succ]
      have := Nat.div_add_mod n 10
      nlinarith [Nat.div_add_mod n 10]

theorem readDigits_natDigits_self (n : Nat) : readDigits 0 (natDigits n n) = n := by
  have := readDigits_natDigits n n 0 [] (le_refl _)
  simpa [readDigits] using this

theorem stoi_of_digit (d : Nat) (hd : d < 10) (rest : Str) :
    stoi (digitChar d :: rest) = some (readDigits 0 (digitChar d :: rest) : Int) := by
  have h := digitChar_spec d hd
  unfold stoi
  have hdw : List.dropWhile isspace (digitChar d :: rest) = digitChar d :: rest := by
    simp [List.dropWhile, h.2.2.1]
  rw [hdw]
  split
  · rename_i r heq
    simp only [List.cons.injEq] at heq
    exact absurd heq.1 h.2.2.2.1
  · rename_i r heq
    simp only [List.cons.injEq] at heq
    exact absurd heq.1 h.2.2.2.2
  · simp [startsWithDigit, h.1]

theorem stoi_to_string (i : Int) : stoi (to_string i) = some i := by
  unfold to_string
  obtain ⟨d, rest, hd, hr⟩ := natDigits_head i.natAbs i.natAbs
  have hval := readDigits_natDigits_self i.natAbs
  by_cases hneg : i < 0
  · rw [if_pos hneg]
    have h := digitChar_spec d hd
    unfold stoi
    have hdw : List.dropWhile isspace ('-' :: natDigits i.natAbs i.natAbs) =
        '-' :: natDigits i.natAbs i.natAbs := by
      simp [List.dropWhile, isspace]
    rw [hdw]
    simp only
    have hsd : startsWithDigit (natDigits i.natAbs i.natAbs) = true := by
      rw [hr]; exact h.1
    rw [if_pos hsd, hval]
    congr 1
    omega
  · rw [if_neg hneg, hr, stoi_of_digit d hd rest, ← hr, hval]
    congr 1
    omega

theorem to_string_ne_nil (i : Int) : to_string i ≠ [] := by
  unfold to_string
  obtain ⟨d, rest, _, hr⟩ := natDigits_head i.natAbs i.natAbs
  split
  · simp
  · rw [hr]; simp

theorem to_string_injective (a b : Int) (h : to_string a = to_string b) : a = b := by
  have := congrArg stoi h
  rw [stoi_to_string, stoi_to_string] at this
  exact Option.some.inj this

theorem logName_injective (a b : Int)
    (h : to_string a ++ ".log".toList = to_string b ++ ".log".toList) : a = b :=
  to_string_injective a b (List.append_cancel_right h)

theorem maxLogIndexStep_log (m k : Int) :
    maxLogIndexStep (some m) (to_string k ++ ".log".toList) = some (max m k) := by
  have hne := to_string_ne_nil k
  have hlen : (to_string k ++ ".log".toList).length = (to_string k).length + 4 := by
    simp
  have hpos : 0 < (to_string k).length := List.length_pos.mpr hne
  unfold maxLogIndexStep
  simp only [hlen, Nat.add_sub_cancel]
  rw [List.drop_left, List.take_left]
  rw [if_pos ⟨by omega, rfl⟩, stoi_to_string]

theorem maxLogIndexStep_state (m : Int) :
    maxLogIndexStep (some m) GLOBAL_SEQ_LOG = some m := by
  simp only [maxLogIndexStep]
  rw [if_neg]
  decide

theorem foldl_maxLogIndexStep (ops : List Op) (k : Nat) (m : Int) :
    ((logFiles ops k).map Prod.fst).foldl maxLogIndexStep (some m) =
      some (if ops = [] then m else max m ((k : Int) + ops.length - 1)) := by
  induction ops generalizing k m with
  | nil => rfl
  | cons o rest ih =>
    simp only [logFiles, List.map_cons, List.foldl_cons, maxLogIndexStep_log, ih]
    congr 1
    by_cases hr : rest = []
    · subst hr; simp
    · simp only [hr, if_false, List.length_cons, reduceCtorEq]
      push_cast
      omega

theorem getMaxLogIndex_logFiles (ops : List Op) (present : Bool) (st : Option Str) :
    getMaxLogIndex ⟨present, logFiles ops 0, st⟩ = some ((ops.length : Int) - 1) := by
  unfold getMaxLogIndex LogDir.fileNames
  rw [List.foldl_append, foldl_maxLogIndexStep]
  have hm : (if ops = [] then (-1 : Int) else max (-1) (((0 : Nat) : Int) + ops.length - 1)) =
      (ops.length : Int) - 1 := by
    by_cases h : ops = []
    · subst h; simp
    · simp only [h, if_false]
      have : 0 < ops.length := List.length_pos.mpr h
      omega
  rw [hm]
  cases st with
  | none => rfl
  | some t => exact maxLogIndexStep_state _

theorem logFiles_append (ops : List Op) (o : Op) (k : Nat) :
    logFiles (ops ++ [o]) k =
      logFiles ops k ++ [(to_string ((k + ops.length : Nat) : Int) ++ ".log".toList, o)] := by
  induction ops generalizing k with
  | nil => simp [logFiles]
  | cons a rest ih =>
    show (to_string (k : Int) ++ ".log".toList, a) :: logFiles (rest ++ [o]) (k + 1) =
      (to_string (k : Int) ++ ".log".toList, a) :: logFiles rest (k + 1) ++
        [(to_string ((k + (rest.length + 1) : Nat) : Int) ++ ".log".toList, o)]
    rw [ih (k + 1), show k + 1 + rest.length = k + (rest.length + 1) by omega]
    rfl

theorem writeLog_logFiles (ops : List Op) (o : Op) (k c : Nat) (hc : k + ops.length ≤ c) :
    writeLog (to_string (c : Int) ++ ".log".toList) o (logFiles ops k) =
      logFiles ops k ++ [(to_string (c : Int) ++ ".log".toList, o)] := by
  induction ops generalizing k with
  | nil => rfl
  | cons a rest ih =>
    have hne : ¬ (to_string (k : Int) ++ ".log".toList = to_string (c : Int) ++ ".log".toList) := by
      intro h
      have := logName_injective _ _ h
      simp only [List.length_cons] at hc
      omega
    simp only [logFiles, writeLog, if_neg hne, List.cons_append]
    rw [ih (k + 1) (by simp only [List.length_cons] at hc; omega)]

theorem readLog_logFiles (ops : List Op) (k i : Nat) (o : Op)
    (h : ops.get? i = some o) :
    readLog (to_string ((k + i : Nat) : Int) ++ ".log".toList) (logFiles ops k) = some o := by
  induction ops generalizing k i with
  | nil => simp at h
  | cons a rest ih =>
    cases i with
    | zero =>
      simp only [List.get?_cons_zero, Option.some.injEq] at h
      simp [logFiles, readLog, h]
    | succ j =>
      simp only [List.get?_cons_succ] at h
      have hne : ¬ (to_string (k : Int) ++ ".log".toList =
          to_string ((k + (j + 1) : Nat) : Int) ++ ".log".toList) := by
        intro e
        have := logName_injective _ _ e
        omega
      simp only [logFiles, readLog, if_neg hne]
      rw [show k + (j + 1) = (k + 1) + j by omega]
      exact ih (k + 1) j h

/-- The state of a writer that started on an empty directory and logged `ops`. -/
theorem Logger.logAll_spec (lg : Logger) (entries : List (Op × Int)) (done : List Op)
    (hc : lg.counter_ = (done.length : Int)) (hl : lg.dir.logs = logFiles done 0) :
    (lg.logAll entries).counter_ = ((done ++ entries.map Prod.fst).length : Int) ∧
    (lg.logAll entries).dir.logs = logFiles (done ++ entries.map Prod.fst) 0 ∧
    (lg.logAll entries).currLogIndex_ = lg.currLogIndex_ ∧
    (entries ≠ [] → (lg.logAll entries).dir.present = true ∧
      ∃ e, entries.getLast? = some e ∧
        (lg.logAll entries).dir.globalSeqState = some (to_string e.2)) := by
  induction entries generalizing lg done with
  | nil => simp [Logger.logAll, hc, hl]
  | cons e rest ih =>
    have hw := writeLog_logFiles done e.1 0 done.length (by omega)
    have h1 : (lg.Log e.1 e.2).2.counter_ = ((done ++ [e.1]).length : Int) := by
      simp only [Logger.Log, hc, List.length_append, List.length_singleton]
      push_cast; rfl
    have h2 : (lg.Log e.1 e.2).2.dir.logs = logFiles (done ++ [e.1]) 0 := by
      simp only [Logger.Log, hc, hl, hw, logFiles_append, Nat.zero_add]
    have := ih (lg.Log e.1 e.2).2 (done ++ [e.1]) h1 h2
    simp only [List.append_assoc, List.singleton_append] at this
    refine ⟨this.1, this.2.1, this.2.2.1, fun _ => ?_⟩
    by_cases hr : rest = []
    · subst hr
      exact ⟨rfl, e, rfl, rfl⟩
    · obtain ⟨hp, e1, he1, hs⟩ := this.2.2.2 hr
      refine ⟨hp, e1, ?_, hs⟩
      cases rest with
      | nil => exact absurd rfl hr
      | cons b r2 => rw [List.getLast?_cons_cons]; exact he1

theorem Logger.recoverAll_spec (ops : List Op) (m j fuel : Nat) (lg : Logger)
    (hl : lg.dir.logs = logFiles ops 0) (hc : lg.counter_ = (ops.length : Int))
    (hj : lg.currLogIndex_ = (j : Int)) (hm : j + m = ops.length) (hfuel : m ≤ fuel) :
    Logger.recoverAll fuel lg =
      (.ok (ops.drop j), { lg with currLogIndex_ := (ops.length : Int) }) := by
  induction m generalizing j fuel lg with
  | zero =>
    have hjl : j = ops.length := by omega
    have hno : lg.HasNextOp = false := by
      simp only [Logger.HasNextOp, hj, hc, decide_eq_false_iff_not]
      omega
    have hlg : lg = { lg with currLogIndex_ := (ops.length : Int) } := by
      cases lg
      simp only at hj
      simp only [hj, hjl]
    cases fuel with
    | zero => simp only [Logger.recoverAll, hjl, List.drop_length]; rw [← hlg]
    | succ f =>
      simp only [Logger.recoverAll, hno, Bool.false_eq_true, if_false, hjl, List.drop_length]
      rw [← hlg]
  | succ m ih =>
    obtain ⟨f, rfl⟩ : ∃ f, fuel = f + 1 := ⟨fuel - 1, by omega⟩
    have hyes : lg.HasNextOp = true := by
      simp only [Logger.HasNextOp, hj, hc, decide_eq_true_eq]
      omega
    have hlt : j < ops.length := by omega
    have hget : ops.get? j = some (ops.get ⟨j, hlt⟩) := List.get?_eq_get hlt
    have hread := readLog_logFiles ops 0 j _ hget
    rw [Nat.zero_add] at hread
    have hrec : lg.RecoverOp =
        (.ok (ops.get ⟨j, hlt⟩), { lg with currLogIndex_ := lg.currLogIndex_ + 1 }) := by
      simp only [Logger.RecoverOp, hj, hl, hread]
    have hih := ih (j + 1) f { lg with currLogIndex_ := lg.currLogIndex_ + 1 } hl hc
      (by simp only [hj]; push_cast; rfl) (by omega) (by omega)
    simp only [Logger.recoverAll, hyes, if_true, hrec, hih]
    congr 2
    rw [List.drop_eq_getElem_cons hlt]
    rfl

theorem KVSNode.recoverLoop_spec (clock : Int → CallEnv) (ops : List Op) (m j fuel : Nat)
    (sv : KVSServer) (lg : Logger)
    (hl : lg.dir.logs = logFiles ops 0) (hc : lg.counter_ = (ops.length : Int))
    (hj : lg.currLogIndex_ = (j : Int)) (hm : j + m = ops.length) (hfuel : m ≤ fuel) :
    (KVSNode.recoverLoop clock fuel ⟨sv, lg⟩).1 =
      (sv.applyAll (replayOps clock (ops.drop j) j)).1 ∧
    (KVSNode.recoverLoop clock fuel ⟨sv, lg⟩).2.server =
      (sv.applyAll (replayOps clock (ops.drop j) j)).2 ∧
    ((sv.applyAll (replayOps clock (ops.drop j) j)).1 = none →
      (KVSNode.recoverLoop clock fuel ⟨sv, lg⟩).2.logger_ =
        { lg with currLogIndex_ := (ops.length : Int) }) := by
  induction m generalizing j fuel lg sv with
  | zero =>
    have hjl : j = ops.length := by omega
    have hno : lg.HasNextOp = false := by
      simp only [Logger.HasNextOp, hj, hc, decide_eq_false_iff_not]
      omega
    have hlg : lg = { lg with currLogIndex_ := (ops.length : Int) } := by
      cases lg
      simp only at hj
      simp only [hj, hjl]
    cases fuel with
    | zero =>
      simp only [KVSNode.recoverLoop, hjl, List.drop_length, replayOps, KVSServer.applyAll]
      exact ⟨trivial, trivial, fun _ => hlg⟩
    | succ f =>
      simp only [KVSNode.recoverLoop, hno, Bool.false_eq_true, if_false, hjl, List.drop_length,
        replayOps, KVSServer.applyAll]
      exact ⟨trivial, trivial, fun _ => hlg⟩
  | succ m ih =>
    obtain ⟨f, rfl⟩ : ∃ f, fuel = f + 1 := ⟨fuel - 1, by omega⟩
    have hyes : lg.HasNextOp = true := by
      simp only [Logger.HasNextOp, hj, hc, decide_eq_true_eq]
      omega
    have hlt : j < ops.length := by omega
    have hget : ops.get? j = some (ops.get ⟨j, hlt⟩) := List.get?_eq_get hlt
    have hread := readLog_logFiles ops 0 j _ hget
    rw [Nat.zero_add] at hread
    have hrec : lg.RecoverOp =
        (.ok (ops.get ⟨j, hlt⟩), { lg with currLogIndex_ := lg.currLogIndex_ + 1 }) := by
      simp only [Logger.RecoverOp, hj, hl, hread]
    have hdrop : ops.drop j = ops.get ⟨j, hlt⟩ :: ops.drop (j + 1) := by
      rw [List.drop_eq_getElem_cons hlt]; rfl
    simp only [KVSNode.recoverLoop, hyes, if_true, hrec, hdrop, replayOps, KVSServer.applyAll, hj]
    cases hr : sv.applyChange (ops.get ⟨j, hlt⟩) (clock (j : Int)) with
    | mk res sv1 =>
      cases res with
      | error e => exact ⟨rfl, rfl, fun h => by simp at h⟩
      | ok out =>
        have hih := ih (j + 1) f sv1 { lg with currLogIndex_ := lg.currLogIndex_ + 1 } hl hc
          (by simp only [hj]; push_cast; rfl) (by omega) (by omega)
        simp only [hj] at hih
        exact hih

theorem loggedDir_spec (present : Bool) (entries : List (Op × Int)) (hne : entries ≠ []) :
    ∃ e, entries.getLast? = some e ∧
      loggedDir present entries =
        ⟨true, logFiles (entries.map Prod.fst) 0, some (to_string e.2)⟩ := by
  have h := Logger.logAll_spec (Logger.new ⟨present, [], none⟩) entries [] rfl rfl
  obtain ⟨hp, e, he, hs⟩ := h.2.2.2 hne
  refine ⟨e, he, ?_⟩
  have hl := h.2.1
  simp only [List.nil_append] at hl
  unfold loggedDir
  generalize ((Logger.new ⟨present, [], none⟩).logAll entries).dir = d at hp hl hs
  cases d
  simp only at hp hl hs
  simp only [hp, hl, hs]

/-- C13. Log replay round trip. Let a fresh logger write the operations
`o_0, ..., o_K` (at least one) by successive `Log` calls into a directory without
files. Then the k-th call has written `k.log`; a fresh `Logger` on that
directory reports `Recoverable() = true` with `counter_ = K + 1`;
`HasNextOp`/`RecoverOp` yield exactly `o_0, ..., o_K` in that order and then
`HasNextOp` is false; `RecoverGlobalSeq` reads back the number passed to the
last `Log`; and the `KVSServer` constructor ends in the server state that
applying `o_0, ..., o_K` in that order, each once, to the server over the same
store gives (raising exactly when one of these applications raises). -/
theorem log_replay_round_trip (present : Bool) (entries : List (Op × Int))
    (hne : entries ≠ []) (me : Nat) (st : Store) (clock : Int → CallEnv) (fuel : Nat)
    (hfuel : entries.length ≤ fuel) :
    (loggedDir present entries).logs = logFiles (entries.map Prod.fst) 0 ∧
    (Logger.new (loggedDir present entries)).Recoverable =
      (.ok true, ⟨loggedDir present entries, entries.length, 0⟩) ∧
    Logger.recoverAll fuel ⟨loggedDir present entries, entries.length, 0⟩ =
      (.ok (entries.map Prod.fst),
        ⟨loggedDir present entries, entries.length, entries.length⟩) ∧
    Logger.HasNextOp ⟨loggedDir present entries, entries.length, entries.length⟩ = false ∧
    ∃ e, entries.getLast? = some e ∧
      Logger.RecoverGlobalSeq ⟨loggedDir present entries, entries.length, 0⟩ (-1) = (true, e.2) ∧
      KVSNode.new me st (Logger.new (loggedDir present entries)) clock =
        match KVSServer.applyAll { KVSServer.new me st with globalSeq_ := e.2 }
            (replayOps clock (entries.map Prod.fst) 0) with
        | (none, sv) =>
          .ok ⟨sv, ⟨loggedDir present entries, entries.length, entries.length⟩⟩
        | (some err, _) => .error err := by
  obtain ⟨e, he, hd⟩ := loggedDir_spec present entries hne
  have hlen : 0 < entries.length := List.length_pos.mpr hne
  have hmax : getMaxLogIndex (loggedDir present entries) =
      some (((entries.map Prod.fst).length : Int) - 1) := by
    rw [hd]; exact getMaxLogIndex_logFiles _ _ _
  rw [List.length_map] at hmax
  have hlogs : (loggedDir present entries).logs = logFiles (entries.map Prod.fst) 0 := by
    rw [hd]
  have hpres : (loggedDir present entries).present = true := by rw [hd]
  have hstate : (loggedDir present entries).globalSeqState = some (to_string e.2) := by rw [hd]
  have hrecov : (Logger.new (loggedDir present entries)).Recoverable =
      (.ok true, ⟨loggedDir present entries, entries.length, 0⟩) := by
    simp only [Logger.Recoverable, Logger.new, hpres, Bool.not_true, Bool.false_eq_true,
      if_false, hmax]
    have h1 : ((entries.length : Int) > 0) := by omega
    simp only [sub_add_cancel, h1, decide_True]
  have hgs : Logger.RecoverGlobalSeq ⟨loggedDir present entries, entries.length, 0⟩ (-1) =
      (true, e.2) := by
    simp only [Logger.RecoverGlobalSeq, hstate, stoi_to_string, Option.getD_some]
  refine ⟨hlogs, hrecov, ?_, ?_, e, he, hgs, ?_⟩
  · have := Logger.recoverAll_spec (entries.map Prod.fst) entries.length 0 fuel
      ⟨loggedDir present entries, entries.length, 0⟩ hlogs (by simp) rfl (by simp) hfuel
    rw [this]
    simp
  · simp [Logger.HasNextOp]
  · have hloop := KVSNode.recoverLoop_spec clock (entries.map Prod.fst) entries.length 0
      entries.length { KVSServer.new me st with globalSeq_ := e.2 }
      ⟨loggedDir present entries, entries.length, 0⟩ hlogs (by simp) rfl (by simp) (le_refl _)
    simp only [List.drop_zero, List.length_map] at hloop
    have hn : ((entries.length : Int) - 0).toNat = entries.length := by omega
    simp only [KVSNode.new, hrecov, hgs, hn]
    have hsv0 : (KVSServer.new me st).globalSeq_ = -1 := rfl
    rw [hsv0, hgs]
    simp only
    generalize hR : KVSNode.recoverLoop clock entries.length
      ⟨{ KVSServer.new me st with globalSeq_ := e.2 },
        ⟨loggedDir present entries, entries.length, 0⟩⟩ = R at hloop
    generalize hA : KVSServer.applyAll { KVSServer.new me st with globalSeq_ := e.2 }
      (replayOps clock (entries.map Prod.fst) 0) = A at hloop
    obtain ⟨r1, r2⟩ := R
    obtain ⟨a1, a2⟩ := A
    simp only at hloop
    obtain ⟨h1, h2, h3⟩ := hloop
    subst h1
    cases r1 with
    | some err => rfl
    | none =>
      simp only
      have := h3 rfl
      obtain ⟨rs, rl⟩ := r2
      simp only at h2 this
      rw [h2, this]

/-- C14. Persisted global_seq. Ten uncontended PUTs on a fresh replica leave
`globalSeq_ = 9` and the text `9` in `global_seq.state`, and a restart recovers
9. Failing input: on a fresh replica, slot 0 was decided for operation `A` of
another replica and the replica's own request `B` is decided at slot 1. The call
catches up on slot 0, logs `A` with `globalSeq_ = -1` and `B` with `globalSeq_ +
1 = 0`, and ends with `globalSeq_ = 1` in memory but the text `0` in
`global_seq.state`; a restart replays both log files and recovers
`globalSeq_ = 0`. -/
theorem persisted_global_seq_lags :
    (exampleNode.serveAll examplePutsDecided exampleClock 1 examplePuts).map
        (fun r => (r.2.server.globalSeq_, r.2.logger_.dir.globalSeqState)) =
      some (9, some "9".toList) ∧
    (exampleNode.serveAll examplePutsDecided exampleClock 1 examplePuts).map
        (fun r => (KVSNode.new 0 r.2.server.store_.reopen (Logger.new r.2.logger_.dir)
          exampleClock).toOption.map (fun nd => nd.server.globalSeq_)) = some (some 9) ∧
    (exampleNode.makeAgreementAndApplyChange exampleDecided exampleClock 2 exampleOpB).map
        (fun r => (r.1, r.2.1.server.globalSeq_, r.2.1.logger_.dir.globalSeqState,
          r.2.1.logger_.dir.logs)) =
      some (.ok ⟨true, [], []⟩, 1, some "0".toList,
        [("0.log".toList, exampleOpA), ("1.log".toList, exampleOpB)]) ∧
    (exampleNode.makeAgreementAndApplyChange exampleDecided exampleClock 2 exampleOpB).map
        (fun r => (KVSNode.new 0 r.2.1.server.store_.reopen (Logger.new r.2.1.logger_.dir)
          exampleClock).toOption.map (fun nd => (nd.server.globalSeq_, nd.logger_.counter_))) =
      some (some (0, 2)) := by
  refine ⟨by rfl, by rfl, by rfl, by rfl⟩

/-- C15. Failing input for idempotent retries: a single replica serves
`PUT(abc, bcd, 5)`, then `CPUT(abc, bcd, 5 -> 6)` with request id `R1`, which
reports success and is recorded in `visitedRequests_`, then the same request
with the same request id again. The second processing proposes the request for
the next slot, applies it to the store a second time and reports failure, not
the recorded output. Likewise, after `PUT 5` (request id `R0`) and `PUT 7`, a
second processing of the request `R0` writes 5 over 7. -/
theorem retry_is_applied_again :
    (exampleNode.serveAll exampleRetryDecided exampleClock 1 [examplePut5, exampleCPut]).map
        (fun r => (r.1, r.2.server.visitedRequests_ "R1".toList)) =
      some ([.ok ⟨true, [], []⟩, .ok ⟨true, [], []⟩], some ⟨true, [], []⟩) ∧
    (exampleNode.serveAll exampleRetryDecided exampleClock 1 [examplePut5, exampleCPut]).map
        (fun r => (r.2.makeAgreementAndApplyChange exampleRetryDecided exampleClock 1
          exampleCPut).map (fun r1 => (r1.1, r1.2.2))) =
      some (some (.ok ⟨false, [], []⟩,
        [ServerEvent.Start 2 exampleCPut, ServerEvent.Log exampleCPut 2,
          ServerEvent.Apply exampleCPut, ServerEvent.Done 2])) ∧
    (exampleNode.serveAll exampleRetryPutDecided exampleClock 1 [examplePut5, examplePut7]).map
        (fun r => (r.2.server.store_.Get "abc".toList "bcd".toList 15 "-".toList 0).1) =
      some (.ok (some "7".toList)) ∧
    (exampleNode.serveAll exampleRetryPutDecided exampleClock 1
        [examplePut5, examplePut7, examplePut5]).map
        (fun r => (r.1, (r.2.server.store_.Get "abc".toList "bcd".toList 15 "-".toList 0).1)) =
      some ([.ok ⟨true, [], []⟩, .ok ⟨true, [], []⟩, .ok ⟨true, [], []⟩],
        .ok (some "5".toList)) := by
  refine ⟨by rfl, by rfl, by rfl, by rfl⟩

/-- Witness for C12 (as amended). A fresh replica: slot 0 went to `A` of another
replica, the request `B` wins slot 1, and no application raises. -/
theorem catch_up_log_before_apply_witness :
    (∀ j : Nat, j < 1 →
      (exampleDecided (exampleNode.server.globalSeq_ + 1 + j)).requestid ≠
        exampleOpB.requestid) ∧
    (exampleDecided (exampleNode.server.globalSeq_ + 1 + (1 : Nat))).requestid =
      exampleOpB.requestid ∧
    (exampleNode.server.applyAll
      (decidedOps exampleDecided exampleClock 1 (exampleNode.server.globalSeq_ + 1) ++
        [(exampleOpB, exampleClock (exampleNode.server.globalSeq_ + 1 + (1 : Nat)))])).1 = none ∧
    (exampleNode.makeAgreementAndApplyChange exampleDecided exampleClock 2 exampleOpB).map
        (fun r => r.2.2) =
      some [ServerEvent.Start 0 exampleOpB, ServerEvent.Start 1 exampleOpB,
        ServerEvent.Log exampleOpA (-1), ServerEvent.Apply exampleOpA,
        ServerEvent.Log exampleOpB 0, ServerEvent.Apply exampleOpB, ServerEvent.Done 1] := by
  refine ⟨by decide, by decide, by rfl, ?_⟩
  obtain ⟨out, _, h⟩ := (catch_up_log_before_apply exampleNode exampleDecided exampleClock
    exampleOpB 1 2 (by decide) (by decide) (by decide)).1 (by rfl)
  rw [h]
  rfl

/-- Two operations logged into a directory that did not exist, then recovered. -/
theorem log_replay_round_trip_witness :
    exampleEntries ≠ [] ∧
    (loggedDir false exampleEntries).logs =
      [("0.log".toList, exampleOpA), ("1.log".toList, exampleOpB)] ∧
    (Logger.new (loggedDir false exampleEntries)).Recoverable =
      (.ok true, ⟨loggedDir false exampleEntries, 2, 0⟩) ∧
    Logger.recoverAll 2 ⟨loggedDir false exampleEntries, 2, 0⟩ =
      (.ok [exampleOpA, exampleOpB], ⟨loggedDir false exampleEntries, 2, 2⟩) :=
  ⟨by decide, by decide,
    (log_replay_round_trip false exampleEntries (by decide) 0 (Store.new "db".toList 100)
      exampleClock 2 (by decide)).2.1,
    (log_replay_round_trip false exampleEntries (by decide) 0 (Store.new "db".toList 100)
      exampleClock 2 (by decide)).2.2.1⟩

/-! ## Theorems: client library, Paxos handlers and the on-disk layer -/

theorem mem_eraseKey (k : Key) (l : List KeyValuePair) (e : KeyValuePair)
    (h : e ∈ eraseKey k l) : e ∈ l := by
  induction l with
  | nil => simp [eraseKey] at h
  | cons a rest ih =>
    simp only [eraseKey] at h
    split at h
    · exact List.mem_cons_of_mem _ h
    · rcases List.mem_cons.mp h with h | h
      · rw [h]; exact List.mem_cons_self _ _
      · exact List.mem_cons_of_mem _ (ih h)

/-- C21, counterexample. `Scheduler::Put` raises on values whose header plus
length fits, and a raising `Put` may have called the callback. On a scheduler of
capacity 40, `Put(1, 1, "hello")` raises although 32 + 5 is at most 40: the
string is charged 32 + 15. On a scheduler of capacity 50 that holds the cell
`(a, b/c)`, `Put(x, y, "w")`, which fits, raises `runtime_error` after the
callback of the store was called on `(a, b/c)` and created the directory
`db/a`. -/
theorem put_raises_though_length_fits :
    sizeofValue + "hello".toList.length ≤ (Scheduler.new 40).capacity_ ∧
    (Scheduler.new 40).Put noCallback "1".toList "1".toList "hello".toList 15 () =
      (some Err.runtime_error, Scheduler.new 40, ()) ∧
    ((Scheduler.new 50).Put (Store.onEvict "db".toList) "a".toList "b/c".toList "v".toList 15
      Disk.empty) = (none, ⟨[(("a".toList, "b/c".toList), "v".toList)], 50, 47⟩, Disk.empty) ∧
    (Scheduler.mk [(("a".toList, "b/c".toList), "v".toList)] 50 47).Put
      (Store.onEvict "db".toList) "x".toList "y".toList "w".toList 15 Disk.empty =
      (some Err.runtime_error, ⟨[(("a".toList, "b/c".toList), "v".toList)], 50, 47⟩,
        ⟨[], ["db".toList, "db/a".toList]⟩) := by
  decide

/-- C21, amended. Oversized Put is rejected atomically. `Scheduler::Put(row, col,
v)` raises `runtime_error` of its own accord if and only if `sizeof(Value)` plus
the capacity of the string `v` exceeds the capacity of the cache: it then
returns the cache and the state of the callback exactly as they were (no
callback has run), the test being the first statement of `Put`. Otherwise `Put`
raises only what a call of the callback on a cached entry raised, and returns
when the callback returns on every call. At the store, the `Put` that catches
the exception of an oversized value leaves the scheduler (entries, order,
`currSize_`) exactly as it was, and runs `flushToDisk` on the cell itself. -/
theorem oversized_put_rejected {σ : Type} (s : Scheduler) (onEvict : EvictCallback σ)
    (row col v : Str) (capacity : Nat) (env : σ) :
    (s.capacity_ < sizeofValue + capacity →
      s.Put onEvict row col v capacity env = (some Err.runtime_error, s, env)) ∧
    ((∀ e x, (onEvict e x).1 = none) →
      ((∃ err, (s.Put onEvict row col v capacity env).1 = some err) ↔
        s.capacity_ < sizeofValue + capacity) ∧
      ((s.Put onEvict row col v capacity env).1 = some Err.runtime_error ↔
        s.capacity_ < sizeofValue + capacity)) ∧
    (sizeofValue + capacity ≤ s.capacity_ → ∀ err,
      (s.Put onEvict row col v capacity env).1 = some err →
      ∃ lru x, lru ∈ s.cacheList_ ∧ (onEvict lru x).1 = some err) ∧
    (∀ (st : Store) (lockId : Str) (now : Nat), st.scheduler_ = s →
      s.capacity_ < sizeofValue + capacity → st.isResourceLocked row lockId now = false →
      (st.Put row col v capacity lockId now).2.scheduler_ = s ∧
      (st.Put row col v capacity lockId now).2.disk =
        (flushToDisk st.sstableDirectory_ st.disk row col v).2) := by
  refine ⟨Scheduler.Put_oversized s onEvict row col v capacity env, ?_, ?_, ?_⟩
  · intro hcb
    by_cases h : s.capacity_ < sizeofValue + capacity
    · have he := Scheduler.Put_oversized s onEvict row col v capacity env h
      exact ⟨⟨fun _ => h, fun _ => ⟨_, by rw [he]⟩⟩, ⟨fun _ => h, fun _ => by rw [he]⟩⟩
    · have hret := Scheduler.Put_returns s onEvict row col v capacity env (by omega) hcb
      refine ⟨⟨fun ⟨err, he⟩ => ?_, fun h2 => absurd h2 h⟩, ⟨fun he => ?_, fun h2 => absurd h2 h⟩⟩
      · rw [hret] at he; exact absurd he (by simp)
      · rw [hret] at he; exact absurd he (by simp)
  · intro hfit err herr
    obtain ⟨ev, kept, h1, -, -, -, -, h6⟩ := Scheduler.Put_evicts s onEvict row col v capacity env hfit
    obtain ⟨-, -, lru, rest, c1, c2, -⟩ := h6 err herr
    refine ⟨lru, _, ?_, c2⟩
    have hm : lru ∈ eraseKey (row, col) s.cacheList_ := by
      rw [h1, c1]; simp
    exact mem_eraseKey _ _ _ hm
  · intro st lockId now hs hbig hl
    subst hs
    simp only [Store.Put, hl, Bool.false_eq_true, if_false,
      Scheduler.Put_oversized st.scheduler_ _ row col v capacity st.disk hbig]
    cases hf : flushToDisk st.sstableDirectory_ st.disk row col v with
    | mk o d1 => cases o <;> exact ⟨rfl, rfl⟩

/-- Witness for C21 (as amended): `testOversizedItem`. On a cache of capacity 30 a
value of 40 characters is refused and the cache stays empty; the store over such
a cache writes the cell to disk. -/
theorem oversized_put_rejected_witness :
    (Scheduler.new 30).capacity_ < sizeofValue + 40 ∧
    (Scheduler.new 30).Put noCallback "1".toList "1".toList (List.replicate 40 'a') 40 () =
      (some Err.runtime_error, Scheduler.new 30, ()) ∧
    ((Store.new "db".toList 30).Put "1".toList "1".toList (List.replicate 40 'a') 40
      "-".toList 0).2.scheduler_ = Scheduler.new 30 :=
  ⟨by decide,
   (oversized_put_rejected (Scheduler.new 30) noCallback "1".toList "1".toList
      (List.replicate 40 'a') 40 ()).1 (by decide),
   ((oversized_put_rejected (Scheduler.new 30) (Store.onEvict "db".toList) "1".toList
      "1".toList (List.replicate 40 'a') 40 Disk.empty).2.2.2
      (Store.new "db".toList 30) "-".toList 0 rfl (by decide) (by decide)).1⟩

/-- C22. Failing input for key validation: `validateArgs("a-b", "c")` and
`validateArgs("a", "b-c")` return normally, so `Put("a-b", "c", v)` sends its
request. In general `validateArgs(row, col)` raises `invalid_argument` if and
only if `row` or `col` is empty or contains a space; a dash is not tested. -/
theorem validateArgs_accepts_dash :
    validateArgs "a-b".toList "c".toList = .ok () ∧
    validateArgs "a".toList "b-c".toList = .ok () ∧
    (∃ args, (KVSClient.new 7).Put id 1000 9 "a-b".toList "c".toList "v".toList "-".toList
      = .ok args ∧ args.row = "a-b".toList) ∧
    (∀ row col : Str, validateArgs row col = .error Err.invalid_argument ↔
      (row = [] ∨ col = [] ∨ ' ' ∈ row ∨ ' ' ∈ col)) ∧
    (∀ row col : Str, validateArgs row col = .ok () ↔
      ¬ (row = [] ∨ col = [] ∨ ' ' ∈ row ∨ ' ' ∈ col)) := by
  refine ⟨by decide, by decide, ⟨_, rfl, rfl⟩, ?_, ?_⟩
  · intro row col
    unfold validateArgs
    by_cases h1 : row = [] ∨ col = []
    · simp only [if_pos h1, true_iff]
      rcases h1 with h | h
      · exact Or.inl h
      · exact Or.inr (Or.inl h)
    · by_cases h2 : ' ' ∈ row ∨ ' ' ∈ col
      · simp only [if_neg h1, if_pos h2, true_iff]
        rcases h2 with h | h
        · exact Or.inr (Or.inr (Or.inl h))
        · exact Or.inr (Or.inr (Or.inr h))
      · simp only [if_neg h1, if_neg h2]
        constructor
        · intro h; cases h
        · intro h
          rcases h with h | h | h | h
          · exact absurd (Or.inl h) h1
          · exact absurd (Or.inr h) h1
          · exact absurd (Or.inl h) h2
          · exact absurd (Or.inr h) h2
  · intro row col
    unfold validateArgs
    by_cases h1 : row = [] ∨ col = []
    · simp only [if_pos h1]
      constructor
      · intro h; cases h
      · intro h
        rcases h1 with h1 | h1
        · exact absurd (Or.inl h1) h
        · exact absurd (Or.inr (Or.inl h1)) h
    · by_cases h2 : ' ' ∈ row ∨ ' ' ∈ col
      · simp only [if_neg h1, if_pos h2]
        constructor
        · intro h; cases h
        · intro h
          rcases h2 with h2 | h2
          · exact absurd (Or.inr (Or.inr (Or.inl h2))) h
          · exact absurd (Or.inr (Or.inr (Or.inr h2))) h
      · simp only [if_neg h1, if_neg h2, true_iff]
        intro h
        rcases h with h | h | h | h
        · exact h1 (Or.inl h)
        · exact h1 (Or.inr h)
        · exact h2 (Or.inl h)
        · exact h2 (Or.inr h)

/-- C23. Decide is idempotent. Handling `Decide(seq, v)` replies ok and leaves
instance `seq` marked `Decided` with `DecidedV = v`, the other fields of that
instance, every other slot, the acceptor table and the rest of the state
unchanged; handling it a second time replies ok again and leaves exactly the
state reached after the first. -/
theorem decide_idempotent (r : PaxosImpl) (args : DecideArgs) :
    (r.Decide args).1.ok = true ∧
    ((r.Decide args).2.Decide args).1.ok = true ∧
    ((r.Decide args).2.Decide args).2 = (r.Decide args).2 ∧
    (∃ inst, (r.Decide args).2.instances_ args.seq = some inst ∧ inst.Decided = true ∧
      inst.DecidedV = args.v ∧
      inst.HighestAcN = ((r.instances_ args.seq).getD Instance.new).HighestAcN ∧
      inst.HighestAcV = ((r.instances_ args.seq).getD Instance.new).HighestAcV ∧
      inst.HighestSeen = ((r.instances_ args.seq).getD Instance.new).HighestSeen) ∧
    (∀ k, k ≠ args.seq → (r.Decide args).2.instances_ k = r.instances_ k) ∧
    (r.Decide args).2.acceptorIns_ = r.acceptorIns_ ∧
    (r.Decide args).2.peerDone_ = r.peerDone_ ∧
    (r.Decide args).2.doneFreed_ = r.doneFreed_ ∧
    (r.Decide args).2.highestSeqSeen_ = r.highestSeqSeen_ ∧
    (r.Decide args).2.me_ = r.me_ := by
  refine ⟨rfl, rfl, ?_, ?_, ?_, rfl, rfl, rfl, rfl, rfl⟩
  · obtain ⟨me, pc, ins, acc, hs, pd, df⟩ := r
    simp only [PaxosImpl.Decide, if_true, PaxosImpl.mk.injEq, true_and, and_true]
    funext k
    by_cases hk : k = args.seq
    · simp only [hk, if_true]
      cases ins args.seq <;> rfl
    · simp only [hk, if_false]
  · cases hi : r.instances_ args.seq with
    | none =>
      exact ⟨{ Instance.new with Decided := true, DecidedV := args.v },
        by simp [PaxosImpl.Decide, hi], rfl, rfl, rfl, rfl, rfl⟩
    | some it =>
      exact ⟨{ it with Decided := true, DecidedV := args.v },
        by simp [PaxosImpl.Decide, hi], rfl, rfl, rfl, rfl, rfl⟩
  · intro k hk
    simp [PaxosImpl.Decide, hk]

theorem KVSClient.generateID_ne_nil (c : KVSClient) (wallclock : Int) (rnd : Nat) :
    c.generateID wallclock rnd ≠ [] := by
  unfold KVSClient.generateID
  simp

/-- C29. Failing input for request ids: the requests that `DoGetAllRows` and
`DoGetColsInRow` send carry an empty `request_id` (no `set_requestid` call),
whatever the client state. The requests of `DoPut`, `DoGet`, `DoSetNX` and
`DoDel` carry the string `generateID()` returns, which has the form
`<clientID>-<wallclock>-<transactionID>-<random>` and is not empty. -/
theorem enumeration_requests_lack_id (c : KVSClient) (to_base64 : Str → Str)
    (wallclock : Int) (keyRnd rnd : Nat) (row col newValue oldValue key : Str) (option : Int) :
    c.DoGetAllRows.requestid = [] ∧
    (c.DoGetColsInRow row key).requestid = [] ∧
    (c.DoPut to_base64 wallclock rnd row col newValue oldValue key option).requestid =
      c.generateID wallclock rnd ∧
    (c.DoGet wallclock rnd row col key).requestid = c.generateID wallclock rnd ∧
    (c.DoSetNX wallclock keyRnd rnd row).requestid = c.generateID wallclock rnd ∧
    (c.DoDel wallclock rnd row).requestid = c.generateID wallclock rnd ∧
    c.generateID wallclock rnd =
      to_string (c.clientID_ : Int) ++ "-".toList ++ to_string wallclock ++ "-".toList ++
        to_string (c.transactionID_ : Int) ++ "-".toList ++ to_string (rnd : Int) ∧
    c.generateID wallclock rnd ≠ [] ∧
    (KVSClient.new 42).generateID 1700000000 99 = "42-1700000000-1-99".toList :=
  ⟨rfl, rfl, rfl, rfl, rfl, rfl, rfl, KVSClient.generateID_ne_nil c wallclock rnd, by decide⟩

theorem SharedPrepareState.updateAll_done (st : SharedPrepareState) (h : st.done = true)
    (replies : List (PrepareReply × Bool)) : st.updateAll replies = st := by
  induction replies with
  | nil => rfl
  | cons x rest ih =>
    have : st.update x.1 x.2 = st := by simp [SharedPrepareState.update, h]
    simp only [SharedPrepareState.updateAll, this, ih]

/-- The state after a run of `update` calls that started from a state not yet
marked done. -/
theorem SharedPrepareState.updateAll_spec (v : Op) (st : SharedPrepareState)
    (replies seen : List (PrepareReply × Bool))
    (hd : st.done = false)
    (hok : st.prepareOKCount = ((seen.filter countedReply).length : Int))
    (hall : st.allResopnse = (seen.length : Int))
    (hlow : -1 ≤ st.highestNAccepted)
    (hmax : ∀ x ∈ seen, countedReply x = true → x.1.na ≤ st.highestNAccepted)
    (hsel : (st.highestNAccepted = -1 ∧ st.nextPhaseV = v) ∨
      (-1 < st.highestNAccepted ∧ ∃ x ∈ seen, countedReply x = true ∧
        x.1.na = st.highestNAccepted ∧ x.1.va = st.nextPhaseV)) :
    (st.updateAll replies).done = false ∧
    (st.updateAll replies).prepareOKCount =
      (((seen ++ replies).filter countedReply).length : Int) ∧
    (st.updateAll replies).allResopnse = ((seen ++ replies).length : Int) ∧
    -1 ≤ (st.updateAll replies).highestNAccepted ∧
    (∀ x ∈ seen ++ replies, countedReply x = true →
      x.1.na ≤ (st.updateAll replies).highestNAccepted) ∧
    (((st.updateAll replies).highestNAccepted = -1 ∧ (st.updateAll replies).nextPhaseV = v) ∨
      (-1 < (st.updateAll replies).highestNAccepted ∧ ∃ x ∈ seen ++ replies,
        countedReply x = true ∧ x.1.na = (st.updateAll replies).highestNAccepted ∧
        x.1.va = (st.updateAll replies).nextPhaseV)) := by
  induction replies generalizing st seen with
  | nil =>
    simp only [SharedPrepareState.updateAll, List.append_nil]
    exact ⟨hd, hok, hall, hlow, hmax, hsel⟩
  | cons x rest ih =>
    have hnd : ¬ st.done = true := by simp [hd]
    have happ : seen ++ x :: rest = (seen ++ [x]) ++ rest := by simp
    simp only [SharedPrepareState.updateAll]
    rw [happ]
    by_cases hc : countedReply x = true
    · have hc2 : (x.2 && x.1.ok) = true := hc
      by_cases hgt : x.1.na > st.highestNAccepted
      · have hu : st.update x.1 x.2 =
            ⟨x.1.na, st.prepareOKCount + 1, st.allResopnse + 1, x.1.va, st.done⟩ := by
          simp only [SharedPrepareState.update, if_neg hnd, hc2, if_true, if_pos hgt]
        rw [hu]
        apply ih
        · exact hd
        · show st.prepareOKCount + 1 = _
          simp only [List.filter_append, List.filter_cons, hc, if_true, List.filter_nil,
            List.length_append, List.length_singleton]
          push_cast; omega
        · show st.allResopnse + 1 = _
          simp only [List.length_append, List.length_singleton]
          push_cast; omega
        · show -1 ≤ x.1.na
          omega
        · intro y hy hyc
          show y.1.na ≤ x.1.na
          rcases List.mem_append.mp hy with h | h
          · have := hmax y h hyc; omega
          · simp only [List.mem_singleton] at h
            rw [h]
        · right
          refine ⟨by show -1 < x.1.na; omega, x, by simp, hc, rfl, rfl⟩
      · have hu : st.update x.1 x.2 = ⟨st.highestNAccepted, st.prepareOKCount + 1,
            st.allResopnse + 1, st.nextPhaseV, st.done⟩ := by
          simp only [SharedPrepareState.update, if_neg hnd, hc2, if_true, if_neg hgt]
        rw [hu]
        apply ih
        · exact hd
        · show st.prepareOKCount + 1 = _
          simp only [List.filter_append, List.filter_cons, hc, if_true, List.filter_nil,
            List.length_append, List.length_singleton]
          push_cast; omega
        · show st.allResopnse + 1 = _
          simp only [List.length_append, List.length_singleton]
          push_cast; omega
        · exact hlow
        · intro y hy hyc
          show y.1.na ≤ st.highestNAccepted
          rcases List.mem_append.mp hy with h | h
          · exact hmax y h hyc
          · simp only [List.mem_singleton] at h
            rw [h]; omega
        · rcases hsel with h | ⟨h1, y, hy, h2⟩
          · exact Or.inl h
          · exact Or.inr ⟨h1, y, List.mem_append_left _ hy, h2⟩
    · have hc2 : ¬ (x.2 && x.1.ok) = true := hc
      have hu : st.update x.1 x.2 = { st with allResopnse := st.allResopnse + 1 } := by
        simp only [SharedPrepareState.update, if_neg hnd, if_neg hc2]
      rw [hu]
      apply ih
      · exact hd
      · show st.prepareOKCount = _
        simp only [List.filter_append, List.filter_cons, hc, List.filter_nil,
          List.length_append, List.length_nil, Bool.false_eq_true, if_false]
        push_cast; omega
      · show st.allResopnse + 1 = _
        simp only [List.length_append, List.length_singleton]
        push_cast; omega
      · exact hlow
      · intro y hy hyc
        show y.1.na ≤ st.highestNAccepted
        rcases List.mem_append.mp hy with h | h
        · exact hmax y h hyc
        · simp only [List.mem_singleton] at h
          rw [h] at hyc; exact absurd hyc hc
      · rcases hsel with h | ⟨h1, y, hy, h2⟩
        · exact Or.inl h
        · exact Or.inr ⟨h1, y, List.mem_append_left _ hy, h2⟩

/-- C27. Value selection after the prepare phase. For every own operation `v`
and every sequence of replies fed to `SharedPrepareState::update` before
`donePrepare`: `prepareOKCount` is the number of replies whose call succeeded
and that have `ok`, `allResopnse` is the number of replies, `highestNAccepted`
is at least every `n_a` of such a reply, and `nextPhaseV` is the own `v` when no
such reply has `n_a > -1`, and otherwise the `v_a` of such a reply whose `n_a` is
the largest. After `donePrepare` further replies change nothing. -/
theorem prepare_value_selection (v : Op) (replies late : List (PrepareReply × Bool)) :
    ((SharedPrepareState.new v).updateAll replies).prepareOKCount =
      ((replies.filter countedReply).length : Int) ∧
    ((SharedPrepareState.new v).updateAll replies).allResopnse = (replies.length : Int) ∧
    (∀ x ∈ replies, countedReply x = true →
      x.1.na ≤ ((SharedPrepareState.new v).updateAll replies).highestNAccepted) ∧
    (((∀ x ∈ replies, countedReply x = true → x.1.na ≤ -1) ∧
        ((SharedPrepareState.new v).updateAll replies).nextPhaseV = v) ∨
      ((∃ x ∈ replies, countedReply x = true ∧ -1 < x.1.na) ∧
        ∃ x ∈ replies, countedReply x = true ∧
          (∀ y ∈ replies, countedReply y = true → y.1.na ≤ x.1.na) ∧
          x.1.va = ((SharedPrepareState.new v).updateAll replies).nextPhaseV)) ∧
    (((SharedPrepareState.new v).updateAll replies).donePrepare.updateAll late =
      ((SharedPrepareState.new v).updateAll replies).donePrepare) := by
  have hlow : (-1 : Int) ≤ (SharedPrepareState.new v).highestNAccepted := le_refl _
  have h := SharedPrepareState.updateAll_spec v (SharedPrepareState.new v) replies [] rfl rfl rfl
    hlow (by simp) (Or.inl ⟨rfl, rfl⟩)
  simp only [List.nil_append] at h
  obtain ⟨_, h2, h3, _, h5, h6⟩ := h
  refine ⟨h2, h3, h5, ?_, SharedPrepareState.updateAll_done _ rfl late⟩
  rcases h6 with ⟨ha, hb⟩ | ⟨ha, x, hx, hc, hna, hva⟩
  · left
    exact ⟨fun y hy hyc => by have := h5 y hy hyc; omega, hb⟩
  · right
    refine ⟨⟨x, hx, hc, by omega⟩, x, hx, hc, ?_, hva⟩
    intro y hy hyc
    have := h5 y hy hyc
    omega

theorem generateUniqueN_eq (me : Nat) (h : Int) (hh : -1 ≤ h) (hme : me < 256) :
    generateUniqueN me h = (h / 256 + 1) * 256 + (me : Int) := by
  have hx : 0 ≤ h / 256 + 1 := by omega
  obtain ⟨a, ha⟩ := Int.eq_ofNat_of_zero_le hx
  unfold generateUniqueN PEER_ID_BITS
  rw [Int.shiftRight_eq_div_pow, Int.shiftLeft_eq_mul_pow]
  have h256 : ((2 ^ 8 : Nat) : Int) = 256 := by norm_num
  rw [h256, ha]
  have hmul : (a : Int) * 256 = ((2 ^ 8 * a : Nat) : Int) := by push_cast; ring
  rw [hmul]
  show ((2 ^ 8 * a ||| me : Nat) : Int) = _
  rw [← Nat.mul_add_lt_is_or (by norm_num; exact hme) a]
  push_cast
  omega

theorem parseUniqueN_eq (a me : Nat) (hme : me < 256) :
    parseUniqueN ((a : Int) * 256 + (me : Int)) = ((a : Int), (me : Int)) := by
  unfold parseUniqueN PEER_ID_BITS
  have h1 : ((1 : Int) <<< ((8 : Nat) : Int)) - 1 = ((2 ^ 8 - 1 : Nat) : Int) := by
    rw [Int.shiftLeft_eq_mul_pow]; norm_num
  have hn : (a : Int) * 256 + (me : Int) = ((a * 256 + me : Nat) : Int) := by push_cast; ring
  rw [h1, hn, Int.shiftRight_eq_div_pow]
  have hland : Int.land ((a * 256 + me : Nat) : Int) ((2 ^ 8 - 1 : Nat) : Int) =
      ((a * 256 + me &&& 2 ^ 8 - 1 : Nat) : Int) := rfl
  rw [hland, Nat.and_pow_two_sub_one_eq_mod]
  have e1 : ((a * 256 + me : Nat) : Int) / ((2 ^ 8 : Nat) : Int) = (a : Int) := by
    norm_num
    omega
  have e2 : (a * 256 + me) % 2 ^ 8 = me := by
    norm_num
    omega
  rw [e1, e2]

/-- C26. Proposal numbers. For every highest-seen number `h ≥ -1` and replica
index `me < 256`, with unbounded integers, `n = generateUniqueN(h)` equals
`((h >> 8) + 1) * 256 + me`; it is larger than `h`; `n mod 256 = me`;
`parseUniqueN(n)` gives `((h >> 8) + 1, me)`; a replica with another index below
256 never generates `n`; and a retry that starts from a highest-seen value at
least `n` generates a number larger than `n`. -/
theorem proposal_numbers (me : Nat) (h : Int) (hh : -1 ≤ h) (hme : me < 256) :
    generateUniqueN me h = ((h >>> PEER_ID_BITS) + 1) * 256 + (me : Int) ∧
    h < generateUniqueN me h ∧
    generateUniqueN me h % 256 = (me : Int) ∧
    parseUniqueN (generateUniqueN me h) = ((h >>> PEER_ID_BITS) + 1, (me : Int)) ∧
    (∀ (me1 : Nat) (h1 : Int), -1 ≤ h1 → me1 < 256 → me1 ≠ me →
      generateUniqueN me1 h1 ≠ generateUniqueN me h) ∧
    (∀ h1 : Int, generateUniqueN me h ≤ h1 → generateUniqueN me h < generateUniqueN me h1) := by
  have hshift : h >>> PEER_ID_BITS = h / 256 := by
    unfold PEER_ID_BITS
    rw [Int.shiftRight_eq_div_pow]; norm_num
  have heq := generateUniqueN_eq me h hh hme
  have hx : 0 ≤ h / 256 + 1 := by omega
  obtain ⟨a, ha⟩ := Int.eq_ofNat_of_zero_le hx
  rw [hshift]
  refine ⟨heq, ?_, ?_, ?_, ?_, ?_⟩
  · rw [heq]; omega
  · rw [heq]; omega
  · rw [heq, ha]; exact parseUniqueN_eq a me hme
  · intro me1 h1 hh1 hme1 hne e
    rw [heq, generateUniqueN_eq me1 h1 hh1 hme1] at e
    omega
  · intro h1 hle
    have hh1 : -1 ≤ h1 := by rw [heq] at hle; omega
    have := generateUniqueN_eq me h1 hh1 hme
    rw [this]
    omega

theorem proposal_numbers_witness :
    (-1 : Int) ≤ 259 ∧ 3 < 256 ∧ generateUniqueN 3 259 = 515 ∧ (259 : Int) < 515 ∧
    parseUniqueN 515 = (2, 3) ∧ generateUniqueN 3 (-1) = 3 ∧
    (259 : Int) < generateUniqueN 3 259 :=
  ⟨by decide, by decide, by decide, by decide, by decide, by decide,
    (proposal_numbers 3 259 (by decide) (by decide)).2.1⟩

theorem PaxosImpl.collectGarbage_spec (r : PaxosImpl) :
    (∀ k, r.collectGarbage.acceptorIns_ k =
      if r.doneFreed_ < getMinSeqNum r.peerDone_ ∧ k < getMinSeqNum r.peerDone_ then none
      else r.acceptorIns_ k) ∧
    (∀ k, r.collectGarbage.instances_ k =
      if r.doneFreed_ < getMinSeqNum r.peerDone_ ∧ k < getMinSeqNum r.peerDone_ then none
      else r.instances_ k) ∧
    r.collectGarbage.doneFreed_ = max r.doneFreed_ (getMinSeqNum r.peerDone_) ∧
    r.collectGarbage.peerDone_ = r.peerDone_ ∧
    r.collectGarbage.me_ = r.me_ ∧
    r.collectGarbage.highestSeqSeen_ = r.highestSeqSeen_ ∧
    (getMinSeqNum r.peerDone_ ≤ r.doneFreed_ → r.collectGarbage = r) := by
  unfold PaxosImpl.collectGarbage
  simp only
  by_cases h : getMinSeqNum r.peerDone_ > r.doneFreed_
  · simp only [if_pos h]
    have h' : r.doneFreed_ < getMinSeqNum r.peerDone_ := h
    refine ⟨fun k => ?_, fun k => ?_, ?_, trivial, trivial, trivial,
      fun h2 => absurd h2 (by omega)⟩
    · by_cases hk : k < getMinSeqNum r.peerDone_
      · simp only [hk, if_true, h', and_self]
      · simp only [hk, if_false, and_false]
    · by_cases hk : k < getMinSeqNum r.peerDone_
      · simp only [hk, if_true, h', and_self]
      · simp only [hk, if_false, and_false]
    · show getMinSeqNum r.peerDone_ = _
      rw [max_eq_right (le_of_lt h')]
  · simp only [if_neg h]
    have h' : ¬ r.doneFreed_ < getMinSeqNum r.peerDone_ := h
    refine ⟨fun k => ?_, fun k => ?_, ?_, trivial, trivial, trivial, fun _ => trivial⟩
    · simp only [h', false_and, if_false]
    · simp only [h', false_and, if_false]
    · rw [max_eq_left (by omega)]

/-- What `MinKnownSeq()` does. It returns `m = min over peerDone_ + 1`. The
`collectGarbage()` it runs frees something only when `m` exceeds `doneFreed_`,
the bound of the last collection: in that case neither `instances_` nor
`acceptorIns_` holds an entry below `m` afterwards and `doneFreed_` becomes
`m`; otherwise the whole state is unchanged, entries below `m` included. In both
cases every entry with `seq ≥ m` is unchanged. -/
theorem PaxosImpl.MinKnownSeq_effect (r : PaxosImpl) :
    r.MinKnownSeq.1 = getMinSeqNum r.peerDone_ ∧
    (∀ k, r.MinKnownSeq.1 ≤ k →
      r.MinKnownSeq.2.instances_ k = r.instances_ k ∧
      r.MinKnownSeq.2.acceptorIns_ k = r.acceptorIns_ k) ∧
    (r.doneFreed_ < r.MinKnownSeq.1 →
      (∀ k, k < r.MinKnownSeq.1 →
        r.MinKnownSeq.2.instances_ k = none ∧ r.MinKnownSeq.2.acceptorIns_ k = none) ∧
      r.MinKnownSeq.2.doneFreed_ = r.MinKnownSeq.1) ∧
    (r.MinKnownSeq.1 ≤ r.doneFreed_ → r.MinKnownSeq.2 = r) ∧
    r.MinKnownSeq.2.peerDone_ = r.peerDone_ := by
  have h := PaxosImpl.collectGarbage_spec r
  refine ⟨rfl, fun k hk => ?_, fun hlt => ⟨fun k hk => ?_, ?_⟩, h.2.2.2.2.2.2, h.2.2.2.1⟩
  · have hk' : ¬ k < getMinSeqNum r.peerDone_ := by
      have : getMinSeqNum r.peerDone_ ≤ k := hk
      omega
    constructor
    · show r.collectGarbage.instances_ k = _
      rw [h.2.1 k]; simp only [hk', and_false, if_false]
    · show r.collectGarbage.acceptorIns_ k = _
      rw [h.1 k]; simp only [hk', and_false, if_false]
  · have hlt' : r.doneFreed_ < getMinSeqNum r.peerDone_ := hlt
    have hk' : k < getMinSeqNum r.peerDone_ := hk
    constructor
    · show r.collectGarbage.instances_ k = _
      rw [h.2.1 k]; simp only [hlt', hk', and_self, if_true]
    · show r.collectGarbage.acceptorIns_ k = _
      rw [h.1 k]; simp only [hlt', hk', and_self, if_true]
  · have hlt' : r.doneFreed_ < getMinSeqNum r.peerDone_ := hlt
    show r.collectGarbage.doneFreed_ = getMinSeqNum r.peerDone_
    rw [h.2.2.1, max_eq_right (le_of_lt hlt')]

/-- C28. Failing input for forgetting below Min: a single replica runs `Done(5)`,
`Start(9, A)` (whose `MinKnownSeq()` collects everything below 6, so that
`doneFreed_` is 6), then handles `Accept(2, 1, A)` and `Decide(2, A)`, which
create records for slot 2 without comparing it with the minimum. In the state
reached, `MinKnownSeq()` returns 6, the minimum over `peerDone_` plus one, and
frees nothing, since 6 does not exceed `doneFreed_`: both tables still hold an
entry for slot 2. -/
theorem entries_below_min_survive :
    (((PaxosImpl.new 1 0).steps
      [ReplicaStep.call (ReplicaCall.Done 5), ReplicaStep.Start 9 exampleOpA,
       ReplicaStep.call (ReplicaCall.Accept ⟨2, 1, exampleOpA⟩),
       ReplicaStep.call (ReplicaCall.Decide ⟨2, exampleOpA⟩)]).MinKnownSeq).1 = 6 ∧
    (((PaxosImpl.new 1 0).steps
      [ReplicaStep.call (ReplicaCall.Done 5), ReplicaStep.Start 9 exampleOpA,
       ReplicaStep.call (ReplicaCall.Accept ⟨2, 1, exampleOpA⟩),
       ReplicaStep.call (ReplicaCall.Decide ⟨2, exampleOpA⟩)]).MinKnownSeq).2.instances_ 2 =
      some ⟨0, Op.fresh, 0, true, exampleOpA⟩ ∧
    (((PaxosImpl.new 1 0).steps
      [ReplicaStep.call (ReplicaCall.Done 5), ReplicaStep.Start 9 exampleOpA,
       ReplicaStep.call (ReplicaCall.Accept ⟨2, 1, exampleOpA⟩),
       ReplicaStep.call (ReplicaCall.Decide ⟨2, exampleOpA⟩)]).MinKnownSeq).2.acceptorIns_ 2 =
      some ⟨1, exampleOpA, 1, false, Op.fresh⟩ := by
  decide

theorem accKept_of_eq (r r1 : PaxosImpl) (k : Int) (h : r1.acceptorIns_ k = r.acceptorIns_ k) :
    AccKept r r1 k := by
  unfold AccKept PaxosImpl.acceptorRecord
  rw [h]
  exact ⟨le_refl _, fun x => x⟩

theorem accStep_of_eq (r r1 : PaxosImpl) (h1 : r1.acceptorIns_ = r.acceptorIns_)
    (h2 : r1.doneFreed_ = r.doneFreed_) : AccStep r r1 :=
  ⟨by rw [h2], fun k => Or.inr (accKept_of_eq r r1 k (by rw [h1]))⟩

theorem accStep_congr_right {r r1 : PaxosImpl} (h : AccStep r r1) (r2 : PaxosImpl)
    (h1 : r2.acceptorIns_ = r1.acceptorIns_) (h2 : r2.doneFreed_ = r1.doneFreed_) :
    AccStep r r2 := by
  refine ⟨by rw [h2]; exact h.1, fun k => ?_⟩
  rcases h.2 k with ⟨a, b, c⟩ | ⟨a, b⟩
  · left; exact ⟨by rw [h1]; exact a, by rw [h2]; exact b, by rw [h2]; exact c⟩
  · right
    unfold AccKept PaxosImpl.acceptorRecord at *
    rw [h1]
    exact ⟨a, b⟩

/-- A step that keeps or raises every record and then runs `collectGarbage()`. -/
theorem accStep_gc (r r1 : PaxosImpl) (h1 : r1.doneFreed_ = r.doneFreed_)
    (h2 : ∀ k, AccKept r r1 k) : AccStep r r1.collectGarbage := by
  have hg := PaxosImpl.collectGarbage_spec r1
  refine ⟨by rw [hg.2.2.1, h1]; exact le_max_left _ _, fun k => ?_⟩
  by_cases hf : r1.doneFreed_ < getMinSeqNum r1.peerDone_ ∧ k < getMinSeqNum r1.peerDone_
  · left
    refine ⟨by rw [hg.1 k, if_pos hf], ?_, ?_⟩
    · rw [hg.2.2.1, ← h1, max_eq_right (le_of_lt hf.1)]; exact hf.1
    · rw [hg.2.2.1, max_eq_right (le_of_lt hf.1)]; exact hf.2
  · right
    have hk : r1.collectGarbage.acceptorIns_ k = r1.acceptorIns_ k := by
      rw [hg.1 k, if_neg hf]
    have := h2 k
    unfold AccKept PaxosImpl.acceptorRecord at *
    rw [hk]
    exact this

theorem accKept_setAcceptor (r : PaxosImpl) (seq : Int) (acc : Instance)
    (hs : (r.acceptorRecord seq).HighestSeen ≤ acc.HighestSeen)
    (ha : (r.acceptorRecord seq).HighestAcN ≤ (r.acceptorRecord seq).HighestSeen →
      acc.HighestAcN ≤ acc.HighestSeen) (k : Int) :
    AccKept r (r.setAcceptor seq acc) k := by
  unfold AccKept
  rw [PaxosImpl.acceptorRecord_setAcceptor]
  by_cases hk : k = seq
  · subst hk
    simp only [if_true]
    exact ⟨hs, ha⟩
  · simp only [hk, if_false]
    exact ⟨le_refl _, fun x => x⟩

theorem PaxosImpl.Accept_effect (r : PaxosImpl) (args : AcceptArgs) :
    (r.Accept args).1.ok = decide (args.n ≥ (r.acceptorRecord args.seq).HighestSeen) ∧
    (args.n ≥ (r.acceptorRecord args.seq).HighestSeen →
      (r.Accept args).1.n = args.n ∧
      (r.Accept args).2 = r.setAcceptor args.seq
        { r.acceptorRecord args.seq with
          HighestSeen := args.n, HighestAcN := args.n, HighestAcV := args.v }) ∧
    (¬ args.n ≥ (r.acceptorRecord args.seq).HighestSeen → (r.Accept args).2 = r) := by
  unfold PaxosImpl.Accept
  by_cases hn : args.n ≥ (r.acceptorRecord args.seq).HighestSeen
  · rw [if_pos hn]
    exact ⟨by simp [hn], fun _ => ⟨rfl, rfl⟩, fun h => absurd hn h⟩
  · rw [if_neg hn]
    exact ⟨by simp [hn, AcceptReply.new], fun h => absurd h hn, fun _ => rfl⟩

theorem PaxosImpl.call_accStep (r : PaxosImpl) (c : ReplicaCall) : AccStep r (r.call c) := by
  cases c with
  | Done seq => exact accStep_of_eq _ _ rfl rfl
  | Prepare args =>
    show AccStep r (r.Prepare args).2
    unfold PaxosImpl.Prepare
    simp only
    split
    · rename_i hgt
      unfold PaxosImpl.prepareTail
      simp only
      apply accStep_gc
      · rfl
      · intro k
        exact accKept_setAcceptor r args.seq _ (le_of_lt hgt) (fun h => by
          show (r.acceptorRecord args.seq).HighestAcN ≤ args.n
          have : (r.acceptorRecord args.seq).HighestSeen < args.n := hgt
          omega) k
    · unfold PaxosImpl.prepareTail
      simp only
      apply accStep_gc
      · rfl
      · intro k; exact accKept_of_eq _ _ k rfl
  | prepareReply i reply => exact accStep_of_eq _ _ rfl rfl
  | Accept args =>
    show AccStep r (r.Accept args).2
    have h := PaxosImpl.Accept_effect r args
    by_cases hn : args.n ≥ (r.acceptorRecord args.seq).HighestSeen
    · rw [(h.2.1 hn).2]
      exact ⟨le_refl _, fun k => Or.inr
        (accKept_setAcceptor r args.seq _ hn (fun _ => le_refl _) k)⟩
    · rw [h.2.2 hn]
      exact accStep_of_eq _ _ rfl rfl
  | Decide args => exact accStep_of_eq _ _ rfl rfl
  | MinKnownSeq =>
    show AccStep r r.collectGarbage
    exact accStep_gc r r rfl (fun k => accKept_of_eq _ _ k rfl)
  | proposeHead seq =>
    show AccStep r (r.proposeHead seq).2
    have hg : AccStep r r.collectGarbage :=
      accStep_gc r r rfl (fun k => accKept_of_eq _ _ k rfl)
    unfold PaxosImpl.proposeHead
    simp only
    split
    · exact accStep_congr_right hg _ rfl rfl
    · exact accStep_congr_right hg _ rfl rfl

theorem PaxosImpl.step_accStep (r : PaxosImpl) (s : ReplicaStep) : AccStep r (r.step s) := by
  have hg : AccStep r r.collectGarbage :=
    accStep_gc r r rfl (fun k => accKept_of_eq _ _ k rfl)
  cases s with
  | call c => exact PaxosImpl.call_accStep r c
  | Start seq v =>
    show AccStep r (r.Start seq v).2
    unfold PaxosImpl.Start PaxosImpl.MinKnownSeq
    simp only
    split
    · exact hg
    · split
      · split
        · split
          · exact accStep_congr_right hg _ rfl rfl
          · exact accStep_congr_right hg _ rfl rfl
        · split
          · exact accStep_congr_right hg _ rfl rfl
          · exact accStep_congr_right hg _ rfl rfl
      · split
        · exact accStep_congr_right hg _ rfl rfl
        · exact accStep_congr_right hg _ rfl rfl
  | Status seq => exact accStep_of_eq _ _ rfl rfl
  | MaxKnownSeq => exact accStep_of_eq _ _ rfl rfl

theorem PaxosImpl.steps_accepted_le_seen (r : PaxosImpl) (ss : List ReplicaStep)
    (h : ∀ k, (r.acceptorRecord k).HighestAcN ≤ (r.acceptorRecord k).HighestSeen) (k : Int) :
    ((r.steps ss).acceptorRecord k).HighestAcN ≤ ((r.steps ss).acceptorRecord k).HighestSeen := by
  induction ss generalizing r with
  | nil => exact h k
  | cons s rest ih =>
    apply ih (r.step s)
    intro j
    rcases (PaxosImpl.step_accStep r s).2 j with ⟨a, _, _⟩ | ⟨_, b⟩
    · unfold PaxosImpl.acceptorRecord
      rw [a]
      decide
    · exact b (h j)

theorem PaxosImpl.steps_seen_mono (r : PaxosImpl) (ss : List ReplicaStep) :
    r.doneFreed_ ≤ (r.steps ss).doneFreed_ ∧
    ∀ k, (r.doneFreed_ < (r.steps ss).doneFreed_ ∧ k < (r.steps ss).doneFreed_) ∨
      (r.acceptorRecord k).HighestSeen ≤ ((r.steps ss).acceptorRecord k).HighestSeen := by
  induction ss generalizing r with
  | nil => exact ⟨le_refl _, fun k => Or.inr (le_refl _)⟩
  | cons s rest ih =>
    have h1 := PaxosImpl.step_accStep r s
    have h2 := ih (r.step s)
    show r.doneFreed_ ≤ ((r.step s).steps rest).doneFreed_ ∧
      ∀ k, (r.doneFreed_ < ((r.step s).steps rest).doneFreed_ ∧
          k < ((r.step s).steps rest).doneFreed_) ∨
        (r.acceptorRecord k).HighestSeen ≤
          (((r.step s).steps rest).acceptorRecord k).HighestSeen
    refine ⟨le_trans h1.1 h2.1, fun k => ?_⟩
    rcases h1.2 k with ⟨_, b, c⟩ | ⟨a, _⟩
    · left
      exact ⟨lt_of_lt_of_le b h2.1, lt_of_lt_of_le c h2.1⟩
    · rcases h2.2 k with ⟨b, c⟩ | d
      · left
        exact ⟨lt_of_le_of_lt h1.1 b, c⟩
      · right
        exact le_trans a d

/-- C25. Accept handler. For every replica state `r` and `Accept(seq, n, v)`, an
absent acceptor record counting as promised = -1: the reply has `ok = true`
exactly when `n ≥ HighestSeen[seq]`; when ok, the reply carries `n` and the record
of `seq` becomes `HighestSeen = HighestAcN = n`, `HighestAcV = v` (its other
fields as before); when not ok, the record of `seq` is unchanged; the records of
all other slots are unchanged in both cases. Hence in every state reached from a
fresh replica by Start, Status, MaxKnownSeq, MinKnownSeq, Done, Prepare, Accept,
Decide and the proposer's own bookkeeping, `HighestAcN ≤ HighestSeen` for every
slot; and over any run from any state, `HighestSeen` of a slot has not decreased
as long as the run did not garbage-collect the slot, that is, as long as
`doneFreed_` was not raised above it. -/
theorem accept_handler (r : PaxosImpl) (args : AcceptArgs) (N me : Nat)
    (ss : List ReplicaStep) (k : Int) :
    ((r.Accept args).1.ok = true ↔ args.n ≥ (r.acceptorRecord args.seq).HighestSeen) ∧
    ((r.Accept args).1.ok = true →
      (r.Accept args).1.n = args.n ∧
      (r.Accept args).2.acceptorRecord args.seq =
        { r.acceptorRecord args.seq with
          HighestSeen := args.n, HighestAcN := args.n, HighestAcV := args.v }) ∧
    ((r.Accept args).1.ok = false →
      (r.Accept args).2.acceptorIns_ args.seq = r.acceptorIns_ args.seq) ∧
    (k ≠ args.seq → (r.Accept args).2.acceptorIns_ k = r.acceptorIns_ k) ∧
    (((PaxosImpl.new N me).steps ss).acceptorRecord k).HighestAcN ≤
      (((PaxosImpl.new N me).steps ss).acceptorRecord k).HighestSeen ∧
    (((r.steps ss).doneFreed_ ≤ k ∨ (r.steps ss).doneFreed_ = r.doneFreed_) →
      (r.acceptorRecord k).HighestSeen ≤ ((r.steps ss).acceptorRecord k).HighestSeen) := by
  have h := PaxosImpl.Accept_effect r args
  refine ⟨?_, ?_, ?_, ?_, ?_, ?_⟩
  · rw [h.1]; simp
  · intro hok
    rw [h.1] at hok
    have hn : args.n ≥ (r.acceptorRecord args.seq).HighestSeen := by simpa using hok
    refine ⟨(h.2.1 hn).1, ?_⟩
    rw [(h.2.1 hn).2, PaxosImpl.acceptorRecord_setAcceptor]
    simp
  · intro hok
    rw [h.1] at hok
    have hn : ¬ args.n ≥ (r.acceptorRecord args.seq).HighestSeen := by simpa using hok
    rw [h.2.2 hn]
  · intro hk
    by_cases hn : args.n ≥ (r.acceptorRecord args.seq).HighestSeen
    · rw [(h.2.1 hn).2]
      simp [PaxosImpl.setAcceptor, hk]
    · rw [h.2.2 hn]
  · apply PaxosImpl.steps_accepted_le_seen
    intro j
    have : (PaxosImpl.new N me).acceptorIns_ j = none := rfl
    unfold PaxosImpl.acceptorRecord
    rw [this]
    decide
  · intro hgc
    rcases (PaxosImpl.steps_seen_mono r ss).2 k with ⟨a, b⟩ | c
    · omega
    · exact c

/-- Witness for C25: on a fresh replica of a three-peer group, `Accept(2, 5, v)`
is acknowledged, and over the run `Accept(2, 5, v)`, `Prepare(2, 7)`,
`Accept(2, 6, v)`, which collects nothing, the promise of slot 2 did not
decrease. -/
theorem accept_handler_witness :
    ((PaxosImpl.new 3 0).Accept ⟨2, 5, exampleOpA⟩).1.ok = true ∧
    (((PaxosImpl.new 3 0).Accept ⟨2, 5, exampleOpA⟩).1.n = 5 ∧
      ((PaxosImpl.new 3 0).Accept ⟨2, 5, exampleOpA⟩).2.acceptorRecord 2 =
        { (PaxosImpl.new 3 0).acceptorRecord 2 with
          HighestSeen := 5, HighestAcN := 5, HighestAcV := exampleOpA }) ∧
    ((((PaxosImpl.new 3 0).Accept ⟨2, 5, exampleOpA⟩).2.steps
        [.call (.Prepare ⟨2, 7, 1, -1⟩), .call (.Accept ⟨2, 6, exampleOpA⟩)]).doneFreed_ ≤ 2) ∧
    (((PaxosImpl.new 3 0).Accept ⟨2, 5, exampleOpA⟩).2.acceptorRecord 2).HighestSeen ≤
      ((((PaxosImpl.new 3 0).Accept ⟨2, 5, exampleOpA⟩).2.steps
        [.call (.Prepare ⟨2, 7, 1, -1⟩),
          .call (.Accept ⟨2, 6, exampleOpA⟩)]).acceptorRecord 2).HighestSeen :=
  ⟨by decide,
   (accept_handler (PaxosImpl.new 3 0) ⟨2, 5, exampleOpA⟩ 3 0 [] 2).2.1 (by decide),
   by decide,
   (accept_handler ((PaxosImpl.new 3 0).Accept ⟨2, 5, exampleOpA⟩).2 ⟨2, 5, exampleOpA⟩ 3 0
     [.call (.Prepare ⟨2, 7, 1, -1⟩), .call (.Accept ⟨2, 6, exampleOpA⟩)] 2).2.2.2.2.2
     (Or.inl (by decide))⟩

theorem readFromDisk_newline (root : Str) (d : Disk) (row col : Str)
    (h : '\n' ∈ row ∨ '\n' ∈ col) : readFromDisk root d row col = none := by
  unfold readFromDisk
  cases hr : readFile (cellPath root row col) d.files with
  | none => rfl
  | some contents =>
    simp only
    rw [if_pos]
    intro e
    have hn := newline_not_mem_firstLine contents
    rw [e] at hn
    simp only [List.mem_append, List.mem_singleton, not_or] at hn
    rcases h with h | h
    · exact hn.1.1 h
    · exact hn.2 h

theorem Disk.empty_Inv (root : Str) : Disk.empty.Inv root := by
  refine ⟨?_, ?_⟩
  · intro f hf; simp [Disk.empty] at hf
  · intro p hp; simp [Disk.empty] at hp

/-- C30 (as amended). The on-disk layer is a map keyed by (row, col) on the
keys whose row and whose file name `col.dat` are plain file names (not empty,
not `.` or `..`, without `/` and NUL, within `NAME_MAX`) and hold no newline. On
a file system that holds only what the store wrote for such keys, for every
such key and every value: `flushToDisk(row, col, v)` returns, `readFromDisk(row,
col)` then returns (true, v), the file system still holds only such cells, and
for every other such key the two keys have different files and what
`readFromDisk` returns for the other key is as it was. A key with a
newline in its row or column is never read back: `readFromDisk` returns false
for it on every file system. -/
theorem disk_layer_keyed (root : Str) (d : Disk) (row col v : Str) (hinv : d.Inv root)
    (hk : GoodKey (row, col)) :
    (flushToDisk root d row col v).1 = none ∧
    readFromDisk root (flushToDisk root d row col v).2 row col = some v ∧
    (flushToDisk root d row col v).2.Inv root ∧
    (∀ row' col' : Str, GoodKey (row', col') → (row', col') ≠ (row, col) →
      cellPath root row' col' ≠ cellPath root row col ∧
      readFromDisk root (flushToDisk root d row col v).2 row' col' =
        readFromDisk root d row' col') ∧
    (∀ (d' : Disk) (r c : Str), '\n' ∈ r ∨ '\n' ∈ c → readFromDisk root d' r c = none) := by
  obtain ⟨h1, -, h3⟩ := flushToDisk_good root d row col v hinv hk
  refine ⟨h1, readFromDisk_flush_same root d row col v hinv hk, h3, ?_,
    fun d' r c h => readFromDisk_newline root d' r c h⟩
  intro row' col' hk' hne
  have h2 : '/' ∉ row' := hk'.row_no_slash
  refine ⟨?_, readFromDisk_flush_ne root d row col v row' col' hinv hk h2 hne⟩
  intro h
  obtain ⟨a, b⟩ := cellPath_injective root row' col' row col h2 hk.row_no_slash h
  exact hne (by rw [a, b])

/-- Witness for C30 (as amended): with the cell (b, y) on disk, flushing (a, x)
returns, makes (a, x) readable and leaves (b, y) readable as before. -/
theorem disk_layer_keyed_witness :
    GoodKey ("a".toList, "x".toList) ∧
    (flushToDisk "db".toList (flushToDisk "db".toList Disk.empty "b".toList "y".toList
      "v2".toList).2 "a".toList "x".toList "v1".toList).1 = none ∧
    readFromDisk "db".toList
        (flushToDisk "db".toList (flushToDisk "db".toList Disk.empty "b".toList "y".toList
          "v2".toList).2 "a".toList "x".toList "v1".toList).2 "a".toList "x".toList
      = some "v1".toList ∧
    readFromDisk "db".toList
        (flushToDisk "db".toList (flushToDisk "db".toList Disk.empty "b".toList "y".toList
          "v2".toList).2 "a".toList "x".toList "v1".toList).2 "b".toList "y".toList
      = some "v2".toList :=
  ⟨by decide,
   (disk_layer_keyed "db".toList (flushToDisk "db".toList Disk.empty "b".toList "y".toList
      "v2".toList).2 "a".toList "x".toList "v1".toList
      (flushToDisk_good "db".toList Disk.empty "b".toList "y".toList "v2".toList
        (Disk.empty_Inv _) (by decide)).2.2 (by decide)).1,
   (disk_layer_keyed "db".toList (flushToDisk "db".toList Disk.empty "b".toList "y".toList
      "v2".toList).2 "a".toList "x".toList "v1".toList
      (flushToDisk_good "db".toList Disk.empty "b".toList "y".toList "v2".toList
        (Disk.empty_Inv _) (by decide)).2.2 (by decide)).2.1,
   by decide⟩

/-- C30, counterexample. Keys that `validateArgs` accepts and the on-disk layer
cannot hold. The row `a<newline>b` is accepted, and `readFromDisk` right after
`flushToDisk` of that key returns false. The key (`a`, `b/c`) is accepted, and
`flushToDisk` of it on an empty disk raises: the file `db/a/b/c.dat` cannot be
opened. The keys (`a/b`, `c`) and (`a`, `b/c`) are accepted and different, they
share the file `db/a/b/c.dat`, and flushing the second, which returns once the
first has created `db/a/b`, makes `readFromDisk` of the first, which returned
(true, v1), return false. -/
theorem accepted_keys_break_disk_layer :
    validateArgs "a\nb".toList "c".toList = .ok () ∧
    (flushToDisk "db".toList Disk.empty "a\nb".toList "c".toList "v".toList).1 = none ∧
    readFromDisk "db".toList
      (flushToDisk "db".toList Disk.empty "a\nb".toList "c".toList "v".toList).2
      "a\nb".toList "c".toList = none ∧
    validateArgs "a/b".toList "c".toList = .ok () ∧
    validateArgs "a".toList "b/c".toList = .ok () ∧
    (flushToDisk "db".toList Disk.empty "a".toList "b/c".toList "v2".toList).1 =
      some Err.runtime_error ∧
    cellPath "db".toList "a/b".toList "c".toList = cellPath "db".toList "a".toList "b/c".toList ∧
    (flushToDisk "db".toList Disk.empty "a/b".toList "c".toList "v1".toList).1 = none ∧
    readFromDisk "db".toList
      (flushToDisk "db".toList Disk.empty "a/b".toList "c".toList "v1".toList).2
      "a/b".toList "c".toList = some "v1".toList ∧
    (flushToDisk "db".toList
      (flushToDisk "db".toList Disk.empty "a/b".toList "c".toList "v1".toList).2
      "a".toList "b/c".toList "v2".toList).1 = none ∧
    readFromDisk "db".toList
      (flushToDisk "db".toList
        (flushToDisk "db".toList Disk.empty "a/b".toList "c".toList "v1".toList).2
        "a".toList "b/c".toList "v2".toList).2
      "a/b".toList "c".toList = none := by
  refine ⟨by decide, by decide, by decide, by decide, by decide, by decide, by decide,
    by decide, by decide, by decide, by decide⟩

end PennCloud
